import Mathlib

/-!
# Incremental solution evaluation for the home-healthcare routing heuristic

A shallow embedding of `src/mip-generator/src/brkga/Solution.cpp`.

* `double` values are rationals (`ℚ`).  The members of `Solution` are embedded
  over exact arithmetic; `findInsertionCost64` is the evaluation with the result
  of every operation rounded to binary64 (`fl64`), and the statements on the
  separation of the start times of a double service with precedence, where the
  rounding decides, are made for it.
* `int` node, vehicle and skill identifiers are `Int`; the value `-1` is the
  "unset" sentinel used by the source.
* `std::vector` is `List`; an access outside the bounds of a vector and a failed
  `assert` both abort the evaluation, which is modelled by `Except String`
  carrying the text of the assertion that failed.
-/

set_option autoImplicit false

namespace HHCRSP

/-! ## Data model -/

/-- Modelled from the spec: the enumeration `Instance::SvcType` is declared in
`Instance.h`, which is not part of the sources.  The source names `SINGLE` and
`SIM`; the remaining service type is the double service with precedence. -/
inductive SvcType where
  | SINGLE
  | SIM
  | PRECEDENCE
  deriving DecidableEq, Repr

/-- Modelled from the spec: the class `Instance` (header `Instance.h`) is not part
of the sources.  It is a read-only query surface; each accessor that
`Solution.cpp` calls is a field here. -/
structure Instance where
  /-- Result of `numVehicles()`. -/
  numVehicles : Nat
  /-- Result of `numNodes()`. -/
  numNodes : Nat
  /-- Result of `nodeTwMin(i)`. -/
  nodeTwMin : Int → ℚ
  /-- Result of `nodeTwMax(i)`. -/
  nodeTwMax : Int → ℚ
  /-- Result of `nodeSvcType(i)`. -/
  nodeSvcType : Int → SvcType
  /-- Result of `nodeProcTime(i, s)`. -/
  nodeProcTime : Int → Int → ℚ
  /-- Result of `nodeDeltaMin(i)`. -/
  nodeDeltaMin : Int → ℚ
  /-- Result of `nodeDeltaMax(i)`. -/
  nodeDeltaMax : Int → ℚ
  /-- Result of `distance(i, j)`. -/
  distance : Int → Int → ℚ

/-- Modelled from the spec: the record `Task` is declared in a header that is not
part of the sources.  The two-element arrays `vehi`, `skills`, `startTime` and
`leaveTime` are pairs: component `.1` is slot 0 and component `.2` is slot 1. -/
@[ext]
structure Task where
  node : Int
  vehi : Int × Int
  skills : Int × Int
  startTime : ℚ × ℚ
  leaveTime : ℚ × ℚ
  incDist : ℚ
  incTard : ℚ
  currTmax : ℚ
  cachedCost : ℚ
  deriving DecidableEq

/-- A route is the sequence of `(node, skill)` stops of one vehicle
(`Solution::Route`, a vector of `tuple<int,int>`). -/
abbrev Route := List (Int × Int)

/-- Modelled from the spec: the data members of class `Solution` are declared in
`Solution.h`, which is not part of the sources; the members listed are the ones
`Solution.cpp` reads and writes.  The reference member `inst` and the global
coefficient array `COEFS` are passed to the operations as arguments. -/
structure Solution where
  taskOrder : List Task
  routes : List Route
  vehiPos : List Int
  vehiLeaveTime : List ℚ
  svcVehi : List (Int × Int)
  svcStartTm : List (ℚ × ℚ)
  dist : ℚ
  tard : ℚ
  tmax : ℚ
  cachedCost : ℚ

/-! ## Primitive steps -/

/-- The C `assert(cond && msg)`: continue when `cond` holds, abort with `msg`
otherwise. -/
def assert (cond : Bool) (msg : String) : Except String Unit :=
  if cond then .ok () else .error msg

/-- Text reported when a vector is accessed outside its bounds. -/
def outOfRange : String := "index out of range"

/-- Read access `xs[i]` with an `int` index. -/
def vecGet {α : Type} (xs : List α) (i : Int) : Except String α :=
  if 0 ≤ i then
    match xs[i.toNat]? with
    | some x => .ok x
    | none => .error outOfRange
  else .error outOfRange

/-- Update `xs[i] = f(xs[i])` with an `int` index. -/
def vecModify {α : Type} (xs : List α) (i : Int) (f : α → α) : Except String (List α) :=
  if 0 ≤ i then
    match xs[i.toNat]? with
    | some _ => .ok (xs.modify f i.toNat)
    | none => .error outOfRange
  else .error outOfRange

/-- Member `back()` of a route; the route must not be empty. -/
def back (r : Route) : Except String (Int × Int) :=
  match r.getLast? with
  | some p => .ok p
  | none => .error "back() on an empty route"

namespace Solution

/-! ## Operations of `Solution` -/

/-- Constructor `Solution::Solution(const Instance&)`. -/
def init (inst : Instance) : Solution where
  taskOrder := []
  routes := List.replicate inst.numVehicles [((0 : Int), (0 : Int))]
  vehiPos := List.replicate inst.numVehicles 0
  vehiLeaveTime := List.replicate inst.numVehicles 0
  svcVehi := List.replicate inst.numNodes (-1, -1)
  svcStartTm := List.replicate inst.numNodes (0, 0)
  dist := 0
  tard := 0
  tmax := 0
  cachedCost := 0

/-- Member `Solution::findInsertionCost(Task&) const`: the evaluated task (the
argument is passed by reference and written to) together with the returned
cost. -/
def findInsertionCost (inst : Instance) (COEFS : Fin 3 → ℚ) (S : Solution) (task : Task) :
    Except String (Task × ℚ) := do
  assert (task.vehi.1 != -1) "First vehicle is unset."
  let leaveV0 ← vecGet S.vehiLeaveTime task.vehi.1
  let posV0 ← vecGet S.vehiPos task.vehi.1
  let arrivalV0 := max (inst.nodeTwMin task.node) (leaveV0 + inst.distance posV0 task.node)
  let task ←
    if inst.nodeSvcType task.node = SvcType.SINGLE then do
      assert (task.skills.1 != -1) "First skill for single service patient unset."
      assert (task.skills.2 == -1) "Second skill for single service patient set."
      let tardinessV0 := max 0 (arrivalV0 - inst.nodeTwMax task.node)
      pure { task with
        startTime := (arrivalV0, task.startTime.2)
        leaveTime := (arrivalV0 + inst.nodeProcTime task.node task.skills.1, task.leaveTime.2)
        incDist := inst.distance posV0 task.node
        incTard := tardinessV0
        currTmax := tardinessV0 }
    else do
      assert (task.vehi.2 != -1) "Second vehicle is unset."
      let leaveV1 ← vecGet S.vehiLeaveTime task.vehi.2
      let posV1 ← vecGet S.vehiPos task.vehi.2
      let arrivalV1 := max (inst.nodeTwMin task.node) (leaveV1 + inst.distance posV1 task.node)
      if inst.nodeSvcType task.node = SvcType.SIM then do
        assert (task.skills.1 != -1) "First skill for simultaneous double service patient unset."
        assert (task.skills.2 != -1) "Second skill for simultaneous double service patient unset."
        let startTime := max arrivalV0 arrivalV1
        let startTimeV0 := startTime
        let startTimeV1 := startTime
        let tardinessV0 := max 0 (startTimeV0 - inst.nodeTwMax task.node)
        let tardinessV1 := max 0 (startTimeV1 - inst.nodeTwMax task.node)
        pure { task with
          startTime := (startTimeV0, startTimeV1)
          leaveTime := (startTimeV0 + inst.nodeProcTime task.node task.skills.1,
                        startTimeV1 + inst.nodeProcTime task.node task.skills.2)
          incDist := inst.distance posV0 task.node + inst.distance posV1 task.node
          incTard := tardinessV0 + tardinessV1
          currTmax := max tardinessV0 tardinessV1 }
      else do
        assert (task.skills.1 != -1) "First skill for double service precedence patient unset."
        assert (task.skills.2 != -1) "Second skill for double service precedence patient unset."
        let startTimeV0 := arrivalV0
        let startTimeV1 := max arrivalV1 (startTimeV0 + inst.nodeDeltaMin task.node)
        -- Fix any violation of maximum separation time.
        let violDeltaMax := max 0 ((startTimeV1 - startTimeV0) - inst.nodeDeltaMax task.node)
        let startTimeV0 := startTimeV0 + violDeltaMax
        assert (decide ((startTimeV1 - startTimeV0) + 1/2 ≥ inst.nodeDeltaMin task.node))
          "Violation delta_min on double service with precedence."
        assert (decide ((startTimeV1 - startTimeV0) - 1/2 ≤ inst.nodeDeltaMax task.node))
          "Violation delta_max on double service with precedence."
        let tardinessV0 := max 0 (startTimeV0 - inst.nodeTwMax task.node)
        let tardinessV1 := max 0 (startTimeV1 - inst.nodeTwMax task.node)
        pure { task with
          startTime := (startTimeV0, startTimeV1)
          leaveTime := (startTimeV0 + inst.nodeProcTime task.node task.skills.1,
                        startTimeV1 + inst.nodeProcTime task.node task.skills.2)
          incDist := inst.distance posV0 task.node + inst.distance posV1 task.node
          incTard := tardinessV0 + tardinessV1
          currTmax := max tardinessV0 tardinessV1 }
  let task := { task with
    cachedCost :=
      COEFS 0 * (S.dist + task.incDist) +
      COEFS 1 * (S.tard + task.incTard) +
      COEFS 2 * max S.tmax task.currTmax }
  pure (task, task.cachedCost)

/-- Member `Solution::updateRoutes(const Task&)`. -/
def updateRoutes (S : Solution) (task : Task) : Except String Solution := do
  assert (task.skills.1 != -1) "First skill for simultaneous double service patient unset."
  assert (task.vehi.1 != -1) "Vehicle for the first skill unset."
  let routes ← vecModify S.routes task.vehi.1 (fun r => r ++ [(task.node, task.skills.1)])
  let vehiPos ← vecModify S.vehiPos task.vehi.1 (fun _ => task.node)
  let vehiLeaveTime ← vecModify S.vehiLeaveTime task.vehi.1 (fun _ => task.leaveTime.1)
  let svcVehi ← vecModify S.svcVehi task.node (fun p => (task.vehi.1, p.2))
  let svcStartTm ← vecModify S.svcStartTm task.node (fun p => (task.startTime.1, p.2))
  let S : Solution := { S with
    routes := routes, vehiPos := vehiPos, vehiLeaveTime := vehiLeaveTime,
    svcVehi := svcVehi, svcStartTm := svcStartTm }
  let S ←
    if task.skills.2 != -1 then do
      assert (task.skills.2 != -1) "Second skill for simultaneous double service patient unset."
      assert (task.vehi.2 != -1) "Vehicle for the second skill unset."
      let routes ← vecModify S.routes task.vehi.2 (fun r => r ++ [(task.node, task.skills.2)])
      let vehiPos ← vecModify S.vehiPos task.vehi.2 (fun _ => task.node)
      let vehiLeaveTime ← vecModify S.vehiLeaveTime task.vehi.2 (fun _ => task.leaveTime.2)
      let svcVehi ← vecModify S.svcVehi task.node (fun p => (p.1, task.vehi.2))
      let svcStartTm ← vecModify S.svcStartTm task.node (fun p => (p.1, task.startTime.2))
      pure { S with
        routes := routes, vehiPos := vehiPos, vehiLeaveTime := vehiLeaveTime,
        svcVehi := svcVehi, svcStartTm := svcStartTm }
    else pure S
  pure { S with
    dist := S.dist + task.incDist
    tard := S.tard + task.incTard
    tmax := max S.tmax task.currTmax
    cachedCost := task.cachedCost }

/-- One iteration of the loop of `finishRoutes`, for vehicle `v`. -/
def finishRoute (inst : Instance) (S : Solution) (v : Nat) : Except String Solution := do
  let r ← vecGet S.routes (v : Int)
  let last ← back r
  let lastNode := last.1
  let routes ← vecModify S.routes (v : Int) (fun r => r ++ [(0, 0)])
  pure { S with dist := S.dist + inst.distance lastNode 0, routes := routes }

/-- Member `Solution::finishRoutes()`. -/
def finishRoutes (inst : Instance) (COEFS : Fin 3 → ℚ) (S : Solution) :
    Except String Solution := do
  -- Add the depot node at the end of each vehicle route.
  let S ← (List.range inst.numVehicles).foldlM (finishRoute inst) S
  -- Update the solution to take into account the distances on returning to depot.
  pure { S with cachedCost := COEFS 0 * S.dist + COEFS 1 * S.tard + COEFS 2 * S.tmax }

end Solution

/-! ## Predicates used in the statements -/

/-- The index `i` lies within the bounds of `xs`. -/
def inBounds {α : Type} (xs : List α) (i : Int) : Prop :=
  0 ≤ i ∧ i.toNat < xs.length

instance {α : Type} (xs : List α) (i : Int) : Decidable (inBounds xs i) := by
  unfold inBounds
  infer_instance

/-- The cell `xs[i]` exists and holds `x`. -/
def vecAt {α : Type} (xs : List α) (i : Int) (x : α) : Prop :=
  0 ≤ i ∧ xs[i.toNat]? = some x

/-- Vehicle `v` is a valid index of the per-vehicle vectors of `S`. -/
def vehicleOk (S : Solution) (v : Int) : Prop :=
  inBounds S.routes v ∧ inBounds S.vehiPos v ∧ inBounds S.vehiLeaveTime v

instance (S : Solution) (v : Int) : Decidable (vehicleOk S v) := by
  unfold vehicleOk
  infer_instance

/-- Node `i` is a valid index of the per-node vectors of `S`. -/
def nodeOk (S : Solution) (i : Int) : Prop :=
  inBounds S.svcVehi i ∧ inBounds S.svcStartTm i

instance (S : Solution) (i : Int) : Decidable (nodeOk S i) := by
  unfold nodeOk
  infer_instance

/-- The arrival time of a vehicle that leaves node `pos` at time `leave` for
`node`: the expression computed for `arrivalV0` and `arrivalV1` in
`findInsertionCost`. -/
def arrivalAt (inst : Instance) (node : Int) (leave : ℚ) (pos : Int) : ℚ :=
  max (inst.nodeTwMin node) (leave + inst.distance pos node)

/-- The preconditions of `findInsertionCost`: the vehicles named by the task are
valid indices, the skills are set as the service type of the node requires, and,
for a double service with precedence, the separation bounds of the node are
consistent up to the tolerance of the assertions. -/
def evalPre (inst : Instance) (S : Solution) (t : Task) : Prop :=
  inBounds S.vehiLeaveTime t.vehi.1 ∧ inBounds S.vehiPos t.vehi.1 ∧ t.skills.1 ≠ -1 ∧
  match inst.nodeSvcType t.node with
  | SvcType.SINGLE => t.skills.2 = -1
  | SvcType.SIM =>
      inBounds S.vehiLeaveTime t.vehi.2 ∧ inBounds S.vehiPos t.vehi.2 ∧ t.skills.2 ≠ -1
  | SvcType.PRECEDENCE =>
      inBounds S.vehiLeaveTime t.vehi.2 ∧ inBounds S.vehiPos t.vehi.2 ∧ t.skills.2 ≠ -1 ∧
      inst.nodeDeltaMin t.node ≤ inst.nodeDeltaMax t.node + 1 / 2

instance (inst : Instance) (S : Solution) (t : Task) : Decidable (evalPre inst S t) := by
  unfold evalPre
  cases inst.nodeSvcType t.node <;> infer_instance

/-- Node of the last stop of a route, the value `get<0>(r.back())` of
`finishRoutes`; 0 stands for the empty route, which has no last stop. -/
def lastNode (r : Route) : Int :=
  match r.getLast? with
  | some p => p.1
  | none => 0

/-- The states built from the constructed Solution by commits: `Built inst COEFS S ts`
holds when `S` is reached from `Solution.init inst` by committing with
`updateRoutes`, in this order, the tasks `ts`, each of them the result of an
evaluation by `findInsertionCost` (against any state `X`) before its commit. -/
inductive Built (inst : Instance) (COEFS : Fin 3 → ℚ) : Solution → List Task → Prop where
  | fresh : Built inst COEFS (Solution.init inst) []
  | commit {S S' X : Solution} {ts : List Task} {t t' : Task} {c : ℚ} :
      Built inst COEFS S ts →
      Solution.findInsertionCost inst COEFS X t = Except.ok (t', c) →
      Solution.updateRoutes S t' = Except.ok S' →
      Built inst COEFS S' (ts ++ [t'])

/-! ## Concrete data used to exercise the statements -/

/-- A small instance: node 0 is the depot, node 1 needs a single service, node 2 a
simultaneous double service and node 3 a double service with precedence. -/
def demoInst : Instance where
  numVehicles := 2
  numNodes := 4
  nodeTwMin := fun _ => 0
  nodeTwMax := fun i => if i = 3 then 10 else 100
  nodeSvcType := fun i =>
    if i = 1 then SvcType.SINGLE else if i = 2 then SvcType.SIM else SvcType.PRECEDENCE
  nodeProcTime := fun _ _ => 4
  nodeDeltaMin := fun _ => 2
  nodeDeltaMax := fun _ => 6
  distance := fun a b =>
    if a = b then 0
    else if (a = 0 ∧ b = 1) ∨ (a = 1 ∧ b = 0) then 3
    else if (a = 1 ∧ b = 2) ∨ (a = 2 ∧ b = 1) then 5
    else 8

/-- The instance `demoInst` with separation bounds that contradict each other:
the minimum separation 10 exceeds the maximum separation 5. -/
def badSepInst : Instance :=
  { demoInst with nodeDeltaMin := fun _ => 10, nodeDeltaMax := fun _ => 5 }

/-- Cost coefficients used with `demoInst`. -/
def demoCoefs : Fin 3 → ℚ := ![1, 2, 3]

/-- A task for `node` with the given vehicles and skills and all computed fields
still zero. -/
def blankTask (node : Int) (vehi skills : Int × Int) : Task :=
  { node := node, vehi := vehi, skills := skills, startTime := (0, 0), leaveTime := (0, 0),
    incDist := 0, incTard := 0, currTmax := 0, cachedCost := 0 }

/-- The task of node 1 of `demoInst` as evaluated for vehicle 1 on the constructed
Solution: arrival and start at time 3, departure at time 7. -/
def demoTask1 : Task :=
  { node := 1, vehi := (1, -1), skills := (1, -1), startTime := (3, 0), leaveTime := (7, 0),
    incDist := 3, incTard := 0, currTmax := 0, cachedCost := 3 }

/-- The task of the SIM node 2 of `demoInst` as evaluated on `demoState` for
vehicles 0 and 1: common start at time 12, both leave at time 16. -/
def demoTask2 : Task :=
  { node := 2, vehi := (0, 1), skills := (1, 2), startTime := (12, 12), leaveTime := (16, 16),
    incDist := 13, incTard := 0, currTmax := 0, cachedCost := 16 }

/-- The task of the PRECEDENCE node 3 of `demoInst` as evaluated on `demoState` for
vehicles 0 and 1: starts at times 9 and 15, the second one 5 after the end of the
time window. -/
def demoTask3 : Task :=
  { node := 3, vehi := (0, 1), skills := (1, 2), startTime := (9, 15), leaveTime := (13, 19),
    incDist := 16, incTard := 5, currTmax := 5, cachedCost := 44 }

/-- The state of `demoInst` in which vehicle 1 has served node 1 and leaves it at
time 7, while vehicle 0 is still at the depot. -/
def demoState : Solution where
  taskOrder := []
  routes := [[(0, 0)], [(0, 0), (1, 1)]]
  vehiPos := [0, 1]
  vehiLeaveTime := [0, 7]
  svcVehi := [(-1, -1), (1, -1), (-1, -1), (-1, -1)]
  svcStartTm := [(0, 0), (3, 0), (0, 0), (0, 0)]
  dist := 3
  tard := 0
  tmax := 0
  cachedCost := 3

/-- The state reached from `demoState` by committing `demoTask3`. -/
def demoState3 : Solution where
  taskOrder := []
  routes := [[(0, 0), (3, 1)], [(0, 0), (1, 1), (3, 2)]]
  vehiPos := [3, 3]
  vehiLeaveTime := [13, 19]
  svcVehi := [(-1, -1), (1, -1), (-1, -1), (0, 1)]
  svcStartTm := [(0, 0), (3, 0), (0, 0), (9, 15)]
  dist := 19
  tard := 5
  tmax := 5
  cachedCost := 44

namespace Solution

/-! ## Text form of a Solution and its reconstruction -/

/-- Member `Solution::writeTxt(const char*)`.  A line of the file is the list of
the integers written on it; the result lists the lines that follow the four
header lines (these hold text and floating-point numbers and are skipped by the
reader). -/
def writeTxt (inst : Instance) (S : Solution) : Except String (List (List Int)) :=
  (List.range inst.numVehicles).foldlM (fun (lines : List (List Int)) (v : Nat) => do
    let r ← vecGet S.routes (v : Int)
    pure (lines ++ [[(v : Int), (r.length : Int)]] ++ r.map (fun p => [p.1, p.2]))) []

/-- Text reported when a loop of the model is given too little fuel. -/
def outOfFuel : String := "out of fuel"

/-- The loop `for (int k = 0; k < len; ++k)` of `readFromFile`, started with `n`
stops left to read: each pass extracts two integers from the stream and appends
the stop to `routes[vId]`. -/
def readStops (vId : Int) : Nat → List Int → List Route → Except String (List Route × List Int)
  | 0, tokens, routes => pure (routes, tokens)
  | n + 1, i :: s :: tokens, routes => do
      let routes ← vecModify routes vId (fun r => r ++ [(i, s)])
      readStops vId n tokens routes
  | _ + 1, _, _ => throw "stop expected"

/-- The loop `while (f >> vId >> len)` of `readFromFile` over the integers that
follow the header lines; it ends when two integers can no longer be extracted. -/
def readBlocks : Nat → List Int → List Route → Except String (List Route)
  | fuel + 1, vId :: len :: tokens, routes => do
      let res ← readStops vId len.toNat tokens routes
      readBlocks fuel res.2 res.1
  | 0, _ :: _ :: _, _ => throw outOfFuel
  | _, _, routes => pure routes

/-- The local variables of the second block of `readFromFile`. -/
structure Replay where
  sol : Solution
  allTasks : List Task
  vhead : List Int
  actFlag : List Int
  nFinish : Int

/-- One pass of the loop `for (int v = 0; v < inst.numVehicles(); ++v)` of
`readFromFile`, for vehicle `v`. -/
def replayVehicle (inst : Instance) (COEFS : Fin 3 → ℚ) (routes : List Route) (st : Replay)
    (v : Nat) : Except String Replay := do
  let head ← vecGet st.vhead (v : Int)
  let r ← vecGet routes (v : Int)
  let stop ← vecGet r head
  let i := stop.1
  let s := stop.2
  if i = 0 then
    let flag ← vecGet st.actFlag (v : Int)
    if flag = 0 then
      let actFlag ← vecModify st.actFlag (v : Int) (fun _ => 1)
      pure { st with nFinish := st.nFinish + 1, actFlag := actFlag }
    else pure st
  else
    let t ← vecGet st.allTasks (i - 1)
    if inst.nodeSvcType i = SvcType.SINGLE then
      let t : Task := { t with vehi := ((v : Int), t.vehi.2) }
      let res ← findInsertionCost inst COEFS st.sol t
      let t := res.1
      let allTasks ← vecModify st.allTasks (i - 1) (fun _ => t)
      let sol ← updateRoutes st.sol t
      let sol : Solution := { sol with taskOrder := sol.taskOrder ++ [t] }
      let vhead ← vecModify st.vhead (v : Int) (fun h => h + 1)
      pure { st with sol := sol, allTasks := allTasks, vhead := vhead }
    else
      let t : Task :=
        if s = t.skills.1 then { t with vehi := ((v : Int), t.vehi.2) }
        else { t with vehi := (t.vehi.1, (v : Int)) }
      if t.vehi.1 ≠ -1 ∧ t.vehi.2 ≠ -1 then
        let res ← findInsertionCost inst COEFS st.sol t
        let t := res.1
        let allTasks ← vecModify st.allTasks (i - 1) (fun _ => t)
        let sol ← updateRoutes st.sol t
        let sol : Solution := { sol with taskOrder := sol.taskOrder ++ [t] }
        let vhead ← vecModify st.vhead t.vehi.1 (fun h => h + 1)
        let vhead ← vecModify vhead t.vehi.2 (fun h => h + 1)
        pure { st with sol := sol, allTasks := allTasks, vhead := vhead }
      else
        let allTasks ← vecModify st.allTasks (i - 1) (fun _ => t)
        pure { st with allTasks := allTasks }

/-- One round of the replay: the body of `while (nFinish < inst.numVehicles())`. -/
def replayRound (inst : Instance) (COEFS : Fin 3 → ℚ) (routes : List Route) (st : Replay) :
    Except String Replay :=
  (List.range inst.numVehicles).foldlM (replayVehicle inst COEFS routes) st

/-- The loop `while (nFinish < inst.numVehicles())` of `readFromFile`, allowed to
run at most `fuel` rounds. -/
def replayLoop (inst : Instance) (COEFS : Fin 3 → ℚ) (routes : List Route) :
    Nat → Replay → Except String Replay
  | 0, st => if st.nFinish < (inst.numVehicles : Int) then throw outOfFuel else pure st
  | fuel + 1, st =>
      if st.nFinish < (inst.numVehicles : Int) then do
        let st ← replayRound inst COEFS routes st
        replayLoop inst COEFS routes fuel st
      else pure st

/-- The state of the replay when the loop is entered. -/
def replayStart (inst : Instance) (allTasks : List Task) : Replay where
  sol := init inst
  allTasks := allTasks
  vhead := List.replicate inst.numVehicles 1
  actFlag := List.replicate inst.numVehicles 0
  nFinish := 0

/-- Member `Solution::readFromFile(const Instance&, const string&)` applied to the
integers `tokens` that follow the four header lines of the file.  The function
`createTaskList` is not part of the sources and is an argument; `fuel` bounds the
number of rounds of the replay loop. -/
def readFromFile (inst : Instance) (COEFS : Fin 3 → ℚ) (createTaskList : Instance → List Task)
    (fuel : Nat) (tokens : List Int) : Except String Solution := do
  -- First read the routes from the text file.
  let routes ← readBlocks (tokens.length + 1) tokens (List.replicate inst.numVehicles [])
  -- Next, assemble the solution object using the routes read.
  let st ← replayLoop inst COEFS routes fuel (replayStart inst (createTaskList inst))
  finishRoutes inst COEFS st.sol

/-- Free function `operator==(const Solution::Route&, const Solution::Route&)`. -/
def routeEq (r1 r2 : Route) : Bool :=
  if r1.length ≠ r2.length then false
  else (List.range r1.length).all (fun i =>
    match r1[i]?, r2[i]? with
    | some a, some b => !(a.1 != b.1) && !(a.2 != b.2)
    | _, _ => false)

/-! ## Drivers: how the operations are used to build a Solution -/

/-- The pair of calls made for every accepted candidate: the task is evaluated
against the current state and then committed. -/
def evalCommit (inst : Instance) (COEFS : Fin 3 → ℚ) (S : Solution) (t : Task) :
    Except String Solution := do
  let res ← findInsertionCost inst COEFS S t
  updateRoutes S res.1

/-- Evaluate and commit the tasks of `plan`, in this order, starting from `S`. -/
def build (inst : Instance) (COEFS : Fin 3 → ℚ) (plan : List Task) (S : Solution) :
    Except String Solution :=
  plan.foldlM (evalCommit inst COEFS) S

/-- A complete construction: the constructed Solution, the tasks of `plan`
evaluated and committed in order, then `finishRoutes`. -/
def construct (inst : Instance) (COEFS : Fin 3 → ℚ) (plan : List Task) :
    Except String Solution := do
  let S ← build inst COEFS plan (init inst)
  finishRoutes inst COEFS S

end Solution

/-- Modelled from the spec: `createTaskList` is not part of the sources.  Its result
holds one task per non-depot node, the task of node `i` at index `i - 1`, with no
vehicle assigned yet. -/
def TaskListOk (inst : Instance) (tasks : List Task) : Prop :=
  tasks.length + 1 = inst.numNodes ∧
  ∀ (k : Nat) (t : Task), tasks[k]? = some t → t.node = (k : Int) + 1 ∧ t.vehi = (-1, -1)

/-- The plans of the round-trip statements: one task per non-depot node, each
carrying the skills that the task list gives to its node, and every double
service on two distinct vehicles with two distinct skills. -/
def PlanOk (inst : Instance) (tasks : List Task) (plan : List Task) : Prop :=
  (plan.map (fun p => p.node)).Nodup ∧
  (∀ p ∈ plan, 1 ≤ p.node ∧ p.node < (inst.numNodes : Int)) ∧
  (∀ i : Int, 1 ≤ i → i < (inst.numNodes : Int) → ∃ p ∈ plan, p.node = i) ∧
  (∀ p ∈ plan, ∀ t, vecAt tasks (p.node - 1) t → p.skills = t.skills) ∧
  (∀ p ∈ plan, inst.nodeSvcType p.node ≠ SvcType.SINGLE →
    p.vehi.1 ≠ p.vehi.2 ∧ p.skills.1 ≠ p.skills.2)

/-- The property of C20 for one pair of vectors: as many positions as routes, and
every route starts at `(0, 0)` and ends at the position of its vehicle. -/
def routesAgree (routes : List Route) (vehiPos : List Int) : Prop :=
  routes.length = vehiPos.length ∧
  ∀ (k : Nat) (r : Route), routes[k]? = some r →
    r.head? = some (0, 0) ∧ ∃ q, r.getLast? = some q ∧ vehiPos[k]? = some q.1

/-- The block that `writeTxt` writes for vehicle `v` with route `r`: the line
`v r.size()` followed by one line `node skill` per stop. -/
def fileBlock (v : Nat) (r : Route) : List (List Int) :=
  [(v : Int), (r.length : Int)] :: r.map (fun p => [p.1, p.2])

/-- The states reached from the constructed Solution by steps that are either an
evaluation of a task against the current state immediately followed by its
commit, or `finishRoutes`. -/
inductive Reachable (inst : Instance) (COEFS : Fin 3 → ℚ) : Solution → Prop where
  | fresh : Reachable inst COEFS (Solution.init inst)
  | commit {S S' : Solution} {t t' : Task} {c : ℚ} :
      Reachable inst COEFS S →
      Solution.findInsertionCost inst COEFS S t = Except.ok (t', c) →
      Solution.updateRoutes S t' = Except.ok S' →
      Reachable inst COEFS S'
  | finish {S S' : Solution} :
      Reachable inst COEFS S →
      Solution.finishRoutes inst COEFS S = Except.ok S' →
      Reachable inst COEFS S'

/-- The states reached from the constructed Solution by `updateRoutes` commits
only (no `finishRoutes`). -/
inductive Committed (inst : Instance) : Solution → Prop where
  | fresh : Committed inst (Solution.init inst)
  | commit {S S' : Solution} {t : Task} :
      Committed inst S → Solution.updateRoutes S t = Except.ok S' → Committed inst S'

/-! ## Concrete data for the reconstruction -/

/-- The task list of `demoInst`: node 1 with skill 1, nodes 2 and 3 with skills 1
and 2. -/
def demoTaskList (_ : Instance) : List Task :=
  [blankTask 1 (-1, -1) (1, -1), blankTask 2 (-1, -1) (1, 2), blankTask 3 (-1, -1) (1, 2)]

/-- A plan for `demoInst`: node 1 by vehicle 1, node 3 by vehicles 0 and 1, node 2
by vehicles 1 and 0. -/
def demoPlan : List Task :=
  [blankTask 1 (1, -1) (1, -1), blankTask 3 (0, 1) (1, 2), blankTask 2 (1, 0) (1, 2)]

/-- The state `demoState3` after `finishRoutes`: both vehicles return from node 3. -/
def demoFinal3 : Solution where
  taskOrder := []
  routes := [[(0, 0), (3, 1), (0, 0)], [(0, 0), (1, 1), (3, 2), (0, 0)]]
  vehiPos := [3, 3]
  vehiLeaveTime := [13, 19]
  svcVehi := [(-1, -1), (1, -1), (-1, -1), (0, 1)]
  svcStartTm := [(0, 0), (3, 0), (0, 0), (9, 15)]
  dist := 35
  tard := 5
  tmax := 5
  cachedCost := 60

/-- An instance with one vehicle and one single-service node at distance 10 from
the depot, time window `[0, 100]` and processing time 5. -/
def tripInst : Instance where
  numVehicles := 1
  numNodes := 2
  nodeTwMin := fun _ => 0
  nodeTwMax := fun _ => 100
  nodeSvcType := fun _ => SvcType.SINGLE
  nodeProcTime := fun _ _ => 5
  nodeDeltaMin := fun _ => 0
  nodeDeltaMax := fun _ => 0
  distance := fun a b => if a = b then 0 else 10

/-! ## Notions used to relate a construction and its replay -/

/-- Vehicle `v` is named by the task `p`: it is the vehicle of slot 0, or the
vehicle of slot 1 of a task whose slot-1 skill is set. -/
def serves (p : Task) (v : Int) : Bool :=
  decide (p.vehi.1 = v) || (decide (p.skills.2 ≠ -1) && decide (p.vehi.2 = v))

/-- The stop that committing `p` appends to the route of vehicle `v`. -/
def stopOf (p : Task) (v : Int) : Int × Int :=
  if p.vehi.1 = v then (p.node, p.skills.1) else (p.node, p.skills.2)

/-- The tasks of `tasks` that name vehicle `v`, in order. -/
def legs (v : Int) (tasks : List Task) : List Task :=
  tasks.filter (fun p => serves p v)

/-- The stops that committing `tasks` in order appends to the route of `v`. -/
def stopsFor (v : Int) (tasks : List Task) : Route :=
  (legs v tasks).map (fun p => stopOf p v)

/-- The vectors of `S` have the lengths given by the instance. -/
def Sized (inst : Instance) (S : Solution) : Prop :=
  S.routes.length = inst.numVehicles ∧ S.vehiPos.length = inst.numVehicles ∧
  S.vehiLeaveTime.length = inst.numVehicles ∧ S.svcVehi.length = inst.numNodes ∧
  S.svcStartTm.length = inst.numNodes

/-- The task can be evaluated and committed on a state of the instance: its
vehicles and node are valid indices, its skills are set as the service type
requires and the separation bounds of a precedence node pass the assertions. -/
def TaskFits (inst : Instance) (p : Task) : Prop :=
  (0 ≤ p.vehi.1 ∧ p.vehi.1 < (inst.numVehicles : Int)) ∧
  (0 ≤ p.node ∧ p.node < (inst.numNodes : Int)) ∧ p.skills.1 ≠ -1 ∧
  (inst.nodeSvcType p.node = SvcType.SINGLE → p.skills.2 = -1) ∧
  (inst.nodeSvcType p.node ≠ SvcType.SINGLE →
    (0 ≤ p.vehi.2 ∧ p.vehi.2 < (inst.numVehicles : Int)) ∧ p.skills.2 ≠ -1) ∧
  (inst.nodeSvcType p.node = SvcType.PRECEDENCE →
    inst.nodeDeltaMin p.node ≤ inst.nodeDeltaMax p.node + 1 / 2)

/-- Tasks whose slot 1, when used, names another vehicle than slot 0. -/
def Distinct (p : Task) : Prop := p.skills.2 ≠ -1 → p.vehi.1 ≠ p.vehi.2

/-- The integers of the lines of one route. -/
def stopTokens (r : Route) : List Int := (r.map (fun p => [p.1, p.2])).flatten

/-- The state `S` without its log of committed tasks. -/
def forget (S : Solution) : Solution := { S with taskOrder := [] }

/-- The state after the commit of `t`, written out for both cases of the slot-1
skill. -/
def Solution.applyTask (S : Solution) (t : Task) : Solution :=
  if t.skills.2 = -1 then
      { S with
        routes := S.routes.modify (fun r => r ++ [(t.node, t.skills.1)]) t.vehi.1.toNat
        vehiPos := S.vehiPos.modify (fun _ => t.node) t.vehi.1.toNat
        vehiLeaveTime := S.vehiLeaveTime.modify (fun _ => t.leaveTime.1) t.vehi.1.toNat
        svcVehi := S.svcVehi.modify (fun p => (t.vehi.1, p.2)) t.node.toNat
        svcStartTm := S.svcStartTm.modify (fun p => (t.startTime.1, p.2)) t.node.toNat
        dist := S.dist + t.incDist
        tard := S.tard + t.incTard
        tmax := max S.tmax t.currTmax
        cachedCost := t.cachedCost }
  else
      { S with
        routes := (S.routes.modify (fun r => r ++ [(t.node, t.skills.1)]) t.vehi.1.toNat).modify
          (fun r => r ++ [(t.node, t.skills.2)]) t.vehi.2.toNat
        vehiPos := (S.vehiPos.modify (fun _ => t.node) t.vehi.1.toNat).modify
          (fun _ => t.node) t.vehi.2.toNat
        vehiLeaveTime := (S.vehiLeaveTime.modify (fun _ => t.leaveTime.1) t.vehi.1.toNat).modify
          (fun _ => t.leaveTime.2) t.vehi.2.toNat
        svcVehi := (S.svcVehi.modify (fun p => (t.vehi.1, p.2)) t.node.toNat).modify
          (fun p => (p.1, t.vehi.2)) t.node.toNat
        svcStartTm := (S.svcStartTm.modify (fun p => (t.startTime.1, p.2)) t.node.toNat).modify
          (fun p => (p.1, t.startTime.2)) t.node.toNat
        dist := S.dist + t.incDist
        tard := S.tard + t.incTard
        tmax := max S.tmax t.currTmax
        cachedCost := t.cachedCost }

/-- What the statements about the replay use of a plan: its tasks fit the
instance, belong to distinct nodes other than the depot, and a task with two
slots has two vehicles and two skills. -/
structure PlanFacts (inst : Instance) (plan : List Task) : Prop where
  nodes : (plan.map (fun p => p.node)).Nodup
  fits : ∀ p ∈ plan, TaskFits inst p
  pos : ∀ p ∈ plan, 1 ≤ p.node
  distinct : ∀ p ∈ plan, Distinct p
  skills : ∀ p ∈ plan, p.skills.2 ≠ -1 → p.skills.1 ≠ p.skills.2

/-- The task that comes next on vehicle `v` when the tasks `done` of the plan
have been committed. -/
def nextLeg (plan done : List Task) (v : Int) : Option Task :=
  (legs v plan)[(legs v done).length]?

/-- The route of vehicle `v` in the file of a finalized plan: the depot, the
stops of the vehicle, the depot. -/
def fileRoute (plan : List Task) (v : Int) : Route :=
  (0, 0) :: (stopsFor v plan ++ [(0, 0)])

/-- The vehicle slots of the entry `e` that the replay keeps for a task `p` not yet
committed: a slot is unset, or holds the vehicle of `p` for which `p` comes next;
the two slots are never both set, and no slot is set for a task with one slot. -/
def SlotsOk (plan done : List Task) (p e : Task) : Prop :=
  (e.vehi.1 = -1 ∨ (e.vehi.1 = p.vehi.1 ∧ nextLeg plan done p.vehi.1 = some p)) ∧
  (e.vehi.2 = -1 ∨ (e.vehi.2 = p.vehi.2 ∧ p.skills.2 ≠ -1 ∧
    nextLeg plan done p.vehi.2 = some p)) ∧
  (e.vehi.1 = -1 ∨ e.vehi.2 = -1) ∧ (p.skills.2 = -1 → e.vehi.1 = -1)

/-- The invariant of the replay of the file of `plan`: `done` lists the tasks
committed so far, in the order of their commits. -/
structure ReplayInv (inst : Instance) (COEFS : Fin 3 → ℚ) (plan : List Task)
    (st : Solution.Replay) (done : List Task) : Prop where
  sub : ∀ q ∈ done, q ∈ plan
  nodup : done.Nodup
  pre : ∀ v : Nat, v < inst.numVehicles → legs v done <+: legs v plan
  vlen : st.vhead.length = inst.numVehicles
  head : ∀ v : Nat, v < inst.numVehicles →
    st.vhead[v]? = some (((legs v done).length : Int) + 1)
  built : Solution.build inst COEFS done (Solution.init inst) = Except.ok (forget st.sol)
  order : st.sol.taskOrder.length = done.length
  tlen : st.allTasks.length + 1 = inst.numNodes
  entry : ∀ p ∈ plan, p ∉ done →
    ∃ e, vecAt st.allTasks (p.node - 1) e ∧ e.node = p.node ∧ e.skills = p.skills ∧
      SlotsOk plan done p e
  flen : st.actFlag.length = inst.numVehicles
  flag : ∀ v : Nat, v < inst.numVehicles →
    st.actFlag[v]? = some 0 ∨
      (st.actFlag[v]? = some 1 ∧ (legs v done).length = (legs v plan).length)
  count : st.nFinish = ((st.actFlag.count 1 : Nat) : Int)

/-- The state after `k` rounds of the replay loop run one after the other, without
the test of the loop condition. -/
def Solution.replayRounds (inst : Instance) (COEFS : Fin 3 → ℚ) (routes : List Route) :
    Nat → Solution.Replay → Except String Solution.Replay
  | 0, st => pure st
  | k + 1, st => do
      let st ← Solution.replayRound inst COEFS routes st
      Solution.replayRounds inst COEFS routes k st

/-- The Solution that the construction of `demoPlan` on `demoInst` ends in. -/
def demoFinal : Solution where
  taskOrder := []
  routes := [[(0, 0), (3, 1), (2, 2), (0, 0)], [(0, 0), (1, 1), (3, 2), (2, 1), (0, 0)]]
  vehiPos := [2, 2]
  vehiLeaveTime := [31, 31]
  svcVehi := [(-1, -1), (1, -1), (1, 0), (0, 1)]
  svcStartTm := [(0, 0), (3, 0), (27, 27), (9, 15)]
  dist := 51
  tard := 5
  tmax := 5
  cachedCost := 76

/-- The integers of a file for `demoInst` that no Solution was written to: the
route of vehicle 1 names the double-service node 2 twice. -/
def badTokens : List Int := [0, 3, 1, 1, 2, 1, 0, 0, 1, 4, 1, 1, 2, 2, 2, 1, 0, 0]

/-- The routes parsed from `badTokens`. -/
def badRoutes : List Route := [[(1, 1), (2, 1), (0, 0)], [(1, 1), (2, 2), (2, 1), (0, 0)]]

/-! ## Binary64 arithmetic -/

/-- The integer nearest to `y`, the even one of the two when `y` lies halfway
between two integers: rounding to nearest, ties to even. -/
def roundEven (y : ℚ) : Int :=
  if y - ⌊y⌋ < 1 / 2 then ⌊y⌋
  else if 1 / 2 < y - ⌊y⌋ then ⌊y⌋ + 1
  else if ⌊y⌋ % 2 = 0 then ⌊y⌋ else ⌊y⌋ + 1

/-- The exponent `q` of the spacing `2 ^ q` of the binary64 numbers around `x`: 52
below the exponent of `x`, and `-1074` in the subnormal range. -/
def quantumExp (x : ℚ) : Int := max (Int.log 2 |x|) (-1022) - 52

/-- The value of type `double` nearest to `x` (IEEE 754 binary64, round to nearest,
ties to even), as a rational.  The exponent range is not bounded above: a value
beyond the largest finite binary64 number is rounded to 53 significant bits instead
of overflowing to infinity, so the statements about `fl64` bound the magnitude of
their inputs. -/
def fl64 (x : ℚ) : ℚ := (roundEven (x / 2 ^ quantumExp x) : ℚ) * 2 ^ quantumExp x

/-- The rational `x` is a value of type `double`. -/
def IsDouble (x : ℚ) : Prop := fl64 x = x

instance (x : ℚ) : Decidable (IsDouble x) := by
  unfold IsDouble
  infer_instance

namespace Solution

/-- Member `Solution::findInsertionCost(Task&) const` with the result of every
addition, subtraction and multiplication of `double` values passed through `rnd`.
With `rnd = fl64` this is the arithmetic of the compiled program; with `rnd = id`
it is `findInsertionCost`, the same code over exact arithmetic. -/
def findInsertionCostR (rnd : ℚ → ℚ) (inst : Instance) (COEFS : Fin 3 → ℚ) (S : Solution)
    (task : Task) : Except String (Task × ℚ) := do
  assert (task.vehi.1 != -1) "First vehicle is unset."
  let leaveV0 ← vecGet S.vehiLeaveTime task.vehi.1
  let posV0 ← vecGet S.vehiPos task.vehi.1
  let arrivalV0 :=
    max (inst.nodeTwMin task.node) (rnd (leaveV0 + inst.distance posV0 task.node))
  let task ←
    if inst.nodeSvcType task.node = SvcType.SINGLE then do
      assert (task.skills.1 != -1) "First skill for single service patient unset."
      assert (task.skills.2 == -1) "Second skill for single service patient set."
      let tardinessV0 := max 0 (rnd (arrivalV0 - inst.nodeTwMax task.node))
      pure { task with
        startTime := (arrivalV0, task.startTime.2)
        leaveTime :=
          (rnd (arrivalV0 + inst.nodeProcTime task.node task.skills.1), task.leaveTime.2)
        incDist := inst.distance posV0 task.node
        incTard := tardinessV0
        currTmax := tardinessV0 }
    else do
      assert (task.vehi.2 != -1) "Second vehicle is unset."
      let leaveV1 ← vecGet S.vehiLeaveTime task.vehi.2
      let posV1 ← vecGet S.vehiPos task.vehi.2
      let arrivalV1 :=
        max (inst.nodeTwMin task.node) (rnd (leaveV1 + inst.distance posV1 task.node))
      if inst.nodeSvcType task.node = SvcType.SIM then do
        assert (task.skills.1 != -1) "First skill for simultaneous double service patient unset."
        assert (task.skills.2 != -1) "Second skill for simultaneous double service patient unset."
        let startTime := max arrivalV0 arrivalV1
        let startTimeV0 := startTime
        let startTimeV1 := startTime
        let tardinessV0 := max 0 (rnd (startTimeV0 - inst.nodeTwMax task.node))
        let tardinessV1 := max 0 (rnd (startTimeV1 - inst.nodeTwMax task.node))
        pure { task with
          startTime := (startTimeV0, startTimeV1)
          leaveTime := (rnd (startTimeV0 + inst.nodeProcTime task.node task.skills.1),
                        rnd (startTimeV1 + inst.nodeProcTime task.node task.skills.2))
          incDist := rnd (inst.distance posV0 task.node + inst.distance posV1 task.node)
          incTard := rnd (tardinessV0 + tardinessV1)
          currTmax := max tardinessV0 tardinessV1 }
      else do
        assert (task.skills.1 != -1) "First skill for double service precedence patient unset."
        assert (task.skills.2 != -1) "Second skill for double service precedence patient unset."
        let startTimeV0 := arrivalV0
        let startTimeV1 := max arrivalV1 (rnd (startTimeV0 + inst.nodeDeltaMin task.node))
        -- Fix any violation of maximum separation time.
        let violDeltaMax :=
          max 0 (rnd (rnd (startTimeV1 - startTimeV0) - inst.nodeDeltaMax task.node))
        let startTimeV0 := rnd (startTimeV0 + violDeltaMax)
        assert (decide (rnd (rnd (startTimeV1 - startTimeV0) + 1/2) ≥ inst.nodeDeltaMin task.node))
          "Violation delta_min on double service with precedence."
        assert (decide (rnd (rnd (startTimeV1 - startTimeV0) - 1/2) ≤ inst.nodeDeltaMax task.node))
          "Violation delta_max on double service with precedence."
        let tardinessV0 := max 0 (rnd (startTimeV0 - inst.nodeTwMax task.node))
        let tardinessV1 := max 0 (rnd (startTimeV1 - inst.nodeTwMax task.node))
        pure { task with
          startTime := (startTimeV0, startTimeV1)
          leaveTime := (rnd (startTimeV0 + inst.nodeProcTime task.node task.skills.1),
                        rnd (startTimeV1 + inst.nodeProcTime task.node task.skills.2))
          incDist := rnd (inst.distance posV0 task.node + inst.distance posV1 task.node)
          incTard := rnd (tardinessV0 + tardinessV1)
          currTmax := max tardinessV0 tardinessV1 }
  let task := { task with
    cachedCost :=
      rnd (rnd (rnd (COEFS 0 * rnd (S.dist + task.incDist)) +
          rnd (COEFS 1 * rnd (S.tard + task.incTard))) +
        rnd (COEFS 2 * max S.tmax task.currTmax)) }
  pure (task, task.cachedCost)

/-- Member `Solution::findInsertionCost(Task&) const` in the arithmetic of the
compiled program: every operation on `double` values is rounded to binary64. -/
def findInsertionCost64 (inst : Instance) (COEFS : Fin 3 → ℚ) (S : Solution) (task : Task) :
    Except String (Task × ℚ) :=
  findInsertionCostR fl64 inst COEFS S task

/-- The arrival time of a vehicle as the compiled program computes it:
`max(twMin(node), leave + distance(pos, node))` with the sum rounded to binary64. -/
def arrival64 (inst : Instance) (node : Int) (leave : ℚ) (pos : Int) : ℚ :=
  max (inst.nodeTwMin node) (fl64 (leave + inst.distance pos node))

end Solution

/-- Number of stops of the route `r` that name node `i`. -/
def namings (i : Int) (r : Route) : Nat := r.countP (fun s => s.1 = i)

/-- Number of stops naming node `i` at or after the read-heads `vhead` of the
routes, counted over all vehicles. -/
def pending (routes : List Route) (vhead : List Int) (i : Int) : Nat :=
  Finset.sum (Finset.range routes.length)
    (fun v => namings i ((routes[v]?.getD []).drop (vhead[v]?.getD 0).toNat))

/-- Every read-head is at least 1 and only stops of other nodes than the depot
lie between index 1 and the read-head. -/
def HeadsOk (inst : Instance) (routes : List Route) (vhead : List Int) : Prop :=
  ∀ v : Nat, v < inst.numVehicles → ∃ (h : Nat) (r : Route),
    routes[v]? = some r ∧ vhead[v]? = some (h : Int) ∧ 1 ≤ h ∧
    ∀ i : Nat, 1 ≤ i → i < h → ∃ stop, r[i]? = some stop ∧ stop.1 ≠ 0

/-- Slot value `w` of the entry `e` of node `i` names a vehicle whose read-head is
on a stop of node `i`; the stop carries the first skill of `e` exactly when the
slot is slot 0 (`first`). -/
def Waiting (inst : Instance) (routes : List Route) (vhead : List Int) (i : Int)
    (e : Task) ( first : Bool) (w : Int) : Prop :=
  ∃ (u h : Nat) (r : Route) (stop : Int × Int), w = (u : Int) ∧ u < inst.numVehicles ∧
    vhead[u]? = some (h : Int) ∧ routes[u]? = some r ∧ r[h]? = some stop ∧
    stop.1 = i ∧ (stop.2 = e.skills.1 ↔ first = true)

/-- The entry `e` of the double-service node `i` either has at most one vehicle
slot set, each set slot naming a vehicle that waits at a stop of the node, or no
stop at or after a read-head names the node any more. -/
def SlotsSafe (inst : Instance) (routes : List Route) (vhead : List Int) (i : Int)
    (e : Task) : Prop :=
  ((e.vehi.1 = -1 ∨ e.vehi.2 = -1) ∧
    (e.vehi.1 = -1 ∨ Waiting inst routes vhead i e true e.vehi.1) ∧
    (e.vehi.2 = -1 ∨ Waiting inst routes vhead i e false e.vehi.2)) ∨
  pending routes vhead i = 0

/-- What the replay of arbitrary routes keeps true between two passes: the
vectors keep their lengths, the read-heads are as in `HeadsOk`, entry `k` of the
task list belongs to node `k + 1`, a double-service node is named by at most two
stops at or after the read-heads, and the entries of the double-service nodes are
as in `SlotsSafe`. -/
structure SafeInv (inst : Instance) (routes : List Route) (st : Solution.Replay) : Prop where
  vlen : st.vhead.length = inst.numVehicles
  flen : st.actFlag.length = inst.numVehicles
  tlen : st.allTasks.length + 1 = inst.numNodes
  sized : Sized inst st.sol
  head : HeadsOk inst routes st.vhead
  node : ∀ (k : Nat) (e : Task), st.allTasks[k]? = some e → e.node = (k : Int) + 1
  budget : ∀ i : Int, 1 ≤ i → i < (inst.numNodes : Int) →
    inst.nodeSvcType i ≠ SvcType.SINGLE → pending routes st.vhead i ≤ 2
  slots : ∀ (k : Nat) (e : Task), st.allTasks[k]? = some e →
    inst.nodeSvcType ((k : Int) + 1) ≠ SvcType.SINGLE →
    SlotsSafe inst routes st.vhead ((k : Int) + 1) e

/-- A part of the replay either completes in a state with `SafeInv`, or has
stopped with a message other than the one of an access out of bounds. -/
def SafeRun (inst : Instance) (routes : List Route) (res : Except String Solution.Replay) :
    Prop :=
  (∃ st, res = Except.ok st ∧ SafeInv inst routes st) ∨
  (∃ msg, res = Except.error msg ∧ msg ≠ outOfRange)

/-! ## Auxiliary facts about the primitive steps -/

@[simp] theorem ok_bind {ε α β : Type} (a : α) (f : α → Except ε β) :
    (Except.ok a >>= f) = f a := rfl

@[simp] theorem error_bind {ε α β : Type} (e : ε) (f : α → Except ε β) :
    (Except.error e >>= f) = Except.error e := rfl

@[simp] theorem pure_eq_ok {ε α : Type} (a : α) : (pure a : Except ε α) = Except.ok a := rfl

theorem bind_eq_ok {ε α β : Type} {x : Except ε α} {f : α → Except ε β} {b : β} :
    (x >>= f) = Except.ok b ↔ ∃ a, x = Except.ok a ∧ f a = Except.ok b := by
  cases x with
  | error e => simp
  | ok a => simp

theorem assert_eq_ok {c : Bool} {msg : String} {u : Unit} :
    assert c msg = Except.ok u ↔ c = true := by
  cases c <;> simp [assert]

theorem assert_isOk {c : Bool} {msg : String} :
    (∃ u, assert c msg = Except.ok u) ↔ c = true := by
  cases c <;> simp [assert]

theorem vecAt_inBounds {α : Type} {xs : List α} {i : Int} {x : α} (h : vecAt xs i x) :
    inBounds xs i := by
  have h2 := h.2
  rw [List.getElem?_eq_some] at h2
  exact ⟨h.1, h2.1⟩

theorem inBounds_vecAt {α : Type} {xs : List α} {i : Int} (h : inBounds xs i) :
    ∃ x, vecAt xs i x := by
  have hlt := h.2
  exact ⟨xs[i.toNat], h.1, List.getElem?_eq_getElem hlt⟩

theorem vecGet_eq_ok {α : Type} {xs : List α} {i : Int} {x : α} :
    vecGet xs i = Except.ok x ↔ vecAt xs i x := by
  unfold vecGet vecAt
  by_cases h : 0 ≤ i
  · cases hx : xs[i.toNat]? <;> simp [h]
  · simp [h]

theorem vecModify_eq_ok {α : Type} {xs ys : List α} {i : Int} {f : α → α} :
    vecModify xs i f = Except.ok ys ↔ inBounds xs i ∧ ys = xs.modify f i.toNat := by
  unfold vecModify inBounds
  by_cases h : 0 ≤ i
  · by_cases h2 : i.toNat < xs.length
    · simp [h, h2, List.getElem?_eq_getElem h2, eq_comm]
    · simp [h, h2, List.getElem?_eq_none (Nat.le_of_not_lt h2)]
  · simp [h]

theorem vecModify_of_inBounds {α : Type} {xs : List α} {i : Int} (f : α → α)
    (h : inBounds xs i) : vecModify xs i f = Except.ok (xs.modify f i.toNat) :=
  vecModify_eq_ok.2 ⟨h, rfl⟩

theorem inBounds_modify {α : Type} {xs : List α} {i : Int} (f : α → α) (j : Nat) :
    inBounds (xs.modify f j) i ↔ inBounds xs i := by
  simp [inBounds]

theorem vecAt_modify_self {α : Type} {xs : List α} {i : Int} {x : α} (f : α → α)
    (h : vecAt xs i x) : vecAt (xs.modify f i.toNat) i (f x) := by
  refine ⟨h.1, ?_⟩
  rw [List.getElem?_modify, h.2]
  simp

theorem vecAt_modify_other {α : Type} {xs : List α} {i j : Int} {x : α} (f : α → α)
    (hi : 0 ≤ i) (hij : i ≠ j) (h : vecAt xs j x) : vecAt (xs.modify f i.toNat) j x := by
  refine ⟨h.1, ?_⟩
  have hne : i.toNat ≠ j.toNat := by
    have := h.1
    omega
  rw [List.getElem?_modify, h.2]
  simp [hne]

namespace Solution

/-! ## Effect of `updateRoutes` under its preconditions -/

theorem updateRoutes_single_slot (S : Solution) (t : Task)
    (hs0 : t.skills.1 ≠ -1) (hs1 : t.skills.2 = -1)
    (hv : vehicleOk S t.vehi.1) (hn : nodeOk S t.node) :
    updateRoutes S t = Except.ok
      { S with
        routes := S.routes.modify (fun r => r ++ [(t.node, t.skills.1)]) t.vehi.1.toNat
        vehiPos := S.vehiPos.modify (fun _ => t.node) t.vehi.1.toNat
        vehiLeaveTime := S.vehiLeaveTime.modify (fun _ => t.leaveTime.1) t.vehi.1.toNat
        svcVehi := S.svcVehi.modify (fun p => (t.vehi.1, p.2)) t.node.toNat
        svcStartTm := S.svcStartTm.modify (fun p => (t.startTime.1, p.2)) t.node.toNat
        dist := S.dist + t.incDist
        tard := S.tard + t.incTard
        tmax := max S.tmax t.currTmax
        cachedCost := t.cachedCost } := by
  obtain ⟨hr, hp, hl⟩ := hv
  obtain ⟨hsv, hst⟩ := hn
  have hne : t.vehi.1 ≠ -1 := by
    have := hr.1
    omega
  simp [updateRoutes, assert, hs0, hs1, hne, vecModify_of_inBounds _ hr,
    vecModify_of_inBounds _ hp, vecModify_of_inBounds _ hl, vecModify_of_inBounds _ hsv,
    vecModify_of_inBounds _ hst]

theorem updateRoutes_double_slot (S : Solution) (t : Task)
    (hs0 : t.skills.1 ≠ -1) (hs1 : t.skills.2 ≠ -1)
    (hv : vehicleOk S t.vehi.1) (hw : vehicleOk S t.vehi.2) (hn : nodeOk S t.node) :
    updateRoutes S t = Except.ok
      { S with
        routes := (S.routes.modify (fun r => r ++ [(t.node, t.skills.1)]) t.vehi.1.toNat).modify
          (fun r => r ++ [(t.node, t.skills.2)]) t.vehi.2.toNat
        vehiPos := (S.vehiPos.modify (fun _ => t.node) t.vehi.1.toNat).modify
          (fun _ => t.node) t.vehi.2.toNat
        vehiLeaveTime := (S.vehiLeaveTime.modify (fun _ => t.leaveTime.1) t.vehi.1.toNat).modify
          (fun _ => t.leaveTime.2) t.vehi.2.toNat
        svcVehi := (S.svcVehi.modify (fun p => (t.vehi.1, p.2)) t.node.toNat).modify
          (fun p => (p.1, t.vehi.2)) t.node.toNat
        svcStartTm := (S.svcStartTm.modify (fun p => (t.startTime.1, p.2)) t.node.toNat).modify
          (fun p => (p.1, t.startTime.2)) t.node.toNat
        dist := S.dist + t.incDist
        tard := S.tard + t.incTard
        tmax := max S.tmax t.currTmax
        cachedCost := t.cachedCost } := by
  obtain ⟨hr, hp, hl⟩ := hv
  obtain ⟨hr1, hp1, hl1⟩ := hw
  obtain ⟨hsv, hst⟩ := hn
  have hne : t.vehi.1 ≠ -1 := by
    have := hr.1
    omega
  have hne1 : t.vehi.2 ≠ -1 := by
    have := hr1.1
    omega
  simp [updateRoutes, assert, hs0, hs1, hne, hne1, vecModify_of_inBounds _ hr,
    vecModify_of_inBounds _ hp, vecModify_of_inBounds _ hl, vecModify_of_inBounds _ hsv,
    vecModify_of_inBounds _ hst,
    vecModify_of_inBounds _ ((inBounds_modify _ _).2 hr1),
    vecModify_of_inBounds _ ((inBounds_modify _ _).2 hp1),
    vecModify_of_inBounds _ ((inBounds_modify _ _).2 hl1),
    vecModify_of_inBounds _ ((inBounds_modify _ _).2 hsv),
    vecModify_of_inBounds _ ((inBounds_modify _ _).2 hst)]

theorem updateRoutes_ok_inv {S S' : Solution} {t : Task} (h : updateRoutes S t = Except.ok S') :
    t.skills.1 ≠ -1 ∧ vehicleOk S t.vehi.1 ∧ nodeOk S t.node ∧
      (t.skills.2 ≠ -1 → vehicleOk S t.vehi.2) := by
  by_cases hs1 : t.skills.2 = -1
  · simp only [updateRoutes, hs1, bind_eq_ok, assert_eq_ok, vecModify_eq_ok, bne_self_eq_false,
      Bool.false_eq_true, if_false, pure_eq_ok] at h
    obtain ⟨_, hs0, _, _, _, ⟨hr, _⟩, _, ⟨hp, _⟩, _, ⟨hl, _⟩, _, ⟨hsv, _⟩, _, ⟨hst, _⟩, _⟩ := h
    exact ⟨by simpa using hs0, ⟨hr, hp, hl⟩, ⟨hsv, hst⟩, fun hc => absurd hs1 hc⟩
  · have e : (t.skills.2 != -1) = true := by simpa using hs1
    simp only [updateRoutes, e, bind_eq_ok, assert_eq_ok, vecModify_eq_ok, if_true,
      pure_eq_ok] at h
    obtain ⟨_, hs0, _, _, _, ⟨hr, rfl⟩, _, ⟨hp, rfl⟩, _, ⟨hl, rfl⟩, _, ⟨hsv, _⟩, _, ⟨hst, _⟩,
      _, _, _, _, _, ⟨hr1, _⟩, _, ⟨hp1, _⟩, _, ⟨hl1, _⟩, _⟩ := h
    exact ⟨by simpa using hs0, ⟨hr, hp, hl⟩, ⟨hsv, hst⟩, fun _ =>
      ⟨(inBounds_modify _ _).1 hr1, (inBounds_modify _ _).1 hp1, (inBounds_modify _ _).1 hl1⟩⟩

/-- The accumulators after a commit. -/
theorem updateRoutes_totals {S S' : Solution} {t : Task} (h : updateRoutes S t = Except.ok S') :
    S'.dist = S.dist + t.incDist ∧ S'.tard = S.tard + t.incTard ∧
      S'.tmax = max S.tmax t.currTmax ∧ S'.cachedCost = t.cachedCost := by
  obtain ⟨hs0, hv, hn, hw⟩ := updateRoutes_ok_inv h
  by_cases hs1 : t.skills.2 = -1
  · rw [updateRoutes_single_slot S t hs0 hs1 hv hn] at h
    injection h with h
    subst h
    exact ⟨rfl, rfl, rfl, rfl⟩
  · rw [updateRoutes_double_slot S t hs0 hs1 hv (hw hs1) hn] at h
    injection h with h
    subst h
    exact ⟨rfl, rfl, rfl, rfl⟩

/-- The corrected gap of a double service with precedence. -/
theorem precedence_gap (a0 a1 dmin dmax : ℚ) :
    max a1 (a0 + dmin) - (a0 + max 0 (max a1 (a0 + dmin) - a0 - dmax)) ≤ dmax ∧
    (dmin ≤ dmax + 1 / 2 →
      dmin ≤ max a1 (a0 + dmin) - (a0 + max 0 (max a1 (a0 + dmin) - a0 - dmax)) + 1 / 2) ∧
    (¬ dmin ≤ dmax + 1 / 2 →
      max a1 (a0 + dmin) - (a0 + max 0 (max a1 (a0 + dmin) - a0 - dmax)) + 1 / 2 < dmin) := by
  have h1 : a0 + dmin ≤ max a1 (a0 + dmin) := le_max_right _ _
  rcases le_total 0 (max a1 (a0 + dmin) - a0 - dmax) with h | h
  · rw [max_eq_right h]
    refine ⟨by linarith, fun hd => by linarith, fun hd => by linarith⟩
  · rw [max_eq_left h]
    refine ⟨by linarith, fun hd => by linarith, fun hd => ?_⟩
    exact absurd (by linarith) hd

/-! ## Effect of `findInsertionCost` by service type -/

/-- Complete description of the task evaluated on a SINGLE node. -/
theorem single_evaluation_eq (inst : Instance) (COEFS : Fin 3 → ℚ) (S : Solution)
    (t : Task) (leaveV0 : ℚ) (posV0 : Int)
    (hty : inst.nodeSvcType t.node = SvcType.SINGLE)
    (hleave : vecAt S.vehiLeaveTime t.vehi.1 leaveV0)
    (hpos : vecAt S.vehiPos t.vehi.1 posV0)
    (hs0 : t.skills.1 ≠ -1) (hs1 : t.skills.2 = -1) :
    ∃ (r : Task) (c : ℚ), findInsertionCost inst COEFS S t = Except.ok (r, c) ∧
      c = r.cachedCost ∧
      r.node = t.node ∧ r.vehi = t.vehi ∧ r.skills = t.skills ∧
      r.startTime = (arrivalAt inst t.node leaveV0 posV0, t.startTime.2) ∧
      r.leaveTime = (arrivalAt inst t.node leaveV0 posV0 + inst.nodeProcTime t.node t.skills.1,
        t.leaveTime.2) ∧
      r.incDist = inst.distance posV0 t.node ∧
      r.incTard = max 0 (arrivalAt inst t.node leaveV0 posV0 - inst.nodeTwMax t.node) ∧
      r.currTmax = max 0 (arrivalAt inst t.node leaveV0 posV0 - inst.nodeTwMax t.node) ∧
      r.cachedCost = COEFS 0 * (S.dist + r.incDist) + COEFS 1 * (S.tard + r.incTard) +
        COEFS 2 * max S.tmax r.currTmax := by
  have e1 : (t.vehi.1 != -1) = true := by
    have := hleave.1
    simp only [bne_iff_ne, ne_eq]
    omega
  have e3 : (t.skills.1 != -1) = true := by simpa using hs0
  have e4 : (t.skills.2 == -1) = true := by simpa using hs1
  simp only [findInsertionCost, assert, vecGet_eq_ok.2 hleave, vecGet_eq_ok.2 hpos, hty,
    e1, e3, e4, ok_bind, pure_eq_ok, if_true, ← arrivalAt.eq_1]
  exact ⟨_, _, rfl, rfl, rfl, rfl, rfl, rfl, rfl, rfl, rfl, rfl, rfl⟩

/-- Complete description of the task evaluated on a SIM node. -/
theorem sim_evaluation_eq (inst : Instance) (COEFS : Fin 3 → ℚ) (S : Solution)
    (t : Task) (leaveV0 leaveV1 : ℚ) (posV0 posV1 : Int)
    (hty : inst.nodeSvcType t.node = SvcType.SIM)
    (hleave0 : vecAt S.vehiLeaveTime t.vehi.1 leaveV0)
    (hpos0 : vecAt S.vehiPos t.vehi.1 posV0)
    (hleave1 : vecAt S.vehiLeaveTime t.vehi.2 leaveV1)
    (hpos1 : vecAt S.vehiPos t.vehi.2 posV1)
    (hs0 : t.skills.1 ≠ -1) (hs1 : t.skills.2 ≠ -1) :
    ∃ (r : Task) (c : ℚ), findInsertionCost inst COEFS S t = Except.ok (r, c) ∧
      c = r.cachedCost ∧
      r.node = t.node ∧ r.vehi = t.vehi ∧ r.skills = t.skills ∧
      r.startTime =
        (max (arrivalAt inst t.node leaveV0 posV0) (arrivalAt inst t.node leaveV1 posV1),
         max (arrivalAt inst t.node leaveV0 posV0) (arrivalAt inst t.node leaveV1 posV1)) ∧
      r.leaveTime = (r.startTime.1 + inst.nodeProcTime t.node t.skills.1,
        r.startTime.2 + inst.nodeProcTime t.node t.skills.2) ∧
      r.incDist = inst.distance posV0 t.node + inst.distance posV1 t.node ∧
      r.incTard = max 0 (r.startTime.1 - inst.nodeTwMax t.node) +
        max 0 (r.startTime.2 - inst.nodeTwMax t.node) ∧
      r.currTmax = max (max 0 (r.startTime.1 - inst.nodeTwMax t.node))
        (max 0 (r.startTime.2 - inst.nodeTwMax t.node)) ∧
      r.cachedCost = COEFS 0 * (S.dist + r.incDist) + COEFS 1 * (S.tard + r.incTard) +
        COEFS 2 * max S.tmax r.currTmax := by
  have e1 : (t.vehi.1 != -1) = true := by
    have := hleave0.1
    simp only [bne_iff_ne, ne_eq]
    omega
  have e2 : (t.vehi.2 != -1) = true := by
    have := hleave1.1
    simp only [bne_iff_ne, ne_eq]
    omega
  have e3 : (t.skills.1 != -1) = true := by simpa using hs0
  have e4 : (t.skills.2 != -1) = true := by simpa using hs1
  simp only [findInsertionCost, assert, vecGet_eq_ok.2 hleave0, vecGet_eq_ok.2 hpos0,
    vecGet_eq_ok.2 hleave1, vecGet_eq_ok.2 hpos1, hty, e1, e2, e3, e4, ok_bind, pure_eq_ok,
    if_true, if_false, reduceCtorEq, ← arrivalAt.eq_1]
  exact ⟨_, _, rfl, rfl, rfl, rfl, rfl, rfl, rfl, rfl, rfl, rfl, rfl⟩

/-- Complete description of the task evaluated on a PRECEDENCE node whose
separation bounds pass the two assertions. -/
theorem precedence_evaluation_eq (inst : Instance) (COEFS : Fin 3 → ℚ) (S : Solution)
    (t : Task) (leaveV0 leaveV1 : ℚ) (posV0 posV1 : Int)
    (hty : inst.nodeSvcType t.node = SvcType.PRECEDENCE)
    (hleave0 : vecAt S.vehiLeaveTime t.vehi.1 leaveV0)
    (hpos0 : vecAt S.vehiPos t.vehi.1 posV0)
    (hleave1 : vecAt S.vehiLeaveTime t.vehi.2 leaveV1)
    (hpos1 : vecAt S.vehiPos t.vehi.2 posV1)
    (hs0 : t.skills.1 ≠ -1) (hs1 : t.skills.2 ≠ -1)
    (hsep : inst.nodeDeltaMin t.node ≤ inst.nodeDeltaMax t.node + 1 / 2) :
    ∃ (r : Task) (c : ℚ), findInsertionCost inst COEFS S t = Except.ok (r, c) ∧
      c = r.cachedCost ∧
      r.node = t.node ∧ r.vehi = t.vehi ∧ r.skills = t.skills ∧
      r.startTime =
        (arrivalAt inst t.node leaveV0 posV0 +
          max 0 (max (arrivalAt inst t.node leaveV1 posV1)
              (arrivalAt inst t.node leaveV0 posV0 + inst.nodeDeltaMin t.node) -
            arrivalAt inst t.node leaveV0 posV0 - inst.nodeDeltaMax t.node),
         max (arrivalAt inst t.node leaveV1 posV1)
           (arrivalAt inst t.node leaveV0 posV0 + inst.nodeDeltaMin t.node)) ∧
      r.leaveTime = (r.startTime.1 + inst.nodeProcTime t.node t.skills.1,
        r.startTime.2 + inst.nodeProcTime t.node t.skills.2) ∧
      r.incDist = inst.distance posV0 t.node + inst.distance posV1 t.node ∧
      r.incTard = max 0 (r.startTime.1 - inst.nodeTwMax t.node) +
        max 0 (r.startTime.2 - inst.nodeTwMax t.node) ∧
      r.currTmax = max (max 0 (r.startTime.1 - inst.nodeTwMax t.node))
        (max 0 (r.startTime.2 - inst.nodeTwMax t.node)) ∧
      r.cachedCost = COEFS 0 * (S.dist + r.incDist) + COEFS 1 * (S.tard + r.incTard) +
        COEFS 2 * max S.tmax r.currTmax := by
  have e1 : (t.vehi.1 != -1) = true := by
    have := hleave0.1
    simp only [bne_iff_ne, ne_eq]
    omega
  have e2 : (t.vehi.2 != -1) = true := by
    have := hleave1.1
    simp only [bne_iff_ne, ne_eq]
    omega
  have e3 : (t.skills.1 != -1) = true := by simpa using hs0
  have e4 : (t.skills.2 != -1) = true := by simpa using hs1
  have hgap := precedence_gap (arrivalAt inst t.node leaveV0 posV0)
    (arrivalAt inst t.node leaveV1 posV1) (inst.nodeDeltaMin t.node) (inst.nodeDeltaMax t.node)
  have hlo := hgap.2.1 hsep
  have hhi : max (arrivalAt inst t.node leaveV1 posV1)
      (arrivalAt inst t.node leaveV0 posV0 + inst.nodeDeltaMin t.node) -
      (arrivalAt inst t.node leaveV0 posV0 + max 0 (max (arrivalAt inst t.node leaveV1 posV1)
        (arrivalAt inst t.node leaveV0 posV0 + inst.nodeDeltaMin t.node) -
        arrivalAt inst t.node leaveV0 posV0 - inst.nodeDeltaMax t.node)) - 1 / 2
      ≤ inst.nodeDeltaMax t.node := by linarith [hgap.1]
  simp only [findInsertionCost, assert, vecGet_eq_ok.2 hleave0, vecGet_eq_ok.2 hpos0,
    vecGet_eq_ok.2 hleave1, vecGet_eq_ok.2 hpos1, hty, e1, e2, e3, e4, ok_bind, pure_eq_ok,
    if_true, if_false, reduceCtorEq, ← arrivalAt.eq_1, ge_iff_le, decide_eq_true_eq,
    if_pos hlo, if_pos hhi]
  exact ⟨_, _, rfl, rfl, rfl, rfl, rfl, rfl, rfl, rfl, rfl, rfl, rfl⟩

/-- When the separation bounds of a PRECEDENCE node are inconsistent beyond the
tolerance, the first separation assertion stops the evaluation. -/
theorem precedence_evaluation_fails (inst : Instance) (COEFS : Fin 3 → ℚ) (S : Solution)
    (t : Task) (leaveV0 leaveV1 : ℚ) (posV0 posV1 : Int)
    (hty : inst.nodeSvcType t.node = SvcType.PRECEDENCE)
    (hleave0 : vecAt S.vehiLeaveTime t.vehi.1 leaveV0)
    (hpos0 : vecAt S.vehiPos t.vehi.1 posV0)
    (hleave1 : vecAt S.vehiLeaveTime t.vehi.2 leaveV1)
    (hpos1 : vecAt S.vehiPos t.vehi.2 posV1)
    (hs0 : t.skills.1 ≠ -1) (hs1 : t.skills.2 ≠ -1)
    (hsep : ¬ inst.nodeDeltaMin t.node ≤ inst.nodeDeltaMax t.node + 1 / 2) :
    findInsertionCost inst COEFS S t =
      Except.error "Violation delta_min on double service with precedence." := by
  have e1 : (t.vehi.1 != -1) = true := by
    have := hleave0.1
    simp only [bne_iff_ne, ne_eq]
    omega
  have e2 : (t.vehi.2 != -1) = true := by
    have := hleave1.1
    simp only [bne_iff_ne, ne_eq]
    omega
  have e3 : (t.skills.1 != -1) = true := by simpa using hs0
  have e4 : (t.skills.2 != -1) = true := by simpa using hs1
  have hgap := (precedence_gap (arrivalAt inst t.node leaveV0 posV0)
    (arrivalAt inst t.node leaveV1 posV1) (inst.nodeDeltaMin t.node)
    (inst.nodeDeltaMax t.node)).2.2 hsep
  simp only [findInsertionCost, assert, vecGet_eq_ok.2 hleave0, vecGet_eq_ok.2 hpos0,
    vecGet_eq_ok.2 hleave1, vecGet_eq_ok.2 hpos1, hty, e1, e2, e3, e4, ok_bind, pure_eq_ok,
    if_true, if_false, reduceCtorEq, ← arrivalAt.eq_1, ge_iff_le, decide_eq_true_eq,
    if_neg (not_le.2 hgap), error_bind]

theorem findInsertionCost_ok_evalPre {inst : Instance} {COEFS : Fin 3 → ℚ} {S : Solution}
    {t : Task} {r : Task × ℚ} (h : findInsertionCost inst COEFS S t = Except.ok r) :
    evalPre inst S t := by
  unfold evalPre
  cases hty : inst.nodeSvcType t.node
  · simp only [findInsertionCost, hty, bind_eq_ok, assert_eq_ok, vecGet_eq_ok,
      if_true, pure_eq_ok] at h
    obtain ⟨_, _, l, hl, p, hp, _, hs0, _, hs1, _⟩ := h
    exact ⟨vecAt_inBounds hl, vecAt_inBounds hp, by simpa using hs0, by simpa using hs1⟩
  · simp only [findInsertionCost, hty, bind_eq_ok, assert_eq_ok, vecGet_eq_ok,
      if_true, if_false, reduceCtorEq, pure_eq_ok] at h
    obtain ⟨_, _, l, hl, p, hp, _, _, l1, hl1, p1, hp1, _, hs0, _, hs1, _⟩ := h
    exact ⟨vecAt_inBounds hl, vecAt_inBounds hp, by simpa using hs0, vecAt_inBounds hl1,
      vecAt_inBounds hp1, by simpa using hs1⟩
  · simp only [findInsertionCost, hty, bind_eq_ok, assert_eq_ok, vecGet_eq_ok,
      if_true, if_false, reduceCtorEq, pure_eq_ok] at h
    obtain ⟨_, _, l, hl, p, hp, _, _, l1, hl1, p1, hp1, _, hs0, _, hs1, _, ha, _⟩ := h
    refine ⟨vecAt_inBounds hl, vecAt_inBounds hp, by simpa using hs0, vecAt_inBounds hl1,
      vecAt_inBounds hp1, by simpa using hs1, ?_⟩
    by_contra hcon
    have := (precedence_gap (max (inst.nodeTwMin t.node) (l + inst.distance p t.node))
      (max (inst.nodeTwMin t.node) (l1 + inst.distance p1 t.node))
      (inst.nodeDeltaMin t.node) (inst.nodeDeltaMax t.node)).2.2 hcon
    simp only [ge_iff_le, decide_eq_true_eq] at ha
    linarith

/-- Under its preconditions `findInsertionCost` completes; this collects what the
evaluated task satisfies whatever the service type of the node. -/
theorem findInsertionCost_of_evalPre {inst : Instance} (COEFS : Fin 3 → ℚ) {S : Solution}
    {t : Task} (h : evalPre inst S t) :
    ∃ (r : Task) (c : ℚ), findInsertionCost inst COEFS S t = Except.ok (r, c) ∧
      c = r.cachedCost ∧ r.node = t.node ∧ r.vehi = t.vehi ∧ r.skills = t.skills ∧
      r.cachedCost = COEFS 0 * (S.dist + r.incDist) + COEFS 1 * (S.tard + r.incTard) +
        COEFS 2 * max S.tmax r.currTmax ∧
      0 ≤ r.incTard ∧ 0 ≤ r.currTmax ∧
      ((∀ a b, 0 ≤ inst.distance a b) → 0 ≤ r.incDist) := by
  unfold evalPre at h
  obtain ⟨hl0, hp0, hs0, h⟩ := h
  obtain ⟨l0, hl0⟩ := inBounds_vecAt hl0
  obtain ⟨p0, hp0⟩ := inBounds_vecAt hp0
  cases hty : inst.nodeSvcType t.node
  · rw [hty] at h
    obtain ⟨r, c, hf, hc, hn, hv, hs, -, -, hd, hit, hct, hcost⟩ :=
      single_evaluation_eq inst COEFS S t l0 p0 hty hl0 hp0 hs0 h
    refine ⟨r, c, hf, hc, hn, hv, hs, hcost, ?_, ?_, fun hdist => ?_⟩
    · rw [hit]; exact le_max_left _ _
    · rw [hct]; exact le_max_left _ _
    · rw [hd]; exact hdist _ _
  · rw [hty] at h
    obtain ⟨hl1, hp1, hs1⟩ := h
    obtain ⟨l1, hl1⟩ := inBounds_vecAt hl1
    obtain ⟨p1, hp1⟩ := inBounds_vecAt hp1
    obtain ⟨r, c, hf, hc, hn, hv, hs, -, -, hd, hit, hct, hcost⟩ :=
      sim_evaluation_eq inst COEFS S t l0 l1 p0 p1 hty hl0 hp0 hl1 hp1 hs0 hs1
    refine ⟨r, c, hf, hc, hn, hv, hs, hcost, ?_, ?_, fun hdist => ?_⟩
    · rw [hit]; exact add_nonneg (le_max_left _ _) (le_max_left _ _)
    · rw [hct]; exact le_trans (le_max_left _ _) (le_max_left _ _)
    · rw [hd]; exact add_nonneg (hdist _ _) (hdist _ _)
  · rw [hty] at h
    obtain ⟨hl1, hp1, hs1, hsep⟩ := h
    obtain ⟨l1, hl1⟩ := inBounds_vecAt hl1
    obtain ⟨p1, hp1⟩ := inBounds_vecAt hp1
    obtain ⟨r, c, hf, hc, hn, hv, hs, -, -, hd, hit, hct, hcost⟩ :=
      precedence_evaluation_eq inst COEFS S t l0 l1 p0 p1 hty hl0 hp0 hl1 hp1 hs0 hs1 hsep
    refine ⟨r, c, hf, hc, hn, hv, hs, hcost, ?_, ?_, fun hdist => ?_⟩
    · rw [hit]; exact add_nonneg (le_max_left _ _) (le_max_left _ _)
    · rw [hct]; exact le_trans (le_max_left _ _) (le_max_left _ _)
    · rw [hd]; exact add_nonneg (hdist _ _) (hdist _ _)

/-- Evaluating an already evaluated task against the same state changes nothing. -/
theorem findInsertionCost_again {inst : Instance} {COEFS : Fin 3 → ℚ} {S : Solution}
    {t r : Task} {c : ℚ} (h : findInsertionCost inst COEFS S t = Except.ok (r, c)) :
    findInsertionCost inst COEFS S r = Except.ok (r, c) := by
  have hpre := findInsertionCost_ok_evalPre h
  unfold evalPre at hpre
  obtain ⟨hl0, hp0, hs0, hpre⟩ := hpre
  obtain ⟨l0, hl0⟩ := inBounds_vecAt hl0
  obtain ⟨p0, hp0⟩ := inBounds_vecAt hp0
  cases hty : inst.nodeSvcType t.node
  · rw [hty] at hpre
    obtain ⟨r1, c1, hf, hc, hn, hv, hs, hst, hlt, hd, hit, hct, hcost⟩ :=
      single_evaluation_eq inst COEFS S t l0 p0 hty hl0 hp0 hs0 hpre
    rw [hf] at h
    injection h with h
    injection h with hr hcc
    subst hr hcc
    obtain ⟨r2, c2, hf2, hc2, hn2, hv2, hs2, hst2, hlt2, hd2, hit2, hct2, hcost2⟩ :=
      single_evaluation_eq inst COEFS S r1 l0 p0 (by rw [hn]; exact hty)
        (by rw [hv]; exact hl0) (by rw [hv]; exact hp0) (by rw [hs]; exact hs0)
        (by rw [hs]; exact hpre)
    have hr : r2 = r1 := by
      apply Task.ext
      · rw [hn2]
      · rw [hv2]
      · rw [hs2]
      · rw [hst2, hst, hn]
      · rw [hlt2, hlt, hn, hs]
      · rw [hd2, hd, hn]
      · rw [hit2, hit, hn]
      · rw [hct2, hct, hn]
      · rw [hcost2, hcost, hd2, hd, hit2, hit, hct2, hct, hn]
    rw [hf2, hc2, hr, hc]
  · rw [hty] at hpre
    obtain ⟨hl1, hp1, hs1⟩ := hpre
    obtain ⟨l1, hl1⟩ := inBounds_vecAt hl1
    obtain ⟨p1, hp1⟩ := inBounds_vecAt hp1
    obtain ⟨r1, c1, hf, hc, hn, hv, hs, hst, hlt, hd, hit, hct, hcost⟩ :=
      sim_evaluation_eq inst COEFS S t l0 l1 p0 p1 hty hl0 hp0 hl1 hp1 hs0 hs1
    rw [hf] at h
    injection h with h
    injection h with hr hcc
    subst hr hcc
    obtain ⟨r2, c2, hf2, hc2, hn2, hv2, hs2, hst2, hlt2, hd2, hit2, hct2, hcost2⟩ :=
      sim_evaluation_eq inst COEFS S r1 l0 l1 p0 p1 (by rw [hn]; exact hty)
        (by rw [hv]; exact hl0) (by rw [hv]; exact hp0) (by rw [hv]; exact hl1)
        (by rw [hv]; exact hp1) (by rw [hs]; exact hs0) (by rw [hs]; exact hs1)
    have hst21 : r2.startTime = r1.startTime := by rw [hst2, hst, hn]
    have hr : r2 = r1 := by
      apply Task.ext
      · rw [hn2]
      · rw [hv2]
      · rw [hs2]
      · exact hst21
      · rw [hlt2, hlt, hst21, hn, hs]
      · rw [hd2, hd, hn]
      · rw [hit2, hit, hst21, hn]
      · rw [hct2, hct, hst21, hn]
      · rw [hcost2, hcost, hd2, hd, hit2, hit, hct2, hct, hst21, hn]
    rw [hf2, hc2, hr, hc]
  · rw [hty] at hpre
    obtain ⟨hl1, hp1, hs1, hsep⟩ := hpre
    obtain ⟨l1, hl1⟩ := inBounds_vecAt hl1
    obtain ⟨p1, hp1⟩ := inBounds_vecAt hp1
    obtain ⟨r1, c1, hf, hc, hn, hv, hs, hst, hlt, hd, hit, hct, hcost⟩ :=
      precedence_evaluation_eq inst COEFS S t l0 l1 p0 p1 hty hl0 hp0 hl1 hp1 hs0 hs1 hsep
    rw [hf] at h
    injection h with h
    injection h with hr hcc
    subst hr hcc
    obtain ⟨r2, c2, hf2, hc2, hn2, hv2, hs2, hst2, hlt2, hd2, hit2, hct2, hcost2⟩ :=
      precedence_evaluation_eq inst COEFS S r1 l0 l1 p0 p1 (by rw [hn]; exact hty)
        (by rw [hv]; exact hl0) (by rw [hv]; exact hp0) (by rw [hv]; exact hl1)
        (by rw [hv]; exact hp1) (by rw [hs]; exact hs0) (by rw [hs]; exact hs1) (by rw [hn]; exact hsep)
    have hst21 : r2.startTime = r1.startTime := by rw [hst2, hst, hn]
    have hr : r2 = r1 := by
      apply Task.ext
      · rw [hn2]
      · rw [hv2]
      · rw [hs2]
      · exact hst21
      · rw [hlt2, hlt, hst21, hn, hs]
      · rw [hd2, hd, hn]
      · rw [hit2, hit, hst21, hn]
      · rw [hct2, hct, hst21, hn]
      · rw [hcost2, hcost, hd2, hd, hit2, hit, hct2, hct, hst21, hn]
    rw [hf2, hc2, hr, hc]

/-! ## Concrete evaluations and commits on `demoInst` -/

theorem demo_eval1 :
    findInsertionCost demoInst demoCoefs (init demoInst) (blankTask 1 (1, -1) (1, -1)) =
      Except.ok (demoTask1, 3) := by
  simp [findInsertionCost, assert, vecGet, init, demoInst, demoCoefs, blankTask, demoTask1]
  norm_num

theorem demo_commit1 : updateRoutes (init demoInst) demoTask1 = Except.ok demoState := by
  simp [updateRoutes, assert, vecModify, init, demoInst, demoTask1, demoState, List.modify,
    List.replicate]

theorem demo_eval3 :
    findInsertionCost demoInst demoCoefs demoState (blankTask 3 (0, 1) (1, 2)) =
      Except.ok (demoTask3, 44) := by
  obtain ⟨r, c, hf, hc, hn, hv, hs, hst, hlt, hd, hit, hct, hcost⟩ :=
    precedence_evaluation_eq demoInst demoCoefs demoState (blankTask 3 (0, 1) (1, 2))
      0 7 0 1 rfl ⟨by decide, rfl⟩ ⟨by decide, rfl⟩ ⟨by decide, rfl⟩ ⟨by decide, rfl⟩
      (by decide) (by decide) (by norm_num [demoInst])
  have hst' : r.startTime = (9, 15) := by
    rw [hst]
    norm_num [arrivalAt, demoInst, blankTask]
  have hd' : r.incDist = 16 := by
    rw [hd]
    norm_num [demoInst, blankTask]
  have hit' : r.incTard = 5 := by
    rw [hit, hst']
    norm_num [demoInst, blankTask]
  have hct' : r.currTmax = 5 := by
    rw [hct, hst']
    norm_num [demoInst, blankTask]
  have hr : r = demoTask3 := by
    apply Task.ext
    · exact hn
    · exact hv
    · exact hs
    · exact hst'
    · rw [hlt, hst']
      norm_num [demoInst, blankTask, demoTask3]
    · exact hd'
    · exact hit'
    · exact hct'
    · rw [hcost, hd', hit', hct']
      norm_num [demoCoefs, demoState, demoTask3]
  rw [hf, hc, hr]
  rfl

theorem demo_commit3 : updateRoutes demoState demoTask3 = Except.ok demoState3 := by
  simp [updateRoutes, assert, vecModify, demoTask3, demoState, demoState3, List.modify]
  norm_num

theorem demo_distance_nonneg : ∀ a b, 0 ≤ demoInst.distance a b := by
  intro a b
  simp only [demoInst]
  split_ifs <;> norm_num

/-! ## Single-service evaluation -/

/-- C1. On a SINGLE-service node, with the slot-0 vehicle and skill set and the
slot-1 skill unset, `findInsertionCost` completes and stores
`startTime[0] = max(twMin, vehiLeaveTime[v0] + distance(vehiPos[v0], node))`,
`leaveTime[0] = startTime[0] + procTime(node, skills[0])`,
`incDist = distance(vehiPos[v0], node)` and
`incTard = currTmax = max(0, startTime[0] - twMax)`. -/
theorem findInsertionCost_single (inst : Instance) (COEFS : Fin 3 → ℚ) (S : Solution)
    (t : Task) (leaveV0 : ℚ) (posV0 : Int)
    (hty : inst.nodeSvcType t.node = SvcType.SINGLE)
    (hleave : vecAt S.vehiLeaveTime t.vehi.1 leaveV0)
    (hpos : vecAt S.vehiPos t.vehi.1 posV0)
    (hs0 : t.skills.1 ≠ -1) (hs1 : t.skills.2 = -1) :
    ∃ t' c, findInsertionCost inst COEFS S t = Except.ok (t', c) ∧
      t'.startTime.1 = max (inst.nodeTwMin t.node) (leaveV0 + inst.distance posV0 t.node) ∧
      t'.leaveTime.1 = t'.startTime.1 + inst.nodeProcTime t.node t.skills.1 ∧
      t'.incDist = inst.distance posV0 t.node ∧
      t'.incTard = max 0 (t'.startTime.1 - inst.nodeTwMax t.node) ∧
      t'.currTmax = max 0 (t'.startTime.1 - inst.nodeTwMax t.node) := by
  have hne : t.vehi.1 ≠ -1 := by
    have := hleave.1
    omega
  have h1 := vecGet_eq_ok.2 hleave
  have h2 := vecGet_eq_ok.2 hpos
  simp [findInsertionCost, assert, h1, h2, hty, hne, hs0, hs1]

/-- Vehicle 0 of `demoState`, waiting at the depot, is sent to the single-service
node 1 of `demoInst`. -/
theorem findInsertionCost_single_witness :
    ∃ t' c, findInsertionCost demoInst demoCoefs demoState (blankTask 1 (0, -1) (1, -1))
        = Except.ok (t', c) ∧
      t'.startTime.1 = max (demoInst.nodeTwMin 1) (0 + demoInst.distance 0 1) ∧
      t'.leaveTime.1 = t'.startTime.1 + demoInst.nodeProcTime 1 1 ∧
      t'.incDist = demoInst.distance 0 1 ∧
      t'.incTard = max 0 (t'.startTime.1 - demoInst.nodeTwMax 1) ∧
      t'.currTmax = max 0 (t'.startTime.1 - demoInst.nodeTwMax 1) :=
  findInsertionCost_single demoInst demoCoefs demoState (blankTask 1 (0, -1) (1, -1)) 0 0
    rfl ⟨by decide, rfl⟩ ⟨by decide, rfl⟩ (by decide) rfl

/-! ## Simultaneous double service -/

/-- C2. On a SIM node with both vehicles and both skills set, `findInsertionCost`
stores `startTime[0] = startTime[1] = max(arrival0, arrival1)`, and after
`updateRoutes` commits the evaluated task both start-time slots recorded for the
node hold that value. -/
theorem findInsertionCost_sim (inst : Instance) (COEFS : Fin 3 → ℚ) (S : Solution)
    (t : Task) (leaveV0 leaveV1 : ℚ) (posV0 posV1 : Int)
    (hty : inst.nodeSvcType t.node = SvcType.SIM)
    (hleave0 : vecAt S.vehiLeaveTime t.vehi.1 leaveV0)
    (hpos0 : vecAt S.vehiPos t.vehi.1 posV0)
    (hleave1 : vecAt S.vehiLeaveTime t.vehi.2 leaveV1)
    (hpos1 : vecAt S.vehiPos t.vehi.2 posV1)
    (hs0 : t.skills.1 ≠ -1) (hs1 : t.skills.2 ≠ -1)
    (hr0 : inBounds S.routes t.vehi.1) (hr1 : inBounds S.routes t.vehi.2)
    (hn : nodeOk S t.node) :
    ∃ t' c S', findInsertionCost inst COEFS S t = Except.ok (t', c) ∧
      t'.startTime.1 = max (arrivalAt inst t.node leaveV0 posV0) (arrivalAt inst t.node leaveV1 posV1) ∧
      t'.startTime.2 = max (arrivalAt inst t.node leaveV0 posV0) (arrivalAt inst t.node leaveV1 posV1) ∧
      updateRoutes S t' = Except.ok S' ∧
      vecAt S'.svcStartTm t.node
        (max (arrivalAt inst t.node leaveV0 posV0) (arrivalAt inst t.node leaveV1 posV1),
         max (arrivalAt inst t.node leaveV0 posV0) (arrivalAt inst t.node leaveV1 posV1)) := by
  have hne0 : t.vehi.1 ≠ -1 := by
    have := hleave0.1
    omega
  have hne1 : t.vehi.2 ≠ -1 := by
    have := hleave1.1
    omega
  have hty' : inst.nodeSvcType t.node ≠ SvcType.SINGLE := by simp [hty]
  obtain ⟨t', c, hfind, hst, hnode, hvehi, hskills⟩ :
      ∃ t' c, findInsertionCost inst COEFS S t = Except.ok (t', c) ∧
        t'.startTime = (max (arrivalAt inst t.node leaveV0 posV0) (arrivalAt inst t.node leaveV1 posV1),
          max (arrivalAt inst t.node leaveV0 posV0) (arrivalAt inst t.node leaveV1 posV1)) ∧
        t'.node = t.node ∧ t'.vehi = t.vehi ∧ t'.skills = t.skills := by
    simp [findInsertionCost, assert, arrivalAt, vecGet_eq_ok.2 hleave0, vecGet_eq_ok.2 hpos0,
      vecGet_eq_ok.2 hleave1, vecGet_eq_ok.2 hpos1, hty, hne0, hne1, hs0, hs1]
  have hup := updateRoutes_double_slot S t' (by rw [hskills]; exact hs0) (by rw [hskills]; exact hs1)
    (by rw [hvehi]; exact ⟨hr0, vecAt_inBounds hpos0, vecAt_inBounds hleave0⟩)
    (by rw [hvehi]; exact ⟨hr1, vecAt_inBounds hpos1, vecAt_inBounds hleave1⟩)
    (by rw [hnode]; exact hn)
  refine ⟨t', c, _, hfind, by rw [hst], by rw [hst], hup, ?_⟩
  obtain ⟨st, hst0⟩ := inBounds_vecAt hn.2
  have := vecAt_modify_self (fun p => (p.1, t'.startTime.2))
    (vecAt_modify_self (fun p => (t'.startTime.1, p.2)) hst0)
  simpa [hnode, hst] using this

/-- In `demoState` vehicle 0 reaches the SIM node 2 at time 8 and vehicle 1 at
time 12: both recorded start times are 12. -/
theorem findInsertionCost_sim_witness :
    (∃ t' c S', findInsertionCost demoInst demoCoefs demoState (blankTask 2 (0, 1) (1, 2))
        = Except.ok (t', c) ∧
      t'.startTime.1 = max (arrivalAt demoInst 2 0 0) (arrivalAt demoInst 2 7 1) ∧
      t'.startTime.2 = max (arrivalAt demoInst 2 0 0) (arrivalAt demoInst 2 7 1) ∧
      updateRoutes demoState t' = Except.ok S' ∧
      vecAt S'.svcStartTm 2
        (max (arrivalAt demoInst 2 0 0) (arrivalAt demoInst 2 7 1),
         max (arrivalAt demoInst 2 0 0) (arrivalAt demoInst 2 7 1))) ∧
    arrivalAt demoInst 2 0 0 = 8 ∧ arrivalAt demoInst 2 7 1 = 12 ∧
    max (arrivalAt demoInst 2 0 0) (arrivalAt demoInst 2 7 1) = 12 :=
  ⟨findInsertionCost_sim demoInst demoCoefs demoState (blankTask 2 (0, 1) (1, 2)) 0 7 0 1
      rfl ⟨by decide, rfl⟩ ⟨by decide, rfl⟩ ⟨by decide, rfl⟩ ⟨by decide, rfl⟩
      (by decide) (by decide) (by decide) (by decide) (by decide),
    by norm_num [arrivalAt, demoInst], by norm_num [arrivalAt, demoInst],
    by norm_num [arrivalAt, demoInst]⟩

/-! ## Double service with precedence -/

/-- Over exact arithmetic: on a PRECEDENCE node, with `arrival_k` the arrival of
vehicle `k`, `findInsertionCost` stores
`startTime[1] = max(arrival1, arrival0 + deltaMin)` and
`startTime[0] = arrival0 + max(0, startTime[1] - arrival0 - deltaMax)`.  Hence
`startTime[0] ≥ arrival0`, `startTime[0] = arrival0` when the uncorrected gap is
within `deltaMax`, and the final gap is `deltaMax` when the uncorrected gap exceeds
it.  The hypothesis `hsep` is the condition under which the two separation
assertions hold over exact arithmetic. -/
theorem exact_precedence_starts (inst : Instance) (COEFS : Fin 3 → ℚ) (S : Solution)
    (t : Task) (leaveV0 leaveV1 : ℚ) (posV0 posV1 : Int)
    (hty : inst.nodeSvcType t.node = SvcType.PRECEDENCE)
    (hleave0 : vecAt S.vehiLeaveTime t.vehi.1 leaveV0)
    (hpos0 : vecAt S.vehiPos t.vehi.1 posV0)
    (hleave1 : vecAt S.vehiLeaveTime t.vehi.2 leaveV1)
    (hpos1 : vecAt S.vehiPos t.vehi.2 posV1)
    (hs0 : t.skills.1 ≠ -1) (hs1 : t.skills.2 ≠ -1)
    (hsep : inst.nodeDeltaMin t.node ≤ inst.nodeDeltaMax t.node + 1 / 2) :
    ∃ t' c, findInsertionCost inst COEFS S t = Except.ok (t', c) ∧
      t'.startTime.2 = max (arrivalAt inst t.node leaveV1 posV1)
        (arrivalAt inst t.node leaveV0 posV0 + inst.nodeDeltaMin t.node) ∧
      t'.startTime.1 = arrivalAt inst t.node leaveV0 posV0 +
        max 0 (t'.startTime.2 - arrivalAt inst t.node leaveV0 posV0 - inst.nodeDeltaMax t.node) ∧
      arrivalAt inst t.node leaveV0 posV0 ≤ t'.startTime.1 ∧
      (t'.startTime.2 - arrivalAt inst t.node leaveV0 posV0 ≤ inst.nodeDeltaMax t.node →
        t'.startTime.1 = arrivalAt inst t.node leaveV0 posV0) ∧
      (inst.nodeDeltaMax t.node < t'.startTime.2 - arrivalAt inst t.node leaveV0 posV0 →
        t'.startTime.2 - t'.startTime.1 = inst.nodeDeltaMax t.node) := by
  obtain ⟨r, c, hf, -, -, -, -, hst, -⟩ :=
    precedence_evaluation_eq inst COEFS S t leaveV0 leaveV1 posV0 posV1 hty hleave0 hpos0
      hleave1 hpos1 hs0 hs1 hsep
  refine ⟨r, c, hf, ?_⟩
  rw [hst]
  refine ⟨rfl, rfl, ?_, fun h => ?_, fun h => ?_⟩
  · exact le_add_of_nonneg_right (le_max_left _ _)
  · show arrivalAt inst t.node leaveV0 posV0 + max 0 _ = _
    rw [max_eq_left (by linarith)]
    ring
  · show _ - (arrivalAt inst t.node leaveV0 posV0 + max 0 _) = _
    rw [max_eq_right (by linarith)]
    ring

/-- Over exact arithmetic, on `badSepInst` (minimum separation 10, maximum
separation 5): both vehicles arrive at node 3 at time 8, the start times become 13
and 18, the gap is 5, and the assertion `gap + 0.5 >= deltaMin` stops the
evaluation. -/
theorem exact_separation_fails :
    findInsertionCost badSepInst demoCoefs (init badSepInst) (blankTask 3 (0, 1) (1, 2)) =
      Except.error "Violation delta_min on double service with precedence." :=
  precedence_evaluation_fails badSepInst demoCoefs (init badSepInst)
    (blankTask 3 (0, 1) (1, 2)) 0 0 0 0 rfl ⟨by decide, rfl⟩ ⟨by decide, rfl⟩ ⟨by decide, rfl⟩
    ⟨by decide, rfl⟩ (by decide) (by decide) (by norm_num [badSepInst, demoInst])

/-- Over exact arithmetic: on a PRECEDENCE node whose bounds satisfy
`deltaMin ≤ deltaMax + 0.5`, the evaluation passes both separation assertions and
the stored start times satisfy
`deltaMin - 0.5 ≤ startTime[1] - startTime[0] ≤ deltaMax + 0.5`. -/
theorem exact_separation_bounds (inst : Instance) (COEFS : Fin 3 → ℚ) (S : Solution)
    (t : Task) (leaveV0 leaveV1 : ℚ) (posV0 posV1 : Int)
    (hty : inst.nodeSvcType t.node = SvcType.PRECEDENCE)
    (hleave0 : vecAt S.vehiLeaveTime t.vehi.1 leaveV0)
    (hpos0 : vecAt S.vehiPos t.vehi.1 posV0)
    (hleave1 : vecAt S.vehiLeaveTime t.vehi.2 leaveV1)
    (hpos1 : vecAt S.vehiPos t.vehi.2 posV1)
    (hs0 : t.skills.1 ≠ -1) (hs1 : t.skills.2 ≠ -1)
    (hsep : inst.nodeDeltaMin t.node ≤ inst.nodeDeltaMax t.node + 1 / 2) :
    ∃ t' c, findInsertionCost inst COEFS S t = Except.ok (t', c) ∧
      inst.nodeDeltaMin t.node - 1 / 2 ≤ t'.startTime.2 - t'.startTime.1 ∧
      t'.startTime.2 - t'.startTime.1 ≤ inst.nodeDeltaMax t.node + 1 / 2 := by
  obtain ⟨r, c, hf, -, -, -, -, hst, -⟩ :=
    precedence_evaluation_eq inst COEFS S t leaveV0 leaveV1 posV0 posV1 hty hleave0 hpos0
      hleave1 hpos1 hs0 hs1 hsep
  have hgap := precedence_gap (arrivalAt inst t.node leaveV0 posV0)
    (arrivalAt inst t.node leaveV1 posV1) (inst.nodeDeltaMin t.node) (inst.nodeDeltaMax t.node)
  have hlo := hgap.2.1 hsep
  refine ⟨r, c, hf, ?_⟩
  rw [hst]
  constructor
  · show _ ≤ max _ _ - (_ + max 0 _)
    linarith
  · show max _ _ - (_ + max 0 _) ≤ _
    linarith [hgap.1]

/-! ## Cost and idempotence of the evaluation -/

/-- C5. For every state and every task satisfying the evaluation preconditions,
of any service type, `findInsertionCost` returns
`COEFS[0]*(dist + incDist) + COEFS[1]*(tard + incTard) + COEFS[2]*max(tmax, currTmax)`
over the values it has just stored in the task, and the returned value is the
stored `cachedCost`. -/
theorem findInsertionCost_cost (inst : Instance) (COEFS : Fin 3 → ℚ) (S : Solution) (t : Task)
    (hpre : evalPre inst S t) :
    ∃ t' c, findInsertionCost inst COEFS S t = Except.ok (t', c) ∧
      c = COEFS 0 * (S.dist + t'.incDist) + COEFS 1 * (S.tard + t'.incTard) +
        COEFS 2 * max S.tmax t'.currTmax ∧
      c = t'.cachedCost := by
  obtain ⟨r, c, hf, hc, -, -, -, hcost, -⟩ := findInsertionCost_of_evalPre COEFS hpre
  exact ⟨r, c, hf, by rw [hc, hcost], hc⟩

/-- The SIM task of `demoState` satisfies the evaluation preconditions. -/
theorem findInsertionCost_cost_witness :
    ∃ t' c, findInsertionCost demoInst demoCoefs demoState (blankTask 2 (0, 1) (1, 2))
        = Except.ok (t', c) ∧
      c = demoCoefs 0 * (demoState.dist + t'.incDist) +
        demoCoefs 1 * (demoState.tard + t'.incTard) +
        demoCoefs 2 * max demoState.tmax t'.currTmax ∧
      c = t'.cachedCost :=
  findInsertionCost_cost demoInst demoCoefs demoState (blankTask 2 (0, 1) (1, 2))
    ⟨by decide, by decide, by decide, by decide, by decide, by decide⟩

/-- C6. Evaluation is idempotent: evaluating a task and then evaluating the
resulting task against the same state returns the same cost and the same task,
field by field. -/
theorem findInsertionCost_idempotent (inst : Instance) (COEFS : Fin 3 → ℚ) (S : Solution)
    (t : Task) (hpre : evalPre inst S t) :
    ∃ t' c, findInsertionCost inst COEFS S t = Except.ok (t', c) ∧
      findInsertionCost inst COEFS S t' = Except.ok (t', c) := by
  obtain ⟨r, c, hf, -⟩ := findInsertionCost_of_evalPre COEFS hpre
  exact ⟨r, c, hf, findInsertionCost_again hf⟩

/-- The PRECEDENCE task of `demoState` evaluated twice. -/
theorem findInsertionCost_idempotent_witness :
    ∃ t' c, findInsertionCost demoInst demoCoefs demoState (blankTask 3 (1, 0) (1, 2))
        = Except.ok (t', c) ∧
      findInsertionCost demoInst demoCoefs demoState t' = Except.ok (t', c) :=
  findInsertionCost_idempotent demoInst demoCoefs demoState (blankTask 3 (1, 0) (1, 2))
    ⟨by decide, by decide, by decide, by decide, by decide, by decide,
      by norm_num [demoInst, blankTask]⟩

/-! ## Commit -/

/-- C7. For a task with slot 0 set (and, when its slot-1 skill is set, slot 1 on a
different vehicle), `updateRoutes` appends `(node, skills[0])` to `routes[v0]`,
sets `vehiPos[v0] = node` and `vehiLeaveTime[v0] = leaveTime[0]`, records `v0`
and `startTime[0]` in slot 0 of the node; it does the same for slot 1 when
`skills[1]` is set, and otherwise leaves slot 1 of the node and every other
vehicle as they were; `dist` and `tard` grow by `incDist` and `incTard`, `tmax`
becomes `max(tmax, currTmax)` and `cachedCost` becomes the cached cost of the
task.  The operation takes no instance: only the fields of the task are read. -/
theorem updateRoutes_effect (S : Solution) (t : Task) (r0 r1 : Route) (sv : Int × Int)
    (st : ℚ × ℚ)
    (hs0 : t.skills.1 ≠ -1)
    (hv0 : vehicleOk S t.vehi.1) (hr0 : vecAt S.routes t.vehi.1 r0)
    (hsv : vecAt S.svcVehi t.node sv) (hst : vecAt S.svcStartTm t.node st)
    (hslot1 : t.skills.2 ≠ -1 →
      t.vehi.2 ≠ t.vehi.1 ∧ vehicleOk S t.vehi.2 ∧ vecAt S.routes t.vehi.2 r1) :
    ∃ S', updateRoutes S t = Except.ok S' ∧
      vecAt S'.routes t.vehi.1 (r0 ++ [(t.node, t.skills.1)]) ∧
      vecAt S'.vehiPos t.vehi.1 t.node ∧
      vecAt S'.vehiLeaveTime t.vehi.1 t.leaveTime.1 ∧
      (t.skills.2 ≠ -1 →
        vecAt S'.routes t.vehi.2 (r1 ++ [(t.node, t.skills.2)]) ∧
        vecAt S'.vehiPos t.vehi.2 t.node ∧
        vecAt S'.vehiLeaveTime t.vehi.2 t.leaveTime.2 ∧
        vecAt S'.svcVehi t.node (t.vehi.1, t.vehi.2) ∧
        vecAt S'.svcStartTm t.node (t.startTime.1, t.startTime.2)) ∧
      (t.skills.2 = -1 →
        vecAt S'.svcVehi t.node (t.vehi.1, sv.2) ∧
        vecAt S'.svcStartTm t.node (t.startTime.1, st.2) ∧
        ∀ k : Nat, k ≠ t.vehi.1.toNat →
          S'.routes[k]? = S.routes[k]? ∧ S'.vehiPos[k]? = S.vehiPos[k]? ∧
          S'.vehiLeaveTime[k]? = S.vehiLeaveTime[k]?) ∧
      S'.dist = S.dist + t.incDist ∧
      S'.tard = S.tard + t.incTard ∧
      S'.tmax = max S.tmax t.currTmax ∧
      S'.cachedCost = t.cachedCost := by
  have hn : nodeOk S t.node := ⟨vecAt_inBounds hsv, vecAt_inBounds hst⟩
  obtain ⟨p0, hp0⟩ := inBounds_vecAt hv0.2.1
  obtain ⟨l0, hl0⟩ := inBounds_vecAt hv0.2.2
  by_cases hs1 : t.skills.2 = -1
  · refine ⟨_, updateRoutes_single_slot S t hs0 hs1 hv0 hn, ?_, ?_, ?_, fun h => absurd hs1 h,
      fun _ => ⟨?_, ?_, fun k hk => ⟨?_, ?_, ?_⟩⟩, rfl, rfl, rfl, rfl⟩
    · exact vecAt_modify_self _ hr0
    · exact vecAt_modify_self _ hp0
    · exact vecAt_modify_self _ hl0
    · exact vecAt_modify_self _ hsv
    · exact vecAt_modify_self _ hst
    · show (List.modify _ _ _)[k]? = _
      rw [List.getElem?_modify]
      simp [Ne.symm hk]
    · show (List.modify _ _ _)[k]? = _
      rw [List.getElem?_modify]
      simp [Ne.symm hk]
    · show (List.modify _ _ _)[k]? = _
      rw [List.getElem?_modify]
      simp [Ne.symm hk]
  · obtain ⟨hne, hv1, hr1⟩ := hslot1 hs1
    obtain ⟨p1, hp1⟩ := inBounds_vecAt hv1.2.1
    obtain ⟨l1, hl1⟩ := inBounds_vecAt hv1.2.2
    have h0 : 0 ≤ t.vehi.1 := hr0.1
    have h1 : 0 ≤ t.vehi.2 := hr1.1
    refine ⟨_, updateRoutes_double_slot S t hs0 hs1 hv0 hv1 hn, ?_, ?_, ?_,
      fun _ => ⟨?_, ?_, ?_, ?_, ?_⟩, fun h => absurd h hs1, rfl, rfl, rfl, rfl⟩
    · exact vecAt_modify_other _ h1 hne (vecAt_modify_self _ hr0)
    · exact vecAt_modify_other _ h1 hne (vecAt_modify_self _ hp0)
    · exact vecAt_modify_other _ h1 hne (vecAt_modify_self _ hl0)
    · exact vecAt_modify_self _ (vecAt_modify_other _ h0 (Ne.symm hne) hr1)
    · exact vecAt_modify_self _ (vecAt_modify_other _ h0 (Ne.symm hne) hp1)
    · exact vecAt_modify_self _ (vecAt_modify_other _ h0 (Ne.symm hne) hl1)
    · have h := vecAt_modify_self (fun p : Int × Int => (p.1, t.vehi.2))
        (vecAt_modify_self (fun p : Int × Int => (t.vehi.1, p.2)) hsv)
      exact h
    · have h := vecAt_modify_self (fun p : ℚ × ℚ => (p.1, t.startTime.2))
        (vecAt_modify_self (fun p : ℚ × ℚ => (t.startTime.1, p.2)) hst)
      exact h

/-- The evaluated SIM task `demoTask2` is committed to `demoState`: vehicle 0 comes
from the depot, vehicle 1 from node 1. -/
theorem updateRoutes_effect_witness :
    ∃ S', updateRoutes demoState demoTask2 = Except.ok S' ∧
      vecAt S'.routes 0 ([(0, 0)] ++ [(2, 1)]) ∧
      vecAt S'.vehiPos 0 2 ∧
      vecAt S'.vehiLeaveTime 0 16 ∧
      (demoTask2.skills.2 ≠ -1 →
        vecAt S'.routes 1 ([(0, 0), (1, 1)] ++ [(2, 2)]) ∧
        vecAt S'.vehiPos 1 2 ∧
        vecAt S'.vehiLeaveTime 1 16 ∧
        vecAt S'.svcVehi 2 (0, 1) ∧
        vecAt S'.svcStartTm 2 (12, 12)) ∧
      (demoTask2.skills.2 = -1 →
        vecAt S'.svcVehi 2 (0, -1) ∧
        vecAt S'.svcStartTm 2 (12, 0) ∧
        ∀ k : Nat, k ≠ 0 →
          S'.routes[k]? = demoState.routes[k]? ∧ S'.vehiPos[k]? = demoState.vehiPos[k]? ∧
          S'.vehiLeaveTime[k]? = demoState.vehiLeaveTime[k]?) ∧
      S'.dist = demoState.dist + 13 ∧
      S'.tard = demoState.tard + 0 ∧
      S'.tmax = max demoState.tmax 0 ∧
      S'.cachedCost = 16 :=
  updateRoutes_effect demoState demoTask2 [(0, 0)] [(0, 0), (1, 1)] (-1, -1) (0, 0)
    (by decide) (by decide) ⟨by decide, rfl⟩ ⟨by decide, rfl⟩ ⟨by decide, rfl⟩
    (fun _ => ⟨by decide, by decide, ⟨by decide, rfl⟩⟩)

/-! ## Accumulators along a construction -/

/-- Invariant behind C8: along a construction `tmax` is non-negative, bounds the
contribution of every committed task, is 0 before the first commit and is
attained by a committed task afterwards. -/
theorem built_tmax {inst : Instance} {COEFS : Fin 3 → ℚ} {S : Solution} {ts : List Task}
    (h : Built inst COEFS S ts) :
    0 ≤ S.tmax ∧ (∀ t ∈ ts, t.currTmax ≤ S.tmax) ∧ (ts = [] → S.tmax = 0) ∧
      (ts ≠ [] → ∃ t ∈ ts, S.tmax = t.currTmax) := by
  induction h with
  | fresh => exact ⟨le_refl _, by simp, fun _ => rfl, fun h => absurd rfl h⟩
  | @commit S S' X ts t t' c _ hf hu ih =>
    obtain ⟨hnn, hub, hz, hatt⟩ := ih
    obtain ⟨r, c', hf', -, -, -, -, -, -, hct, -⟩ :=
      findInsertionCost_of_evalPre COEFS (findInsertionCost_ok_evalPre hf)
    rw [hf] at hf'
    injection hf' with hf'
    injection hf' with hr hc
    subst hr
    have htm := (updateRoutes_totals hu).2.2.1
    refine ⟨?_, ?_, ?_, fun _ => ?_⟩
    · rw [htm]; exact le_trans hnn (le_max_left _ _)
    · intro u hu'
      rw [htm]
      rcases List.mem_append.1 hu' with hmem | hmem
      · exact le_trans (hub u hmem) (le_max_left _ _)
      · rw [List.mem_singleton] at hmem
        rw [hmem]
        exact le_max_right _ _
    · intro hnil
      simp at hnil
    · rcases le_total S.tmax t'.currTmax with hle | hle
      · exact ⟨t', by simp, by rw [htm, max_eq_right hle]⟩
      · by_cases hnil : ts = []
        · refine ⟨t', by simp, ?_⟩
          rw [htm, hz hnil]
          exact max_eq_right hct
        · obtain ⟨u, hu', hu''⟩ := hatt hnil
          exact ⟨u, List.mem_append_left _ hu', by rw [htm, max_eq_left hle, hu'']⟩

/-- C8. In every state reached from the constructed Solution by committing a
non-empty sequence of evaluated tasks, `tmax` is the maximum of the `currTmax` of
the committed tasks: it is the `currTmax` of one of them and no committed task
has a larger one.  Moreover `tmax` never decreases across a commit. -/
theorem tmax_is_maximum (inst : Instance) (COEFS : Fin 3 → ℚ) (S : Solution) (ts : List Task)
    (h : Built inst COEFS S ts) (hne : ts ≠ []) :
    (∃ t ∈ ts, S.tmax = t.currTmax) ∧ (∀ t ∈ ts, t.currTmax ≤ S.tmax) ∧
      (∀ (X X' : Solution) (u : Task), updateRoutes X u = Except.ok X' → X.tmax ≤ X'.tmax) := by
  obtain ⟨-, hub, -, hatt⟩ := built_tmax h
  refine ⟨hatt hne, hub, fun X X' u hu => ?_⟩
  rw [(updateRoutes_totals hu).2.2.1]
  exact le_max_left _ _

/-- The construction that commits `demoTask1` and then `demoTask3`: the maximum
tardiness 5 is the contribution of `demoTask3`. -/
theorem tmax_is_maximum_witness :
    (∃ t ∈ [demoTask1, demoTask3], demoState3.tmax = t.currTmax) ∧
      (∀ t ∈ [demoTask1, demoTask3], t.currTmax ≤ demoState3.tmax) ∧
      (∀ (X X' : Solution) (u : Task), updateRoutes X u = Except.ok X' → X.tmax ≤ X'.tmax) :=
  tmax_is_maximum demoInst demoCoefs demoState3 [demoTask1, demoTask3]
    (Built.commit (Built.commit Built.fresh demo_eval1 demo_commit1) demo_eval3 demo_commit3)
    (by decide)

/-- C9. `dist` and `tard` do not decrease when a task evaluated against a state
is committed to it.  For `dist` the statement uses that travel distances are
non-negative (`hdist`); for `tard` nothing is assumed. -/
theorem dist_tard_monotone (inst : Instance) (COEFS : Fin 3 → ℚ) (S S' : Solution)
    (t t' : Task) (c : ℚ)
    (hdist : ∀ a b, 0 ≤ inst.distance a b)
    (hf : findInsertionCost inst COEFS S t = Except.ok (t', c))
    (hu : updateRoutes S t' = Except.ok S') :
    S.dist ≤ S'.dist ∧ S.tard ≤ S'.tard := by
  obtain ⟨r, c', hf', -, -, -, -, -, hit, -, hid⟩ :=
    findInsertionCost_of_evalPre COEFS (findInsertionCost_ok_evalPre hf)
  rw [hf] at hf'
  injection hf' with hf'
  injection hf' with hr hc
  subst hr
  obtain ⟨hd, ht, -, -⟩ := updateRoutes_totals hu
  rw [hd, ht]
  exact ⟨le_add_of_nonneg_right (hid hdist), le_add_of_nonneg_right hit⟩

/-- The PRECEDENCE task of `demoInst` evaluated against `demoState` and committed:
`dist` goes from 3 to 19 and `tard` from 0 to 5. -/
theorem dist_tard_monotone_witness :
    demoState.dist ≤ demoState3.dist ∧ demoState.tard ≤ demoState3.tard :=
  dist_tard_monotone demoInst demoCoefs demoState demoState3 (blankTask 3 (0, 1) (1, 2))
    demoTask3 44 demo_distance_nonneg demo_eval3 demo_commit3

/-! ## Finalization -/

theorem back_eq_ok {r : Route} (h : r ≠ []) : ∃ p, back r = Except.ok p ∧ lastNode r = p.1 := by
  unfold back lastNode
  rw [List.getLast?_eq_getLast r h]
  exact ⟨_, rfl, rfl⟩

/-- One iteration of the loop of `finishRoutes`. -/
theorem finishRoute_eq (inst : Instance) (S : Solution) (k : Nat) (r : Route)
    (hr : S.routes[k]? = some r) (hne : r ≠ []) :
    finishRoute inst S k = Except.ok
      { S with dist := S.dist + inst.distance (lastNode r) 0,
               routes := S.routes.modify (fun r => r ++ [(0, 0)]) k } := by
  have hat : vecAt S.routes (k : Int) r := ⟨Int.natCast_nonneg k, by simpa using hr⟩
  obtain ⟨p, hp, hlast⟩ := back_eq_ok hne
  simp only [finishRoute, vecGet_eq_ok.2 hat, hp, vecModify_of_inBounds _ (vecAt_inBounds hat),
    ok_bind, pure_eq_ok, hlast, Int.toNat_ofNat]

/-- State of the loop of `finishRoutes` after `k` iterations. -/
theorem finishRoutes_loop (inst : Instance) (S : Solution)
    (hne : ∀ r ∈ S.routes, r ≠ []) (k : Nat) (hk : k ≤ S.routes.length) :
    ∃ S', (List.range k).foldlM (finishRoute inst) S = Except.ok S' ∧
      (∀ m, S'.routes[m]? =
        (S.routes[m]?).map (fun r => if m < k then r ++ [(0, 0)] else r)) ∧
      S'.dist = S.dist + ((S.routes.map (fun r => inst.distance (lastNode r) 0)).take k).sum ∧
      S' = { S with routes := S'.routes, dist := S'.dist } := by
  induction k with
  | zero => exact ⟨S, rfl, by simp, by simp, rfl⟩
  | succ k ih =>
    obtain ⟨Sk, hfold, hroutes, hdist, hrest⟩ := ih (Nat.le_of_succ_le hk)
    have hlt : k < S.routes.length := hk
    have hrk : Sk.routes[k]? = some S.routes[k] := by
      rw [hroutes k, List.getElem?_eq_getElem hlt]
      simp
    have hstep := finishRoute_eq inst Sk k S.routes[k] hrk
      (hne _ (List.getElem_mem hlt))
    have hfold' : (List.range (k + 1)).foldlM (finishRoute inst) S = Except.ok
        { Sk with dist := Sk.dist + inst.distance (lastNode S.routes[k]) 0,
                  routes := Sk.routes.modify (fun r => r ++ [(0, 0)]) k } := by
      rw [List.range_succ, List.foldlM_append, hfold]
      simp only [List.foldlM_cons, List.foldlM_nil, ok_bind, hstep, pure_eq_ok]
    refine ⟨_, hfold', ?_, ?_, ?_⟩
    · intro m
      show (List.modify _ k Sk.routes)[m]? = _
      rw [List.getElem?_modify, hroutes m]
      cases hm : S.routes[m]? with
      | none => simp
      | some r =>
        by_cases hkm : k = m
        · subst hkm
          simp
        · have : (m < k + 1) ↔ m < k := by omega
          simp [hkm, this]
    · show Sk.dist + _ = _
      rw [hdist, List.sum_take_succ _ k (by simpa using hlt)]
      simp [add_assoc]
    · rw [hrest]


/-- C10. When every route is non-empty, `finishRoutes` appends the stop `(0, 0)` to
every vehicle's route (so each route ends at node 0 with skill 0), adds to `dist`
the sum over the vehicles of `distance(node of the old last stop, 0)`, leaves
`tard` and `tmax` unchanged and sets
`cachedCost = COEFS[0]*dist + COEFS[1]*tard + COEFS[2]*tmax` over the new totals.
The state has one route per vehicle of the instance (`hlen`). -/
theorem finishRoutes_effect (inst : Instance) (COEFS : Fin 3 → ℚ) (S : Solution)
    (hlen : S.routes.length = inst.numVehicles) (hne : ∀ r ∈ S.routes, r ≠ []) :
    ∃ S', finishRoutes inst COEFS S = Except.ok S' ∧
      S'.routes = S.routes.map (fun r => r ++ [(0, 0)]) ∧
      (∀ r ∈ S'.routes, r.getLast? = some (0, 0)) ∧
      S'.dist = S.dist + (S.routes.map (fun r => inst.distance (lastNode r) 0)).sum ∧
      S'.tard = S.tard ∧ S'.tmax = S.tmax ∧
      S'.cachedCost = COEFS 0 * S'.dist + COEFS 1 * S'.tard + COEFS 2 * S'.tmax := by
  obtain ⟨Sk, hfold, hroutes, hdist, hrest⟩ :=
    finishRoutes_loop inst S hne inst.numVehicles (le_of_eq hlen.symm)
  have hmap : Sk.routes = S.routes.map (fun r => r ++ [(0, 0)]) := by
    apply List.ext_getElem?
    intro m
    rw [hroutes m, List.getElem?_map]
    cases hm : S.routes[m]? with
    | none => rfl
    | some r =>
      have hlt : m < inst.numVehicles := by
        rw [← hlen]
        exact (List.getElem?_eq_some.1 hm).1
      simp [hlt]
  have htard : Sk.tard = S.tard := by rw [hrest]
  have htmax : Sk.tmax = S.tmax := by rw [hrest]
  refine ⟨{ Sk with cachedCost := COEFS 0 * Sk.dist + COEFS 1 * Sk.tard + COEFS 2 * Sk.tmax },
    ?_, hmap, ?_, ?_, htard, htmax, rfl⟩
  · simp only [finishRoutes, hfold, ok_bind, pure_eq_ok]
  · intro r hr
    have hr' : r ∈ S.routes.map (fun r => r ++ [(0, 0)]) := by
      rw [← hmap]
      exact hr
    obtain ⟨r0, -, rfl⟩ := List.mem_map.1 hr'
    simp
  · show Sk.dist = _
    rw [hdist, ← hlen, ← List.length_map S.routes (fun r => inst.distance (lastNode r) 0),
      List.take_length]

/-- Finalizing `demoState3`: both vehicles return from node 3, at distance 8 from
the depot. -/
theorem finishRoutes_effect_witness :
    ∃ S', finishRoutes demoInst demoCoefs demoState3 = Except.ok S' ∧
      S'.routes = demoState3.routes.map (fun r => r ++ [(0, 0)]) ∧
      (∀ r ∈ S'.routes, r.getLast? = some (0, 0)) ∧
      S'.dist = demoState3.dist +
        (demoState3.routes.map (fun r => demoInst.distance (lastNode r) 0)).sum ∧
      S'.tard = demoState3.tard ∧ S'.tmax = demoState3.tmax ∧
      S'.cachedCost = demoCoefs 0 * S'.dist + demoCoefs 1 * S'.tard + demoCoefs 2 * S'.tmax :=
  finishRoutes_effect demoInst demoCoefs demoState3 rfl (by decide)

end Solution

namespace Solution

/-! ## Further facts about `finishRoutes` -/

/-- The state produced by `finishRoutes` when there is one non-empty route per
vehicle. -/
theorem finishRoutes_eq (inst : Instance) (COEFS : Fin 3 → ℚ) (S : Solution)
    (hlen : S.routes.length = inst.numVehicles) (hne : ∀ r ∈ S.routes, r ≠ []) :
    finishRoutes inst COEFS S = Except.ok
      { S with
        routes := S.routes.map (fun r => r ++ [(0, 0)])
        dist := S.dist + (S.routes.map (fun r => inst.distance (lastNode r) 0)).sum
        cachedCost :=
          COEFS 0 * (S.dist + (S.routes.map (fun r => inst.distance (lastNode r) 0)).sum) +
          COEFS 1 * S.tard + COEFS 2 * S.tmax } := by
  obtain ⟨Sk, hfold, hroutes, hdist, hrest⟩ :=
    finishRoutes_loop inst S hne inst.numVehicles (le_of_eq hlen.symm)
  have hmap : Sk.routes = S.routes.map (fun r => r ++ [(0, 0)]) := by
    apply List.ext_getElem?
    intro m
    rw [hroutes m, List.getElem?_map]
    cases hm : S.routes[m]? with
    | none => rfl
    | some r =>
      have hlt : m < inst.numVehicles := by
        rw [← hlen]
        exact (List.getElem?_eq_some.1 hm).1
      simp [hlt]
  have hd : Sk.dist = S.dist + (S.routes.map (fun r => inst.distance (lastNode r) 0)).sum := by
    rw [hdist, ← hlen, ← List.length_map S.routes (fun r => inst.distance (lastNode r) 0),
      List.take_length]
  simp only [finishRoutes, hfold, ok_bind, pure_eq_ok]
  rw [hrest, hmap, hd]

/-- What a completed `finishRoutes` leaves behind, whatever the state. -/
theorem finishRoutes_ok_inv {inst : Instance} {COEFS : Fin 3 → ℚ} {S S' : Solution}
    (h : finishRoutes inst COEFS S = Except.ok S') :
    S'.cachedCost = COEFS 0 * S'.dist + COEFS 1 * S'.tard + COEFS 2 * S'.tmax := by
  simp only [finishRoutes, bind_eq_ok, pure_eq_ok] at h
  obtain ⟨Sk, -, h⟩ := h
  injection h with h
  subst h
  rfl

/-! ## The constructed Solution -/

/-- C15. The constructed Solution has exactly `numVehicles` routes, each equal to
the single stop `[(0, 0)]`; every vehicle is at node 0 with leave time 0; each of
the `numNodes` nodes has serving vehicles `(-1, -1)` and start times `(0, 0)`;
and `dist = tard = tmax = cachedCost = 0`. -/
theorem init_state (inst : Instance) :
    (init inst).routes.length = inst.numVehicles ∧
    (init inst).vehiPos.length = inst.numVehicles ∧
    (init inst).vehiLeaveTime.length = inst.numVehicles ∧
    (∀ v : Nat, v < inst.numVehicles →
      (init inst).routes[v]? = some [(0, 0)] ∧ (init inst).vehiPos[v]? = some 0 ∧
      (init inst).vehiLeaveTime[v]? = some 0) ∧
    (init inst).svcVehi.length = inst.numNodes ∧
    (init inst).svcStartTm.length = inst.numNodes ∧
    (∀ i : Nat, i < inst.numNodes →
      (init inst).svcVehi[i]? = some (-1, -1) ∧ (init inst).svcStartTm[i]? = some (0, 0)) ∧
    (init inst).dist = 0 ∧ (init inst).tard = 0 ∧ (init inst).tmax = 0 ∧
    (init inst).cachedCost = 0 := by
  refine ⟨by simp [init], by simp [init], by simp [init], fun v hv => ?_, by simp [init],
    by simp [init], fun i hi => ?_, rfl, rfl, rfl, rfl⟩
  · simp [init, List.getElem?_replicate, hv]
  · simp [init, List.getElem?_replicate, hi]

/-! ## Consistency of the cached cost -/

/-- C17. In every state reached from the constructed Solution by steps that are
either an evaluation against the current state followed by the commit of the
evaluated task, or `finishRoutes`, the cached cost is
`COEFS[0]*dist + COEFS[1]*tard + COEFS[2]*tmax`. -/
theorem cachedCost_consistent (inst : Instance) (COEFS : Fin 3 → ℚ) (S : Solution)
    (h : Reachable inst COEFS S) :
    S.cachedCost = COEFS 0 * S.dist + COEFS 1 * S.tard + COEFS 2 * S.tmax := by
  induction h with
  | fresh => simp [init]
  | @commit S S' t t' c _ hf hu _ =>
    obtain ⟨r, c', hf', -, -, -, -, hcost, -⟩ :=
      findInsertionCost_of_evalPre COEFS (findInsertionCost_ok_evalPre hf)
    rw [hf] at hf'
    injection hf' with hf'
    injection hf' with hr hc
    subst hr
    obtain ⟨hd, ht, hm, hcc⟩ := updateRoutes_totals hu
    rw [hcc, hd, ht, hm, hcost]
  | @finish S S' _ hfin _ => exact finishRoutes_ok_inv hfin

end Solution

namespace Solution

theorem demo_finish3 : finishRoutes demoInst demoCoefs demoState3 = Except.ok demoFinal3 := by
  rw [finishRoutes_eq demoInst demoCoefs demoState3 rfl (by decide)]
  simp [demoState3, demoFinal3, demoInst, demoCoefs, lastNode]
  norm_num

/-- The construction of `demoState3` followed by `finishRoutes`. -/
theorem cachedCost_consistent_witness :
    demoFinal3.cachedCost =
      demoCoefs 0 * demoFinal3.dist + demoCoefs 1 * demoFinal3.tard +
        demoCoefs 2 * demoFinal3.tmax :=
  cachedCost_consistent demoInst demoCoefs demoFinal3
    (Reachable.finish
      (Reachable.commit (Reachable.commit Reachable.fresh demo_eval1 demo_commit1)
        demo_eval3 demo_commit3)
      demo_finish3)

/-! ## A complete scenario -/

/-- C13. With one vehicle and one SINGLE-service node at travel distance 10 from
the depot in both directions, `twMin = 0`, `twMax = 100` and processing time 5 for
its skill, evaluating the task of the node on the constructed Solution gives
`incDist = 10`, `incTard = 0` and `leaveTime[0] = 15`; after `updateRoutes` and
`finishRoutes` the Solution has `dist = 20`, `tard = 0` and `tmax = 0`. -/
theorem single_node_scenario (inst : Instance) (COEFS : Fin 3 → ℚ) (t : Task)
    (hveh : inst.numVehicles = 1) (hnodes : inst.numNodes = 2)
    (hty : inst.nodeSvcType 1 = SvcType.SINGLE)
    (hgo : inst.distance 0 1 = 10) (hback : inst.distance 1 0 = 10)
    (hmin : inst.nodeTwMin 1 = 0) (hmax : inst.nodeTwMax 1 = 100)
    (hnode : t.node = 1) (hv : t.vehi.1 = 0) (hs0 : t.skills.1 ≠ -1) (hs1 : t.skills.2 = -1)
    (hproc : inst.nodeProcTime 1 t.skills.1 = 5) :
    ∃ t' c S1 S2, findInsertionCost inst COEFS (init inst) t = Except.ok (t', c) ∧
      t'.incDist = 10 ∧ t'.incTard = 0 ∧ t'.leaveTime.1 = 15 ∧
      updateRoutes (init inst) t' = Except.ok S1 ∧
      finishRoutes inst COEFS S1 = Except.ok S2 ∧
      S2.dist = 20 ∧ S2.tard = 0 ∧ S2.tmax = 0 := by
  have hl : vecAt (init inst).vehiLeaveTime t.vehi.1 0 := by
    rw [hv]
    exact ⟨le_refl _, by simp [init, hveh]⟩
  have hp : vecAt (init inst).vehiPos t.vehi.1 0 := by
    rw [hv]
    exact ⟨le_refl _, by simp [init, hveh]⟩
  obtain ⟨r, c, hf, -, hn, hvv, hs, hst, hlt, hd, hit, hct, -⟩ :=
    single_evaluation_eq inst COEFS (init inst) t 0 0 (by rw [hnode]; exact hty) hl hp hs0 hs1
  have harr : arrivalAt inst t.node 0 0 = 10 := by
    simp [arrivalAt, hnode, hmin, hgo]
  have hd' : r.incDist = 10 := by rw [hd, hnode, hgo]
  have hit' : r.incTard = 0 := by
    rw [hit, harr, hnode, hmax]
    norm_num
  have hct' : r.currTmax = 0 := by
    rw [hct, harr, hnode, hmax]
    norm_num
  have hlt' : r.leaveTime.1 = 15 := by
    rw [hlt, harr, hnode, hproc]
    norm_num
  have hvok : vehicleOk (init inst) r.vehi.1 := by
    rw [hvv, hv]
    simp [vehicleOk, inBounds, init, hveh]
  have hnok : nodeOk (init inst) r.node := by
    rw [hn, hnode]
    simp [nodeOk, inBounds, init, hnodes]
  have hup := updateRoutes_single_slot (init inst) r (by rw [hs]; exact hs0)
    (by rw [hs]; exact hs1) hvok hnok
  refine ⟨r, c, _, _, hf, hd', hit', hlt', hup, finishRoutes_eq inst COEFS _ ?_ ?_, ?_, ?_, ?_⟩
  · simp [init, hveh]
  · intro x hx
    simp only [init, hveh, hvv, hv, hn, hnode] at hx
    simp at hx
    rw [hx]
    simp
  · simp only [init, hveh, hvv, hv, hn, hnode, hd']
    simp [lastNode, hback]
    norm_num
  · simp only [init, hit']
    norm_num
  · simp only [init, hct']
    norm_num

/-- The scenario on `tripInst`. -/
theorem single_node_scenario_witness :
    ∃ t' c S1 S2,
      findInsertionCost tripInst demoCoefs (init tripInst) (blankTask 1 (0, -1) (1, -1))
        = Except.ok (t', c) ∧
      t'.incDist = 10 ∧ t'.incTard = 0 ∧ t'.leaveTime.1 = 15 ∧
      updateRoutes (init tripInst) t' = Except.ok S1 ∧
      finishRoutes tripInst demoCoefs S1 = Except.ok S2 ∧
      S2.dist = 20 ∧ S2.tard = 0 ∧ S2.tmax = 0 :=
  single_node_scenario tripInst demoCoefs (blankTask 1 (0, -1) (1, -1)) rfl rfl rfl
    (by norm_num [tripInst]) (by norm_num [tripInst]) rfl rfl rfl rfl (by decide) rfl rfl

end Solution

namespace Solution

/-! ## Routes only grow -/

theorem prefix_modify_append (routes : List Route) (i k : Nat) (x : Int × Int) (r : Route)
    (h : routes[k]? = some r) :
    ∃ r', (routes.modify (fun r => r ++ [x]) i)[k]? = some r' ∧ r <+: r' := by
  rw [List.getElem?_modify, h]
  by_cases hik : i = k
  · exact ⟨r ++ [x], by simp [hik], List.prefix_append _ _⟩
  · exact ⟨r, by simp [hik], List.prefix_refl _⟩

theorem finishRoute_ok_inv {inst : Instance} {S S' : Solution} {v : Nat}
    (h : finishRoute inst S v = Except.ok S') :
    S'.routes = S.routes.modify (fun r => r ++ [(0, 0)]) v := by
  simp only [finishRoute, bind_eq_ok, vecModify_eq_ok, pure_eq_ok, Int.toNat_ofNat] at h
  obtain ⟨_, _, _, _, _, ⟨_, rfl⟩, h⟩ := h
  injection h with h
  subst h
  rfl

theorem finishRoute_fold_prefix (inst : Instance) (vs : List Nat) :
    ∀ (S S' : Solution), vs.foldlM (finishRoute inst) S = Except.ok S' →
      ∀ (k : Nat) (r : Route), S.routes[k]? = some r →
        ∃ r', S'.routes[k]? = some r' ∧ r <+: r' := by
  induction vs with
  | nil =>
    intro S S' h k r hr
    simp only [List.foldlM_nil, pure_eq_ok] at h
    injection h with h
    subst h
    exact ⟨r, hr, List.prefix_refl _⟩
  | cons v vs ih =>
    intro S S' h k r hr
    simp only [List.foldlM_cons, bind_eq_ok] at h
    obtain ⟨S1, h1, h2⟩ := h
    obtain ⟨r1, hr1, hp1⟩ := prefix_modify_append S.routes v k (0, 0) r hr
    rw [← finishRoute_ok_inv h1] at hr1
    obtain ⟨r2, hr2, hp2⟩ := ih S1 S' h2 k r1 hr1
    exact ⟨r2, hr2, hp1.trans hp2⟩

/-- C14. Routes are append-only: after `updateRoutes` and after `finishRoutes` the
former route of every vehicle is a prefix of its new route.  Moreover
`updateRoutes` leaves the route, position and leave time of every vehicle not
named in the task, and the records of every node other than the node of the
task, as they were. -/
theorem routes_append_only (inst : Instance) (COEFS : Fin 3 → ℚ) (S S1 X X1 : Solution)
    (t : Task) (hu : updateRoutes S t = Except.ok S1)
    (hfin : finishRoutes inst COEFS X = Except.ok X1) :
    (∀ (k : Nat) (r : Route), S.routes[k]? = some r →
      ∃ r', S1.routes[k]? = some r' ∧ r <+: r') ∧
    (∀ (k : Nat) (r : Route), X.routes[k]? = some r →
      ∃ r', X1.routes[k]? = some r' ∧ r <+: r') ∧
    (∀ k : Nat, (k : Int) ≠ t.vehi.1 → (t.skills.2 ≠ -1 → (k : Int) ≠ t.vehi.2) →
      S1.routes[k]? = S.routes[k]? ∧ S1.vehiPos[k]? = S.vehiPos[k]? ∧
      S1.vehiLeaveTime[k]? = S.vehiLeaveTime[k]?) ∧
    (∀ j : Nat, (j : Int) ≠ t.node →
      S1.svcVehi[j]? = S.svcVehi[j]? ∧ S1.svcStartTm[j]? = S.svcStartTm[j]?) := by
  obtain ⟨hs0, hv, hn, hw⟩ := updateRoutes_ok_inv hu
  have h0 : 0 ≤ t.vehi.1 := hv.1.1
  have hn0 : 0 ≤ t.node := hn.1.1
  have hfinish : ∀ (k : Nat) (r : Route), X.routes[k]? = some r →
      ∃ r', X1.routes[k]? = some r' ∧ r <+: r' := by
    simp only [finishRoutes, bind_eq_ok, pure_eq_ok] at hfin
    obtain ⟨Xk, hfold, hX⟩ := hfin
    injection hX with hX
    subst hX
    exact finishRoute_fold_prefix inst _ X Xk hfold
  by_cases hs1 : t.skills.2 = -1
  · rw [updateRoutes_single_slot S t hs0 hs1 hv hn] at hu
    injection hu with hu
    subst hu
    refine ⟨fun k r hr => prefix_modify_append _ _ _ _ _ hr, hfinish, fun k hk _ => ?_,
      fun j hj => ?_⟩
    · have hne : t.vehi.1.toNat ≠ k := by omega
      simp [List.getElem?_modify, hne]
    · have hne : t.node.toNat ≠ j := by omega
      simp [List.getElem?_modify, hne]
  · have hv1 := hw hs1
    have h1 : 0 ≤ t.vehi.2 := hv1.1.1
    rw [updateRoutes_double_slot S t hs0 hs1 hv hv1 hn] at hu
    injection hu with hu
    subst hu
    refine ⟨fun k r hr => ?_, hfinish, fun k hk hk' => ?_, fun j hj => ?_⟩
    · obtain ⟨r1, hr1, hp1⟩ := prefix_modify_append S.routes t.vehi.1.toNat k
        (t.node, t.skills.1) r hr
      obtain ⟨r2, hr2, hp2⟩ := prefix_modify_append _ t.vehi.2.toNat k
        (t.node, t.skills.2) r1 hr1
      exact ⟨r2, hr2, hp1.trans hp2⟩
    · have hne : t.vehi.1.toNat ≠ k := by omega
      have hne' : t.vehi.2.toNat ≠ k := by
        have := hk' hs1
        omega
      simp [List.getElem?_modify, hne, hne']
    · have hne : t.node.toNat ≠ j := by omega
      simp [List.getElem?_modify, hne]

/-- The commit of `demoTask3` to `demoState` and the finalization of `demoState3`. -/
theorem routes_append_only_witness :
    (∀ (k : Nat) (r : Route), demoState.routes[k]? = some r →
      ∃ r', demoState3.routes[k]? = some r' ∧ r <+: r') ∧
    (∀ (k : Nat) (r : Route), demoState3.routes[k]? = some r →
      ∃ r', demoFinal3.routes[k]? = some r' ∧ r <+: r') ∧
    (∀ k : Nat, (k : Int) ≠ demoTask3.vehi.1 →
      (demoTask3.skills.2 ≠ -1 → (k : Int) ≠ demoTask3.vehi.2) →
      demoState3.routes[k]? = demoState.routes[k]? ∧
      demoState3.vehiPos[k]? = demoState.vehiPos[k]? ∧
      demoState3.vehiLeaveTime[k]? = demoState.vehiLeaveTime[k]?) ∧
    (∀ j : Nat, (j : Int) ≠ demoTask3.node →
      demoState3.svcVehi[j]? = demoState.svcVehi[j]? ∧
      demoState3.svcStartTm[j]? = demoState.svcStartTm[j]?) :=
  routes_append_only demoInst demoCoefs demoState demoState3 demoState3 demoFinal3 demoTask3
    demo_commit3 demo_finish3

end Solution

namespace Solution

/-! ## Positions agree with routes -/

theorem routesAgree_append {routes : List Route} {vehiPos : List Int}
    (h : routesAgree routes vehiPos) (i : Nat) (node skill : Int) :
    routesAgree (routes.modify (fun r => r ++ [(node, skill)]) i)
      (vehiPos.modify (fun _ => node) i) := by
  obtain ⟨hlen, hall⟩ := h
  refine ⟨by simp [hlen], fun k r hr => ?_⟩
  rw [List.getElem?_modify] at hr
  cases hk : routes[k]? with
  | none => simp [hk] at hr
  | some r0 =>
    obtain ⟨hhead, q, hq, hpos⟩ := hall k r0 hk
    rw [hk] at hr
    simp only [Option.map_eq_map, Option.map_some', Option.some.injEq] at hr
    by_cases hik : i = k
    · rw [if_pos hik] at hr
      subst hr
      have hne : r0 ≠ [] := by
        intro h0
        rw [h0] at hhead
        simp at hhead
      refine ⟨?_, (node, skill), by simp, ?_⟩
      · rw [List.head?_append_of_ne_nil _ hne]
        exact hhead
      · rw [List.getElem?_modify, hpos]
        simp [hik]
    · rw [if_neg hik] at hr
      subst hr
      refine ⟨hhead, q, hq, ?_⟩
      rw [List.getElem?_modify, hpos]
      simp [hik]

theorem committed_routesAgree {inst : Instance} {S : Solution} (h : Committed inst S) :
    S.routes.length = inst.numVehicles ∧ routesAgree S.routes S.vehiPos := by
  induction h with
  | fresh =>
    refine ⟨by simp [init], by simp [init], fun k r hr => ?_⟩
    simp only [init, List.getElem?_replicate] at hr ⊢
    split at hr
    · injection hr with hr
      subst hr
      rename_i hk
      exact ⟨rfl, (0, 0), rfl, by simp [hk]⟩
    · exact absurd hr (by simp)
  | @commit S S' t _ hu ih =>
    obtain ⟨hlen, hagree⟩ := ih
    obtain ⟨hs0, hv, hn, hw⟩ := updateRoutes_ok_inv hu
    by_cases hs1 : t.skills.2 = -1
    · rw [updateRoutes_single_slot S t hs0 hs1 hv hn] at hu
      injection hu with hu
      subst hu
      exact ⟨by simp [hlen], routesAgree_append hagree _ _ _⟩
    · rw [updateRoutes_double_slot S t hs0 hs1 hv (hw hs1) hn] at hu
      injection hu with hu
      subst hu
      exact ⟨by simp [hlen], routesAgree_append (routesAgree_append hagree _ _ _) _ _ _⟩

/-- C20. In every state reached from the constructed Solution by `updateRoutes`
commits, every vehicle has a non-empty route that starts with the stop `(0, 0)`,
and `vehiPos[v]` is the node of the last stop of `routes[v]`; hence the return leg
charged by `finishRoutes`, `distance(node of routes[v].back(), 0)`, equals
`distance(vehiPos[v], 0)`. -/
theorem position_route_agreement (inst : Instance) (S : Solution) (h : Committed inst S) :
    S.routes.length = inst.numVehicles ∧
    ∀ v : Nat, v < inst.numVehicles →
      ∃ (r : Route) (p : Int), S.routes[v]? = some r ∧ S.vehiPos[v]? = some p ∧
        r ≠ [] ∧ r.head? = some (0, 0) ∧ (∃ q, r.getLast? = some q ∧ q.1 = p) ∧
        inst.distance (lastNode r) 0 = inst.distance p 0 := by
  obtain ⟨hlen, -, hall⟩ := committed_routesAgree h
  refine ⟨hlen, fun v hv => ?_⟩
  have hlt : v < S.routes.length := by rw [hlen]; exact hv
  obtain ⟨hhead, q, hq, hpos⟩ := hall v S.routes[v] (List.getElem?_eq_getElem hlt)
  refine ⟨S.routes[v], q.1, List.getElem?_eq_getElem hlt, hpos, ?_, hhead, ⟨q, hq, rfl⟩, ?_⟩
  · intro h0
    rw [h0] at hhead
    simp at hhead
  · simp [lastNode, hq]

/-- The state `demoState3`, reached by the commits of `demoTask1` and `demoTask3`. -/
theorem position_route_agreement_witness :
    demoState3.routes.length = demoInst.numVehicles ∧
    ∀ v : Nat, v < demoInst.numVehicles →
      ∃ (r : Route) (p : Int), demoState3.routes[v]? = some r ∧
        demoState3.vehiPos[v]? = some p ∧
        r ≠ [] ∧ r.head? = some (0, 0) ∧ (∃ q, r.getLast? = some q ∧ q.1 = p) ∧
        demoInst.distance (lastNode r) 0 = demoInst.distance p 0 :=
  position_route_agreement demoInst demoState3
    (Committed.commit (Committed.commit Committed.fresh demo_commit1) demo_commit3)

/-! ## The written file -/

/-- Lines written by the first `k` passes of the loop of `writeTxt`. -/
theorem writeTxt_loop (S : Solution) (k : Nat) (hk : k ≤ S.routes.length) :
    (List.range k).foldlM (fun (lines : List (List Int)) (v : Nat) => do
        let r ← vecGet S.routes (v : Int)
        pure (lines ++ [[(v : Int), (r.length : Int)]] ++ r.map (fun p => [p.1, p.2])))
      ([] : List (List Int)) =
    Except.ok (((S.routes.take k).enum).flatMap (fun x => fileBlock x.1 x.2)) := by
  induction k with
  | zero => rfl
  | succ k ih =>
    have hlt : k < S.routes.length := hk
    have hat : vecAt S.routes (k : Int) S.routes[k] :=
      ⟨Int.natCast_nonneg k, by simp [List.getElem?_eq_getElem hlt]⟩
    have henum : (S.routes.take (k + 1)).enum =
        (S.routes.take k).enum ++ [(k, S.routes[k])] := by
      rw [List.take_succ, List.getElem?_eq_getElem hlt, Option.toList, List.enum,
        List.enumFrom_append, List.length_take, Nat.min_eq_left (Nat.le_of_succ_le hk),
        List.enumFrom_singleton, Nat.zero_add]
    rw [List.range_succ, List.foldlM_append, ih (Nat.le_of_succ_le hk)]
    simp only [ok_bind, List.foldlM_cons, List.foldlM_nil, vecGet_eq_ok.2 hat, pure_eq_ok]
    rw [henum, List.flatMap_append]
    simp [fileBlock]

/-- C16, amended. The line that opens the block of vehicle `v` declares the number
of stops that `routes[v]` holds when the file is written: the file consists, for
each vehicle in turn, of the line `v routes[v].size()` followed by one line per
stop.  For a finalized route this count includes the leading and the trailing
depot stop. -/
theorem writeTxt_declares_size (inst : Instance) (S : Solution)
    (hlen : S.routes.length = inst.numVehicles) :
    writeTxt inst S = Except.ok ((S.routes.enum).flatMap (fun x => fileBlock x.1 x.2)) ∧
    ∀ (v : Nat) (r : Route), S.routes[v]? = some r →
      fileBlock v r = [(v : Int), (r.length : Int)] :: r.map (fun p => [p.1, p.2]) := by
  refine ⟨?_, fun v r _ => rfl⟩
  have h := writeTxt_loop S inst.numVehicles (le_of_eq hlen.symm)
  rw [← hlen, List.take_length] at h
  unfold writeTxt
  rw [← hlen]
  exact h

/-- The finalized state `demoFinal3` has one route per vehicle of `demoInst`. -/
theorem writeTxt_declares_size_witness :
    writeTxt demoInst demoFinal3 =
      Except.ok ((demoFinal3.routes.enum).flatMap (fun x => fileBlock x.1 x.2)) ∧
    ∀ (v : Nat) (r : Route), demoFinal3.routes[v]? = some r →
      fileBlock v r = [(v : Int), (r.length : Int)] :: r.map (fun p => [p.1, p.2]) :=
  writeTxt_declares_size demoInst demoFinal3 rfl

/-- C16, as stated, fails: the route of vehicle 0 in the finalized state
`demoFinal3` has the three stops `(0,0) (3,1) (0,0)` and the file declares the
length 3, not the number of stops minus one. -/
theorem writeTxt_length_counterexample :
    finishRoutes demoInst demoCoefs demoState3 = Except.ok demoFinal3 ∧
    demoFinal3.routes[0]? = some [(0, 0), (3, 1), (0, 0)] ∧
    writeTxt demoInst demoFinal3 = Except.ok
      [[0, 3], [0, 0], [3, 1], [0, 0], [1, 4], [0, 0], [1, 1], [3, 2], [0, 0]] ∧
    (3 : Int) ≠ (([(0, 0), (3, 1), (0, 0)] : Route).length : Int) - 1 := by
  refine ⟨demo_finish3, rfl, ?_, by decide⟩
  exact (writeTxt_loop demoFinal3 2 (by decide)).trans rfl

end Solution

namespace Solution

/-! ## Evaluate-and-commit on states of the instance -/

theorem inBounds_of_length {α : Type} {xs : List α} {i : Int} {n : Nat} (hlen : xs.length = n) :
    inBounds xs i ↔ 0 ≤ i ∧ i < (n : Int) := by
  unfold inBounds
  rw [hlen]
  constructor
  · rintro ⟨h0, h1⟩
    exact ⟨h0, by omega⟩
  · rintro ⟨h0, h1⟩
    exact ⟨h0, by omega⟩

theorem findInsertionCost_forget (inst : Instance) (COEFS : Fin 3 → ℚ) (S : Solution)
    (t : Task) :
    findInsertionCost inst COEFS (forget S) t = findInsertionCost inst COEFS S t := rfl

theorem sized_forget {inst : Instance} {S : Solution} : Sized inst (forget S) ↔ Sized inst S :=
  Iff.rfl

theorem updateRoutes_eq_applyTask {S S' : Solution} {t : Task}
    (h : updateRoutes S t = Except.ok S') : S' = applyTask S t := by
  obtain ⟨hs0, hv, hn, hw⟩ := updateRoutes_ok_inv h
  unfold applyTask
  by_cases hs1 : t.skills.2 = -1
  · rw [updateRoutes_single_slot S t hs0 hs1 hv hn] at h
    injection h with h
    rw [if_pos hs1, h]
  · rw [updateRoutes_double_slot S t hs0 hs1 hv (hw hs1) hn] at h
    injection h with h
    rw [if_neg hs1, h]

theorem updateRoutes_of_pre {S : Solution} {t : Task} (hs0 : t.skills.1 ≠ -1)
    (hv : vehicleOk S t.vehi.1) (hn : nodeOk S t.node)
    (hw : t.skills.2 ≠ -1 → vehicleOk S t.vehi.2) :
    updateRoutes S t = Except.ok (applyTask S t) := by
  unfold applyTask
  by_cases hs1 : t.skills.2 = -1
  · rw [updateRoutes_single_slot S t hs0 hs1 hv hn, if_pos hs1]
  · rw [updateRoutes_double_slot S t hs0 hs1 hv (hw hs1) hn, if_neg hs1]

theorem sized_applyTask {inst : Instance} {S : Solution} (t : Task) (h : Sized inst S) :
    Sized inst (applyTask S t) := by
  obtain ⟨h1, h2, h3, h4, h5⟩ := h
  unfold applyTask
  split <;> exact ⟨by simp [h1], by simp [h2], by simp [h3], by simp [h4], by simp [h5]⟩

theorem sized_init (inst : Instance) : Sized inst (init inst) := by
  simp [Sized, init]

theorem vehicleOk_of_sized {inst : Instance} {S : Solution} (h : Sized inst S) (v : Int) :
    vehicleOk S v ↔ 0 ≤ v ∧ v < (inst.numVehicles : Int) := by
  unfold vehicleOk
  rw [inBounds_of_length h.1, inBounds_of_length h.2.1, inBounds_of_length h.2.2.1]
  tauto

theorem nodeOk_of_sized {inst : Instance} {S : Solution} (h : Sized inst S) (i : Int) :
    nodeOk S i ↔ 0 ≤ i ∧ i < (inst.numNodes : Int) := by
  unfold nodeOk
  rw [inBounds_of_length h.2.2.2.1, inBounds_of_length h.2.2.2.2]
  tauto

theorem evalPre_of_fits {inst : Instance} {S : Solution} {p : Task} (hS : Sized inst S)
    (hp : TaskFits inst p) : evalPre inst S p := by
  obtain ⟨hv0, hn, hs0, hsingle, hdouble, hprec⟩ := hp
  unfold evalPre
  refine ⟨(inBounds_of_length hS.2.2.1).2 hv0, (inBounds_of_length hS.2.1).2 hv0, hs0, ?_⟩
  cases hty : inst.nodeSvcType p.node
  · exact hsingle hty
  · obtain ⟨hv1, hs1⟩ := hdouble (by simp [hty])
    exact ⟨(inBounds_of_length hS.2.2.1).2 hv1, (inBounds_of_length hS.2.1).2 hv1, hs1⟩
  · obtain ⟨hv1, hs1⟩ := hdouble (by simp [hty])
    exact ⟨(inBounds_of_length hS.2.2.1).2 hv1, (inBounds_of_length hS.2.1).2 hv1, hs1,
      hprec hty⟩

/-- On a state of the instance a fitting task is evaluated and committed, and the
result is the explicit state `applyTask` for the evaluated task. -/
theorem evalCommit_of_fits {inst : Instance} (COEFS : Fin 3 → ℚ) {S : Solution} {p : Task}
    (hS : Sized inst S) (hp : TaskFits inst p) :
    ∃ (r : Task) (c : ℚ), findInsertionCost inst COEFS S p = Except.ok (r, c) ∧
      updateRoutes S r = Except.ok (applyTask S r) ∧
      evalCommit inst COEFS S p = Except.ok (applyTask S r) ∧
      r.node = p.node ∧ r.vehi = p.vehi ∧ r.skills = p.skills := by
  obtain ⟨r, c, hf, -, hn, hv, hs, -⟩ := findInsertionCost_of_evalPre COEFS (evalPre_of_fits hS hp)
  obtain ⟨hv0, hnode, hs0, hsingle, hdouble, hprec⟩ := hp
  have hup : updateRoutes S r = Except.ok (applyTask S r) := by
    apply updateRoutes_of_pre
    · rw [hs]; exact hs0
    · rw [hv]; exact (vehicleOk_of_sized hS _).2 hv0
    · rw [hn]; exact (nodeOk_of_sized hS _).2 hnode
    · intro h2
      rw [hs] at h2
      rw [hv]
      have hty : inst.nodeSvcType p.node ≠ SvcType.SINGLE := fun h => h2 (hsingle h)
      exact (vehicleOk_of_sized hS _).2 (hdouble hty).1
  refine ⟨r, c, hf, hup, ?_, hn, hv, hs⟩
  simp only [evalCommit, hf, ok_bind, hup]

/-- A task that was evaluated and committed on a state of the instance fits. -/
theorem fits_of_evalCommit {inst : Instance} {COEFS : Fin 3 → ℚ} {S S' : Solution} {p : Task}
    (hS : Sized inst S) (h : evalCommit inst COEFS S p = Except.ok S') :
    TaskFits inst p ∧ Sized inst S' := by
  simp only [evalCommit, bind_eq_ok] at h
  obtain ⟨res, hf, hu⟩ := h
  have hpre := findInsertionCost_ok_evalPre hf
  obtain ⟨r, c, hf', -, hn, hv, hs, -⟩ := findInsertionCost_of_evalPre COEFS hpre
  rw [hf] at hf'
  injection hf' with hf'
  subst hf'
  obtain ⟨hs0, hvok, hnok, hw⟩ := updateRoutes_ok_inv hu
  simp only [hn, hv, hs] at hs0 hvok hnok hw
  have hS' : Sized inst S' := by
    rw [updateRoutes_eq_applyTask hu]
    exact sized_applyTask _ hS
  refine ⟨⟨(vehicleOk_of_sized hS _).1 hvok, (nodeOk_of_sized hS _).1 hnok, hs0, ?_, ?_, ?_⟩, hS'⟩
  · intro hty
    unfold evalPre at hpre
    rw [hty] at hpre
    exact hpre.2.2.2
  · intro hty
    unfold evalPre at hpre
    cases hty' : inst.nodeSvcType p.node
    · exact absurd hty' hty
    · rw [hty'] at hpre
      exact ⟨(vehicleOk_of_sized hS _).1 (hw hpre.2.2.2.2.2), hpre.2.2.2.2.2⟩
    · rw [hty'] at hpre
      exact ⟨(vehicleOk_of_sized hS _).1 (hw hpre.2.2.2.2.2.1), hpre.2.2.2.2.2.1⟩
  · intro hty
    unfold evalPre at hpre
    rw [hty] at hpre
    exact hpre.2.2.2.2.2.2

end Solution

namespace Solution

/-! ## States built from a list of tasks -/

theorem build_nil (inst : Instance) (COEFS : Fin 3 → ℚ) (S : Solution) :
    build inst COEFS [] S = Except.ok S := rfl

theorem build_cons (inst : Instance) (COEFS : Fin 3 → ℚ) (p : Task) (ps : List Task)
    (S : Solution) :
    build inst COEFS (p :: ps) S = (evalCommit inst COEFS S p >>= build inst COEFS ps) := by
  simp only [build, List.foldlM_cons]
  rfl

theorem build_append (inst : Instance) (COEFS : Fin 3 → ℚ) (ps qs : List Task) (S : Solution) :
    build inst COEFS (ps ++ qs) S = (build inst COEFS ps S >>= build inst COEFS qs) := by
  simp only [build, List.foldlM_append]
  rfl

/-- A completed build on a state of the instance uses fitting tasks only and ends
in a state of the instance. -/
theorem build_fits {inst : Instance} {COEFS : Fin 3 → ℚ} (ps : List Task) :
    ∀ {S S' : Solution}, Sized inst S → build inst COEFS ps S = Except.ok S' →
      (∀ p ∈ ps, TaskFits inst p) ∧ Sized inst S' := by
  induction ps with
  | nil =>
    intro S S' hS h
    rw [build_nil] at h
    injection h with h
    subst h
    exact ⟨by simp, hS⟩
  | cons p ps ih =>
    intro S S' hS h
    rw [build_cons, bind_eq_ok] at h
    obtain ⟨S1, h1, h2⟩ := h
    obtain ⟨hfit, hS1⟩ := fits_of_evalCommit hS h1
    obtain ⟨hall, hS'⟩ := ih hS1 h2
    refine ⟨fun q hq => ?_, hS'⟩
    rcases List.mem_cons.1 hq with rfl | hq
    · exact hfit
    · exact hall q hq

theorem serves_iff {p : Task} {v : Int} :
    serves p v = true ↔ p.vehi.1 = v ∨ (p.skills.2 ≠ -1 ∧ p.vehi.2 = v) := by
  simp [serves]

theorem serves_congr {p r : Task} (hv : r.vehi = p.vehi) (hs : r.skills = p.skills) (v : Int) :
    serves r v = serves p v := by
  simp [serves, hv, hs]

theorem stopOf_congr {p r : Task} (hn : r.node = p.node) (hv : r.vehi = p.vehi)
    (hs : r.skills = p.skills) (v : Int) : stopOf r v = stopOf p v := by
  simp [stopOf, hn, hv, hs]

/-- The route of vehicle `k` after a commit. -/
theorem applyTask_routes (S : Solution) (t : Task) (k : Nat) (h0 : 0 ≤ t.vehi.1)
    (h1 : t.skills.2 ≠ -1 → 0 ≤ t.vehi.2 ∧ t.vehi.1 ≠ t.vehi.2) :
    (applyTask S t).routes[k]? =
      (S.routes[k]?).map (fun r => r ++ (if serves t k then [stopOf t k] else [])) := by
  unfold applyTask
  by_cases hs1 : t.skills.2 = -1
  · rw [if_pos hs1]
    show (List.modify _ _ _)[k]? = _
    rw [List.getElem?_modify]
    by_cases hk : t.vehi.1 = (k : Int)
    · have hk' : t.vehi.1.toNat = k := by omega
      cases S.routes[k]? <;> simp [serves, stopOf, hk, hk']
    · have hk' : t.vehi.1.toNat ≠ k := by omega
      cases S.routes[k]? <;> simp [serves, hk, hk', hs1]
  · rw [if_neg hs1]
    obtain ⟨h1', hne⟩ := h1 hs1
    show (List.modify _ _ (List.modify _ _ _))[k]? = _
    rw [List.getElem?_modify, List.getElem?_modify]
    by_cases hk : t.vehi.1 = (k : Int)
    · have hk' : t.vehi.1.toNat = k := by omega
      have hk2 : t.vehi.2 ≠ (k : Int) := fun h => hne (hk.trans h.symm)
      have hk2' : t.vehi.2.toNat ≠ k := by omega
      cases S.routes[k]? <;> simp [serves, stopOf, hk, hk', hk2, hk2']
    · have hk' : t.vehi.1.toNat ≠ k := by omega
      by_cases hk2 : t.vehi.2 = (k : Int)
      · have hk2' : t.vehi.2.toNat = k := by omega
        cases S.routes[k]? <;> simp [serves, stopOf, hk, hk', hk2, hk2', hs1]
      · have hk2' : t.vehi.2.toNat ≠ k := by omega
        cases S.routes[k]? <;> simp [serves, hk, hk', hk2, hk2', hs1]

theorem legs_cons (v : Int) (p : Task) (ps : List Task) :
    legs v (p :: ps) = if serves p v then p :: legs v ps else legs v ps := by
  simp only [legs, List.filter_cons]

theorem legs_append (v : Int) (ps qs : List Task) :
    legs v (ps ++ qs) = legs v ps ++ legs v qs := by
  simp only [legs, List.filter_append]

theorem stopsFor_cons (v : Int) (p : Task) (ps : List Task) :
    stopsFor v (p :: ps) = (if serves p v then [stopOf p v] else []) ++ stopsFor v ps := by
  unfold stopsFor
  rw [legs_cons]
  split <;> simp

/-- The routes after a build: every route has grown by the stops of its vehicle. -/
theorem build_routes {inst : Instance} {COEFS : Fin 3 → ℚ} (ps : List Task) :
    ∀ {S S' : Solution}, Sized inst S → build inst COEFS ps S = Except.ok S' →
      (∀ p ∈ ps, Distinct p) →
      ∀ (k : Nat) (r : Route), S.routes[k]? = some r →
        S'.routes[k]? = some (r ++ stopsFor k ps) := by
  induction ps with
  | nil =>
    intro S S' _ h _ k r hr
    rw [build_nil] at h
    injection h with h
    subst h
    simp [stopsFor, legs, hr]
  | cons p ps ih =>
    intro S S' hS h hd k r hr
    rw [build_cons, bind_eq_ok] at h
    obtain ⟨S1, h1, h2⟩ := h
    obtain ⟨hfit, hS1⟩ := fits_of_evalCommit hS h1
    obtain ⟨e, c, -, -, hec, hn, hv, hs⟩ := evalCommit_of_fits COEFS hS hfit
    rw [h1] at hec
    injection hec with hec
    have hdp := hd p (List.mem_cons_self _ _)
    have hr1 : S1.routes[k]? = some (r ++ (if serves p k then [stopOf p k] else [])) := by
      rw [hec, applyTask_routes S e k (by rw [hv]; exact hfit.1.1), hr]
      · simp [serves_congr hv hs, stopOf_congr hn hv hs]
      · intro h2
        rw [hs] at h2
        rw [hv]
        have hty : inst.nodeSvcType p.node ≠ SvcType.SINGLE :=
          fun h => h2 (hfit.2.2.2.1 h)
        exact ⟨(hfit.2.2.2.2.1 hty).1.1, hdp h2⟩
    rw [ih hS1 h2 (fun q hq => hd q (List.mem_cons_of_mem _ hq)) k _ hr1, stopsFor_cons,
      List.append_assoc]

end Solution

namespace Solution

/-! ## Reading back what `writeTxt` wrote -/

theorem modify_modify {α : Type} (l : List α) (f g : α → α) (i : Nat) :
    (l.modify f i).modify g i = l.modify (fun x => g (f x)) i := by
  apply List.ext_getElem?
  intro m
  simp only [List.getElem?_modify]
  cases l[m]? with
  | none => rfl
  | some a => by_cases h : i = m <;> simp [h]

theorem modify_same {α : Type} (l : List α) (f : α → α) (i : Nat) (hf : ∀ x, f x = x) :
    l.modify f i = l := by
  apply List.ext_getElem?
  intro m
  simp only [List.getElem?_modify]
  cases l[m]? with
  | none => rfl
  | some a => by_cases h : i = m <;> simp [h, hf]

theorem modify_length_append {α : Type} (done : List α) (x : α) (rest : List α) (f : α → α) :
    (done ++ x :: rest).modify f done.length = done ++ f x :: rest := by
  induction done with
  | nil => simp
  | cons a done ih => simp [ih]

/-- The file of a Solution: what `writeTxt` writes after the header lines. -/
theorem writeTxt_eq (inst : Instance) (S : Solution)
    (hlen : S.routes.length = inst.numVehicles) :
    writeTxt inst S = Except.ok ((S.routes.enum).flatMap (fun x => fileBlock x.1 x.2)) := by
  have h := writeTxt_loop S inst.numVehicles (le_of_eq hlen.symm)
  rw [← hlen, List.take_length] at h
  unfold writeTxt
  rw [← hlen]
  exact h

theorem readStops_zero (vId : Int) (tokens : List Int) (routes : List Route) :
    readStops vId 0 tokens routes = Except.ok (routes, tokens) := rfl

theorem readStops_succ (vId : Int) (n : Nat) (i s : Int) (tokens : List Int)
    (routes : List Route) :
    readStops vId (n + 1) (i :: s :: tokens) routes =
      (vecModify routes vId (fun r => r ++ [(i, s)]) >>= fun routes =>
        readStops vId n tokens routes) := rfl

theorem readBlocks_succ (fuel : Nat) (vId len : Int) (tokens : List Int) (routes : List Route) :
    readBlocks (fuel + 1) (vId :: len :: tokens) routes =
      (readStops vId len.toNat tokens routes >>= fun res => readBlocks fuel res.2 res.1) := rfl

theorem readBlocks_nil (fuel : Nat) (routes : List Route) :
    readBlocks fuel [] routes = Except.ok routes := by
  cases fuel <;> rfl

theorem stopTokens_cons (p : Int × Int) (r : Route) :
    stopTokens (p :: r) = p.1 :: p.2 :: stopTokens r := rfl

theorem fileBlock_flatten (k : Nat) (r : Route) :
    (fileBlock k r).flatten = (k : Int) :: (r.length : Int) :: stopTokens r := rfl

/-- Reading the stops of one block appends them to the route of the vehicle. -/
theorem readStops_block (vId : Int) (r : Route) :
    ∀ (routes : List Route) (rest : List Int), inBounds routes vId →
      readStops vId r.length (stopTokens r ++ rest) routes =
        Except.ok (routes.modify (fun x => x ++ r) vId.toNat, rest) := by
  induction r with
  | nil =>
    intro routes rest _
    rw [modify_same _ _ _ (fun x => List.append_nil x)]
    rfl
  | cons p r ih =>
    intro routes rest hb
    rw [stopTokens_cons, List.length_cons, List.cons_append, List.cons_append, readStops_succ,
      vecModify_of_inBounds _ hb, ok_bind, ih _ rest ((inBounds_modify _ _).2 hb), modify_modify]
    simp

/-- Reading the blocks of the routes `todo` of the vehicles `k, k+1, ...` fills in
these routes. -/
theorem readBlocks_blocks (todo : List Route) :
    ∀ (k fuel : Nat) (done : List Route), done.length = k → todo.length ≤ fuel →
      readBlocks fuel ((todo.enumFrom k).flatMap (fun x => fileBlock x.1 x.2)).flatten
        (done ++ List.replicate todo.length []) = Except.ok (done ++ todo) := by
  induction todo with
  | nil =>
    intro k fuel done _ _
    simp [readBlocks_nil]
  | cons r todo ih =>
    intro k fuel done hk hfuel
    cases fuel with
    | zero => simp at hfuel
    | succ fuel =>
      have hb : inBounds (done ++ ([] : Route) :: List.replicate todo.length ([] : Route))
          (k : Int) := by
        refine ⟨Int.natCast_nonneg k, ?_⟩
        simp [hk]
      have hmod : (done ++ ([] : Route) :: List.replicate todo.length ([] : Route)).modify
          (fun x => x ++ r) (k : Int).toNat = (done ++ [r]) ++ List.replicate todo.length [] := by
        rw [Int.toNat_ofNat, ← hk, modify_length_append]
        simp
      rw [List.enumFrom_cons, List.flatMap_cons, List.flatten_append, fileBlock_flatten,
        List.length_cons, List.replicate_succ, List.cons_append, List.cons_append,
        readBlocks_succ, Int.toNat_ofNat, readStops_block _ _ _ _ hb, ok_bind, hmod,
        ih (k + 1) fuel (done ++ [r]) (by simp [hk]) (by simpa using hfuel)]
      simp

/-- Reading the file written for a state with one route per vehicle gives back
its routes. -/
theorem readBlocks_written (inst : Instance) (S : Solution)
    (hlen : S.routes.length = inst.numVehicles) (fuel : Nat) (hfuel : inst.numVehicles ≤ fuel) :
    readBlocks fuel ((S.routes.enum).flatMap (fun x => fileBlock x.1 x.2)).flatten
      (List.replicate inst.numVehicles []) = Except.ok S.routes := by
  have := readBlocks_blocks S.routes 0 fuel [] rfl (by rw [hlen]; exact hfuel)
  rw [hlen] at this
  simpa [List.enum] using this

end Solution

namespace Solution

/-! ## The plan seen from one vehicle -/

theorem plan_nodup {inst : Instance} {plan : List Task} (hP : PlanFacts inst plan) :
    plan.Nodup :=
  List.Nodup.of_map _ hP.nodes

theorem plan_node_inj {inst : Instance} {plan : List Task} (hP : PlanFacts inst plan)
    {p q : Task} (hp : p ∈ plan) (hq : q ∈ plan) (h : p.node = q.node) : p = q :=
  List.inj_on_of_nodup_map hP.nodes hp hq h

theorem mem_legs {v : Int} {p : Task} {tasks : List Task} :
    p ∈ legs v tasks ↔ p ∈ tasks ∧ serves p v = true := by
  simp [legs, List.mem_filter]

theorem legs_nodup {tasks : List Task} (h : tasks.Nodup) (v : Int) : (legs v tasks).Nodup :=
  List.Nodup.filter _ h

theorem legs_append_singleton (v : Int) (done : List Task) (p : Task) :
    legs v (done ++ [p]) = if serves p v then legs v done ++ [p] else legs v done := by
  rw [legs_append]
  simp only [legs, List.filter_cons, List.filter_nil]
  split <;> simp

theorem nextLeg_mem {plan done : List Task} {v : Int} {p : Task}
    (h : nextLeg plan done v = some p) : p ∈ plan ∧ serves p v = true := by
  unfold nextLeg at h
  obtain ⟨hlt, hget⟩ := List.getElem?_eq_some.1 h
  rw [← hget]
  exact mem_legs.1 (List.getElem_mem hlt)

/-- The task that comes next on a vehicle is not yet committed. -/
theorem nextLeg_not_done {plan done : List Task} {v : Int} {p : Task}
    (hnd : plan.Nodup) (hpre : legs v done <+: legs v plan)
    (h : nextLeg plan done v = some p) : p ∉ done := by
  intro hp
  have hserves := (nextLeg_mem h).2
  have hmem : p ∈ legs v done := mem_legs.2 ⟨hp, hserves⟩
  obtain ⟨n, hn, hpn⟩ := List.mem_iff_getElem.1 hmem
  unfold nextLeg at h
  obtain ⟨hlt, hget⟩ := List.getElem?_eq_some.1 h
  have hn' : n < (legs v plan).length := lt_of_lt_of_le hn hpre.length_le
  have h1 : (legs v plan)[n] = p := by
    rw [← hpre.getElem hn]
    exact hpn
  have := (List.Nodup.getElem_inj_iff (legs_nodup hnd v)).1 (h1.trans hget.symm)
  omega

/-- Committing the next task of a vehicle keeps its committed tasks a prefix. -/
theorem legs_prefix_commit {plan done : List Task} {v : Int} {p : Task}
    (hpre : legs v done <+: legs v plan) (h : serves p v = true → nextLeg plan done v = some p) :
    legs v (done ++ [p]) <+: legs v plan := by
  rw [legs_append_singleton]
  by_cases hs : serves p v = true
  · rw [if_pos hs]
    have hn := h hs
    unfold nextLeg at hn
    obtain ⟨hlt, hget⟩ := List.getElem?_eq_some.1 hn
    rw [List.prefix_iff_eq_take] at hpre ⊢
    rw [List.length_append, List.length_singleton, List.take_succ,
      List.getElem?_eq_getElem hlt, hget, ← hpre]
    rfl
  · rw [if_neg hs]
    exact hpre

theorem legs_length_commit (v : Int) (done : List Task) (p : Task) :
    (legs v (done ++ [p])).length = (legs v done).length + (if serves p v then 1 else 0) := by
  rw [legs_append_singleton]
  split <;> simp

/-- The stop under the read-head of vehicle `v`. -/
theorem fileRoute_head (plan done : List Task) (v : Int)
    (hpre : legs v done <+: legs v plan) :
    (fileRoute plan v)[(legs v done).length + 1]? =
      some (match nextLeg plan done v with
        | some p => stopOf p v
        | none => (0, 0)) := by
  unfold fileRoute nextLeg stopsFor
  rw [List.getElem?_cons_succ]
  have hle := hpre.length_le
  by_cases hlt : (legs v done).length < (legs v plan).length
  · rw [List.getElem?_append_left (by simpa using hlt), List.getElem?_map,
      List.getElem?_eq_getElem hlt]
    rfl
  · have heq : (legs v done).length = (legs v plan).length := by omega
    rw [List.getElem?_append_right (by simp [heq]), heq,
      List.getElem?_eq_none (le_refl _)]
    simp

theorem fileRoute_length (plan : List Task) (v : Int) :
    (fileRoute plan v).length = (legs v plan).length + 2 := by
  simp [fileRoute, stopsFor]

end Solution

namespace Solution

/-! ## The commit depends on few fields of the task -/

theorem applyTask_congr (S : Solution) {r1 r2 : Task}
    (hn : r2.node = r1.node) (hs : r2.skills = r1.skills) (hv : r2.vehi.1 = r1.vehi.1)
    (hst : r2.startTime.1 = r1.startTime.1) (hlt : r2.leaveTime.1 = r1.leaveTime.1)
    (hd : r2.incDist = r1.incDist) (hit : r2.incTard = r1.incTard)
    (hct : r2.currTmax = r1.currTmax) (hcc : r2.cachedCost = r1.cachedCost)
    (h2 : r1.skills.2 ≠ -1 →
      r2.vehi.2 = r1.vehi.2 ∧ r2.startTime.2 = r1.startTime.2 ∧
      r2.leaveTime.2 = r1.leaveTime.2) :
    applyTask S r2 = applyTask S r1 := by
  unfold applyTask
  by_cases h : r1.skills.2 = -1
  · rw [if_pos h, if_pos (by rw [hs]; exact h), hn, hs, hv, hst, hlt, hd, hit, hct, hcc]
  · obtain ⟨hv2, hst2, hlt2⟩ := h2 h
    rw [if_neg h, if_neg (by rw [hs]; exact h), hn, hs, hv, hst, hlt, hd, hit, hct, hcc, hv2,
      hst2, hlt2]

theorem forget_applyTask (S : Solution) (t : Task) :
    forget (applyTask S t) = applyTask (forget S) t := by
  unfold applyTask
  split <;> rfl

/-- Two tasks for the same node with the same skills and the same vehicles in the
slots in use are evaluated to tasks with the same commit. -/
theorem evaluation_congr {inst : Instance} {COEFS : Fin 3 → ℚ} {S : Solution} {t1 t2 : Task}
    (hn : t2.node = t1.node) (hs : t2.skills = t1.skills) (hv : t2.vehi.1 = t1.vehi.1)
    (hv2 : t1.skills.2 ≠ -1 → t2.vehi.2 = t1.vehi.2)
    {r1 : Task} {c1 : ℚ} (h1 : findInsertionCost inst COEFS S t1 = Except.ok (r1, c1)) :
    ∃ (r2 : Task) (c2 : ℚ), findInsertionCost inst COEFS S t2 = Except.ok (r2, c2) ∧
      r2.node = t2.node ∧ r2.vehi = t2.vehi ∧ r2.skills = t2.skills ∧
      ∀ S' : Solution, applyTask S' r2 = applyTask S' r1 := by
  have hpre := findInsertionCost_ok_evalPre h1
  unfold evalPre at hpre
  obtain ⟨hl0, hp0, hs0, hpre⟩ := hpre
  obtain ⟨l0, hl0⟩ := inBounds_vecAt hl0
  obtain ⟨p0, hp0⟩ := inBounds_vecAt hp0
  cases hty : inst.nodeSvcType t1.node
  · rw [hty] at hpre
    obtain ⟨e1, d1, hf1, -, hn1, hv1, hsk1, hst1, hlt1, hd1, hit1, hct1, hcost1⟩ :=
      single_evaluation_eq inst COEFS S t1 l0 p0 hty hl0 hp0 hs0 hpre
    rw [h1] at hf1
    injection hf1 with hf1
    injection hf1 with hr hcc
    subst hr hcc
    obtain ⟨e2, d2, hf2, -, hn2, hvv2, hsk2, hst2, hlt2, hd2, hit2, hct2, hcost2⟩ :=
      single_evaluation_eq inst COEFS S t2 l0 p0 (by rw [hn]; exact hty)
        (by rw [hv]; exact hl0) (by rw [hv]; exact hp0) (by rw [hs]; exact hs0)
        (by rw [hs]; exact hpre)
    refine ⟨e2, d2, hf2, hn2, hvv2, hsk2, fun S' => ?_⟩
    have hdd : e2.incDist = r1.incDist := by rw [hd2, hd1, hn]
    have hii : e2.incTard = r1.incTard := by rw [hit2, hit1, hn]
    have hcc : e2.currTmax = r1.currTmax := by rw [hct2, hct1, hn]
    apply applyTask_congr
    · rw [hn2, hn1, hn]
    · rw [hsk2, hsk1, hs]
    · rw [hvv2, hv1, hv]
    · rw [hst2, hst1, hn]
    · rw [hlt2, hlt1, hn, hs]
    · exact hdd
    · exact hii
    · exact hcc
    · rw [hcost2, hcost1, hdd, hii, hcc]
    · intro h
      rw [hsk1] at h
      exact absurd hpre h
  · rw [hty] at hpre
    obtain ⟨hl1, hp1, hs1⟩ := hpre
    obtain ⟨l1, hl1⟩ := inBounds_vecAt hl1
    obtain ⟨p1, hp1⟩ := inBounds_vecAt hp1
    have hvv := hv2 hs1
    obtain ⟨e1, d1, hf1, -, hn1, hv1, hsk1, hst1, hlt1, hd1, hit1, hct1, hcost1⟩ :=
      sim_evaluation_eq inst COEFS S t1 l0 l1 p0 p1 hty hl0 hp0 hl1 hp1 hs0 hs1
    rw [h1] at hf1
    injection hf1 with hf1
    injection hf1 with hr hcc
    subst hr hcc
    obtain ⟨e2, d2, hf2, -, hn2, hvv2, hsk2, hst2, hlt2, hd2, hit2, hct2, hcost2⟩ :=
      sim_evaluation_eq inst COEFS S t2 l0 l1 p0 p1 (by rw [hn]; exact hty)
        (by rw [hv]; exact hl0) (by rw [hv]; exact hp0) (by rw [hvv]; exact hl1)
        (by rw [hvv]; exact hp1) (by rw [hs]; exact hs0) (by rw [hs]; exact hs1)
    refine ⟨e2, d2, hf2, hn2, hvv2, hsk2, fun S' => ?_⟩
    have hss : e2.startTime = r1.startTime := by rw [hst2, hst1, hn]
    have hdd : e2.incDist = r1.incDist := by rw [hd2, hd1, hn]
    have hii : e2.incTard = r1.incTard := by rw [hit2, hit1, hss, hn]
    have hcc : e2.currTmax = r1.currTmax := by rw [hct2, hct1, hss, hn]
    have hll : e2.leaveTime = r1.leaveTime := by rw [hlt2, hlt1, hss, hn, hs]
    apply applyTask_congr
    · rw [hn2, hn1, hn]
    · rw [hsk2, hsk1, hs]
    · rw [hvv2, hv1, hv]
    · rw [hss]
    · rw [hll]
    · exact hdd
    · exact hii
    · exact hcc
    · rw [hcost2, hcost1, hdd, hii, hcc]
    · intro _
      exact ⟨by rw [hvv2, hv1, hvv], by rw [hss], by rw [hll]⟩
  · rw [hty] at hpre
    obtain ⟨hl1, hp1, hs1, hsep⟩ := hpre
    obtain ⟨l1, hl1⟩ := inBounds_vecAt hl1
    obtain ⟨p1, hp1⟩ := inBounds_vecAt hp1
    have hvv := hv2 hs1
    obtain ⟨e1, d1, hf1, -, hn1, hv1, hsk1, hst1, hlt1, hd1, hit1, hct1, hcost1⟩ :=
      precedence_evaluation_eq inst COEFS S t1 l0 l1 p0 p1 hty hl0 hp0 hl1 hp1 hs0 hs1 hsep
    rw [h1] at hf1
    injection hf1 with hf1
    injection hf1 with hr hcc
    subst hr hcc
    obtain ⟨e2, d2, hf2, -, hn2, hvv2, hsk2, hst2, hlt2, hd2, hit2, hct2, hcost2⟩ :=
      precedence_evaluation_eq inst COEFS S t2 l0 l1 p0 p1 (by rw [hn]; exact hty)
        (by rw [hv]; exact hl0) (by rw [hv]; exact hp0) (by rw [hvv]; exact hl1)
        (by rw [hvv]; exact hp1) (by rw [hs]; exact hs0) (by rw [hs]; exact hs1)
        (by rw [hn]; exact hsep)
    refine ⟨e2, d2, hf2, hn2, hvv2, hsk2, fun S' => ?_⟩
    have hss : e2.startTime = r1.startTime := by rw [hst2, hst1, hn]
    have hdd : e2.incDist = r1.incDist := by rw [hd2, hd1, hn]
    have hii : e2.incTard = r1.incTard := by rw [hit2, hit1, hss, hn]
    have hcc : e2.currTmax = r1.currTmax := by rw [hct2, hct1, hss, hn]
    have hll : e2.leaveTime = r1.leaveTime := by rw [hlt2, hlt1, hss, hn, hs]
    apply applyTask_congr
    · rw [hn2, hn1, hn]
    · rw [hsk2, hsk1, hs]
    · rw [hvv2, hv1, hv]
    · rw [hss]
    · rw [hll]
    · exact hdd
    · exact hii
    · exact hcc
    · rw [hcost2, hcost1, hdd, hii, hcc]
    · intro _
      exact ⟨by rw [hvv2, hv1, hvv], by rw [hss], by rw [hll]⟩

theorem taskFits_congr {inst : Instance} {p t : Task} (hn : t.node = p.node)
    (hs : t.skills = p.skills) (hv : t.vehi.1 = p.vehi.1)
    (hv2 : p.skills.2 ≠ -1 → t.vehi.2 = p.vehi.2) (hp : TaskFits inst p) : TaskFits inst t := by
  obtain ⟨hv0, hnode, hs0, hsingle, hdouble, hprec⟩ := hp
  refine ⟨by rw [hv]; exact hv0, by rw [hn]; exact hnode, by rw [hs]; exact hs0, ?_, ?_, ?_⟩
  · intro hty
    rw [hn] at hty
    rw [hs]
    exact hsingle hty
  · intro hty
    rw [hn] at hty
    obtain ⟨h1, h2⟩ := hdouble hty
    rw [hs, hv2 h2]
    exact ⟨h1, h2⟩
  · intro hty
    rw [hn] at hty ⊢
    exact hprec hty

end Solution

namespace Solution

/-! ## The invariant of the replay -/

theorem sized_of_inv {inst : Instance} {COEFS : Fin 3 → ℚ} {plan done : List Task}
    {st : Replay} (h : ReplayInv inst COEFS plan st done) : Sized inst st.sol :=
  sized_forget.1 (build_fits done (sized_init inst) h.built).2

theorem nextLeg_lt {plan done : List Task} {v : Int} {p : Task}
    (h : nextLeg plan done v = some p) : (legs v done).length < (legs v plan).length := by
  unfold nextLeg at h
  exact (List.getElem?_eq_some.1 h).1

theorem nextLeg_commit_other {plan done : List Task} {w : Int} {p q : Task}
    (hq : nextLeg plan done w = some q) (hne : q ≠ p)
    (hnext : serves p w = true → nextLeg plan done w = some p) :
    nextLeg plan (done ++ [p]) w = some q := by
  have hs : ¬ serves p w = true := by
    intro hs
    have := hnext hs
    rw [hq] at this
    injection this with this
    exact hne this
  unfold nextLeg at hq ⊢
  rw [legs_append_singleton, if_neg hs]
  exact hq

theorem slotsOk_commit_other {plan done : List Task} {p q e : Task} (hne : q ≠ p)
    (hnext : ∀ v : Int, serves p v = true → nextLeg plan done v = some p)
    (h : SlotsOk plan done q e) : SlotsOk plan (done ++ [p]) q e := by
  obtain ⟨h1, h2, h3, h4⟩ := h
  refine ⟨?_, ?_, h3, h4⟩
  · rcases h1 with h1 | ⟨h1, h1'⟩
    · exact Or.inl h1
    · exact Or.inr ⟨h1, nextLeg_commit_other h1' hne (hnext _)⟩
  · rcases h2 with h2 | ⟨h2, h2', h2''⟩
    · exact Or.inl h2
    · exact Or.inr ⟨h2, h2', nextLeg_commit_other h2'' hne (hnext _)⟩

theorem entry_index_ne {inst : Instance} {plan : List Task} (hP : PlanFacts inst plan)
    {p q : Task} (hp : p ∈ plan) (hq : q ∈ plan) (hne : q ≠ p) : p.node - 1 ≠ q.node - 1 := by
  intro h
  have : p.node = q.node := by omega
  exact hne (plan_node_inj hP hq hp this.symm)

/-- The commit of a task that comes next on each of its vehicles keeps the
invariant. -/
theorem replayInv_commit {inst : Instance} {COEFS : Fin 3 → ℚ} {plan done : List Task}
    {st st' : Replay} (hP : PlanFacts inst plan) (h : ReplayInv inst COEFS plan st done)
    {p : Task} (hp : p ∈ plan) (hpd : p ∉ done)
    (hnext : ∀ v : Int, serves p v = true → nextLeg plan done v = some p)
    (hbuilt : build inst COEFS (done ++ [p]) (init inst) = Except.ok (forget st'.sol))
    (hord : st'.sol.taskOrder.length = done.length + 1)
    (e : Task) (htasks : st'.allTasks = st.allTasks.modify (fun _ => e) (p.node - 1).toNat)
    (hvlen : st'.vhead.length = inst.numVehicles)
    (hhead : ∀ v : Nat, v < inst.numVehicles →
      st'.vhead[v]? = some (((legs v done).length : Int) + 1 + (if serves p v then 1 else 0)))
    (hflag : st'.actFlag = st.actFlag) (hfin : st'.nFinish = st.nFinish) :
    ReplayInv inst COEFS plan st' (done ++ [p]) where
  sub := by
    intro q hq
    rcases List.mem_append.1 hq with hq | hq
    · exact h.sub q hq
    · rw [List.mem_singleton] at hq
      rw [hq]
      exact hp
  nodup := by
    rw [List.nodup_append]
    refine ⟨h.nodup, List.nodup_singleton p, ?_⟩
    intro a ha hb
    rw [List.mem_singleton] at hb
    rw [hb] at ha
    exact hpd ha
  pre := fun v hv => legs_prefix_commit (h.pre v hv) (hnext v)
  vlen := hvlen
  head := by
    intro v hv
    rw [hhead v hv, legs_length_commit]
    split <;> simp
  built := hbuilt
  order := by rw [hord]; simp
  tlen := by rw [htasks, List.length_modify]; exact h.tlen
  entry := by
    intro q hq hqd
    have hq1 : q ∉ done := fun hmem => hqd (List.mem_append_left _ hmem)
    have hne : q ≠ p := fun heq => hqd (by rw [heq]; simp)
    obtain ⟨eq, hat, hn, hs, hslots⟩ := h.entry q hq hq1
    refine ⟨eq, ?_, hn, hs, slotsOk_commit_other hne hnext hslots⟩
    rw [htasks]
    have hpos := hP.pos p hp
    exact vecAt_modify_other _ (by omega) (entry_index_ne hP hp hq hne) hat
  flen := by rw [hflag]; exact h.flen
  flag := by
    intro v hv
    rw [hflag]
    rcases h.flag v hv with h0 | ⟨h1, hlen⟩
    · exact Or.inl h0
    · refine Or.inr ⟨h1, ?_⟩
      rw [legs_length_commit]
      by_cases hs : serves p v = true
      · have := nextLeg_lt (hnext v hs)
        omega
      · simp [hs, hlen]
  count := by rw [hfin, hflag]; exact h.count

/-- Recording a vehicle in the entry of a task that is not yet committed keeps the
invariant. -/
theorem replayInv_setSlot {inst : Instance} {COEFS : Fin 3 → ℚ} {plan done : List Task}
    {st : Replay} (hP : PlanFacts inst plan) (h : ReplayInv inst COEFS plan st done)
    {p : Task} (hp : p ∈ plan) (hpd : p ∉ done) (e : Task) (hen : e.node = p.node)
    (hes : e.skills = p.skills) (hslots : SlotsOk plan done p e) :
    ReplayInv inst COEFS plan
      { st with allTasks := st.allTasks.modify (fun _ => e) (p.node - 1).toNat } done where
  sub := h.sub
  nodup := h.nodup
  pre := h.pre
  vlen := h.vlen
  head := h.head
  built := h.built
  order := h.order
  tlen := by
    show (List.modify _ _ _).length + 1 = _
    rw [List.length_modify]
    exact h.tlen
  entry := by
    intro q hq hqd
    by_cases hne : q = p
    · subst hne
      obtain ⟨e0, hat, -⟩ := h.entry q hq hqd
      exact ⟨e, vecAt_modify_self (fun _ => e) hat, hen, hes, hslots⟩
    · obtain ⟨eq, hat, hn, hs, hsl⟩ := h.entry q hq hqd
      have hpos := hP.pos p hp
      exact ⟨eq, vecAt_modify_other _ (by omega) (entry_index_ne hP hp hq hne) hat, hn, hs, hsl⟩
  flen := h.flen
  flag := h.flag
  count := h.count

/-- The invariant holds when the replay loop is entered. -/
theorem replayInv_start {inst : Instance} (COEFS : Fin 3 → ℚ) {plan tasks : List Task}
    (hP : PlanFacts inst plan) (hT : TaskListOk inst tasks)
    (hnum : ∀ p ∈ plan, p.node < (inst.numNodes : Int))
    (hsk : ∀ p ∈ plan, ∀ t, vecAt tasks (p.node - 1) t → p.skills = t.skills) :
    ReplayInv inst COEFS plan (replayStart inst tasks) [] where
  sub := by simp
  nodup := List.nodup_nil
  pre := fun v _ => by simp [legs]
  vlen := by simp [replayStart]
  head := by
    intro v hv
    simp [replayStart, legs, List.getElem?_replicate, hv]
  built := rfl
  order := rfl
  tlen := hT.1
  entry := by
    intro p hp _
    have hpos := hP.pos p hp
    have hlt := hnum p hp
    have hidx : (p.node - 1).toNat < tasks.length := by
      have := hT.1
      omega
    have hget : tasks[(p.node - 1).toNat]? = some tasks[(p.node - 1).toNat] :=
      List.getElem?_eq_getElem hidx
    have hat : vecAt tasks (p.node - 1) tasks[(p.node - 1).toNat] := ⟨by omega, hget⟩
    obtain ⟨hn, hv⟩ := hT.2 _ _ hget
    refine ⟨_, hat, ?_, (hsk p hp _ hat).symm, ?_⟩
    · rw [hn]
      omega
    · rw [SlotsOk, hv]
      exact ⟨Or.inl rfl, Or.inl rfl, Or.inl rfl, fun _ => rfl⟩
  flen := by simp [replayStart]
  flag := by
    intro v hv
    left
    simp [replayStart, List.getElem?_replicate, hv]
  count := by
    show (0 : Int) = _
    simp [replayStart, List.count_replicate]

end Solution

namespace Solution

/-! ## One pass of the replay for one vehicle -/

theorem count_modify_one (l : List Int) (v : Nat) (h : l[v]? = some 0) :
    (l.modify (fun _ => 1) v).count 1 = l.count 1 + 1 := by
  obtain ⟨hlt, hget⟩ := List.getElem?_eq_some.1 h
  have hsplit : l = l.take v ++ l[v] :: l.drop (v + 1) := by
    rw [← List.drop_eq_getElem_cons hlt, List.take_append_drop]
  have hlen : (l.take v).length = v := by
    rw [List.length_take]
    omega
  rw [hsplit, hget]
  conv_lhs => rw [← hlen]
  rw [List.length_take, Nat.min_eq_left (le_of_lt hlt)] at hlen
  have := modify_length_append (l.take v) (0 : Int) (l.drop (v + 1)) (fun _ => 1)
  rw [List.length_take, Nat.min_eq_left (le_of_lt hlt)] at this ⊢
  rw [this]
  simp [List.count_append, List.count_cons]
  omega

theorem vecAt_natCast {α : Type} {xs : List α} {v : Nat} {x : α} :
    vecAt xs (v : Int) x ↔ xs[v]? = some x := by
  unfold vecAt
  simp

/-- What the pass for vehicle `v` reads first: the read-head, the route and the
stop under the read-head. -/
theorem replay_reads {inst : Instance} {COEFS : Fin 3 → ℚ} {plan done : List Task}
    {st : Replay} {routes : List Route} (h : ReplayInv inst COEFS plan st done)
    (hR : ∀ v : Nat, v < inst.numVehicles → routes[v]? = some (fileRoute plan v))
    {v : Nat} (hv : v < inst.numVehicles) :
    vecGet st.vhead (v : Int) = Except.ok (((legs v done).length : Int) + 1) ∧
    vecGet routes (v : Int) = Except.ok (fileRoute plan v) ∧
    vecGet (fileRoute plan v) (((legs v done).length : Int) + 1) =
      Except.ok (match nextLeg plan done v with
        | some p => stopOf p v
        | none => (0, 0)) := by
  refine ⟨vecGet_eq_ok.2 (vecAt_natCast.2 (h.head v hv)),
    vecGet_eq_ok.2 (vecAt_natCast.2 (hR v hv)), vecGet_eq_ok.2 ⟨by omega, ?_⟩⟩
  have : (((legs (v : Int) done).length : Int) + 1).toNat = (legs (v : Int) done).length + 1 := by
    omega
  rw [this]
  exact fileRoute_head plan done v (h.pre v hv)

/-- The pass for a vehicle whose tasks are all committed: the read-head is on the
trailing depot stop and the vehicle is marked as finished. -/
theorem replayVehicle_depot {inst : Instance} {COEFS : Fin 3 → ℚ} {plan done : List Task}
    {st : Replay} {routes : List Route} (h : ReplayInv inst COEFS plan st done)
    (hR : ∀ v : Nat, v < inst.numVehicles → routes[v]? = some (fileRoute plan v))
    {v : Nat} (hv : v < inst.numVehicles) (hnone : nextLeg plan done v = none) :
    ∃ st', replayVehicle inst COEFS routes st v = Except.ok st' ∧
      ReplayInv inst COEFS plan st' done ∧ st'.actFlag[v]? = some 1 ∧
      st'.allTasks = st.allTasks ∧ st'.sol = st.sol ∧ st'.vhead = st.vhead ∧
      st.nFinish ≤ st'.nFinish ∧
      (st.actFlag[v]? = some 0 → st.nFinish < st'.nFinish) ∧
      (∀ w : Nat, st.actFlag[w]? = some 1 → st'.actFlag[w]? = some 1) := by
  obtain ⟨h1, h2, h3⟩ := replay_reads h hR hv
  rw [hnone] at h3
  have hlen : (legs (v : Int) done).length = (legs (v : Int) plan).length := by
    have hle := (h.pre v hv).length_le
    unfold nextLeg at hnone
    have := List.getElem?_eq_none_iff.1 hnone
    omega
  rcases h.flag v hv with h0 | ⟨hf1, -⟩
  · have hb : inBounds st.actFlag (v : Int) := vecAt_inBounds (vecAt_natCast.2 h0)
    refine ⟨{ st with nFinish := st.nFinish + 1,
                       actFlag := st.actFlag.modify (fun _ => 1) v }, ?_, ?_, ?_, rfl, rfl, rfl,
      ?_, ?_, ?_⟩
    · simp only [replayVehicle, h1, h2, h3, ok_bind, if_true, vecGet_eq_ok.2 (vecAt_natCast.2 h0),
        vecModify_of_inBounds _ hb, pure_eq_ok, Int.toNat_ofNat]
    · exact
        { sub := h.sub
          nodup := h.nodup
          pre := h.pre
          vlen := h.vlen
          head := h.head
          built := h.built
          order := h.order
          tlen := h.tlen
          entry := h.entry
          flen := by
            show (List.modify _ _ _).length = _
            rw [List.length_modify]
            exact h.flen
          flag := by
            intro w hw
            show (List.modify _ _ _)[w]? = _ ∨ ((List.modify _ _ _)[w]? = _ ∧ _)
            rw [List.getElem?_modify]
            by_cases hvw : v = w
            · subst hvw
              right
              exact ⟨by simp [h0], hlen⟩
            · rcases h.flag w hw with hw0 | ⟨hw1, hwl⟩
              · left
                simp [hvw, hw0]
              · right
                exact ⟨by simp [hvw, hw1], hwl⟩
          count := by
            show st.nFinish + 1 = (((List.modify _ _ _).count 1 : Nat) : Int)
            rw [count_modify_one _ _ h0, h.count]
            simp }
    · show (List.modify _ _ _)[v]? = _
      rw [List.getElem?_modify, h0]
      simp
    · show st.nFinish ≤ st.nFinish + 1
      omega
    · intro _
      show st.nFinish < st.nFinish + 1
      omega
    · intro w hw
      show (List.modify _ _ _)[w]? = _
      rw [List.getElem?_modify, hw]
      by_cases hvw : v = w <;> simp [hvw]
  · refine ⟨st, ?_, h, hf1, rfl, rfl, rfl, le_refl _, ?_, fun w hw => hw⟩
    · simp only [replayVehicle, h1, h2, h3, ok_bind, if_true,
        vecGet_eq_ok.2 (vecAt_natCast.2 hf1), pure_eq_ok]
      rfl
    · intro h0
      rw [hf1] at h0
      injection h0 with h0
      exact absurd h0 (by decide)

end Solution

namespace Solution

theorem stopOf_fst (p : Task) (v : Int) : (stopOf p v).1 = p.node := by
  unfold stopOf
  split <;> rfl

theorem applyTask_taskOrder (S : Solution) (t : Task) :
    (applyTask S t).taskOrder = S.taskOrder := by
  unfold applyTask
  split <;> rfl

theorem heads_bump {n : Nat} {vhead : List Int} {f : Nat → Int}
    (h : ∀ u : Nat, u < n → vhead[u]? = some (f u)) (a : Int) (ha : 0 ≤ a) :
    ∀ u : Nat, u < n →
      (vhead.modify (fun x => x + 1) a.toNat)[u]? = some (f u + (if a = (u : Int) then 1 else 0)) := by
  intro u hu
  rw [List.getElem?_modify, h u hu]
  by_cases hau : a = (u : Int)
  · have : a.toNat = u := by omega
    simp [hau, this]
  · have : a.toNat ≠ u := by omega
    simp [hau, this]

/-- The evaluation and commit made by the replay for a task that comes next on
each of its vehicles: the calls succeed and the invariant holds afterwards, for
any vector of read-heads advanced on the vehicles of the task. -/
theorem replay_commit {inst : Instance} {COEFS : Fin 3 → ℚ} {plan done : List Task}
    {st : Replay} (hP : PlanFacts inst plan) (h : ReplayInv inst COEFS plan st done)
    {p : Task} (hp : p ∈ plan) (hpd : p ∉ done)
    (hnext : ∀ v : Int, serves p v = true → nextLeg plan done v = some p)
    (t : Task) (hn : t.node = p.node) (hs : t.skills = p.skills) (hv : t.vehi.1 = p.vehi.1)
    (hv2 : p.skills.2 ≠ -1 → t.vehi.2 = p.vehi.2) :
    ∃ (r : Task) (c : ℚ), findInsertionCost inst COEFS st.sol t = Except.ok (r, c) ∧
      updateRoutes st.sol r = Except.ok (applyTask st.sol r) ∧ r.vehi = t.vehi ∧
      ∀ vhead : List Int, vhead.length = inst.numVehicles →
        (∀ u : Nat, u < inst.numVehicles →
          vhead[u]? = some (((legs u done).length : Int) + 1 + (if serves p u then 1 else 0))) →
        ReplayInv inst COEFS plan
          { st with
            sol := { applyTask st.sol r with
                     taskOrder := (applyTask st.sol r).taskOrder ++ [r] }
            allTasks := st.allTasks.modify (fun _ => r) (p.node - 1).toNat
            vhead := vhead } (done ++ [p]) := by
  have hS := sized_of_inv h
  have hfit := hP.fits p hp
  have hfit' : TaskFits inst t := taskFits_congr hn hs hv hv2 hfit
  obtain ⟨r, c, hf, hup, -, hrn, hrv, hrs⟩ := evalCommit_of_fits COEFS hS hfit'
  refine ⟨r, c, hf, hup, hrv, fun vhead hlen hhead => ?_⟩
  have hbuilt : build inst COEFS (done ++ [p]) (init inst) =
      Except.ok (forget (applyTask st.sol r)) := by
    rw [build_append, h.built, ok_bind, build_cons]
    obtain ⟨r2, c2, hf2, hn2, hvv2, hs2, happ⟩ :=
      evaluation_congr (show p.node = t.node from hn.symm) hs.symm hv.symm
        (fun h2 => (hv2 (by rw [← hs]; exact h2)).symm) hf
    obtain ⟨r3, c3, hf3, -, hec, -⟩ := evalCommit_of_fits COEFS (sized_forget.2 hS) hfit
    rw [findInsertionCost_forget, hf2] at hf3
    injection hf3 with hf3
    injection hf3 with hr3 hc3
    subst hr3
    rw [hec, ok_bind, build_nil, forget_applyTask, happ]
  exact replayInv_commit hP h hp hpd hnext hbuilt
    (by
      show ((applyTask st.sol r).taskOrder ++ [r]).length = _
      rw [applyTask_taskOrder, List.length_append, h.order]
      rfl)
    r rfl hlen hhead rfl rfl

end Solution

namespace Solution

theorem heads_single {inst : Instance} {COEFS : Fin 3 → ℚ} {plan done : List Task}
    {st : Replay} (h : ReplayInv inst COEFS plan st done) {p : Task} {v : Nat}
    (hs : p.skills.2 = -1) (hv : p.vehi.1 = (v : Int)) :
    ∀ u : Nat, u < inst.numVehicles →
      (st.vhead.modify (fun x => x + 1) v)[u]? =
        some (((legs u done).length : Int) + 1 + (if serves p u then 1 else 0)) := by
  intro u hu
  have hb := heads_bump h.head (v : Int) (by omega) u hu
  rw [Int.toNat_ofNat] at hb
  rw [hb]
  have : (serves p (u : Int) = true) ↔ ((v : Int) = (u : Int)) := by
    rw [serves_iff, hv]
    constructor
    · rintro (h1 | ⟨h2, -⟩)
      · exact h1
      · exact absurd hs h2
    · intro h1
      exact Or.inl h1
  by_cases hvu : (v : Int) = (u : Int)
  · rw [if_pos hvu, if_pos (this.2 hvu)]
  · rw [if_neg hvu, if_neg (fun hc => hvu (this.1 hc))]

theorem heads_double {inst : Instance} {COEFS : Fin 3 → ℚ} {plan done : List Task}
    {st : Replay} (h : ReplayInv inst COEFS plan st done) {p : Task}
    (hs : p.skills.2 ≠ -1) (hne : p.vehi.1 ≠ p.vehi.2) (h1 : 0 ≤ p.vehi.1) (h2 : 0 ≤ p.vehi.2) :
    ∀ u : Nat, u < inst.numVehicles →
      ((st.vhead.modify (fun x => x + 1) p.vehi.1.toNat).modify (fun x => x + 1)
          p.vehi.2.toNat)[u]? =
        some (((legs u done).length : Int) + 1 + (if serves p u then 1 else 0)) := by
  intro u hu
  have hb := heads_bump (heads_bump h.head p.vehi.1 h1) p.vehi.2 h2 u hu
  rw [hb]
  have : (serves p (u : Int) = true) ↔ (p.vehi.1 = (u : Int) ∨ p.vehi.2 = (u : Int)) := by
    rw [serves_iff]
    constructor
    · rintro (h1 | ⟨-, h2⟩)
      · exact Or.inl h1
      · exact Or.inr h2
    · rintro (h1 | h2)
      · exact Or.inl h1
      · exact Or.inr ⟨hs, h2⟩
  by_cases ha : p.vehi.1 = (u : Int)
  · have hb2 : ¬ p.vehi.2 = (u : Int) := fun hc => hne (ha.trans hc.symm)
    rw [if_pos ha, if_neg hb2, if_pos (this.2 (Or.inl ha))]
    simp
  · by_cases hb2 : p.vehi.2 = (u : Int)
    · rw [if_neg ha, if_pos hb2, if_pos (this.2 (Or.inr hb2))]
      simp
    · rw [if_neg ha, if_neg hb2, if_neg (fun hc => (this.1 hc).elim ha hb2)]
      simp

end Solution

namespace Solution

/-- The pass for a vehicle whose next stop is a task of single service: the task
is evaluated and committed and the read-head advances. -/
theorem replayVehicle_single {inst : Instance} {COEFS : Fin 3 → ℚ} {plan done : List Task}
    {st : Replay} {routes : List Route} (hP : PlanFacts inst plan)
    (h : ReplayInv inst COEFS plan st done)
    (hR : ∀ v : Nat, v < inst.numVehicles → routes[v]? = some (fileRoute plan v))
    {v : Nat} (hv : v < inst.numVehicles) {p : Task} (hnext : nextLeg plan done v = some p)
    (hty : inst.nodeSvcType p.node = SvcType.SINGLE) :
    ∃ (st' : Replay) (e' : Task), replayVehicle inst COEFS routes st v = Except.ok st' ∧
      st'.actFlag = st.actFlag ∧ st'.nFinish = st.nFinish ∧
      st'.allTasks = st.allTasks.modify (fun _ => e') (p.node - 1).toNat ∧
      ReplayInv inst COEFS plan st' (done ++ [p]) ∧
      st'.sol.taskOrder.length = st.sol.taskOrder.length + 1 := by
  obtain ⟨h1, h2, h3⟩ := replay_reads h hR hv
  rw [hnext] at h3
  have h3' : vecGet (fileRoute plan v) (((legs (v : Int) done).length : Int) + 1) =
      Except.ok (stopOf p v) := h3
  obtain ⟨hp, hserves⟩ := nextLeg_mem hnext
  have hpd := nextLeg_not_done (plan_nodup hP) (h.pre v hv) hnext
  have hfit := hP.fits p hp
  have hpos := hP.pos p hp
  have hs2 : p.skills.2 = -1 := hfit.2.2.2.1 hty
  have hpv : p.vehi.1 = (v : Int) := by
    rcases serves_iff.1 hserves with h0 | ⟨h0, -⟩
    · exact h0
    · exact absurd hs2 h0
  obtain ⟨e, hat, hen, hes, -⟩ := h.entry p hp hpd
  have hne0 : ¬ p.node = 0 := by omega
  have hnext' : ∀ w : Int, serves p w = true → nextLeg plan done w = some p := by
    intro w hw
    rcases serves_iff.1 hw with h0 | ⟨h0, -⟩
    · rw [← h0, hpv]
      exact hnext
    · exact absurd hs2 h0
  obtain ⟨r, c, hf, hup, hrv, hinv⟩ := replay_commit hP h hp hpd hnext'
    ({ e with vehi := ((v : Int), e.vehi.2) } : Task) hen hes hpv.symm
    (fun hc => absurd hs2 hc)
  have hbT : inBounds st.allTasks (p.node - 1) := vecAt_inBounds hat
  have hbV : inBounds st.vhead (v : Int) := (inBounds_of_length h.vlen).2 ⟨by omega, by omega⟩
  have hrun : replayVehicle inst COEFS routes st v = Except.ok
      { st with
        sol := { applyTask st.sol r with taskOrder := (applyTask st.sol r).taskOrder ++ [r] }
        allTasks := st.allTasks.modify (fun _ => r) (p.node - 1).toNat
        vhead := st.vhead.modify (fun x => x + 1) v } := by
    simp only [replayVehicle, h1, h2, h3', ok_bind, stopOf_fst, hne0, if_false,
      vecGet_eq_ok.2 hat, hty, if_true, hf, vecModify_of_inBounds _ hbT, hup,
      vecModify_of_inBounds _ hbV, pure_eq_ok, Int.toNat_ofNat]
  refine ⟨_, r, hrun, rfl, rfl, rfl, ?_, ?_⟩
  · exact hinv _ (by rw [List.length_modify]; exact h.vlen) (heads_single h hs2 hpv)
  · show ((applyTask st.sol r).taskOrder ++ [r]).length = _
    rw [applyTask_taskOrder, List.length_append]
    rfl

end Solution

namespace Solution

/-- The pass for a vehicle whose next stop is a task of double service: the
vehicle is recorded in its slot of the entry of the task, and the task is
evaluated and committed when the other slot is set already. -/
theorem replayVehicle_double {inst : Instance} {COEFS : Fin 3 → ℚ} {plan done : List Task}
    {st : Replay} {routes : List Route} (hP : PlanFacts inst plan)
    (h : ReplayInv inst COEFS plan st done)
    (hR : ∀ v : Nat, v < inst.numVehicles → routes[v]? = some (fileRoute plan v))
    {v : Nat} (hv : v < inst.numVehicles) {p : Task} (hnext : nextLeg plan done v = some p)
    (hty : inst.nodeSvcType p.node ≠ SvcType.SINGLE) :
    ∃ (st' : Replay) (e' : Task), replayVehicle inst COEFS routes st v = Except.ok st' ∧
      st'.actFlag = st.actFlag ∧ st'.nFinish = st.nFinish ∧
      st'.allTasks = st.allTasks.modify (fun _ => e') (p.node - 1).toNat ∧
      ((ReplayInv inst COEFS plan st' (done ++ [p]) ∧
          st'.sol.taskOrder.length = st.sol.taskOrder.length + 1) ∨
       (ReplayInv inst COEFS plan st' done ∧ st'.sol = st.sol ∧ st'.vhead = st.vhead ∧
          ∀ e, vecAt st.allTasks (p.node - 1) e →
            e'.vehi = if p.vehi.1 = (v : Int) then ((v : Int), e.vehi.2)
              else (e.vehi.1, (v : Int)))) := by
  obtain ⟨h1, h2, h3⟩ := replay_reads h hR hv
  rw [hnext] at h3
  have h3' : vecGet (fileRoute plan v) (((legs (v : Int) done).length : Int) + 1) =
      Except.ok (stopOf p v) := h3
  obtain ⟨hp, hserves⟩ := nextLeg_mem hnext
  have hpd := nextLeg_not_done (plan_nodup hP) (h.pre v hv) hnext
  have hfit := hP.fits p hp
  have hpos := hP.pos p hp
  obtain ⟨hv2, hs2⟩ := hfit.2.2.2.2.1 hty
  have hv1 := hfit.1
  have hdist : p.vehi.1 ≠ p.vehi.2 := hP.distinct p hp hs2
  have hsk : p.skills.1 ≠ p.skills.2 := hP.skills p hp hs2
  obtain ⟨e, hat, hen, hes, hsl1, hsl2, hsl3, hsl4⟩ := h.entry p hp hpd
  have hne0 : ¬ p.node = 0 := by omega
  have hbT : inBounds st.allTasks (p.node - 1) := vecAt_inBounds hat
  have huniq : ∀ e0, vecAt st.allTasks (p.node - 1) e0 → e0 = e := by
    intro e0 h0
    have := h0.2.symm.trans hat.2
    injection this
  by_cases hpv : p.vehi.1 = (v : Int)
  · have hstop : (stopOf p v).2 = e.skills.1 := by
      unfold stopOf
      rw [if_pos hpv, hes]
    rcases hsl2 with hnone | ⟨hsome, -, hnx⟩
    · -- the other vehicle has not arrived
      have hc : ¬ ((v : Int) ≠ -1 ∧ e.vehi.2 ≠ -1) := fun hc => hc.2 hnone
      have hrun : replayVehicle inst COEFS routes st v = Except.ok
          { st with
            allTasks := st.allTasks.modify
              (fun _ => ({ e with vehi := ((v : Int), e.vehi.2) } : Task)) (p.node - 1).toNat } := by
        simp only [replayVehicle, h1, h2, h3', ok_bind, stopOf_fst, hne0, if_false,
          vecGet_eq_ok.2 hat, hty, hstop, if_true, hc, vecModify_of_inBounds _ hbT, pure_eq_ok]
      refine ⟨_, _, hrun, rfl, rfl, rfl, Or.inr ⟨?_, rfl, rfl, ?_⟩⟩
      · refine replayInv_setSlot hP h hp hpd _ hen hes ⟨Or.inr ⟨hpv.symm, ?_⟩, Or.inl hnone,
          Or.inr hnone, fun hc => absurd hc hs2⟩
        rw [hpv]
        exact hnext
      · intro e0 h0
        rw [huniq e0 h0, if_pos hpv]
    · -- the other vehicle waits at the task: commit
      have hc : (v : Int) ≠ -1 ∧ e.vehi.2 ≠ -1 := ⟨by omega, by rw [hsome]; omega⟩
      have hnext' : ∀ w : Int, serves p w = true → nextLeg plan done w = some p := by
        intro w hw
        rcases serves_iff.1 hw with h0 | ⟨-, h0⟩
        · rw [← h0, hpv]
          exact hnext
        · rw [← h0]
          exact hnx
      obtain ⟨r, c, hf, hup, hrv, hinv⟩ := replay_commit hP h hp hpd hnext'
        ({ e with vehi := ((v : Int), e.vehi.2) } : Task) hen hes hpv.symm (fun _ => hsome)
      have hr1 : r.vehi.1 = p.vehi.1 := by rw [hrv]; exact hpv.symm
      have hr2 : r.vehi.2 = p.vehi.2 := by rw [hrv]; exact hsome
      have hbV1 : inBounds st.vhead r.vehi.1 := by
        rw [hr1]
        exact (inBounds_of_length h.vlen).2 hv1
      have hbV2 : inBounds (st.vhead.modify (fun x => x + 1) r.vehi.1.toNat) r.vehi.2 := by
        rw [hr2, inBounds_modify]
        exact (inBounds_of_length h.vlen).2 hv2
      have hrun : replayVehicle inst COEFS routes st v = Except.ok
          { st with
            sol := { applyTask st.sol r with taskOrder := (applyTask st.sol r).taskOrder ++ [r] }
            allTasks := st.allTasks.modify (fun _ => r) (p.node - 1).toNat
            vhead := (st.vhead.modify (fun x => x + 1) r.vehi.1.toNat).modify (fun x => x + 1)
              r.vehi.2.toNat } := by
        simp only [replayVehicle, h1, h2, h3', ok_bind, stopOf_fst, hne0, if_false,
          vecGet_eq_ok.2 hat, hty, hstop, if_true, hf, vecModify_of_inBounds _ hbT,
          hup, vecModify_of_inBounds _ hbV1, vecModify_of_inBounds _ hbV2, pure_eq_ok]
        rw [if_pos hc]
      refine ⟨_, r, hrun, rfl, rfl, rfl, Or.inl ⟨?_, ?_⟩⟩
      · refine hinv _ (by rw [List.length_modify, List.length_modify]; exact h.vlen) ?_
        rw [hr1, hr2]
        exact heads_double h hs2 hdist hv1.1 hv2.1
      · show ((applyTask st.sol r).taskOrder ++ [r]).length = _
        rw [applyTask_taskOrder, List.length_append]
        rfl
  · have hpv2 : p.vehi.2 = (v : Int) := by
      rcases serves_iff.1 hserves with h0 | ⟨-, h0⟩
      · exact absurd h0 hpv
      · exact h0
    have hstop : ¬ (stopOf p v).2 = e.skills.1 := by
      unfold stopOf
      rw [if_neg hpv, hes]
      exact fun hc => hsk hc.symm
    rcases hsl1 with hnone | ⟨hsome, hnx⟩
    · -- the other vehicle has not arrived
      have hc : ¬ (e.vehi.1 ≠ -1 ∧ (v : Int) ≠ -1) := fun hc => hc.1 hnone
      have hrun : replayVehicle inst COEFS routes st v = Except.ok
          { st with
            allTasks := st.allTasks.modify
              (fun _ => ({ e with vehi := (e.vehi.1, (v : Int)) } : Task)) (p.node - 1).toNat } := by
        simp only [replayVehicle, h1, h2, h3', ok_bind, stopOf_fst, hne0, if_false,
          vecGet_eq_ok.2 hat, hty, hstop, if_true, hc, vecModify_of_inBounds _ hbT, pure_eq_ok]
      refine ⟨_, _, hrun, rfl, rfl, rfl, Or.inr ⟨?_, rfl, rfl, ?_⟩⟩
      · refine replayInv_setSlot hP h hp hpd _ hen hes ⟨Or.inl hnone,
          Or.inr ⟨hpv2.symm, hs2, ?_⟩, Or.inl hnone, fun hc => absurd hc hs2⟩
        rw [hpv2]
        exact hnext
      · intro e0 h0
        rw [huniq e0 h0, if_neg hpv]
    · -- the other vehicle waits at the task: commit
      have hc : e.vehi.1 ≠ -1 ∧ (v : Int) ≠ -1 := ⟨by rw [hsome]; omega, by omega⟩
      have hnext' : ∀ w : Int, serves p w = true → nextLeg plan done w = some p := by
        intro w hw
        rcases serves_iff.1 hw with h0 | ⟨-, h0⟩
        · rw [← h0]
          exact hnx
        · rw [← h0, hpv2]
          exact hnext
      obtain ⟨r, c, hf, hup, hrv, hinv⟩ := replay_commit hP h hp hpd hnext'
        ({ e with vehi := (e.vehi.1, (v : Int)) } : Task) hen hes hsome (fun _ => hpv2.symm)
      have hr1 : r.vehi.1 = p.vehi.1 := by rw [hrv]; exact hsome
      have hr2 : r.vehi.2 = p.vehi.2 := by rw [hrv]; exact hpv2.symm
      have hbV1 : inBounds st.vhead r.vehi.1 := by
        rw [hr1]
        exact (inBounds_of_length h.vlen).2 hv1
      have hbV2 : inBounds (st.vhead.modify (fun x => x + 1) r.vehi.1.toNat) r.vehi.2 := by
        rw [hr2, inBounds_modify]
        exact (inBounds_of_length h.vlen).2 hv2
      have hrun : replayVehicle inst COEFS routes st v = Except.ok
          { st with
            sol := { applyTask st.sol r with taskOrder := (applyTask st.sol r).taskOrder ++ [r] }
            allTasks := st.allTasks.modify (fun _ => r) (p.node - 1).toNat
            vhead := (st.vhead.modify (fun x => x + 1) r.vehi.1.toNat).modify (fun x => x + 1)
              r.vehi.2.toNat } := by
        simp only [replayVehicle, h1, h2, h3', ok_bind, stopOf_fst, hne0, if_false,
          vecGet_eq_ok.2 hat, hty, hstop, if_true, hf, vecModify_of_inBounds _ hbT,
          hup, vecModify_of_inBounds _ hbV1, vecModify_of_inBounds _ hbV2, pure_eq_ok]
        rw [if_pos hc]
      refine ⟨_, r, hrun, rfl, rfl, rfl, Or.inl ⟨?_, ?_⟩⟩
      · refine hinv _ (by rw [List.length_modify, List.length_modify]; exact h.vlen) ?_
        rw [hr1, hr2]
        exact heads_double h hs2 hdist hv1.1 hv2.1
      · show ((applyTask st.sol r).taskOrder ++ [r]).length = _
        rw [applyTask_taskOrder, List.length_append]
        rfl

end Solution

namespace Solution

/-- One pass of the replay for one vehicle, all cases: the pass succeeds, keeps
the invariant for a list of committed tasks that extends the former one, and,
when nothing is committed, either the vehicle is at its trailing depot stop or it
is recorded in its slot of the entry of its next task. -/
theorem replayVehicle_step {inst : Instance} {COEFS : Fin 3 → ℚ} {plan done : List Task}
    {st : Replay} {routes : List Route} (hP : PlanFacts inst plan)
    (h : ReplayInv inst COEFS plan st done)
    (hR : ∀ v : Nat, v < inst.numVehicles → routes[v]? = some (fileRoute plan v))
    {v : Nat} (hv : v < inst.numVehicles) :
    ∃ (st' : Replay) (done' : List Task),
      replayVehicle inst COEFS routes st v = Except.ok st' ∧
      ReplayInv inst COEFS plan st' done' ∧ done <+: done' ∧ st.nFinish ≤ st'.nFinish ∧
      (nextLeg plan done v = none → st'.actFlag[v]? = some 1) ∧
      (∀ w : Nat, st.actFlag[w]? = some 1 → st'.actFlag[w]? = some 1) ∧
      (done' = done →
        (nextLeg plan done v = none ∧ st'.allTasks = st.allTasks) ∨
        ∃ (p e' : Task), nextLeg plan done v = some p ∧
          st'.allTasks = st.allTasks.modify (fun _ => e') (p.node - 1).toNat ∧
          ∀ e, vecAt st.allTasks (p.node - 1) e →
            e'.vehi = if p.vehi.1 = (v : Int) then ((v : Int), e.vehi.2)
              else (e.vehi.1, (v : Int))) := by
  cases hnext : nextLeg plan done v with
  | none =>
    obtain ⟨st', hrun, hinv, hflag, htasks, -, -, hfin, -, hkeep⟩ :=
      replayVehicle_depot h hR hv hnext
    exact ⟨st', done, hrun, hinv, List.prefix_refl _, hfin, fun _ => hflag, hkeep,
      fun _ => Or.inl ⟨rfl, htasks⟩⟩
  | some p =>
    have hne : done ++ [p] ≠ done := by
      intro hc
      have := congrArg List.length hc
      rw [List.length_append] at this
      simp at this
    by_cases hty : inst.nodeSvcType p.node = SvcType.SINGLE
    · obtain ⟨st', e', hrun, hflag, hfin, -, hinv, -⟩ :=
        replayVehicle_single hP h hR hv hnext hty
      refine ⟨st', done ++ [p], hrun, hinv, List.prefix_append _ _, le_of_eq hfin.symm,
        fun hc => ?_, fun w hw => ?_, fun hc => absurd hc hne⟩
      · exact absurd hc (by simp)
      · rw [hflag]
        exact hw
    · obtain ⟨st', e', hrun, hflag, hfin, htasks, hcases⟩ :=
        replayVehicle_double hP h hR hv hnext hty
      rcases hcases with ⟨hinv, -⟩ | ⟨hinv, -, -, hslot⟩
      · refine ⟨st', done ++ [p], hrun, hinv, List.prefix_append _ _, le_of_eq hfin.symm,
          fun hc => ?_, fun w hw => ?_, fun hc => absurd hc hne⟩
        · exact absurd hc (by simp)
        · rw [hflag]
          exact hw
      · refine ⟨st', done, hrun, hinv, List.prefix_refl _, le_of_eq hfin.symm,
          fun hc => ?_, fun w hw => ?_, fun _ => Or.inr ⟨p, e', rfl, htasks, hslot⟩⟩
        · exact absurd hc (by simp)
        · rw [hflag]
          exact hw

theorem foldlM_range_succ {σ : Type} (f : σ → Nat → Except String σ) (k : Nat) (s : σ) :
    (List.range (k + 1)).foldlM f s = ((List.range k).foldlM f s >>= fun x => f x k) := by
  rw [List.range_succ, List.foldlM_append]
  congr 1
  funext x
  simp only [List.foldlM_cons, List.foldlM_nil]
  cases f x k <;> rfl

end Solution

namespace Solution

theorem vecAt_unique {α : Type} {xs : List α} {i : Int} {x y : α} (hx : vecAt xs i x)
    (hy : vecAt xs i y) : x = y := by
  have := hx.2.symm.trans hy.2
  injection this

theorem vecAt_of_modify_other {α : Type} {xs : List α} {i j : Int} {x : α} (f : α → α)
    (hi : 0 ≤ i) (hij : i ≠ j) (h : vecAt (xs.modify f i.toNat) j x) : vecAt xs j x := by
  refine ⟨h.1, ?_⟩
  have hne : i.toNat ≠ j.toNat := by
    have := h.1
    omega
  have h2 := h.2
  rw [List.getElem?_modify] at h2
  simpa [hne] using h2

/-- The passes of one round for the vehicles `0, ..., k - 1`. -/
theorem replayRound_prefix {inst : Instance} {COEFS : Fin 3 → ℚ} {plan done : List Task}
    {st : Replay} {routes : List Route} (hP : PlanFacts inst plan)
    (h : ReplayInv inst COEFS plan st done)
    (hR : ∀ v : Nat, v < inst.numVehicles → routes[v]? = some (fileRoute plan v)) :
    ∀ k : Nat, k ≤ inst.numVehicles →
      ∃ (stk : Replay) (donek : List Task),
        (List.range k).foldlM (replayVehicle inst COEFS routes) st = Except.ok stk ∧
        ReplayInv inst COEFS plan stk donek ∧ done <+: donek ∧ st.nFinish ≤ stk.nFinish ∧
        ((∀ p ∈ plan, p ∈ done) → ∀ w : Nat, w < k → stk.actFlag[w]? = some 1) ∧
        (donek = done → ∀ (w : Nat) (p e' : Task), w < k → nextLeg plan done w = some p →
          vecAt stk.allTasks (p.node - 1) e' →
          (if p.vehi.1 = (w : Int) then e'.vehi.1 = (w : Int) else e'.vehi.2 = (w : Int))) := by
  intro k
  induction k with
  | zero =>
    intro _
    exact ⟨st, done, rfl, h, List.prefix_refl _, le_refl _, fun _ w hw => absurd hw (by omega),
      fun _ w _ _ hw => absurd hw (by omega)⟩
  | succ k ih =>
    intro hk
    obtain ⟨stk, donek, hrun, hinv, hpre, hfin, hflags, hslots⟩ := ih (by omega)
    obtain ⟨st', done', hrun', hinv', hpre', hfin', hdepot, hkeep, hstep⟩ :=
      replayVehicle_step hP hinv hR (show k < inst.numVehicles by omega)
    refine ⟨st', done', ?_, hinv', hpre.trans hpre', le_trans hfin hfin', ?_, ?_⟩
    · rw [foldlM_range_succ, hrun, ok_bind, hrun']
    · intro hall w hw
      by_cases hwk : w = k
      · subst hwk
        apply hdepot
        cases hnx : nextLeg plan donek w with
        | none => rfl
        | some p =>
          exact absurd (hpre.subset (hall p (nextLeg_mem hnx).1))
            (nextLeg_not_done (plan_nodup hP) (hinv.pre w (by omega)) hnx)
      · exact hkeep w (hflags hall w (by omega))
    · intro heq w p e' hw hnx hat
      have hk1 : donek = done := by
        subst heq
        exact (List.IsPrefix.eq_of_length hpre
          (le_antisymm hpre.length_le hpre'.length_le)).symm
      have hk2 : done' = donek := heq.trans hk1.symm
      subst hk1
      have hp := (nextLeg_mem hnx).1
      have hpd := nextLeg_not_done (plan_nodup hP) (hinv.pre w (by omega)) hnx
      have hpos := hP.pos p hp
      rcases hstep hk2 with ⟨hnone, htasks⟩ | ⟨pk, ek, hnk, htasks, hslot⟩
      · have hwk : w ≠ k := by
          intro hc
          subst hc
          rw [hnx] at hnone
          exact absurd hnone (by simp)
        rw [htasks] at hat
        exact hslots rfl w p e' (by omega) hnx hat
      · have hpk := (nextLeg_mem hnk).1
        by_cases hpp : p = pk
        · subst hpp
          obtain ⟨e, hate, -⟩ := hinv.entry p hp hpd
          have hnew := vecAt_modify_self (fun _ => ek) hate
          rw [← htasks] at hnew
          have he : e' = ek := vecAt_unique hat hnew
          have hv := hslot e hate
          by_cases hwk : w = k
          · subst hwk
            rw [he, hv]
            split <;> rfl
          · have hold := hslots rfl w p e (by omega) hnx hate
            have hsw := serves_iff.1 (nextLeg_mem hnx).2
            have hsk := serves_iff.1 (nextLeg_mem hnk).2
            have hne : (w : Int) ≠ (k : Int) := by omega
            rw [he, hv]
            by_cases h1 : p.vehi.1 = (w : Int)
            · rw [if_pos h1] at hold ⊢
              have h2 : ¬ p.vehi.1 = (k : Int) := fun hc => hne (h1.symm.trans hc)
              rw [if_neg h2]
              exact hold
            · rw [if_neg h1] at hold ⊢
              have h2 : p.vehi.1 = (k : Int) := by
                rcases hsw with hc | ⟨-, hc⟩
                · exact absurd hc h1
                · rcases hsk with hd | ⟨-, hd⟩
                  · exact hd
                  · exact absurd (hc.symm.trans hd) hne
              rw [if_pos h2]
              exact hold
        · have hwk : w ≠ k := by
            intro hc
            subst hc
            rw [hnx] at hnk
            injection hnk with hnk
            exact hpp hnk
          rw [htasks] at hat
          have hposk := hP.pos pk hpk
          exact hslots rfl w p e' (by omega) hnx
            (vecAt_of_modify_other _ (by omega) (entry_index_ne hP hpk hp hpp) hat)

end Solution

namespace Solution

/-- The first task of a plan that is not committed yet. -/
theorem first_open (done : List Task) :
    ∀ plan : List Task, (∃ p ∈ plan, p ∉ done) →
      ∃ (A : List Task) (p : Task) (B : List Task),
        plan = A ++ p :: B ∧ (∀ a ∈ A, a ∈ done) ∧ p ∉ done := by
  intro plan
  induction plan with
  | nil =>
    rintro ⟨p, hp, -⟩
    exact absurd hp (by simp)
  | cons q qs ih =>
    rintro ⟨p, hp, hpd⟩
    by_cases hq : q ∈ done
    · have hp' : p ∈ qs := by
        rcases List.mem_cons.1 hp with hc | hc
        · subst hc
          exact absurd hq hpd
        · exact hc
      obtain ⟨A, r, B, hsplit, hA, hr⟩ := ih ⟨p, hp', hpd⟩
      refine ⟨q :: A, r, B, by rw [hsplit]; rfl, ?_, hr⟩
      intro a ha
      rcases List.mem_cons.1 ha with hc | hc
      · subst hc
        exact hq
      · exact hA a hc
    · exact ⟨[], q, qs, rfl, by simp, hq⟩

/-- The first task of the plan that is not committed comes next on each of its
vehicles. -/
theorem nextLeg_first {A B done : List Task} {p : Task} {v : Int}
    (hnd : (A ++ p :: B).Nodup) (hA : ∀ a ∈ A, a ∈ done) (hp : p ∉ done)
    (hpre : legs v done <+: legs v (A ++ p :: B)) (hs : serves p v = true) :
    nextLeg (A ++ p :: B) done v = some p := by
  have hlegs : legs v (A ++ p :: B) = legs v A ++ p :: legs v B := by
    rw [legs_append, legs_cons, if_pos hs]
  have hge : (legs v A).length ≤ (legs v done).length := by
    have hsub : legs v A ⊆ legs v done := by
      intro a ha
      obtain ⟨ha1, ha2⟩ := mem_legs.1 ha
      exact mem_legs.2 ⟨hA a ha1, ha2⟩
    have hndA : (legs v A).Nodup := legs_nodup (List.Nodup.of_append_left hnd) v
    exact (List.Nodup.subperm hndA hsub).length_le
  have hle : (legs v done).length ≤ (legs v A).length := by
    by_contra hc
    have hlt : (legs v A).length < (legs v done).length := by omega
    have hget := List.IsPrefix.getElem hpre hlt
    have hmem : (legs v done)[(legs v A).length] ∈ legs v done := List.getElem_mem hlt
    have hval : (legs v (A ++ p :: B))[(legs v A).length]? = some p := by
      rw [hlegs, List.getElem?_append_right (le_refl _)]
      simp
    have hlt2 : (legs v A).length < (legs v (A ++ p :: B)).length :=
      lt_of_lt_of_le hlt hpre.length_le
    rw [List.getElem?_eq_getElem hlt2] at hval
    injection hval with hval
    rw [hget, hval] at hmem
    exact hp (mem_legs.1 hmem).1
  unfold nextLeg
  rw [le_antisymm hle hge, hlegs, List.getElem?_append_right (le_refl _)]
  simp

theorem count_eq_of_all {l : List Int} {n : Nat} (hlen : l.length = n)
    (h : ∀ w : Nat, w < n → l[w]? = some 1) : l.count 1 = n := by
  rw [← hlen]
  apply List.count_eq_length.2
  intro b hb
  obtain ⟨i, hi, hget⟩ := List.mem_iff_getElem.1 hb
  have := h i (by omega)
  rw [List.getElem?_eq_getElem hi, hget] at this
  injection this with this
  exact this.symm

theorem all_of_count_eq {l : List Int} {n : Nat} (hlen : l.length = n)
    (h : l.count 1 = n) : ∀ w : Nat, w < n → l[w]? = some 1 := by
  intro w hw
  rw [← hlen] at h hw
  have := List.count_eq_length.1 h
  rw [List.getElem?_eq_getElem hw]
  exact congrArg some (this _ (List.getElem_mem hw)).symm

/-- One round of the replay: it succeeds and keeps the invariant; it commits a
task when a task of the plan is not committed yet, and it marks every vehicle as
finished otherwise. -/
theorem replayRound_ok {inst : Instance} {COEFS : Fin 3 → ℚ} {plan done : List Task}
    {st : Replay} {routes : List Route} (hP : PlanFacts inst plan)
    (h : ReplayInv inst COEFS plan st done)
    (hR : ∀ v : Nat, v < inst.numVehicles → routes[v]? = some (fileRoute plan v)) :
    ∃ (st' : Replay) (done' : List Task),
      replayRound inst COEFS routes st = Except.ok st' ∧
      ReplayInv inst COEFS plan st' done' ∧ done <+: done' ∧ st.nFinish ≤ st'.nFinish ∧
      ((∃ p ∈ plan, p ∉ done) → done.length < done'.length) ∧
      ((∀ p ∈ plan, p ∈ done) → st'.nFinish = (inst.numVehicles : Int)) := by
  obtain ⟨st', done', hrun, hinv, hpre, hfin, hflags, hslots⟩ :=
    replayRound_prefix hP h hR inst.numVehicles (le_refl _)
  refine ⟨st', done', hrun, hinv, hpre, hfin, ?_, ?_⟩
  · intro hopen
    by_contra hc
    have heq : done' = done :=
      (List.IsPrefix.eq_of_length hpre (le_antisymm hpre.length_le (by omega))).symm
    obtain ⟨A, p, B, hsplit, hA, hpd⟩ := first_open done plan hopen
    have hp : p ∈ plan := by rw [hsplit]; simp
    have hfit := hP.fits p hp
    have hnd := plan_nodup hP
    have hnx : ∀ w : Nat, w < inst.numVehicles → serves p w = true →
        nextLeg plan done w = some p := by
      intro w hw hs
      have hpw := h.pre w hw
      rw [hsplit] at hnd hpw ⊢
      exact nextLeg_first hnd hA hpd hpw hs
    have hpd' : p ∉ done' := by rw [heq]; exact hpd
    obtain ⟨e, hat, -, -, -, -, hsl3, hsl4⟩ := hinv.entry p hp hpd'
    obtain ⟨hv0, hv1⟩ := hfit.1
    have hcast1 : ((p.vehi.1.toNat : Nat) : Int) = p.vehi.1 := Int.toNat_of_nonneg hv0
    have h1 := hslots heq p.vehi.1.toNat p e (by omega)
      (hnx _ (by omega) (serves_iff.2 (Or.inl hcast1.symm))) hat
    rw [if_pos hcast1.symm, hcast1] at h1
    by_cases hs2 : p.skills.2 = -1
    · have := hsl4 hs2
      omega
    · have hty : inst.nodeSvcType p.node ≠ SvcType.SINGLE := fun hc => hs2 (hfit.2.2.2.1 hc)
      obtain ⟨⟨hw0, hw1⟩, -⟩ := hfit.2.2.2.2.1 hty
      have hdist := hP.distinct p hp hs2
      have hcast2 : ((p.vehi.2.toNat : Nat) : Int) = p.vehi.2 := Int.toNat_of_nonneg hw0
      have h2 := hslots heq p.vehi.2.toNat p e (by omega)
        (hnx _ (by omega) (serves_iff.2 (Or.inr ⟨hs2, hcast2.symm⟩))) hat
      rw [if_neg (by rw [hcast2]; exact hdist), hcast2] at h2
      rcases hsl3 with hc | hc <;> omega
  · intro hall
    rw [hinv.count, count_eq_of_all hinv.flen (hflags hall)]

end Solution

namespace Solution

theorem replayLoop_done {inst : Instance} {COEFS : Fin 3 → ℚ} {routes : List Route}
    {st : Replay} (h : ¬ st.nFinish < (inst.numVehicles : Int)) (fuel : Nat) :
    replayLoop inst COEFS routes fuel st = Except.ok st := by
  cases fuel <;> simp only [replayLoop, if_neg h, pure_eq_ok]

theorem replayLoop_round {inst : Instance} {COEFS : Fin 3 → ℚ} {routes : List Route}
    {st : Replay} (h : st.nFinish < (inst.numVehicles : Int)) (fuel : Nat) :
    replayLoop inst COEFS routes (fuel + 1) st =
      (replayRound inst COEFS routes st >>= replayLoop inst COEFS routes fuel) := by
  simp only [replayLoop, if_pos h]

theorem replayRounds_zero (inst : Instance) (COEFS : Fin 3 → ℚ) (routes : List Route)
    (st : Replay) : replayRounds inst COEFS routes 0 st = Except.ok st := rfl

theorem replayRounds_succ (inst : Instance) (COEFS : Fin 3 → ℚ) (routes : List Route)
    (k : Nat) (st : Replay) :
    replayRounds inst COEFS routes (k + 1) st =
      (replayRound inst COEFS routes st >>= replayRounds inst COEFS routes k) := rfl

theorem done_length_le {inst : Instance} {COEFS : Fin 3 → ℚ} {plan done : List Task}
    {st : Replay} (h : ReplayInv inst COEFS plan st done) : done.length ≤ plan.length :=
  (List.Nodup.subperm h.nodup (fun q hq => h.sub q hq)).length_le

theorem nFinish_le {inst : Instance} {COEFS : Fin 3 → ℚ} {plan done : List Task}
    {st : Replay} (h : ReplayInv inst COEFS plan st done) :
    st.nFinish ≤ (inst.numVehicles : Int) := by
  rw [h.count, ← h.flen]
  exact Int.ofNat_le.2 (List.count_le_length _ _)

/-- Any number of rounds of the replay succeeds and keeps the invariant. -/
theorem replayRounds_ok {inst : Instance} {COEFS : Fin 3 → ℚ} {plan : List Task}
    {routes : List Route} (hP : PlanFacts inst plan)
    (hR : ∀ v : Nat, v < inst.numVehicles → routes[v]? = some (fileRoute plan v)) :
    ∀ (k : Nat) (st : Replay) (done : List Task), ReplayInv inst COEFS plan st done →
      ∃ (st' : Replay) (done' : List Task),
        replayRounds inst COEFS routes k st = Except.ok st' ∧
        ReplayInv inst COEFS plan st' done' := by
  intro k
  induction k with
  | zero =>
    intro st done h
    exact ⟨st, done, rfl, h⟩
  | succ k ih =>
    intro st done h
    obtain ⟨st1, done1, hrun, hinv, -⟩ := replayRound_ok hP h hR
    obtain ⟨st2, done2, hrun2, hinv2⟩ := ih st1 done1 hinv
    exact ⟨st2, done2, by rw [replayRounds_succ, hrun, ok_bind, hrun2], hinv2⟩

/-- The replay loop ends: after at most one round per task still to commit and
one more round, every vehicle is marked as finished; every round commits a task
or marks a vehicle. -/
theorem replayLoop_ends {inst : Instance} {COEFS : Fin 3 → ℚ} {plan : List Task}
    {routes : List Route} (hP : PlanFacts inst plan)
    (hR : ∀ v : Nat, v < inst.numVehicles → routes[v]? = some (fileRoute plan v)) :
    ∀ (m : Nat) (st : Replay) (done : List Task), ReplayInv inst COEFS plan st done →
      plan.length - done.length ≤ m →
      ∃ (n : Nat) (final : Replay) (done' : List Task),
        n ≤ plan.length - done.length + 1 ∧
        replayRounds inst COEFS routes n st = Except.ok final ∧
        ReplayInv inst COEFS plan final done' ∧
        final.nFinish = (inst.numVehicles : Int) ∧
        (∀ fuel : Nat, n ≤ fuel → replayLoop inst COEFS routes fuel st = Except.ok final) ∧
        (∀ k : Nat, k < n → ∃ (a b : Replay),
          replayRounds inst COEFS routes k st = Except.ok a ∧
          a.nFinish < (inst.numVehicles : Int) ∧
          replayRound inst COEFS routes a = Except.ok b ∧
          (a.sol.taskOrder.length < b.sol.taskOrder.length ∨ a.nFinish < b.nFinish)) := by
  intro m
  induction m with
  | zero =>
    intro st done h hm
    by_cases hfin : st.nFinish < (inst.numVehicles : Int)
    · obtain ⟨st1, done1, hrun, hinv, hpre, hmono, hprog, hall⟩ := replayRound_ok hP h hR
      have hallin : ∀ p ∈ plan, p ∈ done := by
        by_contra hc
        push_neg at hc
        have h1 := hprog hc
        have h2 := done_length_le hinv
        omega
      have hn := hall hallin
      refine ⟨1, st1, done1, by omega, by rw [replayRounds_succ, hrun, ok_bind]; rfl, hinv, hn,
        ?_, ?_⟩
      · intro fuel hfuel
        obtain ⟨f, rfl⟩ : ∃ f, fuel = f + 1 := ⟨fuel - 1, by omega⟩
        rw [replayLoop_round hfin, hrun, ok_bind]
        exact replayLoop_done (by omega) f
      · intro k hk
        have : k = 0 := by omega
        subst this
        exact ⟨st, st1, rfl, hfin, hrun, Or.inr (by omega)⟩
    · exact ⟨0, st, done, by omega, rfl, h, le_antisymm (nFinish_le h) (by omega),
        fun fuel _ => replayLoop_done hfin fuel, fun k hk => absurd hk (by omega)⟩
  | succ m ih =>
    intro st done h hm
    by_cases hfin : st.nFinish < (inst.numVehicles : Int)
    · obtain ⟨st1, done1, hrun, hinv, hpre, hmono, hprog, hall⟩ := replayRound_ok hP h hR
      by_cases hopen : ∃ p ∈ plan, p ∉ done
      · have h1 := hprog hopen
        have h2 := done_length_le hinv
        obtain ⟨n, final, done', hn, hrounds, hinv', hfinal, hloop, hevery⟩ :=
          ih st1 done1 hinv (by omega)
        refine ⟨n + 1, final, done', by omega,
          by rw [replayRounds_succ, hrun, ok_bind]; exact hrounds, hinv', hfinal, ?_, ?_⟩
        · intro fuel hfuel
          obtain ⟨f, rfl⟩ : ∃ f, fuel = f + 1 := ⟨fuel - 1, by omega⟩
          rw [replayLoop_round hfin, hrun, ok_bind]
          exact hloop f (by omega)
        · intro k hk
          cases k with
          | zero =>
            refine ⟨st, st1, rfl, hfin, hrun, Or.inl ?_⟩
            rw [h.order, hinv.order]
            exact h1
          | succ j =>
            obtain ⟨a, b, ha, hlt, hb, hor⟩ := hevery j (by omega)
            exact ⟨a, b, by rw [replayRounds_succ, hrun, ok_bind]; exact ha, hlt, hb, hor⟩
      · push_neg at hopen
        have hn := hall hopen
        refine ⟨1, st1, done1, by omega, by rw [replayRounds_succ, hrun, ok_bind]; rfl, hinv,
          hn, ?_, ?_⟩
        · intro fuel hfuel
          obtain ⟨f, rfl⟩ : ∃ f, fuel = f + 1 := ⟨fuel - 1, by omega⟩
          rw [replayLoop_round hfin, hrun, ok_bind]
          exact replayLoop_done (by omega) f
        · intro k hk
          have : k = 0 := by omega
          subst this
          exact ⟨st, st1, rfl, hfin, hrun, Or.inr (by omega)⟩
    · exact ⟨0, st, done, by omega, rfl, h, le_antisymm (nFinish_le h) (by omega),
        fun fuel _ => replayLoop_done hfin fuel, fun k hk => absurd hk (by omega)⟩

end Solution

namespace Solution

/-! ## From a construction to its file and back -/

theorem planFacts_of_build {inst : Instance} {COEFS : Fin 3 → ℚ} {tasks plan : List Task}
    {B : Solution} (hplan : PlanOk inst tasks plan)
    (hB : build inst COEFS plan (init inst) = Except.ok B) : PlanFacts inst plan := by
  obtain ⟨hnodes, hrange, -, -, hdouble⟩ := hplan
  have hfits := (build_fits plan (sized_init inst) hB).1
  have hty : ∀ p ∈ plan, p.skills.2 ≠ -1 → inst.nodeSvcType p.node ≠ SvcType.SINGLE :=
    fun p hp hs hc => hs ((hfits p hp).2.2.2.1 hc)
  exact
    { nodes := hnodes
      fits := hfits
      pos := fun p hp => (hrange p hp).1
      distinct := fun p hp hs => (hdouble p hp (hty p hp hs)).1
      skills := fun p hp hs => (hdouble p hp (hty p hp hs)).2 }

theorem construct_inv {inst : Instance} {COEFS : Fin 3 → ℚ} {plan : List Task} {S : Solution}
    (h : construct inst COEFS plan = Except.ok S) :
    ∃ B, build inst COEFS plan (init inst) = Except.ok B ∧
      finishRoutes inst COEFS B = Except.ok S := by
  unfold construct at h
  exact bind_eq_ok.1 h

theorem built_routes {inst : Instance} {COEFS : Fin 3 → ℚ} {plan : List Task} {B : Solution}
    (hP : PlanFacts inst plan) (hB : build inst COEFS plan (init inst) = Except.ok B) :
    ∀ v : Nat, v < inst.numVehicles → B.routes[v]? = some ((0, 0) :: stopsFor v plan) := by
  intro v hv
  have hinit : (init inst).routes[v]? = some [((0 : Int), (0 : Int))] := by
    simp [init, List.getElem?_replicate, hv]
  exact build_routes plan (sized_init inst) hB hP.distinct v _ hinit

theorem finished_routes {inst : Instance} {COEFS : Fin 3 → ℚ} {plan : List Task}
    {B S : Solution} (hSz : Sized inst B)
    (hr : ∀ v : Nat, v < inst.numVehicles → B.routes[v]? = some ((0, 0) :: stopsFor v plan))
    (hfin : finishRoutes inst COEFS B = Except.ok S) :
    S.routes.length = inst.numVehicles ∧
    (∀ v : Nat, v < inst.numVehicles → S.routes[v]? = some (fileRoute plan v)) ∧
    S.dist = B.dist + (B.routes.map (fun r => inst.distance (lastNode r) 0)).sum ∧
    S.tard = B.tard ∧ S.tmax = B.tmax ∧
    S.cachedCost = COEFS 0 * S.dist + COEFS 1 * S.tard + COEFS 2 * S.tmax := by
  have hne : ∀ r ∈ B.routes, r ≠ [] := by
    intro r hmem
    obtain ⟨i, hi, hget⟩ := List.mem_iff_getElem.1 hmem
    have := hr i (by rw [← hSz.1]; exact hi)
    rw [List.getElem?_eq_getElem hi, hget] at this
    injection this with this
    rw [this]
    simp
  rw [finishRoutes_eq inst COEFS B hSz.1 hne] at hfin
  injection hfin with hfin
  subst hfin
  refine ⟨by simp [hSz.1], ?_, rfl, rfl, rfl, rfl⟩
  intro v hv
  show (B.routes.map _)[v]? = _
  rw [List.getElem?_map, hr v hv]
  rfl

theorem tokens_length (l : List (Nat × Route)) :
    l.length ≤ ((l.flatMap (fun x => fileBlock x.1 x.2)).flatten).length := by
  induction l with
  | nil => simp
  | cons x xs ih =>
    rw [List.flatMap_cons, List.flatten_append, List.length_append, List.length_cons]
    have : 1 ≤ (fileBlock x.1 x.2).flatten.length := by
      simp [fileBlock]
    omega

end Solution

namespace Solution

theorem routeEq_self (r : Route) : routeEq r r = true := by
  unfold routeEq
  simp only [ne_eq, not_true_eq_false, if_false, List.all_eq_true, List.mem_range]
  intro i hi
  rw [List.getElem?_eq_getElem hi]
  simp

/-- What a state of the replay in which every vehicle is marked as finished tells
about the committed tasks: on every vehicle they are the tasks of the plan. -/
theorem legs_of_finished {inst : Instance} {COEFS : Fin 3 → ℚ} {plan done : List Task}
    {st : Replay} (h : ReplayInv inst COEFS plan st done)
    (hfin : st.nFinish = (inst.numVehicles : Int)) :
    ∀ v : Nat, v < inst.numVehicles → legs v done = legs v plan := by
  intro v hv
  have hcount : st.actFlag.count 1 = inst.numVehicles := by
    have := h.count
    omega
  have hone := all_of_count_eq h.flen hcount v hv
  rcases h.flag v hv with h0 | ⟨-, hlen⟩
  · rw [hone] at h0
    injection h0 with h0
    exact absurd h0 (by decide)
  · exact List.IsPrefix.eq_of_length (h.pre v hv) hlen

/-- The setting of the statements about the replay: the invariant holds when the
loop is entered, for the routes of the finalized construction. -/
theorem replay_setting {inst : Instance} {COEFS : Fin 3 → ℚ} {tasks plan : List Task}
    {S : Solution} (hT : TaskListOk inst tasks) (hplan : PlanOk inst tasks plan)
    (hS : construct inst COEFS plan = Except.ok S) :
    PlanFacts inst plan ∧ S.routes.length = inst.numVehicles ∧
    (∀ v : Nat, v < inst.numVehicles → S.routes[v]? = some (fileRoute plan v)) ∧
    ReplayInv inst COEFS plan (replayStart inst tasks) [] := by
  obtain ⟨B, hB, hfin⟩ := construct_inv hS
  have hP := planFacts_of_build hplan hB
  have hSz := (build_fits plan (sized_init inst) hB).2
  obtain ⟨hlen, hR, -⟩ := finished_routes hSz (built_routes hP hB) hfin
  exact ⟨hP, hlen, hR, replayInv_start COEFS hP hT (fun p hp => (hplan.2.1 p hp).2) hplan.2.2.2.1⟩

/-! ## The demonstration plan -/

theorem demo_taskListOk : TaskListOk demoInst (demoTaskList demoInst) := by
  refine ⟨rfl, ?_⟩
  intro k t hk
  match k with
  | 0 =>
    injection hk with hk
    subst hk
    exact ⟨rfl, rfl⟩
  | 1 =>
    injection hk with hk
    subst hk
    exact ⟨rfl, rfl⟩
  | 2 =>
    injection hk with hk
    subst hk
    exact ⟨rfl, rfl⟩
  | k + 3 => exact absurd hk (by simp [demoTaskList])

theorem demo_planOk : PlanOk demoInst (demoTaskList demoInst) demoPlan := by
  refine ⟨by decide, by decide, ?_, ?_, by decide⟩
  · intro i h1 h2
    have h3 : i < 4 := h2
    have : i = 1 ∨ i = 2 ∨ i = 3 := by omega
    rcases this with h | h | h <;> subst h <;> decide
  · intro p hp t ht
    simp only [demoPlan, List.mem_cons, List.mem_singleton, List.not_mem_nil, or_false] at hp
    rcases hp with h | h | h <;> subst h <;>
      · obtain ⟨-, ht⟩ := ht
        injection ht with ht
        subst ht
        rfl

theorem demo_construct : construct demoInst demoCoefs demoPlan = Except.ok demoFinal := by
  with_unfolding_all rfl

end Solution

namespace Solution

/-! ## Termination of the replay loop -/

/-- C18. For the routes of a Solution built by committing one task per non-depot
node (every double service on two distinct vehicles with its two distinct skills)
and finalized, the loop `while (nFinish < numVehicles)` ends after `n` rounds with
`n` at most the number of tasks plus one: any fuel of at least `n` rounds returns
the state `final` reached after `n` rounds, each of these rounds is entered with
`nFinish < numVehicles` and commits a task or marks a vehicle as finished, and in
`final` every vehicle is marked and its read-head is the index of the last stop of
its route, a depot stop. -/
theorem replay_terminates (inst : Instance) (COEFS : Fin 3 → ℚ) (tasks plan : List Task)
    (S : Solution) (hT : TaskListOk inst tasks) (hplan : PlanOk inst tasks plan)
    (hS : construct inst COEFS plan = Except.ok S) :
    ∃ (n : Nat) (final : Replay), n ≤ plan.length + 1 ∧
      replayRounds inst COEFS S.routes n (replayStart inst tasks) = Except.ok final ∧
      (∀ fuel : Nat, n ≤ fuel →
        replayLoop inst COEFS S.routes fuel (replayStart inst tasks) = Except.ok final) ∧
      (∀ k : Nat, k < n → ∃ (a b : Replay),
        replayRounds inst COEFS S.routes k (replayStart inst tasks) = Except.ok a ∧
        a.nFinish < (inst.numVehicles : Int) ∧
        replayRound inst COEFS S.routes a = Except.ok b ∧
        (a.sol.taskOrder.length < b.sol.taskOrder.length ∨ a.nFinish < b.nFinish)) ∧
      final.nFinish = (inst.numVehicles : Int) ∧
      ∀ v : Nat, v < inst.numVehicles → ∃ r : Route, S.routes[v]? = some r ∧
        final.vhead[v]? = some ((r.length : Int) - 1) ∧ 2 ≤ r.length ∧
        r[r.length - 1]? = some (0, 0) := by
  obtain ⟨hP, -, hR, hstart⟩ := replay_setting hT hplan hS
  obtain ⟨n, final, done', hn, hrounds, hinv, hfinal, hloop, hevery⟩ :=
    replayLoop_ends hP hR plan.length (replayStart inst tasks) [] hstart (by simp)
  refine ⟨n, final, by simpa using hn, hrounds, hloop, hevery, hfinal, ?_⟩
  intro v hv
  have hlegs := legs_of_finished hinv hfinal v hv
  refine ⟨fileRoute plan v, hR v hv, ?_, ?_, ?_⟩
  · rw [hinv.head v hv, hlegs, fileRoute_length]
    congr 1
    push_cast
    ring
  · rw [fileRoute_length]
    omega
  · have := fileRoute_head plan plan v (List.prefix_refl _)
    rw [fileRoute_length]
    have hnone : nextLeg plan plan v = none := by
      unfold nextLeg
      exact List.getElem?_eq_none (le_refl _)
    rw [hnone] at this
    exact this

theorem replay_terminates_witness :
    TaskListOk demoInst (demoTaskList demoInst) ∧
    PlanOk demoInst (demoTaskList demoInst) demoPlan ∧
    construct demoInst demoCoefs demoPlan = Except.ok demoFinal ∧
    ∃ (n : Nat) (final : Replay), n ≤ demoPlan.length + 1 ∧
      replayRounds demoInst demoCoefs demoFinal.routes n
        (replayStart demoInst (demoTaskList demoInst)) = Except.ok final ∧
      (∀ fuel : Nat, n ≤ fuel →
        replayLoop demoInst demoCoefs demoFinal.routes fuel
          (replayStart demoInst (demoTaskList demoInst)) = Except.ok final) ∧
      (∀ k : Nat, k < n → ∃ (a b : Replay),
        replayRounds demoInst demoCoefs demoFinal.routes k
          (replayStart demoInst (demoTaskList demoInst)) = Except.ok a ∧
        a.nFinish < (demoInst.numVehicles : Int) ∧
        replayRound demoInst demoCoefs demoFinal.routes a = Except.ok b ∧
        (a.sol.taskOrder.length < b.sol.taskOrder.length ∨ a.nFinish < b.nFinish)) ∧
      final.nFinish = (demoInst.numVehicles : Int) ∧
      ∀ v : Nat, v < demoInst.numVehicles → ∃ r : Route, demoFinal.routes[v]? = some r ∧
        final.vhead[v]? = some ((r.length : Int) - 1) ∧ 2 ≤ r.length ∧
        r[r.length - 1]? = some (0, 0) :=
  ⟨demo_taskListOk, demo_planOk, demo_construct,
    replay_terminates demoInst demoCoefs (demoTaskList demoInst) demoPlan demoFinal
      demo_taskListOk demo_planOk demo_construct⟩

end Solution

namespace Solution

/-! ## Index safety of the replay -/

/-- The read-heads and the task looked up next in a state of the replay. -/
theorem replay_heads_safe {inst : Instance} {COEFS : Fin 3 → ℚ} {plan done : List Task}
    {st : Replay} (hP : PlanFacts inst plan) (h : ReplayInv inst COEFS plan st done)
    {v : Nat} (hv : v < inst.numVehicles) :
    ∃ head : Int, st.vhead[v]? = some head ∧ 1 ≤ head ∧
      head < ((fileRoute plan v).length : Int) ∧
      (∀ i : Nat, 1 ≤ i → (i : Int) < head →
        ∃ stop, (fileRoute plan v)[i]? = some stop ∧ stop.1 ≠ 0) ∧
      (∀ stop, (fileRoute plan v)[head.toNat]? = some stop → stop.1 ≠ 0 →
        inBounds st.allTasks (stop.1 - 1)) := by
  have hle := (h.pre v hv).length_le
  refine ⟨((legs (v : Int) done).length : Int) + 1, h.head v hv, by omega, ?_, ?_, ?_⟩
  · rw [fileRoute_length]
    omega
  · intro i hi1 hi2
    obtain ⟨j, rfl⟩ : ∃ j, i = j + 1 := ⟨i - 1, by omega⟩
    have hj : j < (legs (v : Int) plan).length := by omega
    refine ⟨stopOf ((legs (v : Int) plan)[j]) v, ?_, ?_⟩
    · unfold fileRoute stopsFor
      rw [List.getElem?_cons_succ, List.getElem?_append_left (by simpa using hj),
        List.getElem?_map, List.getElem?_eq_getElem hj]
      rfl
    · rw [stopOf_fst]
      have hmem := (mem_legs.1 (List.getElem_mem hj)).1
      have := hP.pos _ hmem
      omega
  · intro stop hstop hne
    have hidx : (((legs (v : Int) done).length : Int) + 1).toNat =
        (legs (v : Int) done).length + 1 := by omega
    rw [hidx, fileRoute_head plan done v (h.pre v hv)] at hstop
    cases hnx : nextLeg plan done v with
    | none =>
      rw [hnx] at hstop
      injection hstop with hstop
      rw [← hstop] at hne
      exact absurd rfl hne
    | some p =>
      rw [hnx] at hstop
      injection hstop with hstop
      rw [← hstop, stopOf_fst]
      obtain ⟨e, hat, -⟩ := h.entry p (nextLeg_mem hnx).1
        (nextLeg_not_done (plan_nodup hP) (h.pre v hv) hnx)
      exact vecAt_inBounds hat

/-- For the routes of a Solution built by committing one task per non-depot node
(every double service on two distinct vehicles with its two distinct skills) and
finalized, any number `k` of rounds of the replay followed by the passes for the
vehicles `0, ..., j - 1` of the next round completes, and afterwards every
read-head is an index of its route that is at least 1, every stop between index 1
and the read-head names a node other than the depot, and the task lookup
`allTasks[i - 1]` for the stop under the read-head is within bounds. -/
theorem replay_written_heads (inst : Instance) (COEFS : Fin 3 → ℚ) (tasks plan : List Task)
    (S : Solution) (hT : TaskListOk inst tasks) (hplan : PlanOk inst tasks plan)
    (hS : construct inst COEFS plan = Except.ok S) (k j : Nat) (hj : j ≤ inst.numVehicles) :
    ∃ (a b : Replay),
      replayRounds inst COEFS S.routes k (replayStart inst tasks) = Except.ok a ∧
      (List.range j).foldlM (replayVehicle inst COEFS S.routes) a = Except.ok b ∧
      ∀ v : Nat, v < inst.numVehicles → ∃ (r : Route) (head : Int),
        S.routes[v]? = some r ∧ b.vhead[v]? = some head ∧ 1 ≤ head ∧
        head < (r.length : Int) ∧
        (∀ i : Nat, 1 ≤ i → (i : Int) < head → ∃ stop, r[i]? = some stop ∧ stop.1 ≠ 0) ∧
        (∀ stop, r[head.toNat]? = some stop → stop.1 ≠ 0 →
          inBounds b.allTasks (stop.1 - 1)) := by
  obtain ⟨hP, -, hR, hstart⟩ := replay_setting hT hplan hS
  obtain ⟨a, done1, hrounds, hinv⟩ := replayRounds_ok hP hR k _ _ hstart
  obtain ⟨b, done2, hpasses, hinv2, -⟩ := replayRound_prefix hP hinv hR j hj
  refine ⟨a, b, hrounds, hpasses, fun v hv => ?_⟩
  obtain ⟨head, h1, h2, h3, h4, h5⟩ := replay_heads_safe hP hinv2 hv
  exact ⟨fileRoute plan v, head, hR v hv, h1, h2, h3, h4, h5⟩

/-- C19 as stated fails. Each route of `badRoutes`, the routes parsed from
`badTokens`, has a depot stop at an index `d ≥ 1` and every stop before it names a
node in `1..numNodes-1`; yet two rounds of the replay leave the read-head of
vehicle 1 at index 4, the length of its route, with one vehicle still unfinished,
and the third round reads the route out of bounds. -/
theorem replay_index_counterexample :
    (∀ r ∈ badRoutes, ∃ d : Nat, 1 ≤ d ∧ r[d]? = some (0, 0) ∧
      ∀ i : Nat, i < d → ∃ stop, r[i]? = some stop ∧ 1 ≤ stop.1 ∧
        stop.1 < (demoInst.numNodes : Int)) ∧
    readBlocks (badTokens.length + 1) badTokens (List.replicate demoInst.numVehicles []) =
      Except.ok badRoutes ∧
    (replayRounds demoInst demoCoefs badRoutes 2
        (replayStart demoInst (demoTaskList demoInst))).map
      (fun st => (st.vhead, st.nFinish)) = Except.ok ([2, 4], 1) ∧
    badRoutes[1]?.map (fun r => r.length) = some 4 ∧
    replayRounds demoInst demoCoefs badRoutes 3
      (replayStart demoInst (demoTaskList demoInst)) = Except.error outOfRange ∧
    replayLoop demoInst demoCoefs badRoutes 3
      (replayStart demoInst (demoTaskList demoInst)) = Except.error outOfRange ∧
    readFromFile demoInst demoCoefs demoTaskList 3 badTokens = Except.error outOfRange := by
  refine ⟨?_, by with_unfolding_all rfl, by with_unfolding_all rfl, rfl,
    by with_unfolding_all rfl, by with_unfolding_all rfl, by with_unfolding_all rfl⟩
  intro r hr
  simp only [badRoutes, List.mem_cons, List.mem_singleton, List.not_mem_nil, or_false] at hr
  rcases hr with h | h <;> subst h
  · refine ⟨2, by decide, rfl, ?_⟩
    intro i hi
    match i with
    | 0 => exact ⟨_, rfl, by decide, by decide⟩
    | 1 => exact ⟨_, rfl, by decide, by decide⟩
    | i + 2 => exact absurd hi (by omega)
  · refine ⟨3, by decide, rfl, ?_⟩
    intro i hi
    match i with
    | 0 => exact ⟨_, rfl, by decide, by decide⟩
    | 1 => exact ⟨_, rfl, by decide, by decide⟩
    | 2 => exact ⟨_, rfl, by decide, by decide⟩
    | i + 3 => exact absurd hi (by omega)

end Solution

namespace Solution

/-! ## Round trip through the file -/

/-- The reconstruction from the file of a finalized construction: the file is
written and parsed back, the replay ends with a state whose Solution holds the
commits of a list `done` of tasks, and `readFromFile` returns this Solution
finalized. -/
theorem readFromFile_written {inst : Instance} {COEFS : Fin 3 → ℚ}
    {createTaskList : Instance → List Task} {plan : List Task} {S : Solution}
    (hT : TaskListOk inst (createTaskList inst))
    (hplan : PlanOk inst (createTaskList inst) plan)
    (hS : construct inst COEFS plan = Except.ok S) {fuel : Nat}
    (hfuel : plan.length + 1 ≤ fuel) :
    ∃ (lines : List (List Int)) (final : Replay) (done : List Task) (S' : Solution),
      writeTxt inst S = Except.ok lines ∧
      readFromFile inst COEFS createTaskList fuel lines.flatten = Except.ok S' ∧
      finishRoutes inst COEFS final.sol = Except.ok S' ∧
      build inst COEFS done (init inst) = Except.ok (forget final.sol) ∧
      PlanFacts inst plan ∧ (∀ q ∈ done, q ∈ plan) ∧ done.Nodup ∧
      (∀ v : Nat, v < inst.numVehicles → legs v done = legs v plan) ∧
      S'.routes = S.routes ∧
      S'.dist = final.sol.dist +
        (final.sol.routes.map (fun r => inst.distance (lastNode r) 0)).sum ∧
      S'.tard = final.sol.tard ∧ S'.tmax = final.sol.tmax ∧
      S'.cachedCost = COEFS 0 * S'.dist + COEFS 1 * S'.tard + COEFS 2 * S'.tmax := by
  obtain ⟨hP, hlen, hR, hstart⟩ := replay_setting hT hplan hS
  obtain ⟨n, final, done, hn, -, hinv, hfinal, hloop, -⟩ :=
    replayLoop_ends hP hR plan.length (replayStart inst (createTaskList inst)) [] hstart
      (by simp)
  have hlegs := legs_of_finished hinv hfinal
  have hSz := sized_of_inv hinv
  have hroutes : ∀ v : Nat, v < inst.numVehicles →
      final.sol.routes[v]? = some ((0, 0) :: stopsFor v plan) := by
    intro v hv
    have hinit : (init inst).routes[v]? = some [((0 : Int), (0 : Int))] := by
      simp [init, List.getElem?_replicate, hv]
    have := build_routes done (sized_init inst) hinv.built
      (fun q hq => hP.distinct q (hinv.sub q hq)) v _ hinit
    have hst : stopsFor (v : Int) done = stopsFor (v : Int) plan := by
      unfold stopsFor
      rw [hlegs v hv]
    rw [hst] at this
    exact this
  have hne : ∀ r ∈ final.sol.routes, r ≠ [] := by
    intro r hmem
    obtain ⟨i, hi, hget⟩ := List.mem_iff_getElem.1 hmem
    have := hroutes i (by rw [← hSz.1]; exact hi)
    rw [List.getElem?_eq_getElem hi, hget] at this
    injection this with this
    rw [this]
    simp
  have hfin := finishRoutes_eq inst COEFS final.sol hSz.1 hne
  obtain ⟨hlen', hR', hdist, htard, htmax, hcost⟩ := finished_routes hSz hroutes hfin
  have hparse := readBlocks_written inst S hlen
    (((S.routes.enum).flatMap (fun x => fileBlock x.1 x.2)).flatten.length + 1)
    (by
      have := tokens_length S.routes.enum
      rw [List.enum_length, hlen] at this
      omega)
  refine ⟨_, final, done, _, writeTxt_eq inst S hlen, ?_, hfin, hinv.built, hP, hinv.sub,
    hinv.nodup, hlegs, ?_, hdist, htard, htmax, hcost⟩
  · unfold readFromFile
    rw [hparse, ok_bind, hloop fuel (by simp at hn; omega), ok_bind]
    exact hfin
  · apply List.ext_getElem?
    intro v
    by_cases hv : v < inst.numVehicles
    · rw [hR' v hv, hR v hv]
    · rw [List.getElem?_eq_none (by rw [hlen']; omega),
        List.getElem?_eq_none (by rw [hlen]; omega)]

/-- C11. For a Solution `S` built from the constructed state by evaluate-then-commit
of one task per non-depot node (every double service on two distinct vehicles with
the two skills of its node) followed by `finishRoutes`, `writeTxt` succeeds and
`readFromFile` applied to the written integers, with fuel for at least as many
rounds as tasks plus one, returns a Solution with as many routes as `S`, each
equal to the route of the same vehicle of `S` under `operator==` and as a list of
pairs. -/
theorem round_trip_routes (inst : Instance) (COEFS : Fin 3 → ℚ)
    (createTaskList : Instance → List Task) (plan : List Task) (S : Solution) (fuel : Nat)
    (hT : TaskListOk inst (createTaskList inst))
    (hplan : PlanOk inst (createTaskList inst) plan)
    (hS : construct inst COEFS plan = Except.ok S) (hfuel : plan.length + 1 ≤ fuel) :
    ∃ (lines : List (List Int)) (S' : Solution),
      writeTxt inst S = Except.ok lines ∧
      readFromFile inst COEFS createTaskList fuel lines.flatten = Except.ok S' ∧
      S'.routes.length = S.routes.length ∧
      ∀ (v : Nat) (r r' : Route), S.routes[v]? = some r → S'.routes[v]? = some r' →
        routeEq r' r = true ∧ r' = r := by
  obtain ⟨lines, final, done, S', hW, hread, -, -, -, -, -, -, hroutes, -⟩ :=
    readFromFile_written hT hplan hS hfuel
  refine ⟨lines, S', hW, hread, by rw [hroutes], ?_⟩
  intro v r r' hr hr'
  rw [hroutes, hr] at hr'
  injection hr' with hr'
  subst hr'
  exact ⟨routeEq_self r, rfl⟩

theorem round_trip_routes_witness :
    TaskListOk demoInst (demoTaskList demoInst) ∧
    PlanOk demoInst (demoTaskList demoInst) demoPlan ∧
    construct demoInst demoCoefs demoPlan = Except.ok demoFinal ∧
    demoPlan.length + 1 ≤ 4 ∧
    ∃ (lines : List (List Int)) (S' : Solution),
      writeTxt demoInst demoFinal = Except.ok lines ∧
      readFromFile demoInst demoCoefs demoTaskList 4 lines.flatten = Except.ok S' ∧
      S'.routes.length = demoFinal.routes.length ∧
      ∀ (v : Nat) (r r' : Route), demoFinal.routes[v]? = some r → S'.routes[v]? = some r' →
        routeEq r' r = true ∧ r' = r :=
  ⟨demo_taskListOk, demo_planOk, demo_construct, by decide,
    round_trip_routes demoInst demoCoefs demoTaskList demoPlan demoFinal 4
      demo_taskListOk demo_planOk demo_construct (by decide)⟩

end Solution

namespace Solution

/-! ## Commits of tasks with no vehicle in common can be exchanged -/

theorem modify_comm {α : Type} (l : List α) (f g : α → α) {i j : Nat} (h : i ≠ j) :
    (l.modify f i).modify g j = (l.modify g j).modify f i := by
  apply List.ext_getElem?
  intro n
  simp only [List.getElem?_modify]
  by_cases hi : i = n
  · have hj : ¬ j = n := fun hc => h (hi.trans hc.symm)
    cases l[n]? <;> simp [hi, hj]
  · by_cases hj : j = n
    · cases l[n]? <;> simp [hi, hj]
    · cases l[n]? <;> simp [hi, hj]

/-- Two groups of one or two updates of cells, at indices of which none belongs to
both groups, give the same list in both orders. -/
theorem chain_swap {α : Type} (l : List α) (ca cp : Prop) [Decidable ca] [Decidable cp]
    (f1 f2 g1 g2 : α → α) {i1 i2 j1 j2 : Nat} (h11 : i1 ≠ j1) (h12 : ¬ cp → i1 ≠ j2)
    (h21 : ¬ ca → i2 ≠ j1) (h22 : ¬ ca → ¬ cp → i2 ≠ j2) :
    (if cp then
        (if ca then l.modify f1 i1 else (l.modify f1 i1).modify f2 i2).modify g1 j1
      else
        ((if ca then l.modify f1 i1 else (l.modify f1 i1).modify f2 i2).modify g1 j1).modify
          g2 j2) =
    (if ca then
        (if cp then l.modify g1 j1 else (l.modify g1 j1).modify g2 j2).modify f1 i1
      else
        ((if cp then l.modify g1 j1 else (l.modify g1 j1).modify g2 j2).modify f1 i1).modify
          f2 i2) := by
  by_cases ha : ca
  · by_cases hp : cp
    · rw [if_pos ha, if_pos hp, if_pos ha, if_pos hp]
      exact modify_comm l f1 g1 h11
    · rw [if_pos ha, if_neg hp, if_pos ha, if_neg hp, modify_comm l f1 g1 h11,
        modify_comm _ f1 g2 (h12 hp)]
  · by_cases hp : cp
    · rw [if_neg ha, if_pos hp, if_neg ha, if_pos hp, modify_comm _ f2 g1 (h21 ha),
        modify_comm l f1 g1 h11]
    · rw [if_neg ha, if_neg hp, if_neg ha, if_neg hp, modify_comm _ f2 g1 (h21 ha),
        modify_comm l f1 g1 h11, modify_comm _ f2 g2 (h22 ha hp),
        modify_comm _ f1 g2 (h12 hp)]

theorem solution_ext {S T : Solution} (h0 : S.taskOrder = T.taskOrder)
    (h1 : S.routes = T.routes) (h2 : S.vehiPos = T.vehiPos)
    (h3 : S.vehiLeaveTime = T.vehiLeaveTime) (h4 : S.svcVehi = T.svcVehi)
    (h5 : S.svcStartTm = T.svcStartTm) (h6 : S.dist = T.dist) (h7 : S.tard = T.tard)
    (h8 : S.tmax = T.tmax) (h9 : S.cachedCost = T.cachedCost) : S = T := by
  cases S
  cases T
  simp only at h0 h1 h2 h3 h4 h5 h6 h7 h8 h9
  subst h0 h1 h2 h3 h4 h5 h6 h7 h8 h9
  rfl

theorem applyTask_dist (S : Solution) (t : Task) :
    (applyTask S t).dist = S.dist + t.incDist := by
  unfold applyTask
  split <;> rfl

theorem applyTask_tard (S : Solution) (t : Task) :
    (applyTask S t).tard = S.tard + t.incTard := by
  unfold applyTask
  split <;> rfl

theorem applyTask_tmax (S : Solution) (t : Task) :
    (applyTask S t).tmax = max S.tmax t.currTmax := by
  unfold applyTask
  split <;> rfl

theorem applyTask_cachedCost (S : Solution) (t : Task) :
    (applyTask S t).cachedCost = t.cachedCost := by
  unfold applyTask
  split <;> rfl

theorem applyTask_routes_eq (S : Solution) (t : Task) :
    (applyTask S t).routes =
      if t.skills.2 = -1 then
        S.routes.modify (fun r => r ++ [(t.node, t.skills.1)]) t.vehi.1.toNat
      else
        (S.routes.modify (fun r => r ++ [(t.node, t.skills.1)]) t.vehi.1.toNat).modify
          (fun r => r ++ [(t.node, t.skills.2)]) t.vehi.2.toNat := by
  unfold applyTask
  split <;> rfl

theorem applyTask_vehiPos_eq (S : Solution) (t : Task) :
    (applyTask S t).vehiPos =
      if t.skills.2 = -1 then S.vehiPos.modify (fun _ => t.node) t.vehi.1.toNat
      else (S.vehiPos.modify (fun _ => t.node) t.vehi.1.toNat).modify
        (fun _ => t.node) t.vehi.2.toNat := by
  unfold applyTask
  split <;> rfl

theorem applyTask_vehiLeaveTime_eq (S : Solution) (t : Task) :
    (applyTask S t).vehiLeaveTime =
      if t.skills.2 = -1 then S.vehiLeaveTime.modify (fun _ => t.leaveTime.1) t.vehi.1.toNat
      else (S.vehiLeaveTime.modify (fun _ => t.leaveTime.1) t.vehi.1.toNat).modify
        (fun _ => t.leaveTime.2) t.vehi.2.toNat := by
  unfold applyTask
  split <;> rfl

theorem applyTask_svcVehi_eq (S : Solution) (t : Task) :
    (applyTask S t).svcVehi =
      if t.skills.2 = -1 then
        S.svcVehi.modify (fun p => (t.vehi.1, p.2)) t.node.toNat
      else
        (S.svcVehi.modify (fun p => (t.vehi.1, p.2)) t.node.toNat).modify
          (fun p => (p.1, t.vehi.2)) t.node.toNat := by
  unfold applyTask
  split <;> rfl

theorem applyTask_svcStartTm_eq (S : Solution) (t : Task) :
    (applyTask S t).svcStartTm =
      if t.skills.2 = -1 then
        S.svcStartTm.modify (fun p => (t.startTime.1, p.2)) t.node.toNat
      else
        (S.svcStartTm.modify (fun p => (t.startTime.1, p.2)) t.node.toNat).modify
          (fun p => (p.1, t.startTime.2)) t.node.toNat := by
  unfold applyTask
  split <;> rfl

end Solution

namespace Solution

theorem vecAt_transfer {α : Type} {xs ys : List α} {i : Int} {x : α}
    (h : ys[i.toNat]? = xs[i.toNat]?) (hx : vecAt xs i x) : vecAt ys i x :=
  ⟨hx.1, by rw [h]; exact hx.2⟩

/-- The evaluation of a task reads the position and the leave time of the vehicles
of the task only: against a state with the same values in these cells it stores
the same times and increments, and in both states the stored cost is the weighted
sum of the totals after the commit. -/
theorem evaluation_frame {inst : Instance} {COEFS : Fin 3 → ℚ} {S S' : Solution} {t : Task}
    (hl0 : S'.vehiLeaveTime[t.vehi.1.toNat]? = S.vehiLeaveTime[t.vehi.1.toNat]?)
    (hp0 : S'.vehiPos[t.vehi.1.toNat]? = S.vehiPos[t.vehi.1.toNat]?)
    (h2 : t.skills.2 ≠ -1 →
      S'.vehiLeaveTime[t.vehi.2.toNat]? = S.vehiLeaveTime[t.vehi.2.toNat]? ∧
      S'.vehiPos[t.vehi.2.toNat]? = S.vehiPos[t.vehi.2.toNat]?)
    {r : Task} {c : ℚ} (h : findInsertionCost inst COEFS S t = Except.ok (r, c)) :
    ∃ (r' : Task) (c' : ℚ), findInsertionCost inst COEFS S' t = Except.ok (r', c') ∧
      r'.node = r.node ∧ r'.vehi = r.vehi ∧ r'.skills = r.skills ∧
      r'.startTime = r.startTime ∧ r'.leaveTime = r.leaveTime ∧
      r'.incDist = r.incDist ∧ r'.incTard = r.incTard ∧ r'.currTmax = r.currTmax ∧
      r.cachedCost = COEFS 0 * (S.dist + r.incDist) + COEFS 1 * (S.tard + r.incTard) +
        COEFS 2 * max S.tmax r.currTmax ∧
      r'.cachedCost = COEFS 0 * (S'.dist + r'.incDist) + COEFS 1 * (S'.tard + r'.incTard) +
        COEFS 2 * max S'.tmax r'.currTmax := by
  have hpre := findInsertionCost_ok_evalPre h
  unfold evalPre at hpre
  obtain ⟨hb0, hq0, hs0, hpre⟩ := hpre
  obtain ⟨l0, hl⟩ := inBounds_vecAt hb0
  obtain ⟨p0, hp⟩ := inBounds_vecAt hq0
  cases hty : inst.nodeSvcType t.node
  · rw [hty] at hpre
    obtain ⟨e1, d1, hf1, -, hn1, hv1, hsk1, hst1, hlt1, hd1, hit1, hct1, hcost1⟩ :=
      single_evaluation_eq inst COEFS S t l0 p0 hty hl hp hs0 hpre
    rw [h] at hf1
    injection hf1 with hf1
    injection hf1 with hr hcc
    subst hr hcc
    obtain ⟨e2, d2, hf2, -, hn2, hv2, hsk2, hst2, hlt2, hd2, hit2, hct2, hcost2⟩ :=
      single_evaluation_eq inst COEFS S' t l0 p0 hty (vecAt_transfer hl0 hl)
        (vecAt_transfer hp0 hp) hs0 hpre
    exact ⟨e2, d2, hf2, by rw [hn2, hn1], by rw [hv2, hv1], by rw [hsk2, hsk1],
      by rw [hst2, hst1], by rw [hlt2, hlt1], by rw [hd2, hd1], by rw [hit2, hit1],
      by rw [hct2, hct1], hcost1, hcost2⟩
  · rw [hty] at hpre
    obtain ⟨hb1, hq1, hs1⟩ := hpre
    obtain ⟨l1, hl1⟩ := inBounds_vecAt hb1
    obtain ⟨p1, hp1⟩ := inBounds_vecAt hq1
    obtain ⟨hl2, hp2⟩ := h2 hs1
    obtain ⟨e1, d1, hf1, -, hn1, hv1, hsk1, hst1, hlt1, hd1, hit1, hct1, hcost1⟩ :=
      sim_evaluation_eq inst COEFS S t l0 l1 p0 p1 hty hl hp hl1 hp1 hs0 hs1
    rw [h] at hf1
    injection hf1 with hf1
    injection hf1 with hr hcc
    subst hr hcc
    obtain ⟨e2, d2, hf2, -, hn2, hv2, hsk2, hst2, hlt2, hd2, hit2, hct2, hcost2⟩ :=
      sim_evaluation_eq inst COEFS S' t l0 l1 p0 p1 hty (vecAt_transfer hl0 hl)
        (vecAt_transfer hp0 hp) (vecAt_transfer hl2 hl1) (vecAt_transfer hp2 hp1) hs0 hs1
    have hss : e2.startTime = r.startTime := by rw [hst2, hst1]
    exact ⟨e2, d2, hf2, by rw [hn2, hn1], by rw [hv2, hv1], by rw [hsk2, hsk1], hss,
      by rw [hlt2, hlt1, hss], by rw [hd2, hd1], by rw [hit2, hit1, hss],
      by rw [hct2, hct1, hss], hcost1, hcost2⟩
  · rw [hty] at hpre
    obtain ⟨hb1, hq1, hs1, hsep⟩ := hpre
    obtain ⟨l1, hl1⟩ := inBounds_vecAt hb1
    obtain ⟨p1, hp1⟩ := inBounds_vecAt hq1
    obtain ⟨hl2, hp2⟩ := h2 hs1
    obtain ⟨e1, d1, hf1, -, hn1, hv1, hsk1, hst1, hlt1, hd1, hit1, hct1, hcost1⟩ :=
      precedence_evaluation_eq inst COEFS S t l0 l1 p0 p1 hty hl hp hl1 hp1 hs0 hs1 hsep
    rw [h] at hf1
    injection hf1 with hf1
    injection hf1 with hr hcc
    subst hr hcc
    obtain ⟨e2, d2, hf2, -, hn2, hv2, hsk2, hst2, hlt2, hd2, hit2, hct2, hcost2⟩ :=
      precedence_evaluation_eq inst COEFS S' t l0 l1 p0 p1 hty (vecAt_transfer hl0 hl)
        (vecAt_transfer hp0 hp) (vecAt_transfer hl2 hl1) (vecAt_transfer hp2 hp1) hs0 hs1 hsep
    have hss : e2.startTime = r.startTime := by rw [hst2, hst1]
    exact ⟨e2, d2, hf2, by rw [hn2, hn1], by rw [hv2, hv1], by rw [hsk2, hsk1], hss,
      by rw [hlt2, hlt1, hss], by rw [hd2, hd1], by rw [hit2, hit1, hss],
      by rw [hct2, hct1, hss], hcost1, hcost2⟩

/-- The commit of a task leaves the position and the leave time of the vehicles it
does not name as they are. -/
theorem applyTask_other_vehicle (S : Solution) (t : Task) {k : Nat}
    (h1 : t.vehi.1.toNat ≠ k) (h2 : t.skills.2 ≠ -1 → t.vehi.2.toNat ≠ k) :
    (applyTask S t).vehiLeaveTime[k]? = S.vehiLeaveTime[k]? ∧
    (applyTask S t).vehiPos[k]? = S.vehiPos[k]? := by
  rw [applyTask_vehiLeaveTime_eq, applyTask_vehiPos_eq]
  by_cases hs : t.skills.2 = -1
  · rw [if_pos hs, if_pos hs, List.getElem?_modify, List.getElem?_modify]
    simp [h1]
  · rw [if_neg hs, if_neg hs, List.getElem?_modify, List.getElem?_modify,
      List.getElem?_modify, List.getElem?_modify]
    simp [h1, h2 hs]

end Solution

namespace Solution

theorem max_swap (a b c : ℚ) : max (max a b) c = max (max a c) b := by
  rw [max_assoc, max_comm b c, ← max_assoc]

/-- Two commits of evaluated tasks that name no vehicle in common and belong to
different nodes lead to the same state in both orders, when each task carries the
same times and increments in both orders and the cost of the totals after its
commit. -/
theorem applyTask_swap (COEFS : Fin 3 → ℚ) (S : Solution) {ra rp ra' rp' : Task}
    (han : ra'.node = ra.node) (hav : ra'.vehi = ra.vehi) (has : ra'.skills = ra.skills)
    (hast : ra'.startTime = ra.startTime) (halt : ra'.leaveTime = ra.leaveTime)
    (had : ra'.incDist = ra.incDist) (hait : ra'.incTard = ra.incTard)
    (hact : ra'.currTmax = ra.currTmax)
    (hpn : rp'.node = rp.node) (hpv : rp'.vehi = rp.vehi) (hps : rp'.skills = rp.skills)
    (hpst : rp'.startTime = rp.startTime) (hplt : rp'.leaveTime = rp.leaveTime)
    (hpd : rp'.incDist = rp.incDist) (hpit : rp'.incTard = rp.incTard)
    (hpct : rp'.currTmax = rp.currTmax)
    (ha0 : 0 ≤ ra.vehi.1) (ha1 : ra.skills.2 ≠ -1 → 0 ≤ ra.vehi.2)
    (hp0 : 0 ≤ rp.vehi.1) (hp1 : rp.skills.2 ≠ -1 → 0 ≤ rp.vehi.2)
    (hna : 0 ≤ ra.node) (hnp : 0 ≤ rp.node) (hnode : ra.node ≠ rp.node)
    (hdisj : ∀ v : Int, serves ra v = true → serves rp v = true → False)
    (hcp : rp.cachedCost =
      COEFS 0 * ((applyTask S ra).dist + rp.incDist) +
        COEFS 1 * ((applyTask S ra).tard + rp.incTard) +
        COEFS 2 * max (applyTask S ra).tmax rp.currTmax)
    (hca : ra'.cachedCost =
      COEFS 0 * ((applyTask S rp').dist + ra'.incDist) +
        COEFS 1 * ((applyTask S rp').tard + ra'.incTard) +
        COEFS 2 * max (applyTask S rp').tmax ra'.currTmax) :
    applyTask (applyTask S ra) rp = applyTask (applyTask S rp') ra' := by
  have h11 : ra.vehi.1.toNat ≠ rp.vehi.1.toNat := by
    intro hc
    have : ra.vehi.1 = rp.vehi.1 := by omega
    exact hdisj ra.vehi.1 (serves_iff.2 (Or.inl rfl)) (serves_iff.2 (Or.inl this.symm))
  have h12 : ¬ rp.skills.2 = -1 → ra.vehi.1.toNat ≠ rp.vehi.2.toNat := by
    intro hs hc
    have := hp1 hs
    have : ra.vehi.1 = rp.vehi.2 := by omega
    exact hdisj ra.vehi.1 (serves_iff.2 (Or.inl rfl)) (serves_iff.2 (Or.inr ⟨hs, this.symm⟩))
  have h21 : ¬ ra.skills.2 = -1 → ra.vehi.2.toNat ≠ rp.vehi.1.toNat := by
    intro hs hc
    have := ha1 hs
    have : ra.vehi.2 = rp.vehi.1 := by omega
    exact hdisj ra.vehi.2 (serves_iff.2 (Or.inr ⟨hs, rfl⟩)) (serves_iff.2 (Or.inl this.symm))
  have h22 : ¬ ra.skills.2 = -1 → ¬ rp.skills.2 = -1 → ra.vehi.2.toNat ≠ rp.vehi.2.toNat := by
    intro hs hs' hc
    have := ha1 hs
    have := hp1 hs'
    have : ra.vehi.2 = rp.vehi.2 := by omega
    exact hdisj ra.vehi.2 (serves_iff.2 (Or.inr ⟨hs, rfl⟩))
      (serves_iff.2 (Or.inr ⟨hs', this.symm⟩))
  have hnn : ra.node.toNat ≠ rp.node.toNat := by omega
  apply solution_ext
  · simp only [applyTask_taskOrder]
  · simp only [applyTask_routes_eq, han, hav, has, hpn, hpv, hps]
    exact chain_swap _ _ _ _ _ _ _ h11 h12 h21 h22
  · simp only [applyTask_vehiPos_eq, han, hav, has, hpn, hpv, hps]
    exact chain_swap _ _ _ _ _ _ _ h11 h12 h21 h22
  · simp only [applyTask_vehiLeaveTime_eq, hav, has, halt, hpv, hps, hplt]
    exact chain_swap _ _ _ _ _ _ _ h11 h12 h21 h22
  · simp only [applyTask_svcVehi_eq, han, hav, has, hpn, hpv, hps]
    exact chain_swap _ _ _ _ _ _ _ hnn (fun _ => hnn) (fun _ => hnn) (fun _ _ => hnn)
  · simp only [applyTask_svcStartTm_eq, han, has, hast, hpn, hps, hpst]
    exact chain_swap _ _ _ _ _ _ _ hnn (fun _ => hnn) (fun _ => hnn) (fun _ _ => hnn)
  · simp only [applyTask_dist, had, hpd]
    ring
  · simp only [applyTask_tard, hait, hpit]
    ring
  · simp only [applyTask_tmax, hact, hpct]
    exact max_swap _ _ _
  · simp only [applyTask_cachedCost]
    rw [hcp, hca]
    simp only [applyTask_dist, applyTask_tard, applyTask_tmax, had, hpd, hait, hpit, hact, hpct]
    rw [max_swap]
    ring

end Solution

namespace Solution

/-- The cells read by the evaluation of `p` are not written by the commit of a task
that names none of the vehicles of `p`. -/
theorem cells_kept (S : Solution) {r p : Task} (hr0 : 0 ≤ r.vehi.1)
    (hr1 : r.skills.2 ≠ -1 → 0 ≤ r.vehi.2) (hp0 : 0 ≤ p.vehi.1)
    (hp1 : p.skills.2 ≠ -1 → 0 ≤ p.vehi.2)
    (hdisj : ∀ v : Int, serves r v = true → serves p v = true → False) :
    (applyTask S r).vehiLeaveTime[p.vehi.1.toNat]? = S.vehiLeaveTime[p.vehi.1.toNat]? ∧
    (applyTask S r).vehiPos[p.vehi.1.toNat]? = S.vehiPos[p.vehi.1.toNat]? ∧
    (p.skills.2 ≠ -1 →
      (applyTask S r).vehiLeaveTime[p.vehi.2.toNat]? = S.vehiLeaveTime[p.vehi.2.toNat]? ∧
      (applyTask S r).vehiPos[p.vehi.2.toNat]? = S.vehiPos[p.vehi.2.toNat]?) := by
  have h11 : r.vehi.1.toNat ≠ p.vehi.1.toNat := by
    intro hc
    have : r.vehi.1 = p.vehi.1 := by omega
    exact hdisj r.vehi.1 (serves_iff.2 (Or.inl rfl)) (serves_iff.2 (Or.inl this.symm))
  have h21 : r.skills.2 ≠ -1 → r.vehi.2.toNat ≠ p.vehi.1.toNat := by
    intro hs hc
    have := hr1 hs
    have : r.vehi.2 = p.vehi.1 := by omega
    exact hdisj r.vehi.2 (serves_iff.2 (Or.inr ⟨hs, rfl⟩)) (serves_iff.2 (Or.inl this.symm))
  have h := applyTask_other_vehicle S r h11 h21
  refine ⟨h.1, h.2, fun hs' => ?_⟩
  have h12 : r.vehi.1.toNat ≠ p.vehi.2.toNat := by
    intro hc
    have := hp1 hs'
    have : r.vehi.1 = p.vehi.2 := by omega
    exact hdisj r.vehi.1 (serves_iff.2 (Or.inl rfl)) (serves_iff.2 (Or.inr ⟨hs', this.symm⟩))
  have h22 : r.skills.2 ≠ -1 → r.vehi.2.toNat ≠ p.vehi.2.toNat := by
    intro hs hc
    have := hr1 hs
    have := hp1 hs'
    have : r.vehi.2 = p.vehi.2 := by omega
    exact hdisj r.vehi.2 (serves_iff.2 (Or.inr ⟨hs, rfl⟩))
      (serves_iff.2 (Or.inr ⟨hs', this.symm⟩))
  exact applyTask_other_vehicle S r h12 h22

theorem fits_slot1 {inst : Instance} {p : Task} (h : TaskFits inst p) :
    p.skills.2 ≠ -1 → 0 ≤ p.vehi.2 := by
  intro hs
  have hty : inst.nodeSvcType p.node ≠ SvcType.SINGLE := fun hc => hs (h.2.2.2.1 hc)
  exact (h.2.2.2.2.1 hty).1.1

/-- Evaluate-then-commit of two tasks that name no vehicle in common and belong to
different nodes gives the same state in both orders. -/
theorem evalCommit_swap {inst : Instance} (COEFS : Fin 3 → ℚ) {S : Solution} {a p : Task}
    (hS : Sized inst S) (ha : TaskFits inst a) (hp : TaskFits inst p) (hnode : a.node ≠ p.node)
    (hdisj : ∀ v : Int, serves a v = true → serves p v = true → False) :
    (evalCommit inst COEFS S a >>= fun X => evalCommit inst COEFS X p) =
      (evalCommit inst COEFS S p >>= fun X => evalCommit inst COEFS X a) := by
  obtain ⟨ra, ca, hfa, -, hea, han, hav, has⟩ := evalCommit_of_fits COEFS hS ha
  obtain ⟨rq, cq, hfq, -, heq, hqn, hqv, hqs⟩ := evalCommit_of_fits COEFS hS hp
  have hdisj' : ∀ v : Int, serves p v = true → serves a v = true → False :=
    fun v h1 h2 => hdisj v h2 h1
  have hra0 : 0 ≤ ra.vehi.1 := by rw [hav]; exact ha.1.1
  have hra1 : ra.skills.2 ≠ -1 → 0 ≤ ra.vehi.2 := by rw [hav, has]; exact fits_slot1 ha
  have hrq0 : 0 ≤ rq.vehi.1 := by rw [hqv]; exact hp.1.1
  have hrq1 : rq.skills.2 ≠ -1 → 0 ≤ rq.vehi.2 := by rw [hqv, hqs]; exact fits_slot1 hp
  -- the evaluation of `p` after the commit of `a`
  obtain ⟨k1, k2, k3⟩ := cells_kept S hra0 hra1 hp.1.1 (fits_slot1 hp)
    (fun v h1 h2 => hdisj v (by rw [← serves_congr hav has v]; exact h1) h2)
  obtain ⟨rp, cp, hfp, hpn, hpv, hps, hpst, hplt, hpd, hpit, hpct, -, hcp⟩ :=
    evaluation_frame k1 k2 k3 hfq
  -- the evaluation of `a` after the commit of `p`
  obtain ⟨m1, m2, m3⟩ := cells_kept S hrq0 hrq1 ha.1.1 (fits_slot1 ha)
    (fun v h1 h2 => hdisj' v (by rw [← serves_congr hqv hqs v]; exact h1) h2)
  obtain ⟨rb, cb, hfb, hbn, hbv, hbs, hbst, hblt, hbd, hbit, hbct, -, hcb⟩ :=
    evaluation_frame m1 m2 m3 hfa
  have e1 : evalCommit inst COEFS (applyTask S ra) p =
      Except.ok (applyTask (applyTask S ra) rp) := by
    obtain ⟨r, c, hf, -, he, -⟩ := evalCommit_of_fits COEFS (sized_applyTask ra hS) hp
    rw [hfp] at hf
    injection hf with hf
    injection hf with hr
    rw [he, hr]
  have e2 : evalCommit inst COEFS (applyTask S rq) a =
      Except.ok (applyTask (applyTask S rq) rb) := by
    obtain ⟨r, c, hf, -, he, -⟩ := evalCommit_of_fits COEFS (sized_applyTask rq hS) ha
    rw [hfb] at hf
    injection hf with hf
    injection hf with hr
    rw [he, hr]
  rw [hea, ok_bind, heq, ok_bind, e1, e2]
  congr 1
  have hrp0 : 0 ≤ rp.vehi.1 := by rw [hpv]; exact hrq0
  have hrp1 : rp.skills.2 ≠ -1 → 0 ≤ rp.vehi.2 := by rw [hpv, hps]; exact hrq1
  refine applyTask_swap COEFS S hbn hbv hbs hbst hblt hbd hbit hbct hpn.symm hpv.symm hps.symm
    hpst.symm hplt.symm hpd.symm hpit.symm hpct.symm hra0 hra1 hrp0 hrp1 ?_ ?_ ?_ ?_ hcp hcb
  · rw [han]; exact ha.2.1.1
  · rw [hpn, hqn]; exact hp.2.1.1
  · rw [han, hpn, hqn]; exact hnode
  · intro v h1 h2
    rw [serves_congr hav has v] at h1
    rw [serves_congr (hpv.trans hqv) (hps.trans hqs) v] at h2
    exact hdisj v h1 h2

end Solution

namespace Solution

/-! ## The order of the commits matters per vehicle only -/

theorem serves_range {inst : Instance} {p : Task} (h : TaskFits inst p) {v : Int}
    (hs : serves p v = true) : ∃ w : Nat, w < inst.numVehicles ∧ (w : Int) = v := by
  rcases serves_iff.1 hs with h1 | ⟨h2, h1⟩
  · have := h.1
    exact ⟨v.toNat, by omega, by omega⟩
  · have hty : inst.nodeSvcType p.node ≠ SvcType.SINGLE := fun hc => h2 (h.2.2.2.1 hc)
    have := (h.2.2.2.2.1 hty).1
    exact ⟨v.toNat, by omega, by omega⟩

/-- A task that names no vehicle of the tasks before it can be committed first. -/
theorem build_move_front {inst : Instance} (COEFS : Fin 3 → ℚ) {p : Task} (B : List Task)
    (hp : TaskFits inst p) :
    ∀ (A : List Task) (S : Solution), Sized inst S → (∀ a ∈ A, TaskFits inst a) →
      (∀ a ∈ A, a.node ≠ p.node ∧
        ∀ v : Int, serves a v = true → serves p v = true → False) →
      build inst COEFS (A ++ p :: B) S = build inst COEFS (p :: (A ++ B)) S := by
  intro A
  induction A with
  | nil =>
    intro S _ _ _
    rfl
  | cons a A ih =>
    intro S hS hfit hd
    have hfa := hfit a (List.mem_cons_self _ _)
    obtain ⟨hna, hda⟩ := hd a (List.mem_cons_self _ _)
    obtain ⟨ra, ca, -, -, hea, -⟩ := evalCommit_of_fits COEFS hS hfa
    obtain ⟨rp, cp, -, -, hep, -⟩ := evalCommit_of_fits COEFS hS hp
    have hswap := evalCommit_swap COEFS hS hfa hp hna hda
    rw [hea, ok_bind, hep, ok_bind] at hswap
    rw [List.cons_append, build_cons, hea, ok_bind,
      ih (applyTask S ra) (sized_applyTask ra hS)
        (fun x hx => hfit x (List.mem_cons_of_mem _ hx))
        (fun x hx => hd x (List.mem_cons_of_mem _ hx)),
      build_cons, hswap, build_cons, hep, ok_bind, List.cons_append, build_cons]

/-- Two lists of the same tasks, one per node, in which every vehicle meets its
tasks in the same order, lead to the same state. -/
theorem build_reorder {inst : Instance} (COEFS : Fin 3 → ℚ) :
    ∀ (P Q : List Task) (S : Solution), Sized inst S →
      (P.map (fun p => p.node)).Nodup → (∀ p ∈ P, TaskFits inst p) → Q.Nodup →
      (∀ q, q ∈ Q ↔ q ∈ P) →
      (∀ v : Nat, v < inst.numVehicles → legs v Q = legs v P) →
      build inst COEFS Q S = build inst COEFS P S := by
  intro P
  induction P with
  | nil =>
    intro Q S _ _ _ _ hmem _
    have : Q = [] := List.eq_nil_iff_forall_not_mem.2 (fun q hq => by
      have := (hmem q).1 hq
      simp at this)
    rw [this]
  | cons p P ih =>
    intro Q S hS hnodes hfit hnd hmem hlegs
    have hPnd : (p :: P).Nodup := List.Nodup.of_map _ hnodes
    have hpP : p ∉ P := (List.nodup_cons.1 hPnd).1
    have hpQ : p ∈ Q := (hmem p).2 (List.mem_cons_self _ _)
    obtain ⟨A, B, rfl⟩ := List.append_of_mem hpQ
    have hmid := List.nodup_middle.1 hnd
    have hpAB : p ∉ A ++ B := (List.nodup_cons.1 hmid).1
    have hpA : p ∉ A := fun hc => hpAB (List.mem_append_left _ hc)
    have hfp := hfit p (List.mem_cons_self _ _)
    have hAQ : ∀ a ∈ A, a ∈ p :: P :=
      fun a ha => (hmem a).1 (List.mem_append_left _ ha)
    have hkey : ∀ a ∈ A, ∀ v : Int, serves a v = true → serves p v = true → False := by
      intro a haA v hav hpv
      obtain ⟨w, hw, rfl⟩ := serves_range hfp hpv
      have hl := hlegs w hw
      rw [legs_append, legs_cons, if_pos hpv, legs_cons, if_pos hpv] at hl
      cases hA : legs (w : Int) A with
      | nil =>
        have : a ∈ legs (w : Int) A := mem_legs.2 ⟨haA, hav⟩
        rw [hA] at this
        exact absurd this (by simp)
      | cons x xs =>
        rw [hA, List.cons_append] at hl
        injection hl with hx _
        have : x ∈ legs (w : Int) A := by rw [hA]; exact List.mem_cons_self _ _
        rw [hx] at this
        exact hpA (mem_legs.1 this).1
    have hd : ∀ a ∈ A, a.node ≠ p.node ∧
        ∀ v : Int, serves a v = true → serves p v = true → False := by
      intro a haA
      refine ⟨fun hc => ?_, hkey a haA⟩
      have := List.inj_on_of_nodup_map hnodes (hAQ a haA) (List.mem_cons_self _ _) hc
      rw [this] at haA
      exact hpA haA
    rw [build_move_front COEFS B hfp A S hS (fun a ha => hfit a (hAQ a ha)) hd, build_cons,
      build_cons]
    obtain ⟨rp, cp, -, -, hep, -⟩ := evalCommit_of_fits COEFS hS hfp
    rw [hep, ok_bind, ok_bind]
    apply ih (A ++ B) (applyTask S rp) (sized_applyTask rp hS)
      (List.Nodup.of_cons (by simpa using hnodes))
      (fun x hx => hfit x (List.mem_cons_of_mem _ hx)) (List.nodup_cons.1 hmid).2
    · intro q
      constructor
      · intro hq
        have hqQ : q ∈ A ++ p :: B := by
          rcases List.mem_append.1 hq with h | h
          · exact List.mem_append_left _ h
          · exact List.mem_append_right _ (List.mem_cons_of_mem _ h)
        rcases List.mem_cons.1 ((hmem q).1 hqQ) with h | h
        · rw [h] at hq
          exact absurd hq hpAB
        · exact h
      · intro hq
        have hqQ := (hmem q).2 (List.mem_cons_of_mem _ hq)
        rcases List.mem_append.1 hqQ with h | h
        · exact List.mem_append_left _ h
        · rcases List.mem_cons.1 h with h | h
          · rw [h] at hq
            exact absurd hq hpP
          · exact List.mem_append_right _ h
    · intro w hw
      have hl := hlegs w hw
      rw [legs_append, legs_cons, legs_cons] at hl
      rw [legs_append]
      by_cases hpw : serves p (w : Int) = true
      · rw [if_pos hpw, if_pos hpw] at hl
        have hA : legs (w : Int) A = [] :=
          List.eq_nil_iff_forall_not_mem.2 (fun a ha =>
            hkey a (mem_legs.1 ha).1 w (mem_legs.1 ha).2 hpw)
        rw [hA, List.nil_append] at hl ⊢
        injection hl
      · rw [if_neg hpw, if_neg hpw] at hl
        exact hl

end Solution

namespace Solution

/-! ## Round trip of the costs -/

/-- C12. For a Solution `S` built from the constructed state by evaluate-then-commit
of one task per non-depot node (every double service on two distinct vehicles with
the two skills of its node) followed by `finishRoutes`, the Solution that
`readFromFile` reconstructs from the integers written by `writeTxt`, on the same
instance and with the same coefficients, has the same `dist`, `tard`, `tmax` and
`cachedCost` as `S`, in exact arithmetic, whatever the order in which the replay
commits the tasks. -/
theorem round_trip_costs (inst : Instance) (COEFS : Fin 3 → ℚ)
    (createTaskList : Instance → List Task) (plan : List Task) (S : Solution) (fuel : Nat)
    (hT : TaskListOk inst (createTaskList inst))
    (hplan : PlanOk inst (createTaskList inst) plan)
    (hS : construct inst COEFS plan = Except.ok S) (hfuel : plan.length + 1 ≤ fuel) :
    ∃ (lines : List (List Int)) (S' : Solution),
      writeTxt inst S = Except.ok lines ∧
      readFromFile inst COEFS createTaskList fuel lines.flatten = Except.ok S' ∧
      S'.dist = S.dist ∧ S'.tard = S.tard ∧ S'.tmax = S.tmax ∧
      S'.cachedCost = S.cachedCost := by
  obtain ⟨lines, final, done, S', hW, hread, -, hbuilt, hP, hsub, hnd, hlegs, -, hdist, htard,
    htmax, hcost⟩ := readFromFile_written hT hplan hS hfuel
  obtain ⟨B, hB, hfinB⟩ := construct_inv hS
  have hSzB := (build_fits plan (sized_init inst) hB).2
  obtain ⟨-, -, hdistB, htardB, htmaxB, hcostB⟩ :=
    finished_routes hSzB (built_routes hP hB) hfinB
  have hmem : ∀ q, q ∈ done ↔ q ∈ plan := by
    intro q
    refine ⟨hsub q, fun hq => ?_⟩
    have hs : serves q q.vehi.1 = true := serves_iff.2 (Or.inl rfl)
    obtain ⟨w, hw, hwq⟩ := serves_range (hP.fits q hq) hs
    have : q ∈ legs (w : Int) plan := mem_legs.2 ⟨hq, by rw [hwq]; exact hs⟩
    rw [← hlegs w hw] at this
    exact (mem_legs.1 this).1
  have hsame := build_reorder COEFS plan done (init inst) (sized_init inst) hP.nodes hP.fits
    hnd hmem hlegs
  rw [hbuilt, hB] at hsame
  injection hsame with hsame
  have e1 : final.sol.dist = B.dist :=
    (congrArg Solution.dist hsame : (forget final.sol).dist = B.dist)
  have e2 : final.sol.tard = B.tard :=
    (congrArg Solution.tard hsame : (forget final.sol).tard = B.tard)
  have e3 : final.sol.tmax = B.tmax :=
    (congrArg Solution.tmax hsame : (forget final.sol).tmax = B.tmax)
  have e4 : final.sol.routes = B.routes :=
    (congrArg Solution.routes hsame : (forget final.sol).routes = B.routes)
  have d : S'.dist = S.dist := by rw [hdist, hdistB, e1, e4]
  have t : S'.tard = S.tard := by rw [htard, htardB, e2]
  have m : S'.tmax = S.tmax := by rw [htmax, htmaxB, e3]
  exact ⟨lines, S', hW, hread, d, t, m, by rw [hcost, hcostB, d, t, m]⟩

theorem round_trip_costs_witness :
    TaskListOk demoInst (demoTaskList demoInst) ∧
    PlanOk demoInst (demoTaskList demoInst) demoPlan ∧
    construct demoInst demoCoefs demoPlan = Except.ok demoFinal ∧
    demoPlan.length + 1 ≤ 5 ∧
    ∃ (lines : List (List Int)) (S' : Solution),
      writeTxt demoInst demoFinal = Except.ok lines ∧
      readFromFile demoInst demoCoefs demoTaskList 5 lines.flatten = Except.ok S' ∧
      S'.dist = demoFinal.dist ∧ S'.tard = demoFinal.tard ∧ S'.tmax = demoFinal.tmax ∧
      S'.cachedCost = demoFinal.cachedCost :=
  ⟨demo_taskListOk, demo_planOk, demo_construct, by decide,
    round_trip_costs demoInst demoCoefs demoTaskList demoPlan demoFinal 5
      demo_taskListOk demo_planOk demo_construct (by decide)⟩

end Solution

/-! ## Rounding to binary64 -/

theorem roundEven_err (y : ℚ) : |((roundEven y : Int) : ℚ) - y| ≤ 1 / 2 := by
  have h0 := Int.floor_le y
  have h1 := Int.lt_floor_add_one y
  unfold roundEven
  rw [abs_le]
  split_ifs with ha hb hc
  · constructor <;> linarith
  · push_cast
    constructor <;> linarith
  · constructor <;> linarith
  · push_cast
    constructor <;> linarith

theorem roundEven_unique {y : ℚ} {m : Int} (h : |y - (m : ℚ)| < 1 / 2) : roundEven y = m := by
  have he := roundEven_err y
  rw [abs_le] at he
  rw [abs_lt] at h
  have h1 : ((roundEven y : Int) : ℚ) < (m : ℚ) + 1 := by linarith
  have h2 : (m : ℚ) < ((roundEven y : Int) : ℚ) + 1 := by linarith
  have h1' : roundEven y < m + 1 := by exact_mod_cast h1
  have h2' : m < roundEven y + 1 := by exact_mod_cast h2
  omega

theorem roundEven_intCast (k : Int) : roundEven (k : ℚ) = k :=
  roundEven_unique (by simp)

theorem roundEven_mono {y z : ℚ} (h : y ≤ z) : roundEven y ≤ roundEven z := by
  by_contra hc
  have hlt : roundEven z + 1 ≤ roundEven y := by omega
  have hq : ((roundEven z : Int) : ℚ) + 1 ≤ ((roundEven y : Int) : ℚ) := by exact_mod_cast hlt
  have hy := roundEven_err y
  have hz := roundEven_err z
  rw [abs_le] at hy hz
  have hyz : y = z := by linarith
  rw [hyz] at hlt
  omega

theorem two_zpow_pos (q : Int) : (0 : ℚ) < 2 ^ q := zpow_pos (by norm_num) q

/-- Rounding to binary64 never crosses a number of a grid `2 ^ p * ℤ` that is at
least as coarse as the binary64 numbers around `x`: from below. -/
theorem le_fl64 {x : ℚ} {k p : Int} (hp : quantumExp x ≤ p) (h : (k : ℚ) * 2 ^ p ≤ x) :
    (k : ℚ) * 2 ^ p ≤ fl64 x := by
  have hq := two_zpow_pos (quantumExp x)
  obtain ⟨n, hn⟩ : ∃ n : Nat, p = quantumExp x + n := ⟨(p - quantumExp x).toNat, by omega⟩
  have hgrid : (k : ℚ) * 2 ^ p = ((k * 2 ^ n : Int) : ℚ) * 2 ^ quantumExp x := by
    rw [hn, zpow_add₀ (by norm_num : (2 : ℚ) ≠ 0), zpow_natCast]
    push_cast
    ring
  rw [hgrid] at h ⊢
  unfold fl64
  have hle : ((k * 2 ^ n : Int) : ℚ) ≤ x / 2 ^ quantumExp x := by
    rw [le_div_iff₀ hq]
    exact h
  have := roundEven_mono hle
  rw [roundEven_intCast] at this
  have hc : ((k * 2 ^ n : Int) : ℚ) ≤ ((roundEven (x / 2 ^ quantumExp x) : Int) : ℚ) := by
    exact_mod_cast this
  exact mul_le_mul_of_nonneg_right hc (le_of_lt hq)

/-- Rounding to binary64 never crosses a number of a grid `2 ^ p * ℤ` that is at
least as coarse as the binary64 numbers around `x`: from above. -/
theorem fl64_le {x : ℚ} {k p : Int} (hp : quantumExp x ≤ p) (h : x ≤ (k : ℚ) * 2 ^ p) :
    fl64 x ≤ (k : ℚ) * 2 ^ p := by
  have hq := two_zpow_pos (quantumExp x)
  obtain ⟨n, hn⟩ : ∃ n : Nat, p = quantumExp x + n := ⟨(p - quantumExp x).toNat, by omega⟩
  have hgrid : (k : ℚ) * 2 ^ p = ((k * 2 ^ n : Int) : ℚ) * 2 ^ quantumExp x := by
    rw [hn, zpow_add₀ (by norm_num : (2 : ℚ) ≠ 0), zpow_natCast]
    push_cast
    ring
  rw [hgrid] at h ⊢
  unfold fl64
  have hle : x / 2 ^ quantumExp x ≤ ((k * 2 ^ n : Int) : ℚ) := by
    rw [div_le_iff₀ hq]
    exact h
  have := roundEven_mono hle
  rw [roundEven_intCast] at this
  have hc : ((roundEven (x / 2 ^ quantumExp x) : Int) : ℚ) ≤ ((k * 2 ^ n : Int) : ℚ) := by
    exact_mod_cast this
  exact mul_le_mul_of_nonneg_right hc (le_of_lt hq)

/-- A number of a grid at least as coarse as the binary64 numbers around it is a
binary64 number. -/
theorem fl64_of_grid {x : ℚ} (k : Int) {p : Int} (hp : quantumExp x ≤ p)
    (h : x = (k : ℚ) * 2 ^ p) : fl64 x = x := by
  apply le_antisymm
  · have := fl64_le hp (le_of_eq h)
    rw [← h] at this
    exact this
  · have := le_fl64 hp (le_of_eq h.symm)
    rw [← h] at this
    exact this

theorem fl64_zero : fl64 0 = 0 :=
  fl64_of_grid 0 (le_refl (quantumExp 0)) (by simp)

theorem two_zpow_log_le {r : ℚ} (hr : 0 < r) : (2 : ℚ) ^ Int.log 2 r ≤ r := by
  have := Int.zpow_log_le_self (b := 2) (by norm_num) hr
  simpa using this

theorem lt_two_zpow_log (r : ℚ) : r < (2 : ℚ) ^ (Int.log 2 r + 1) := by
  have := Int.lt_zpow_succ_log_self (b := 2) (by norm_num) r
  simpa using this

theorem log_lt_of_lt {r : ℚ} {k : Int} (hr : 0 < r) (h : r < (2 : ℚ) ^ k) : Int.log 2 r < k := by
  have := (Int.lt_zpow_iff_log_lt (b := 2) (by norm_num) hr (x := k)).1 (by simpa using h)
  exact this

theorem two_zpow_mono {a b : Int} (h : a ≤ b) : (2 : ℚ) ^ a ≤ 2 ^ b :=
  zpow_le_zpow_right₀ (by norm_num) h

/-- The binary64 numbers around `x` lie below `2 ^ (quantumExp x + 53)`. -/
theorem abs_lt_top (x : ℚ) : |x| < (2 : ℚ) ^ (quantumExp x + 53) := by
  refine lt_of_lt_of_le (lt_two_zpow_log |x|) (two_zpow_mono ?_)
  unfold quantumExp
  have := le_max_left (Int.log 2 |x|) (-1022)
  omega

/-- Above the subnormal range the magnitude of `x` is at least
`2 ^ (quantumExp x + 52)`. -/
theorem bottom_le_abs {x : ℚ} (hx : x ≠ 0) (h : -1074 < quantumExp x) :
    (2 : ℚ) ^ (quantumExp x + 52) ≤ |x| := by
  have hlog : quantumExp x + 52 = Int.log 2 |x| := by
    unfold quantumExp at h ⊢
    rcases max_cases (Int.log 2 |x|) (-1022) with ⟨h1, _⟩ | ⟨h1, _⟩
    · rw [h1]
      omega
    · rw [h1] at h
      omega
  rw [hlog]
  exact two_zpow_log_le (abs_pos.2 hx)

theorem quantumExp_ge (x : ℚ) : -1074 ≤ quantumExp x := by
  unfold quantumExp
  have := le_max_right (Int.log 2 |x|) (-1022)
  omega

theorem quantumExp_le_of_lt {y : ℚ} {p : Int} (hy : y ≠ 0) (hp : -1074 ≤ p)
    (h : |y| < (2 : ℚ) ^ (p + 53)) : quantumExp y ≤ p := by
  have := log_lt_of_lt (abs_pos.2 hy) h
  unfold quantumExp
  rcases max_cases (Int.log 2 |y|) (-1022) with ⟨h1, _⟩ | ⟨h1, _⟩ <;> rw [h1] <;> omega

/-- The numbers `k * 2 ^ p` with fewer than 53 bits in `k` and `p ≥ -1074` are
binary64 numbers. -/
theorem fl64_grid {y : ℚ} (k p : Int) (hp : -1074 ≤ p) (h : y = (k : ℚ) * 2 ^ p)
    (hlt : |y| < (2 : ℚ) ^ (p + 53)) : fl64 y = y := by
  by_cases hy : y = 0
  · rw [hy]
    exact fl64_zero
  · exact fl64_of_grid k (quantumExp_le_of_lt hy hp hlt) h

/-- Rounding to binary64 is monotone. -/
theorem fl64_mono {x y : ℚ} (h : x ≤ y) : fl64 x ≤ fl64 y := by
  by_cases hx : x = 0
  · subst hx
    rw [fl64_zero]
    have := le_fl64 (x := y) (k := 0) (le_refl (quantumExp y)) (by simpa using h)
    simpa using this
  by_cases hy : y = 0
  · subst hy
    rw [fl64_zero]
    have := fl64_le (x := x) (k := 0) (le_refl (quantumExp x)) (by simpa using h)
    simpa using this
  rcases lt_trichotomy (quantumExp x) (quantumExp y) with hq | hq | hq
  · have hxlt := abs_lt_top x
    have hyge := bottom_le_abs hy (lt_of_le_of_lt (quantumExp_ge x) hq)
    have hstep : (2 : ℚ) ^ (quantumExp x + 53) ≤ 2 ^ (quantumExp y + 52) :=
      two_zpow_mono (by omega)
    have hypos : 0 < y := by
      by_contra hc
      have hy0 : y ≤ 0 := not_lt.1 hc
      have hx0 : x ≤ 0 := le_trans h hy0
      rw [abs_of_nonpos hx0] at hxlt
      rw [abs_of_nonpos hy0] at hyge
      linarith
    rw [abs_of_pos hypos] at hyge
    have hxb : x ≤ ((1 : Int) : ℚ) * 2 ^ (quantumExp y + 52) := by
      have := le_abs_self x
      push_cast
      linarith
    have hby : ((1 : Int) : ℚ) * 2 ^ (quantumExp y + 52) ≤ y := by
      push_cast
      linarith
    exact le_trans (fl64_le (by omega) hxb) (le_fl64 (by omega) hby)
  · unfold fl64
    rw [hq]
    have hpos := two_zpow_pos (quantumExp y)
    have hle : x / 2 ^ quantumExp y ≤ y / 2 ^ quantumExp y :=
      div_le_div_of_nonneg_right h (le_of_lt hpos)
    have hc : ((roundEven (x / 2 ^ quantumExp y) : Int) : ℚ) ≤
        ((roundEven (y / 2 ^ quantumExp y) : Int) : ℚ) := by
      exact_mod_cast roundEven_mono hle
    exact mul_le_mul_of_nonneg_right hc (le_of_lt hpos)
  · have hylt := abs_lt_top y
    have hxge := bottom_le_abs hx (lt_of_le_of_lt (quantumExp_ge y) hq)
    have hstep : (2 : ℚ) ^ (quantumExp y + 53) ≤ 2 ^ (quantumExp x + 52) :=
      two_zpow_mono (by omega)
    have hxneg : x < 0 := by
      by_contra hc
      have hx0 : 0 ≤ x := not_lt.1 hc
      have hy0 : 0 ≤ y := le_trans hx0 h
      rw [abs_of_nonneg hy0] at hylt
      rw [abs_of_nonneg hx0] at hxge
      linarith
    rw [abs_of_neg hxneg] at hxge
    have hxb : x ≤ ((-1 : Int) : ℚ) * 2 ^ (quantumExp x + 52) := by
      push_cast
      linarith
    have hby : ((-1 : Int) : ℚ) * 2 ^ (quantumExp x + 52) ≤ y := by
      have := neg_abs_le y
      push_cast
      linarith
    exact le_trans (fl64_le (by omega) hxb) (le_fl64 (by omega) hby)

/-- The result of rounding to binary64 is a binary64 number. -/
theorem fl64_idem (x : ℚ) : fl64 (fl64 x) = fl64 x := by
  have hq := quantumExp_ge x
  have htop := abs_lt_top x
  have hup : fl64 x ≤ ((1 : Int) : ℚ) * 2 ^ (quantumExp x + 53) :=
    fl64_le (by omega) (by
      have := le_abs_self x
      push_cast
      linarith)
  have hlo : ((-1 : Int) : ℚ) * 2 ^ (quantumExp x + 53) ≤ fl64 x :=
    le_fl64 (by omega) (by
      have := neg_abs_le x
      push_cast
      linarith)
  push_cast at hup hlo
  have habs : |fl64 x| ≤ (2 : ℚ) ^ (quantumExp x + 53) := abs_le.2 ⟨by linarith, by linarith⟩
  rcases lt_or_eq_of_le habs with hlt | heq
  · exact fl64_grid (roundEven (x / 2 ^ quantumExp x)) (quantumExp x) hq rfl hlt
  · have hnext : (2 : ℚ) ^ (quantumExp x + 53) < 2 ^ (quantumExp x + 1 + 53) :=
      zpow_lt_zpow_right₀ (by norm_num) (by omega)
    have h52 : (2 : ℚ) ^ (quantumExp x + 53) = 2 ^ (52 : Nat) * 2 ^ (quantumExp x + 1) := by
      rw [← zpow_natCast, ← zpow_add₀ (by norm_num : (2 : ℚ) ≠ 0)]
      congr 1
      push_cast
      ring
    rcases abs_cases (fl64 x) with ⟨h1, _⟩ | ⟨h1, _⟩
    · refine fl64_grid (2 ^ 52) (quantumExp x + 1) (by omega) ?_ (by rw [heq]; exact hnext)
      rw [← h1, heq, h52]
      push_cast
      rfl
    · refine fl64_grid (-(2 ^ 52)) (quantumExp x + 1) (by omega) ?_
        (by rw [heq]; exact hnext)
      have : fl64 x = -(2 : ℚ) ^ (quantumExp x + 53) := by linarith
      rw [this, h52]
      push_cast
      ring

theorem isDouble_fl64 (x : ℚ) : IsDouble (fl64 x) := fl64_idem x

theorem isDouble_zero : IsDouble 0 := fl64_zero

theorem isDouble_max {x y : ℚ} (hx : IsDouble x) (hy : IsDouble y) : IsDouble (max x y) := by
  rcases max_cases x y with ⟨h, _⟩ | ⟨h, _⟩ <;> rw [h] <;> assumption

theorem le_fl64_of_isDouble {b x : ℚ} (hb : IsDouble b) (h : b ≤ x) : b ≤ fl64 x := by
  have := fl64_mono h
  rw [hb] at this
  exact this

theorem fl64_le_of_isDouble {b x : ℚ} (hb : IsDouble b) (h : x ≤ b) : fl64 x ≤ b := by
  have := fl64_mono h
  rw [hb] at this
  exact this

/-- The distance of `x` to the binary64 number nearest to it is at most half the
spacing of the binary64 numbers around `x`. -/
theorem fl64_err_quantum (x : ℚ) : |fl64 x - x| ≤ (2 : ℚ) ^ quantumExp x / 2 := by
  have hq := two_zpow_pos (quantumExp x)
  have h := roundEven_err (x / 2 ^ quantumExp x)
  have hx : x = x / 2 ^ quantumExp x * 2 ^ quantumExp x := by
    field_simp
  unfold fl64
  rw [abs_le] at h ⊢
  obtain ⟨h1, h2⟩ := h
  constructor
  · nlinarith
  · nlinarith

/-- The relative error of rounding to binary64 is at most `2 ^ -53`, up to the
half-spacing `2 ^ -1075` of the subnormal numbers. -/
theorem fl64_err (x : ℚ) : |fl64 x - x| ≤ |x| / 2 ^ 53 + 1 / 2 ^ 1075 := by
  by_cases hx : x = 0
  · subst hx
    rw [fl64_zero]
    norm_num
  have h := fl64_err_quantum x
  have hq := quantumExp_ge x
  rcases eq_or_lt_of_le hq with heq | hlt
  · rw [← heq] at h
    have h1 : (2 : ℚ) ^ (-1074 : Int) / 2 = 1 / 2 ^ 1075 := by
      rw [zpow_neg, ← zpow_natCast]
      norm_num
    rw [h1] at h
    have := abs_nonneg x
    have : 0 ≤ |x| / 2 ^ 53 := by positivity
    linarith
  · have hb := bottom_le_abs hx hlt
    have h1 : (2 : ℚ) ^ (quantumExp x + 52) = 2 ^ quantumExp x * 2 ^ (52 : Nat) := by
      rw [zpow_add₀ (by norm_num : (2 : ℚ) ≠ 0)]
      norm_num
    rw [h1] at hb
    have h2 : (2 : ℚ) ^ quantumExp x / 2 ≤ |x| / 2 ^ 53 := by
      rw [div_le_div_iff₀ (by norm_num) (by positivity)]
      have : (2 : ℚ) ^ 53 = 2 * 2 ^ 52 := by norm_num
      rw [this]
      nlinarith [two_zpow_pos (quantumExp x)]
    have : (0 : ℚ) ≤ 1 / 2 ^ 1075 := by positivity
    linarith

/-- The rounding error of one operation whose exact result is bounded by
`16 * (B + 1)`. -/
theorem fl64_err_le {B z : ℚ} (hB : 0 ≤ B) (hz : |z| ≤ 16 * (B + 1)) :
    |fl64 z - z| ≤ (B + 1) / 2 ^ 48 := by
  have h := fl64_err z
  have h1 : |z| / 2 ^ 53 ≤ (B + 1) / 2 ^ 49 := by
    rw [div_le_div_iff₀ (by positivity) (by positivity)]
    have : (2 : ℚ) ^ 53 = 16 * 2 ^ 49 := by norm_num
    rw [this]
    nlinarith
  have h2 : (1 : ℚ) / 2 ^ 1075 ≤ (B + 1) / 2 ^ 49 := by
    rw [div_le_div_iff₀ (by positivity) (by positivity)]
    have : (2 : ℚ) ^ 49 ≤ 2 ^ 1075 := pow_le_pow_right₀ (by norm_num) (by norm_num)
    nlinarith
  have h3 : (B + 1) / 2 ^ 48 = (B + 1) / 2 ^ 49 + (B + 1) / 2 ^ 49 := by
    field_simp
    ring
  linarith

/-- The start times that the lines of the PRECEDENCE branch compute from the
arrivals `a0` and `a1` in binary64, with `E = (B + 1) / 2 ^ 48` a bound of the
rounding error of each operation: vehicle 0 never starts before its arrival, it
starts at its arrival when the gap is within `dmax`, and otherwise the gap after
the correction is `dmax` up to three rounding errors; the gap is never below
`dmin` or above `dmax` by more than rounding errors. -/
theorem precedence_rounded {a0 a1 dmin dmax B s0 s1 : ℚ} (ha0 : IsDouble a0)
    (hdmax : IsDouble dmax) (hb0 : |a0| ≤ B) (hb1 : |a1| ≤ B) (hbmin : |dmin| ≤ B)
    (hbmax : |dmax| ≤ B)
    (hs1 : s1 = max a1 (fl64 (a0 + dmin)))
    (hs0 : s0 = fl64 (a0 + max 0 (fl64 (fl64 (s1 - a0) - dmax)))) :
    a0 ≤ s0 ∧ (s1 - a0 ≤ dmax → s0 = a0) ∧
    (dmax < s1 - a0 → |s1 - s0 - dmax| ≤ 3 * ((B + 1) / 2 ^ 48)) ∧
    dmin - (B + 1) / 2 ^ 48 ≤ s1 - a0 ∧
    (s1 - s0 ≤ dmax + 3 * ((B + 1) / 2 ^ 48)) ∧
    (s0 = a0 ∨ dmax - 3 * ((B + 1) / 2 ^ 48) ≤ s1 - s0) ∧
    |fl64 (s1 - s0) - (s1 - s0)| ≤ (B + 1) / 2 ^ 48 := by
  have hB : 0 ≤ B := le_trans (abs_nonneg a0) hb0
  have hE0 : 0 ≤ (B + 1) / 2 ^ 48 := by positivity
  have hE1 : (B + 1) / 2 ^ 48 ≤ (B + 1) / 4 := by
    rw [div_le_div_iff₀ (by positivity) (by positivity)]
    have : (4 : ℚ) ≤ 2 ^ 48 := by norm_num
    nlinarith
  generalize hE : (B + 1) / 2 ^ 48 = E at hE0 hE1 ⊢
  have herr : ∀ z : ℚ, |z| ≤ 16 * (B + 1) → |fl64 z - z| ≤ E := by
    intro z hz
    rw [← hE]
    exact fl64_err_le hB hz
  rw [abs_le] at hb0 hb1 hbmin hbmax
  -- the sum `a0 + dmin`
  have ht := herr (a0 + dmin) (abs_le.2 ⟨by linarith, by linarith⟩)
  rw [abs_le] at ht
  have h1a : a1 ≤ s1 := by rw [hs1]; exact le_max_left _ _
  have h1b : fl64 (a0 + dmin) ≤ s1 := by rw [hs1]; exact le_max_right _ _
  have h1c : s1 ≤ 2 * B + E := by
    rw [hs1]
    exact max_le (by linarith) (by linarith)
  -- the gap before the correction
  have hd := herr (s1 - a0) (abs_le.2 ⟨by linarith, by linarith⟩)
  rw [abs_le] at hd
  -- the violation
  have hw := herr (fl64 (s1 - a0) - dmax) (abs_le.2 ⟨by linarith, by linarith⟩)
  rw [abs_le] at hw
  have hv0 : (0 : ℚ) ≤ max 0 (fl64 (fl64 (s1 - a0) - dmax)) := le_max_left _ _
  have hvw : fl64 (fl64 (s1 - a0) - dmax) ≤ max 0 (fl64 (fl64 (s1 - a0) - dmax)) :=
    le_max_right _ _
  have hvle : max 0 (fl64 (fl64 (s1 - a0) - dmax)) ≤ 4 * B + 3 * E :=
    max_le (by linarith) (by linarith)
  -- the corrected start of vehicle 0
  have h0 := herr (a0 + max 0 (fl64 (fl64 (s1 - a0) - dmax)))
    (abs_le.2 ⟨by linarith, by linarith⟩)
  rw [← hs0, abs_le] at h0
  have hge : a0 ≤ s0 := by
    rw [hs0]
    exact le_fl64_of_isDouble ha0 (by linarith)
  -- the gap after the correction
  have hg := herr (s1 - s0) (abs_le.2 ⟨by linarith, by linarith⟩)
  have hwithin : s1 - a0 ≤ dmax → s0 = a0 := by
    intro hle
    have h1 : fl64 (s1 - a0) ≤ dmax := fl64_le_of_isDouble hdmax hle
    have h2 : fl64 (fl64 (s1 - a0) - dmax) ≤ 0 :=
      fl64_le_of_isDouble isDouble_zero (by linarith)
    rw [hs0, max_eq_left h2, add_zero]
    exact ha0
  refine ⟨hge, hwithin, ?_, by linarith, ?_, ?_, hg⟩
  · intro hlt
    have h1 : dmax ≤ fl64 (s1 - a0) := le_fl64_of_isDouble hdmax (le_of_lt hlt)
    have h2 : 0 ≤ fl64 (fl64 (s1 - a0) - dmax) :=
      le_fl64_of_isDouble isDouble_zero (by linarith)
    rw [max_eq_right h2] at h0
    rw [abs_le]
    constructor <;> linarith
  · rcases le_total (fl64 (fl64 (s1 - a0) - dmax)) 0 with h2 | h2
    · rw [max_eq_left h2, add_zero] at hs0
      rw [hs0, ha0]
      linarith
    · rw [max_eq_right h2] at h0
      linarith
  · rcases le_total (fl64 (fl64 (s1 - a0) - dmax)) 0 with h2 | h2
    · left
      rw [hs0, max_eq_left h2, add_zero]
      exact ha0
    · right
      rw [max_eq_right h2] at h0
      linarith

namespace Solution

theorem findInsertionCostR_id (inst : Instance) (COEFS : Fin 3 → ℚ) (S : Solution) (t : Task) :
    findInsertionCostR id inst COEFS S t = findInsertionCost inst COEFS S t := rfl

/-- The PRECEDENCE branch of the evaluation in binary64: it returns the task with
the start times `(s0, s1)` of the correction when the two separation assertions
hold for them, and it stops with the message of the first assertion that fails
otherwise. -/
theorem precedence_evaluation64 (inst : Instance) (COEFS : Fin 3 → ℚ) (S : Solution)
    (t : Task) (leaveV0 leaveV1 : ℚ) (posV0 posV1 : Int)
    (hty : inst.nodeSvcType t.node = SvcType.PRECEDENCE)
    (hleave0 : vecAt S.vehiLeaveTime t.vehi.1 leaveV0)
    (hpos0 : vecAt S.vehiPos t.vehi.1 posV0)
    (hleave1 : vecAt S.vehiLeaveTime t.vehi.2 leaveV1)
    (hpos1 : vecAt S.vehiPos t.vehi.2 posV1)
    (hs0 : t.skills.1 ≠ -1) (hs1 : t.skills.2 ≠ -1) (s0 s1 : ℚ)
    (h1 : s1 = max (arrival64 inst t.node leaveV1 posV1)
      (fl64 (arrival64 inst t.node leaveV0 posV0 + inst.nodeDeltaMin t.node)))
    (h0 : s0 = fl64 (arrival64 inst t.node leaveV0 posV0 +
      max 0 (fl64 (fl64 (s1 - arrival64 inst t.node leaveV0 posV0) -
        inst.nodeDeltaMax t.node)))) :
    ((inst.nodeDeltaMin t.node ≤ fl64 (fl64 (s1 - s0) + 1 / 2) ∧
        fl64 (fl64 (s1 - s0) - 1 / 2) ≤ inst.nodeDeltaMax t.node) →
      ∃ (r : Task) (c : ℚ), findInsertionCost64 inst COEFS S t = Except.ok (r, c) ∧
        c = r.cachedCost ∧ r.node = t.node ∧ r.vehi = t.vehi ∧ r.skills = t.skills ∧
        r.startTime = (s0, s1)) ∧
    (¬ inst.nodeDeltaMin t.node ≤ fl64 (fl64 (s1 - s0) + 1 / 2) →
      findInsertionCost64 inst COEFS S t =
        Except.error "Violation delta_min on double service with precedence.") ∧
    (inst.nodeDeltaMin t.node ≤ fl64 (fl64 (s1 - s0) + 1 / 2) →
      ¬ fl64 (fl64 (s1 - s0) - 1 / 2) ≤ inst.nodeDeltaMax t.node →
      findInsertionCost64 inst COEFS S t =
        Except.error "Violation delta_max on double service with precedence.") := by
  have e1 : (t.vehi.1 != -1) = true := by
    have := hleave0.1
    simp only [bne_iff_ne, ne_eq]
    omega
  have e2 : (t.vehi.2 != -1) = true := by
    have := hleave1.1
    simp only [bne_iff_ne, ne_eq]
    omega
  have e3 : (t.skills.1 != -1) = true := by simpa using hs0
  have e4 : (t.skills.2 != -1) = true := by simpa using hs1
  subst h0
  subst h1
  unfold arrival64
  refine ⟨?_, ?_, ?_⟩
  · rintro ⟨hlo, hhi⟩
    simp only [findInsertionCost64, findInsertionCostR, assert, vecGet_eq_ok.2 hleave0,
      vecGet_eq_ok.2 hpos0, vecGet_eq_ok.2 hleave1, vecGet_eq_ok.2 hpos1, hty, e1, e2, e3, e4,
      ok_bind, pure_eq_ok, if_true, if_false, reduceCtorEq, ge_iff_le, decide_eq_true_eq,
      if_pos hlo, if_pos hhi]
    exact ⟨_, _, rfl, rfl, rfl, rfl, rfl, rfl⟩
  · intro hlo
    simp only [findInsertionCost64, findInsertionCostR, assert, vecGet_eq_ok.2 hleave0,
      vecGet_eq_ok.2 hpos0, vecGet_eq_ok.2 hleave1, vecGet_eq_ok.2 hpos1, hty, e1, e2, e3, e4,
      ok_bind, pure_eq_ok, if_true, if_false, reduceCtorEq, ge_iff_le, decide_eq_true_eq,
      if_neg hlo, error_bind]
  · intro hlo hhi
    simp only [findInsertionCost64, findInsertionCostR, assert, vecGet_eq_ok.2 hleave0,
      vecGet_eq_ok.2 hpos0, vecGet_eq_ok.2 hleave1, vecGet_eq_ok.2 hpos1, hty, e1, e2, e3, e4,
      ok_bind, pure_eq_ok, if_true, if_false, reduceCtorEq, ge_iff_le, decide_eq_true_eq,
      if_pos hlo, if_neg hhi, error_bind]

end Solution

/-- The fractions `n / 2 ^ k` with fewer than 53 bits in `n` and `k ≤ 1074` are
values of type `double`. -/
theorem fl64_dyadic (n : Int) (k : Nat) (hk : k ≤ 1074) (hn : |n| < 2 ^ 53) :
    fl64 ((n : ℚ) / 2 ^ k) = (n : ℚ) / 2 ^ k := by
  have hpos : (0 : ℚ) < 2 ^ k := by positivity
  refine fl64_grid n (-(k : Int)) (by omega) ?_ ?_
  · rw [zpow_neg, zpow_natCast]
    rfl
  · have h53 : (2 : ℚ) ^ (-(k : Int) + 53) = 2 ^ 53 / 2 ^ k := by
      rw [zpow_add₀ (by norm_num : (2 : ℚ) ≠ 0), zpow_neg, zpow_natCast]
      rw [div_eq_mul_inv, mul_comm]
      norm_num
    rw [h53, abs_div, abs_of_pos hpos]
    have hq : |(n : ℚ)| < 2 ^ 53 := by exact_mod_cast hn
    exact div_lt_div_of_pos_right hq hpos

theorem fl64_intCast (n : Int) (hn : |n| < 2 ^ 53) : fl64 (n : ℚ) = n := by
  have := fl64_dyadic n 0 (by norm_num) hn
  simpa using this

theorem fl64_half (n : Int) (hn : |n| < 2 ^ 53) : fl64 ((n : ℚ) / 2) = (n : ℚ) / 2 := by
  have := fl64_dyadic n 1 (by norm_num) hn
  simpa using this

namespace Solution

/-! ## Double service with precedence in binary64 -/

theorem isDouble_arrival64 {inst : Instance} {node : Int} (leave : ℚ) (pos : Int)
    (htw : IsDouble (inst.nodeTwMin node)) : IsDouble (arrival64 inst node leave pos) :=
  isDouble_max htw (isDouble_fl64 _)

theorem fl64_eight : fl64 8 = 8 := by
  have := fl64_intCast 8 (by norm_num)
  simpa using this

theorem fl64_fifteen : fl64 15 = 15 := by
  have := fl64_intCast 15 (by norm_num)
  simpa using this

theorem demo_arrival64_v0 : arrival64 demoInst 3 0 0 = 8 := by
  have h : arrival64 demoInst 3 0 0 = max 0 (fl64 8) := by
    norm_num [arrival64, demoInst]
  rw [h, fl64_eight]
  norm_num

theorem demo_arrival64_v1 : arrival64 demoInst 3 7 1 = 15 := by
  have h : arrival64 demoInst 3 7 1 = max 0 (fl64 15) := by
    norm_num [arrival64, demoInst]
  rw [h, fl64_fifteen]
  norm_num

theorem demo_isDouble_six : IsDouble (demoInst.nodeDeltaMax 3) := by
  have := fl64_intCast 6 (by norm_num)
  have h : demoInst.nodeDeltaMax 3 = 6 := rfl
  rw [h]
  unfold IsDouble
  simpa using this

theorem demo_isDouble_two : IsDouble (demoInst.nodeDeltaMin 3) := by
  have := fl64_intCast 2 (by norm_num)
  have h : demoInst.nodeDeltaMin 3 = 2 := rfl
  rw [h]
  unfold IsDouble
  simpa using this

theorem demo_isDouble_twMin : IsDouble (demoInst.nodeTwMin 3) := isDouble_zero

end Solution

namespace Solution

/-! ## The rounded correction on concrete values -/

end Solution

namespace Solution

theorem demo_bound_v0 : |arrival64 demoInst 3 0 0| ≤ 15 := by
  rw [demo_arrival64_v0]
  norm_num

theorem demo_bound_v1 : |arrival64 demoInst 3 7 1| ≤ 15 := by
  rw [demo_arrival64_v1]
  norm_num

theorem demo_bound_min : |demoInst.nodeDeltaMin 3| ≤ 15 := by
  norm_num [demoInst]

theorem demo_bound_max : |demoInst.nodeDeltaMax 3| ≤ 15 := by
  norm_num [demoInst]

end Solution

namespace Solution

/-! ## The separation assertions in binary64 -/

theorem fl64_lit (n : Int) (hn : |n| < 2 ^ 53) (x : ℚ) (hx : x = (n : ℚ) / 2) :
    fl64 x = x := by
  rw [hx]
  exact fl64_half n hn

theorem bad_arrival64 : arrival64 badSepInst 3 0 0 = 8 := by
  have h : arrival64 badSepInst 3 0 0 = max 0 (fl64 8) := by
    norm_num [arrival64, badSepInst, demoInst]
  rw [h, fl64_eight]
  norm_num

/-- C4 as stated fails, over exact arithmetic and in binary64 alike: on
`badSepInst` (minimum separation 10, maximum separation 5) both vehicles arrive at
node 3 at time 8, the start times become 13 and 18, the gap is 5, and the
assertion `gap + 0.5 >= deltaMin` stops the evaluation. -/
theorem separation_assertion_counterexample :
    findInsertionCost badSepInst demoCoefs (init badSepInst) (blankTask 3 (0, 1) (1, 2)) =
      Except.error "Violation delta_min on double service with precedence." ∧
    findInsertionCost64 badSepInst demoCoefs (init badSepInst) (blankTask 3 (0, 1) (1, 2)) =
      Except.error "Violation delta_min on double service with precedence." := by
  refine ⟨exact_separation_fails, ?_⟩
  have hmin : badSepInst.nodeDeltaMin 3 = 10 := rfl
  have hmax : badSepInst.nodeDeltaMax 3 = 5 := rfl
  have f18 : fl64 18 = 18 := fl64_lit 36 (by norm_num) 18 (by norm_num)
  have f10 : fl64 10 = 10 := fl64_lit 20 (by norm_num) 10 (by norm_num)
  have f5 : fl64 5 = 5 := fl64_lit 10 (by norm_num) 5 (by norm_num)
  have f13 : fl64 13 = 13 := fl64_lit 26 (by norm_num) 13 (by norm_num)
  have f112 : fl64 (11 / 2) = 11 / 2 := fl64_lit 11 (by norm_num) (11 / 2) (by norm_num)
  have h1 : (18 : ℚ) = max (arrival64 badSepInst 3 0 0)
      (fl64 (arrival64 badSepInst 3 0 0 + badSepInst.nodeDeltaMin 3)) := by
    rw [bad_arrival64, hmin]
    have e : (8 + 10 : ℚ) = 18 := by norm_num
    rw [e, f18, max_eq_right (by norm_num)]
  have h0 : (13 : ℚ) = fl64 (arrival64 badSepInst 3 0 0 +
      max 0 (fl64 (fl64 (18 - arrival64 badSepInst 3 0 0) - badSepInst.nodeDeltaMax 3))) := by
    rw [bad_arrival64, hmax]
    have e1 : (18 - 8 : ℚ) = 10 := by norm_num
    have e2 : (10 - 5 : ℚ) = 5 := by norm_num
    have e3 : (8 + 5 : ℚ) = 13 := by norm_num
    rw [e1, f10, e2, f5, max_eq_right (by norm_num), e3, f13]
  have hlo : ¬ badSepInst.nodeDeltaMin 3 ≤ fl64 (fl64 (18 - 13) + 1 / 2) := by
    have e1 : (18 - 13 : ℚ) = 5 := by norm_num
    have e2 : (5 + 1 / 2 : ℚ) = 11 / 2 := by norm_num
    rw [e1, f5, e2, f112, hmin]
    norm_num
  exact (precedence_evaluation64 badSepInst demoCoefs (init badSepInst)
    (blankTask 3 (0, 1) (1, 2)) 0 0 0 0 rfl ⟨by decide, rfl⟩ ⟨by decide, rfl⟩ ⟨by decide, rfl⟩
    ⟨by decide, rfl⟩ (by decide) (by decide) _ _ h1 h0).2.1 hlo

/-- C4, amended. In the binary64 arithmetic of the program, on a PRECEDENCE node
whose arrivals and separation bounds have magnitude at most `B`, with
`B + 1 ≤ 2 ^ 45`, and whose bounds satisfy
`deltaMin + (B + 1) / 2 ^ 46 ≤ deltaMax + 0.5` (the bound `deltaMin ≤ deltaMax + 0.5`
with room for four rounding errors), the evaluation passes both separation
assertions and the stored start times satisfy
`deltaMin - 0.5 ≤ startTime[1] - startTime[0] ≤ deltaMax + 0.5`. -/
theorem findInsertionCost_separation (inst : Instance) (COEFS : Fin 3 → ℚ) (S : Solution)
    (t : Task) (leaveV0 leaveV1 : ℚ) (posV0 posV1 : Int) (B : ℚ)
    (hty : inst.nodeSvcType t.node = SvcType.PRECEDENCE)
    (hleave0 : vecAt S.vehiLeaveTime t.vehi.1 leaveV0)
    (hpos0 : vecAt S.vehiPos t.vehi.1 posV0)
    (hleave1 : vecAt S.vehiLeaveTime t.vehi.2 leaveV1)
    (hpos1 : vecAt S.vehiPos t.vehi.2 posV1)
    (hs0 : t.skills.1 ≠ -1) (hs1 : t.skills.2 ≠ -1)
    (htw : IsDouble (inst.nodeTwMin t.node)) (hdmin : IsDouble (inst.nodeDeltaMin t.node))
    (hdmax : IsDouble (inst.nodeDeltaMax t.node))
    (hb0 : |arrival64 inst t.node leaveV0 posV0| ≤ B)
    (hb1 : |arrival64 inst t.node leaveV1 posV1| ≤ B)
    (hbmin : |inst.nodeDeltaMin t.node| ≤ B) (hbmax : |inst.nodeDeltaMax t.node| ≤ B)
    (hB : B + 1 ≤ 2 ^ 45)
    (hsep : inst.nodeDeltaMin t.node + (B + 1) / 2 ^ 46 ≤ inst.nodeDeltaMax t.node + 1 / 2) :
    ∃ t' c, findInsertionCost64 inst COEFS S t = Except.ok (t', c) ∧
      inst.nodeDeltaMin t.node - 1 / 2 ≤ t'.startTime.2 - t'.startTime.1 ∧
      t'.startTime.2 - t'.startTime.1 ≤ inst.nodeDeltaMax t.node + 1 / 2 := by
  have key : ∀ s0 s1 : ℚ,
      s1 = max (arrival64 inst t.node leaveV1 posV1)
        (fl64 (arrival64 inst t.node leaveV0 posV0 + inst.nodeDeltaMin t.node)) →
      s0 = fl64 (arrival64 inst t.node leaveV0 posV0 +
        max 0 (fl64 (fl64 (s1 - arrival64 inst t.node leaveV0 posV0) -
          inst.nodeDeltaMax t.node))) →
      ∃ t' c, findInsertionCost64 inst COEFS S t = Except.ok (t', c) ∧
        inst.nodeDeltaMin t.node - 1 / 2 ≤ t'.startTime.2 - t'.startTime.1 ∧
        t'.startTime.2 - t'.startTime.1 ≤ inst.nodeDeltaMax t.node + 1 / 2 := by
    intro s0 s1 h1 h0
    obtain ⟨hok, -, -⟩ := precedence_evaluation64 inst COEFS S t leaveV0 leaveV1 posV0 posV1
      hty hleave0 hpos0 hleave1 hpos1 hs0 hs1 s0 s1 h1 h0
    obtain ⟨-, -, -, hlow, hup, hcase, hg⟩ :=
      precedence_rounded (isDouble_arrival64 leaveV0 posV0 htw) hdmax hb0 hb1 hbmin hbmax h1 h0
    have hB0 : 0 ≤ B := le_trans (abs_nonneg _) hb0
    have hE0 : 0 ≤ (B + 1) / 2 ^ 48 := by positivity
    have hE8 : (B + 1) / 2 ^ 48 ≤ 1 / 8 := by
      rw [div_le_div_iff₀ (by positivity) (by norm_num)]
      have : (2 : ℚ) ^ 48 = 8 * 2 ^ 45 := by norm_num
      rw [this]
      linarith
    have h4 : (B + 1) / 2 ^ 46 = 4 * ((B + 1) / 2 ^ 48) := by
      have : (2 : ℚ) ^ 48 = 4 * 2 ^ 46 := by norm_num
      rw [this]
      field_simp
      ring
    rw [h4] at hsep
    generalize (B + 1) / 2 ^ 48 = E at hlow hup hcase hg hE0 hE8 hsep
    rw [abs_le] at hg
    have hreal : inst.nodeDeltaMin t.node - 1 / 2 + E ≤ s1 - s0 ∨
        (s0 = arrival64 inst t.node leaveV0 posV0 ∧ inst.nodeDeltaMin t.node - E ≤ s1 - s0) := by
      rcases hcase with hc | hc
      · right
        exact ⟨hc, by rw [hc]; exact hlow⟩
      · left
        linarith
    have hlo : inst.nodeDeltaMin t.node ≤ fl64 (fl64 (s1 - s0) + 1 / 2) := by
      apply le_fl64_of_isDouble hdmin
      rcases hreal with hc | ⟨-, hc⟩ <;> linarith
    have hhi : fl64 (fl64 (s1 - s0) - 1 / 2) ≤ inst.nodeDeltaMax t.node := by
      apply fl64_le_of_isDouble hdmax
      linarith
    obtain ⟨r, c, hf, -, -, -, -, hst⟩ := hok ⟨hlo, hhi⟩
    refine ⟨r, c, hf, ?_⟩
    rw [hst]
    constructor
    · show _ ≤ s1 - s0
      rcases hreal with hc | ⟨-, hc⟩ <;> linarith
    · show s1 - s0 ≤ _
      linarith
  exact key _ _ rfl rfl

theorem findInsertionCost_separation_witness :
    demoInst.nodeSvcType (blankTask 3 (0, 1) (1, 2)).node = SvcType.PRECEDENCE ∧
    IsDouble (demoInst.nodeTwMin 3) ∧ IsDouble (demoInst.nodeDeltaMin 3) ∧
    IsDouble (demoInst.nodeDeltaMax 3) ∧
    |arrival64 demoInst 3 0 0| ≤ 15 ∧ |arrival64 demoInst 3 7 1| ≤ 15 ∧
    |demoInst.nodeDeltaMin 3| ≤ 15 ∧ |demoInst.nodeDeltaMax 3| ≤ 15 ∧
    (15 : ℚ) + 1 ≤ 2 ^ 45 ∧
    demoInst.nodeDeltaMin 3 + (15 + 1) / 2 ^ 46 ≤ demoInst.nodeDeltaMax 3 + 1 / 2 ∧
    ∃ t' c, findInsertionCost64 demoInst demoCoefs demoState (blankTask 3 (0, 1) (1, 2)) =
        Except.ok (t', c) ∧
      demoInst.nodeDeltaMin 3 - 1 / 2 ≤ t'.startTime.2 - t'.startTime.1 ∧
      t'.startTime.2 - t'.startTime.1 ≤ demoInst.nodeDeltaMax 3 + 1 / 2 :=
  ⟨rfl, demo_isDouble_twMin, demo_isDouble_two, demo_isDouble_six, demo_bound_v0,
    demo_bound_v1, demo_bound_min, demo_bound_max, by norm_num, by norm_num [demoInst],
    findInsertionCost_separation demoInst demoCoefs demoState (blankTask 3 (0, 1) (1, 2)) 0 7 0 1
      15 rfl ⟨by decide, rfl⟩ ⟨by decide, rfl⟩ ⟨by decide, rfl⟩ ⟨by decide, rfl⟩
      (by decide) (by decide) demo_isDouble_twMin demo_isDouble_two demo_isDouble_six
      demo_bound_v0 demo_bound_v1 demo_bound_min demo_bound_max (by norm_num)
      (by norm_num [demoInst])⟩

end Solution

namespace Solution

/-! ## Stops at or after the read-heads -/

theorem namings_cons (i : Int) (s : Int × Int) (r : Route) :
    namings i (s :: r) = namings i r + (if s.1 = i then 1 else 0) := by
  unfold namings
  rw [List.countP_cons]
  simp

theorem namings_drop_le (i : Int) (r : Route) (n : Nat) :
    namings i (r.drop n) ≤ namings i r :=
  List.Sublist.countP_le _ (List.drop_sublist n r)

theorem namings_drop_succ (i : Int) {r : Route} {h : Nat} {stop : Int × Int}
    (hs : r[h]? = some stop) :
    namings i (r.drop (h + 1)) + (if stop.1 = i then 1 else 0) = namings i (r.drop h) := by
  obtain ⟨hlt, hget⟩ := List.getElem?_eq_some.1 hs
  rw [List.drop_eq_getElem_cons hlt, namings_cons, hget]

theorem sum_range_getD {α : Type} (F : List α → Nat) (L : List (List α)) :
    Finset.sum (Finset.range L.length) (fun v => F (L[v]?.getD [])) = (L.map F).sum := by
  induction L with
  | nil => simp
  | cons a L ih =>
    rw [List.length_cons, Finset.sum_range_succ', List.map_cons, List.sum_cons, ← ih]
    simp [add_comm]

/-- Advancing one read-head by one removes the stop under it from the count. -/
theorem pending_modify (i : Int) {routes : List Route} {vhead : List Int} {x h : Nat}
    {r : Route} {stop : Int × Int} (hx : x < routes.length)
    (hh : vhead[x]? = some (h : Int)) (hr : routes[x]? = some r) (hs : r[h]? = some stop) :
    pending routes (vhead.modify (fun a => a + 1) x) i + (if stop.1 = i then 1 else 0) =
      pending routes vhead i := by
  unfold pending
  have hmem : x ∈ Finset.range routes.length := Finset.mem_range.2 hx
  rw [← Finset.add_sum_erase _ _ hmem, ← Finset.add_sum_erase _ _ hmem]
  have hrest : Finset.sum ((Finset.range routes.length).erase x)
      (fun v => namings i ((routes[v]?.getD []).drop
        (((vhead.modify (fun a => a + 1) x)[v]?).getD 0).toNat)) =
      Finset.sum ((Finset.range routes.length).erase x)
      (fun v => namings i ((routes[v]?.getD []).drop ((vhead[v]?).getD 0).toNat)) := by
    refine Finset.sum_congr rfl (fun v hv => ?_)
    have hne : x ≠ v := fun hxv => (Finset.mem_erase.1 hv).1 hxv.symm
    rw [List.getElem?_modify]
    simp only [if_neg hne, id_map']
  rw [hrest, List.getElem?_modify, hh, hr]
  have hidx : ((h : Int) + 1).toNat = h + 1 := by omega
  simp only [if_true, Option.map_eq_map, Option.map_some', Option.getD_some, Int.toNat_ofNat,
    hidx]
  have := namings_drop_succ i hs
  omega

theorem pending_modify_le (i : Int) {routes : List Route} {vhead : List Int} {x h : Nat}
    {r : Route} {stop : Int × Int} (hx : x < routes.length)
    (hh : vhead[x]? = some (h : Int)) (hr : routes[x]? = some r) (hs : r[h]? = some stop) :
    pending routes (vhead.modify (fun a => a + 1) x) i ≤ pending routes vhead i := by
  have := pending_modify i hx hh hr hs
  omega

/-- No stop named by a node without pending stops is under a read-head. -/
theorem pending_zero {i : Int} {routes : List Route} {vhead : List Int} {x h : Nat}
    {r : Route} {stop : Int × Int} (h0 : pending routes vhead i = 0) (hx : x < routes.length)
    (hh : vhead[x]? = some (h : Int)) (hr : routes[x]? = some r) (hs : r[h]? = some stop) :
    stop.1 ≠ i := by
  intro hi
  have := pending_modify i hx hh hr hs
  rw [if_pos hi] at this
  omega

/-- When the replay starts, the pending stops of a node are among all stops that
name it. -/
theorem pending_start (i : Int) (routes : List Route) (n : Nat) :
    pending routes (List.replicate n 1) i ≤ routes.flatten.countP (fun s => s.1 = i) := by
  unfold pending
  calc Finset.sum (Finset.range routes.length)
        (fun v => namings i ((routes[v]?.getD []).drop
          (((List.replicate n (1 : Int))[v]?).getD 0).toNat))
      ≤ Finset.sum (Finset.range routes.length) (fun v => namings i (routes[v]?.getD [])) :=
        Finset.sum_le_sum (fun v _ => namings_drop_le i _ _)
    _ = (routes.map (namings i)).sum := sum_range_getD (namings i) routes
    _ = routes.flatten.countP (fun s => s.1 = i) := by
        rw [List.countP_flatten]
        rfl

end Solution

namespace Solution

/-! ## Evaluations with valid vehicle indices stop at assertions only -/

theorem assert_error {c : Bool} {m msg : String} {α : Type} {f : Unit → Except String α}
    (h : (assert c m >>= f) = Except.error msg) :
    (c = false ∧ msg = m) ∨ (c = true ∧ f () = Except.error msg) := by
  cases c
  · simp only [assert, Bool.false_eq_true, if_false] at h
    exact Or.inl ⟨rfl, by
      have : (Except.error m : Except String α) = Except.error msg := h
      injection this with this
      exact this.symm⟩
  · exact Or.inr ⟨rfl, h⟩

/-- With the vehicles of the task valid indices, an evaluation that does not
complete has stopped at one of its assertions, not at a vector access. -/
theorem findInsertionCost_stops {inst : Instance} {COEFS : Fin 3 → ℚ} {S : Solution}
    {t : Task} (hl0 : inBounds S.vehiLeaveTime t.vehi.1) (hp0 : inBounds S.vehiPos t.vehi.1)
    (h1 : inst.nodeSvcType t.node ≠ SvcType.SINGLE →
      inBounds S.vehiLeaveTime t.vehi.2 ∧ inBounds S.vehiPos t.vehi.2)
    {msg : String} (h : findInsertionCost inst COEFS S t = Except.error msg) :
    msg ≠ outOfRange := by
  obtain ⟨l0, hl0⟩ := inBounds_vecAt hl0
  obtain ⟨p0, hp0⟩ := inBounds_vecAt hp0
  cases hty : inst.nodeSvcType t.node
  · simp only [findInsertionCost, hty, vecGet_eq_ok.2 hl0, vecGet_eq_ok.2 hp0, ok_bind,
      if_true] at h
    rcases assert_error h with ⟨-, rfl⟩ | ⟨-, h⟩
    · decide
    rcases assert_error h with ⟨-, rfl⟩ | ⟨-, h⟩
    · decide
    rcases assert_error h with ⟨-, rfl⟩ | ⟨-, h⟩
    · decide
    simp at h
  · obtain ⟨hl1, hp1⟩ := h1 (by simp [hty])
    obtain ⟨l1, hl1⟩ := inBounds_vecAt hl1
    obtain ⟨p1, hp1⟩ := inBounds_vecAt hp1
    simp only [findInsertionCost, hty, vecGet_eq_ok.2 hl0, vecGet_eq_ok.2 hp0,
      vecGet_eq_ok.2 hl1, vecGet_eq_ok.2 hp1, ok_bind, if_true, if_false, reduceCtorEq,
      bind_assoc] at h
    rcases assert_error h with ⟨-, rfl⟩ | ⟨-, h⟩
    · decide
    rcases assert_error h with ⟨-, rfl⟩ | ⟨-, h⟩
    · decide
    rcases assert_error h with ⟨-, rfl⟩ | ⟨-, h⟩
    · decide
    rcases assert_error h with ⟨-, rfl⟩ | ⟨-, h⟩
    · decide
    simp at h
  · obtain ⟨hl1, hp1⟩ := h1 (by simp [hty])
    obtain ⟨l1, hl1⟩ := inBounds_vecAt hl1
    obtain ⟨p1, hp1⟩ := inBounds_vecAt hp1
    simp only [findInsertionCost, hty, vecGet_eq_ok.2 hl0, vecGet_eq_ok.2 hp0,
      vecGet_eq_ok.2 hl1, vecGet_eq_ok.2 hp1, ok_bind, if_true, if_false, reduceCtorEq,
      bind_assoc] at h
    rcases assert_error h with ⟨-, rfl⟩ | ⟨-, h⟩
    · decide
    rcases assert_error h with ⟨-, rfl⟩ | ⟨-, h⟩
    · decide
    rcases assert_error h with ⟨-, rfl⟩ | ⟨-, h⟩
    · decide
    rcases assert_error h with ⟨-, rfl⟩ | ⟨-, h⟩
    · decide
    rcases assert_error h with ⟨-, rfl⟩ | ⟨-, h⟩
    · decide
    rcases assert_error h with ⟨-, rfl⟩ | ⟨-, h⟩
    · decide
    simp at h

end Solution

namespace Solution

/-! ## Read-heads and slots under an advance -/

/-- On a state of the instance, evaluating a task whose vehicles are valid
indices either stops at an assertion or gives a task that `updateRoutes`
commits. -/
theorem eval_commit_cases {inst : Instance} (COEFS : Fin 3 → ℚ) {S : Solution} {t : Task}
    (hS : Sized inst S) (hv0 : 0 ≤ t.vehi.1 ∧ t.vehi.1 < (inst.numVehicles : Int))
    (hn : 0 ≤ t.node ∧ t.node < (inst.numNodes : Int))
    (hv1 : inst.nodeSvcType t.node ≠ SvcType.SINGLE →
      0 ≤ t.vehi.2 ∧ t.vehi.2 < (inst.numVehicles : Int)) :
    (∃ msg, findInsertionCost inst COEFS S t = Except.error msg ∧ msg ≠ outOfRange) ∨
    (∃ (r : Task) (c : ℚ), findInsertionCost inst COEFS S t = Except.ok (r, c) ∧
      r.node = t.node ∧ r.vehi = t.vehi ∧ r.skills = t.skills ∧
      updateRoutes S r = Except.ok (applyTask S r)) := by
  cases hf : findInsertionCost inst COEFS S t with
  | error msg =>
    refine Or.inl ⟨msg, rfl, findInsertionCost_stops ((inBounds_of_length hS.2.2.1).2 hv0)
      ((inBounds_of_length hS.2.1).2 hv0) (fun hty => ?_) hf⟩
    exact ⟨(inBounds_of_length hS.2.2.1).2 (hv1 hty), (inBounds_of_length hS.2.1).2 (hv1 hty)⟩
  | ok res =>
    have hpre := findInsertionCost_ok_evalPre hf
    obtain ⟨r, c, hf', -, hrn, hrv, hrs, -⟩ := findInsertionCost_of_evalPre COEFS hpre
    rw [hf] at hf'
    injection hf' with hf'
    subst hf'
    refine Or.inr ⟨r, c, rfl, hrn, hrv, hrs, ?_⟩
    apply updateRoutes_of_pre
    · rw [hrs]
      exact hpre.2.2.1
    · rw [hrv]
      exact (vehicleOk_of_sized hS _).2 hv0
    · rw [hrn]
      exact (nodeOk_of_sized hS _).2 hn
    · intro h2
      rw [hrs] at h2
      rw [hrv]
      have hty : inst.nodeSvcType t.node ≠ SvcType.SINGLE := by
        intro hty
        unfold evalPre at hpre
        rw [hty] at hpre
        exact h2 hpre.2.2.2
      exact (vehicleOk_of_sized hS _).2 (hv1 hty)

/-- The stop under a read-head: it exists, and is the depot stop or names a node
of the instance other than the depot. -/
theorem head_stop {inst : Instance} {routes : List Route} {vhead : List Int}
    (hH : HeadsOk inst routes vhead)
    (hdep : ∀ r ∈ routes, ∃ d : Nat, 1 ≤ d ∧ (∃ stop, r[d]? = some stop ∧ stop.1 = 0) ∧
      ∀ i : Nat, 1 ≤ i → i < d → ∃ stop, r[i]? = some stop ∧ 1 ≤ stop.1 ∧
        stop.1 < (inst.numNodes : Int))
    {v : Nat} (hv : v < inst.numVehicles) :
    ∃ (h : Nat) (r : Route) (stop : Int × Int), routes[v]? = some r ∧
      vhead[v]? = some (h : Int) ∧ 1 ≤ h ∧ r[h]? = some stop ∧
      (stop.1 = 0 ∨ (1 ≤ stop.1 ∧ stop.1 < (inst.numNodes : Int))) := by
  obtain ⟨h, r, hr, hh, h1, hbefore⟩ := hH v hv
  obtain ⟨d, hd1, ⟨sd, hsd, hsd0⟩, hlive⟩ := hdep r (List.getElem?_mem hr)
  have hle : h ≤ d := by
    by_contra hcon
    obtain ⟨s', hs', hne⟩ := hbefore d hd1 (by omega)
    rw [hsd] at hs'
    injection hs' with hs'
    rw [← hs'] at hne
    exact hne hsd0
  rcases Nat.lt_or_eq_of_le hle with hlt | heq
  · obtain ⟨s, hs, hs1, hs2⟩ := hlive h h1 hlt
    exact ⟨h, r, s, hr, hh, h1, hs, Or.inr ⟨hs1, hs2⟩⟩
  · subst heq
    exact ⟨h, r, sd, hr, hh, h1, hsd, Or.inl hsd0⟩

/-- Advancing a read-head over a stop that is not the depot stop keeps `HeadsOk`. -/
theorem advance_head {inst : Instance} {routes : List Route} {vhead : List Int}
    (hH : HeadsOk inst routes vhead) {x h : Nat} {r : Route} {stop : Int × Int}
    (hr : routes[x]? = some r) (hh : vhead[x]? = some (h : Int)) (hs : r[h]? = some stop)
    (hne : stop.1 ≠ 0) : HeadsOk inst routes (vhead.modify (fun a => a + 1) x) := by
  intro v hv
  obtain ⟨h', r', hr', hh', h1, hbefore⟩ := hH v hv
  by_cases hxv : x = v
  · subst hxv
    rw [hr] at hr'
    injection hr' with hr'
    subst hr'
    rw [hh] at hh'
    injection hh' with hh'
    have hh'' : h = h' := by omega
    subst hh''
    refine ⟨h + 1, r, hr, ?_, by omega, ?_⟩
    · rw [List.getElem?_modify, hh]
      simp
    · intro i hi1 hi2
      rcases Nat.lt_or_eq_of_le (Nat.lt_succ_iff.1 hi2) with hlt | heq
      · exact hbefore i hi1 hlt
      · subst heq
        exact ⟨stop, hs, hne⟩
  · refine ⟨h', r', hr', ?_, h1, hbefore⟩
    rw [List.getElem?_modify]
    simp only [if_neg hxv, id_map']
    exact hh'

/-- Advancing a read-head over a stop of another node keeps `SlotsSafe` for the
entry of node `i`. -/
theorem advance_slots {inst : Instance} {routes : List Route} {vhead : List Int}
    {x h : Nat} {r : Route} {stop : Int × Int} (hx : x < routes.length)
    (hr : routes[x]? = some r) (hh : vhead[x]? = some (h : Int)) (hs : r[h]? = some stop)
    {i : Int} {e : Task} (hi : stop.1 ≠ i) (hok : SlotsSafe inst routes vhead i e) :
    SlotsSafe inst routes (vhead.modify (fun a => a + 1) x) i e := by
  have keep : ∀ ( first : Bool) (w : Int), Waiting inst routes vhead i e first w →
      Waiting inst routes (vhead.modify (fun a => a + 1) x) i e first w := by
    rintro f w ⟨u, hu, ru, su, hw, hun, hhu, hru, hsu, hsi, hsk⟩
    have hxu : x ≠ u := by
      intro hxu
      subst hxu
      rw [hr] at hru
      injection hru with hru
      subst hru
      rw [hh] at hhu
      injection hhu with hhu
      have : h = hu := by omega
      subst this
      rw [hs] at hsu
      injection hsu with hsu
      subst hsu
      exact hi hsi
    refine ⟨u, hu, ru, su, hw, hun, ?_, hru, hsu, hsi, hsk⟩
    rw [List.getElem?_modify]
    simp only [if_neg hxu, id_map']
    exact hhu
  rcases hok with ⟨hone, h1, h2⟩ | h0
  · exact Or.inl ⟨hone, h1.imp id (keep _ _), h2.imp id (keep _ _)⟩
  · have := pending_modify_le i hx hh hr hs
    exact Or.inr (by omega)

end Solution

namespace Solution

/-! ## The invariant after a commit -/

theorem getElem?_modify_const {α : Type} {l : List α} {k j : Nat} {a b : α}
    (h : (l.modify (fun _ => a) k)[j]? = some b) :
    (k = j ∧ b = a) ∨ (k ≠ j ∧ l[j]? = some b) := by
  rw [List.getElem?_modify] at h
  by_cases hkj : k = j
  · cases hl : l[j]? with
    | none => simp [hl] at h
    | some c =>
      simp only [hl, if_pos hkj, Option.map_eq_map, Option.map_some', Option.some.injEq] at h
      exact Or.inl ⟨hkj, h.symm⟩
  · simp only [if_neg hkj, id_map'] at h
    exact Or.inr ⟨hkj, h⟩

/-- The state after the commit of a single service keeps the invariant. -/
theorem safeInv_commit_single {inst : Instance} {routes : List Route} {st : Replay}
    (hlen : routes.length = inst.numVehicles) (h : SafeInv inst routes st)
    {x hd k : Nat} {r : Route} {stop : Int × Int} (hx : x < inst.numVehicles)
    (hr : routes[x]? = some r) (hh : st.vhead[x]? = some (hd : Int))
    (hs : r[hd]? = some stop) (hk : stop.1 = (k : Int) + 1)
    (hty : inst.nodeSvcType stop.1 = SvcType.SINGLE) (t : Task) (ht : t.node = stop.1) :
    SafeInv inst routes
      { st with
        sol := { applyTask st.sol t with taskOrder := (applyTask st.sol t).taskOrder ++ [t] }
        allTasks := st.allTasks.modify (fun _ => t) k
        vhead := st.vhead.modify (fun a => a + 1) x } := by
  have hx' : x < routes.length := by omega
  refine ⟨by simp [h.vlen], h.flen, by simp [h.tlen], sized_applyTask t h.sized,
    advance_head h.head hr hh hs (by omega), ?_, ?_, ?_⟩
  · intro j e hj
    rcases getElem?_modify_const hj with ⟨rfl, rfl⟩ | ⟨-, hj⟩
    · rw [ht, hk]
    · exact h.node j e hj
  · intro i hi1 hi2 hti
    exact le_trans (pending_modify_le i hx' hh hr hs) (h.budget i hi1 hi2 hti)
  · intro j e hj htj
    rcases getElem?_modify_const hj with ⟨rfl, rfl⟩ | ⟨hkj, hj⟩
    · rw [← hk] at htj
      exact absurd hty htj
    · exact advance_slots hx' hr hh hs (by omega) (h.slots j e hj htj)

/-- The state after the commit of a double service whose two stops are under
the read-heads of two vehicles keeps the invariant. -/
theorem safeInv_commit_double {inst : Instance} {routes : List Route} {st : Replay}
    (hlen : routes.length = inst.numVehicles) (h : SafeInv inst routes st)
    {x y hx hy k : Nat} {rx ry : Route} {sx sy : Int × Int}
    (hxn : x < inst.numVehicles) (hyn : y < inst.numVehicles) (hxy : x ≠ y)
    (hrx : routes[x]? = some rx) (hhx : st.vhead[x]? = some (hx : Int))
    (hsx : rx[hx]? = some sx) (hkx : sx.1 = (k : Int) + 1)
    (hry : routes[y]? = some ry) (hhy : st.vhead[y]? = some (hy : Int))
    (hsy : ry[hy]? = some sy) (hky : sy.1 = (k : Int) + 1)
    (hkl : k < st.allTasks.length)
    (hty : inst.nodeSvcType ((k : Int) + 1) ≠ SvcType.SINGLE) (t : Task)
    (ht : t.node = (k : Int) + 1) :
    SafeInv inst routes
      { st with
        sol := { applyTask st.sol t with taskOrder := (applyTask st.sol t).taskOrder ++ [t] }
        allTasks := st.allTasks.modify (fun _ => t) k
        vhead := (st.vhead.modify (fun a => a + 1) x).modify (fun a => a + 1) y } := by
  have hx' : x < routes.length := by omega
  have hy' : y < routes.length := by omega
  have hhy1 : (st.vhead.modify (fun a => a + 1) x)[y]? = some (hy : Int) := by
    rw [List.getElem?_modify]
    simp only [if_neg hxy, id_map']
    exact hhy
  refine ⟨by simp [h.vlen], h.flen, by simp [h.tlen], sized_applyTask t h.sized,
    advance_head (advance_head h.head hrx hhx hsx (by omega)) hry hhy1 hsy (by omega),
    ?_, ?_, ?_⟩
  · intro j e hj
    rcases getElem?_modify_const hj with ⟨rfl, rfl⟩ | ⟨-, hj⟩
    · exact ht
    · exact h.node j e hj
  · intro i hi1 hi2 hti
    exact le_trans (pending_modify_le i hy' hhy1 hry hsy)
      (le_trans (pending_modify_le i hx' hhx hrx hsx) (h.budget i hi1 hi2 hti))
  · intro j e hj htj
    rcases getElem?_modify_const hj with ⟨rfl, rfl⟩ | ⟨hkj, hj⟩
    · have hb := h.budget ((k : Int) + 1) (by omega) (by have := h.tlen; omega) hty
      have p1 := pending_modify ((k : Int) + 1) hx' hhx hrx hsx
      have p2 := pending_modify ((k : Int) + 1) hy' hhy1 hry hsy
      rw [if_pos hkx] at p1
      rw [if_pos hky] at p2
      refine Or.inr ?_
      show pending routes ((st.vhead.modify (fun a => a + 1) x).modify (fun a => a + 1) y)
        ((k : Int) + 1) = 0
      omega
    · exact advance_slots hy' hry hhy1 hsy (by omega)
        (advance_slots hx' hrx hhx hsx (by omega) (h.slots j e hj htj))

/-- Writing an entry whose slots are as in `SlotsSafe` keeps the invariant. -/
theorem safeInv_wait {inst : Instance} {routes : List Route} {st : Replay}
    (h : SafeInv inst routes st) {k : Nat} (t : Task) (ht : t.node = (k : Int) + 1)
    (hslot : SlotsSafe inst routes st.vhead ((k : Int) + 1) t) :
    SafeInv inst routes { st with allTasks := st.allTasks.modify (fun _ => t) k } := by
  refine ⟨h.vlen, h.flen, by simp [h.tlen], h.sized, h.head, ?_, h.budget, ?_⟩
  · intro j e hj
    rcases getElem?_modify_const hj with ⟨rfl, rfl⟩ | ⟨-, hj⟩
    · exact ht
    · exact h.node j e hj
  · intro j e hj htj
    rcases getElem?_modify_const hj with ⟨rfl, rfl⟩ | ⟨-, hj⟩
    · exact hslot
    · exact h.slots j e hj htj

end Solution

namespace Solution

/-! ## One pass of the replay of arbitrary routes -/

/-- The pass for a vehicle whose read-head is on a depot stop. -/
theorem safe_depot {inst : Instance} {COEFS : Fin 3 → ℚ} {routes : List Route} {st : Replay}
    (h : SafeInv inst routes st) {v hd : Nat} {r : Route} {stop : Int × Int}
    (hv : v < inst.numVehicles) (hr : routes[v]? = some r)
    (hh : st.vhead[v]? = some (hd : Int)) (hs : r[hd]? = some stop) (h0 : stop.1 = 0) :
    SafeRun inst routes (replayVehicle inst COEFS routes st v) := by
  have e1 := vecGet_eq_ok.2 (vecAt_natCast.2 hh)
  have e2 := vecGet_eq_ok.2 (vecAt_natCast.2 hr)
  have e3 := vecGet_eq_ok.2 (vecAt_natCast.2 hs)
  have hbF : inBounds st.actFlag (v : Int) := (inBounds_of_length h.flen).2 ⟨by omega, by omega⟩
  obtain ⟨flag, hflag⟩ := inBounds_vecAt hbF
  by_cases hf : flag = 0
  · have hrun : replayVehicle inst COEFS routes st v = Except.ok
        { st with nFinish := st.nFinish + 1,
                  actFlag := st.actFlag.modify (fun _ => 1) (v : Int).toNat } := by
      simp only [replayVehicle, e1, e2, e3, ok_bind, h0, if_true, vecGet_eq_ok.2 hflag, hf,
        vecModify_of_inBounds _ hbF, pure_eq_ok]
    exact Or.inl ⟨_, hrun, ⟨h.vlen, by simp [h.flen], h.tlen, h.sized, h.head, h.node,
      h.budget, h.slots⟩⟩
  · have hrun : replayVehicle inst COEFS routes st v = Except.ok st := by
      simp only [replayVehicle, e1, e2, e3, ok_bind, h0, if_true, vecGet_eq_ok.2 hflag, hf,
        if_false, pure_eq_ok]
    exact Or.inl ⟨_, hrun, h⟩

/-- The pass for a vehicle whose read-head is on a stop of a single service. -/
theorem safe_single {inst : Instance} {COEFS : Fin 3 → ℚ} {routes : List Route} {st : Replay}
    (hlen : routes.length = inst.numVehicles) (h : SafeInv inst routes st)
    {v hd k : Nat} {r : Route} {stop : Int × Int} {e : Task}
    (hv : v < inst.numVehicles) (hr : routes[v]? = some r)
    (hh : st.vhead[v]? = some (hd : Int)) (hs : r[hd]? = some stop)
    (hk : stop.1 = (k : Int) + 1) (he : st.allTasks[k]? = some e)
    (hty : inst.nodeSvcType stop.1 = SvcType.SINGLE) :
    SafeRun inst routes (replayVehicle inst COEFS routes st v) := by
  have e1 := vecGet_eq_ok.2 (vecAt_natCast.2 hh)
  have e2 := vecGet_eq_ok.2 (vecAt_natCast.2 hr)
  have e3 := vecGet_eq_ok.2 (vecAt_natCast.2 hs)
  have hkl : k < st.allTasks.length := (List.getElem?_eq_some.1 he).1
  have hne0 : ¬ stop.1 = 0 := by omega
  have hidx : (stop.1 - 1).toNat = k := by omega
  have hat : vecAt st.allTasks (stop.1 - 1) e := ⟨by omega, by rw [hidx]; exact he⟩
  have hen : e.node = stop.1 := by rw [h.node k e he, hk]
  have htl := h.tlen
  rcases eval_commit_cases COEFS h.sized
      (t := ({ e with vehi := ((v : Int), e.vehi.2) } : Task))
      ⟨by simp, by simpa using hv⟩ ⟨by simp only [hen]; omega, by simp only [hen]; omega⟩
      (fun hc => absurd (by simpa only [hen] using hty) hc) with
    ⟨msg, hf, hmsg⟩ | ⟨t, c, hf, htn, -, -, hup⟩
  · have hrun : replayVehicle inst COEFS routes st v = Except.error msg := by
      simp only [replayVehicle, e1, e2, e3, ok_bind, hne0, if_false, vecGet_eq_ok.2 hat, hty,
        if_true, hf, error_bind]
    exact Or.inr ⟨msg, hrun, hmsg⟩
  · have hbT : inBounds st.allTasks (stop.1 - 1) := vecAt_inBounds hat
    have hbV : inBounds st.vhead (v : Int) := (inBounds_of_length h.vlen).2 ⟨by omega, by omega⟩
    have hrun : replayVehicle inst COEFS routes st v = Except.ok
        { st with
          sol := { applyTask st.sol t with taskOrder := (applyTask st.sol t).taskOrder ++ [t] }
          allTasks := st.allTasks.modify (fun _ => t) k
          vhead := st.vhead.modify (fun a => a + 1) v } := by
      simp only [replayVehicle, e1, e2, e3, ok_bind, hne0, if_false, vecGet_eq_ok.2 hat, hty,
        if_true, hf, vecModify_of_inBounds _ hbT, hup, vecModify_of_inBounds _ hbV, pure_eq_ok,
        Int.toNat_ofNat, hidx]
    exact Or.inl ⟨_, hrun, safeInv_commit_single hlen h hv hr hh hs hk hty t
      (by rw [htn]; exact hen)⟩

end Solution

namespace Solution

/-- The pass for a vehicle whose read-head is on a stop of a double service that
carries the first skill of the entry of its node. -/
theorem safe_double_first {inst : Instance} {COEFS : Fin 3 → ℚ} {routes : List Route}
    {st : Replay} (hlen : routes.length = inst.numVehicles) (h : SafeInv inst routes st)
    {v hd k : Nat} {r : Route} {stop : Int × Int} {e : Task}
    (hv : v < inst.numVehicles) (hr : routes[v]? = some r)
    (hh : st.vhead[v]? = some (hd : Int)) (hs : r[hd]? = some stop)
    (hk : stop.1 = (k : Int) + 1) (he : st.allTasks[k]? = some e)
    (hty : inst.nodeSvcType stop.1 ≠ SvcType.SINGLE) (hsk : stop.2 = e.skills.1) :
    SafeRun inst routes (replayVehicle inst COEFS routes st v) := by
  have e1 := vecGet_eq_ok.2 (vecAt_natCast.2 hh)
  have e2 := vecGet_eq_ok.2 (vecAt_natCast.2 hr)
  have e3 := vecGet_eq_ok.2 (vecAt_natCast.2 hs)
  have hkl : k < st.allTasks.length := (List.getElem?_eq_some.1 he).1
  have hne0 : ¬ stop.1 = 0 := by omega
  have hidx : (stop.1 - 1).toNat = k := by omega
  have hat : vecAt st.allTasks (stop.1 - 1) e := ⟨by omega, by rw [hidx]; exact he⟩
  have hen : e.node = stop.1 := by rw [h.node k e he, hk]
  have hbT : inBounds st.allTasks (stop.1 - 1) := vecAt_inBounds hat
  have htl := h.tlen
  have hx' : v < routes.length := by omega
  have hty' : inst.nodeSvcType ((k : Int) + 1) ≠ SvcType.SINGLE := by rw [← hk]; exact hty
  rcases h.slots k e he hty' with ⟨hone, -, hw2⟩ | h0
  swap
  · exact absurd hk (pending_zero h0 hx' hh hr hs)
  by_cases h2 : e.vehi.2 = -1
  · have hc : ¬ ((v : Int) ≠ -1 ∧ e.vehi.2 ≠ -1) := fun hc => hc.2 h2
    have hrun : replayVehicle inst COEFS routes st v = Except.ok
        { st with
          allTasks := st.allTasks.modify
            (fun _ => ({ e with vehi := ((v : Int), e.vehi.2) } : Task)) k } := by
      simp only [replayVehicle, e1, e2, e3, ok_bind, hne0, if_false, vecGet_eq_ok.2 hat, hty,
        hsk, if_true, hc, vecModify_of_inBounds _ hbT, pure_eq_ok, hidx]
    refine Or.inl ⟨_, hrun, safeInv_wait h _ (by rw [← hk]; exact hen) (Or.inl ⟨Or.inr h2,
      Or.inr ⟨v, hd, r, stop, rfl, hv, hh, hr, hs, hk, ?_⟩, Or.inl h2⟩)⟩
    exact ⟨fun _ => rfl, fun _ => hsk⟩
  · obtain ⟨u, hu, ru, su, hw, hun, hhu, hru, hsu, hsi, hskf⟩ := hw2.resolve_left h2
    have hvu : v ≠ u := by
      intro hvu
      subst hvu
      rw [hr] at hru
      injection hru with hru
      subst hru
      rw [hh] at hhu
      injection hhu with hhu
      have : hd = hu := by omega
      subst this
      rw [hs] at hsu
      injection hsu with hsu
      subst hsu
      exact absurd (hskf.1 hsk) (by decide)
    have hc : (v : Int) ≠ -1 ∧ e.vehi.2 ≠ -1 := ⟨by omega, h2⟩
    rcases eval_commit_cases COEFS h.sized
        (t := ({ e with vehi := ((v : Int), e.vehi.2) } : Task))
        ⟨by simp, by simpa using hv⟩ ⟨by simp only [hen]; omega, by simp only [hen]; omega⟩
        (fun _ => ⟨by simp only [hw]; omega, by simp only [hw]; omega⟩) with
      ⟨msg, hf, hmsg⟩ | ⟨t, c, hf, htn, htv, -, hup⟩
    · have hrun : replayVehicle inst COEFS routes st v = Except.error msg := by
        simp only [replayVehicle, e1, e2, e3, ok_bind, hne0, if_false, vecGet_eq_ok.2 hat, hty,
          hsk, if_true]
        rw [if_pos hc]
        simp only [hf, error_bind]
      exact Or.inr ⟨msg, hrun, hmsg⟩
    · have hr1 : t.vehi.1 = (v : Int) := by rw [htv]
      have hr2 : t.vehi.2 = (u : Int) := by rw [htv]; exact hw
      have hbV1 : inBounds st.vhead t.vehi.1 := by
        rw [hr1]
        exact (inBounds_of_length h.vlen).2 ⟨by omega, by omega⟩
      have hbV2 : inBounds (st.vhead.modify (fun a => a + 1) t.vehi.1.toNat) t.vehi.2 := by
        rw [hr2, inBounds_modify]
        exact (inBounds_of_length h.vlen).2 ⟨by omega, by omega⟩
      have hrun : replayVehicle inst COEFS routes st v = Except.ok
          { st with
            sol := { applyTask st.sol t with taskOrder := (applyTask st.sol t).taskOrder ++ [t] }
            allTasks := st.allTasks.modify (fun _ => t) k
            vhead := (st.vhead.modify (fun a => a + 1) v).modify (fun a => a + 1) u } := by
        simp only [replayVehicle, e1, e2, e3, ok_bind, hne0, if_false, vecGet_eq_ok.2 hat, hty,
          hsk, if_true]
        rw [if_pos hc]
        simp only [hf, ok_bind, vecModify_of_inBounds _ hbT, hup,
          vecModify_of_inBounds _ hbV1, vecModify_of_inBounds _ hbV2, pure_eq_ok, hidx]
        rw [hr1, hr2, Int.toNat_ofNat, Int.toNat_ofNat]
      exact Or.inl ⟨_, hrun, safeInv_commit_double hlen h hv hun hvu hr hh hs hk hru hhu hsu
        hsi hkl hty' t (by rw [htn, ← hk]; exact hen)⟩

/-- The pass for a vehicle whose read-head is on a stop of a double service that
does not carry the first skill of the entry of its node. -/
theorem safe_double_second {inst : Instance} {COEFS : Fin 3 → ℚ} {routes : List Route}
    {st : Replay} (hlen : routes.length = inst.numVehicles) (h : SafeInv inst routes st)
    {v hd k : Nat} {r : Route} {stop : Int × Int} {e : Task}
    (hv : v < inst.numVehicles) (hr : routes[v]? = some r)
    (hh : st.vhead[v]? = some (hd : Int)) (hs : r[hd]? = some stop)
    (hk : stop.1 = (k : Int) + 1) (he : st.allTasks[k]? = some e)
    (hty : inst.nodeSvcType stop.1 ≠ SvcType.SINGLE) (hsk : ¬ stop.2 = e.skills.1) :
    SafeRun inst routes (replayVehicle inst COEFS routes st v) := by
  have e1 := vecGet_eq_ok.2 (vecAt_natCast.2 hh)
  have e2 := vecGet_eq_ok.2 (vecAt_natCast.2 hr)
  have e3 := vecGet_eq_ok.2 (vecAt_natCast.2 hs)
  have hkl : k < st.allTasks.length := (List.getElem?_eq_some.1 he).1
  have hne0 : ¬ stop.1 = 0 := by omega
  have hidx : (stop.1 - 1).toNat = k := by omega
  have hat : vecAt st.allTasks (stop.1 - 1) e := ⟨by omega, by rw [hidx]; exact he⟩
  have hen : e.node = stop.1 := by rw [h.node k e he, hk]
  have hbT : inBounds st.allTasks (stop.1 - 1) := vecAt_inBounds hat
  have htl := h.tlen
  have hx' : v < routes.length := by omega
  have hty' : inst.nodeSvcType ((k : Int) + 1) ≠ SvcType.SINGLE := by rw [← hk]; exact hty
  rcases h.slots k e he hty' with ⟨hone, hw1, -⟩ | h0
  swap
  · exact absurd hk (pending_zero h0 hx' hh hr hs)
  by_cases h1 : e.vehi.1 = -1
  · have hc : ¬ (e.vehi.1 ≠ -1 ∧ (v : Int) ≠ -1) := fun hc => hc.1 h1
    have hrun : replayVehicle inst COEFS routes st v = Except.ok
        { st with
          allTasks := st.allTasks.modify
            (fun _ => ({ e with vehi := (e.vehi.1, (v : Int)) } : Task)) k } := by
      simp only [replayVehicle, e1, e2, e3, ok_bind, hne0, if_false, vecGet_eq_ok.2 hat, hty,
        hsk, if_true, hc, vecModify_of_inBounds _ hbT, pure_eq_ok, hidx]
    refine Or.inl ⟨_, hrun, safeInv_wait h _ (by rw [← hk]; exact hen) (Or.inl ⟨Or.inl h1,
      Or.inl h1, Or.inr ⟨v, hd, r, stop, rfl, hv, hh, hr, hs, hk, ?_⟩⟩)⟩
    exact ⟨fun hc => absurd hc hsk, fun hc => absurd hc (by decide)⟩
  · obtain ⟨u, hu, ru, su, hw, hun, hhu, hru, hsu, hsi, hskf⟩ := hw1.resolve_left h1
    have huv : u ≠ v := by
      intro huv
      subst huv
      rw [hr] at hru
      injection hru with hru
      subst hru
      rw [hh] at hhu
      injection hhu with hhu
      have : hd = hu := by omega
      subst this
      rw [hs] at hsu
      injection hsu with hsu
      subst hsu
      exact hsk (hskf.2 rfl)
    have hc : e.vehi.1 ≠ -1 ∧ (v : Int) ≠ -1 := ⟨h1, by omega⟩
    rcases eval_commit_cases COEFS h.sized
        (t := ({ e with vehi := (e.vehi.1, (v : Int)) } : Task))
        ⟨by simp only [hw]; omega, by simp only [hw]; omega⟩
        ⟨by simp only [hen]; omega, by simp only [hen]; omega⟩
        (fun _ => ⟨by simp, by simpa using hv⟩) with
      ⟨msg, hf, hmsg⟩ | ⟨t, c, hf, htn, htv, -, hup⟩
    · have hrun : replayVehicle inst COEFS routes st v = Except.error msg := by
        simp only [replayVehicle, e1, e2, e3, ok_bind, hne0, if_false, vecGet_eq_ok.2 hat, hty,
          hsk, if_true]
        rw [if_pos hc]
        simp only [hf, error_bind]
      exact Or.inr ⟨msg, hrun, hmsg⟩
    · have hr1 : t.vehi.1 = (u : Int) := by rw [htv]; exact hw
      have hr2 : t.vehi.2 = (v : Int) := by rw [htv]
      have hbV1 : inBounds st.vhead t.vehi.1 := by
        rw [hr1]
        exact (inBounds_of_length h.vlen).2 ⟨by omega, by omega⟩
      have hbV2 : inBounds (st.vhead.modify (fun a => a + 1) t.vehi.1.toNat) t.vehi.2 := by
        rw [hr2, inBounds_modify]
        exact (inBounds_of_length h.vlen).2 ⟨by omega, by omega⟩
      have hrun : replayVehicle inst COEFS routes st v = Except.ok
          { st with
            sol := { applyTask st.sol t with taskOrder := (applyTask st.sol t).taskOrder ++ [t] }
            allTasks := st.allTasks.modify (fun _ => t) k
            vhead := (st.vhead.modify (fun a => a + 1) u).modify (fun a => a + 1) v } := by
        simp only [replayVehicle, e1, e2, e3, ok_bind, hne0, if_false, vecGet_eq_ok.2 hat, hty,
          hsk, if_true]
        rw [if_pos hc]
        simp only [hf, ok_bind, vecModify_of_inBounds _ hbT, hup,
          vecModify_of_inBounds _ hbV1, vecModify_of_inBounds _ hbV2, pure_eq_ok, hidx]
        rw [hr1, hr2, Int.toNat_ofNat, Int.toNat_ofNat]
      exact Or.inl ⟨_, hrun, safeInv_commit_double hlen h hun hv huv hru hhu hsu hsi hr hh hs
        hk hkl hty' t (by rw [htn, ← hk]; exact hen)⟩

end Solution

namespace Solution

/-! ## Index safety of the replay of arbitrary routes -/

/-- One pass of the replay keeps the invariant or stops at an assertion. -/
theorem replayVehicle_safe {inst : Instance} {COEFS : Fin 3 → ℚ} {routes : List Route}
    {st : Replay} (hlen : routes.length = inst.numVehicles)
    (hdep : ∀ r ∈ routes, ∃ d : Nat, 1 ≤ d ∧ (∃ stop, r[d]? = some stop ∧ stop.1 = 0) ∧
      ∀ i : Nat, 1 ≤ i → i < d → ∃ stop, r[i]? = some stop ∧ 1 ≤ stop.1 ∧
        stop.1 < (inst.numNodes : Int))
    (h : SafeInv inst routes st) {v : Nat} (hv : v < inst.numVehicles) :
    SafeRun inst routes (replayVehicle inst COEFS routes st v) := by
  obtain ⟨hd, r, stop, hr, hh, -, hs, h0 | ⟨hn1, hn2⟩⟩ := head_stop h.head hdep hv
  · exact safe_depot h hv hr hh hs h0
  · obtain ⟨k, hk⟩ : ∃ k : Nat, stop.1 = (k : Int) + 1 := ⟨(stop.1 - 1).toNat, by omega⟩
    have hkl : k < st.allTasks.length := by
      have := h.tlen
      omega
    have he : st.allTasks[k]? = some st.allTasks[k] := List.getElem?_eq_getElem hkl
    by_cases hty : inst.nodeSvcType stop.1 = SvcType.SINGLE
    · exact safe_single hlen h hv hr hh hs hk he hty
    · by_cases hsk : stop.2 = st.allTasks[k].skills.1
      · exact safe_double_first hlen h hv hr hh hs hk he hty hsk
      · exact safe_double_second hlen h hv hr hh hs hk he hty hsk

theorem safeRun_bind {inst : Instance} {routes : List Route} {res : Except String Replay}
    {f : Replay → Except String Replay} (h : SafeRun inst routes res)
    (hf : ∀ st, SafeInv inst routes st → SafeRun inst routes (f st)) :
    SafeRun inst routes (res >>= f) := by
  rcases h with ⟨st, rfl, hst⟩ | ⟨msg, rfl, hmsg⟩
  · rw [ok_bind]
    exact hf st hst
  · rw [error_bind]
    exact Or.inr ⟨msg, rfl, hmsg⟩

/-- The passes for the vehicles `0, ..., j - 1` of a round. -/
theorem safe_passes {inst : Instance} {COEFS : Fin 3 → ℚ} {routes : List Route}
    (hlen : routes.length = inst.numVehicles)
    (hdep : ∀ r ∈ routes, ∃ d : Nat, 1 ≤ d ∧ (∃ stop, r[d]? = some stop ∧ stop.1 = 0) ∧
      ∀ i : Nat, 1 ≤ i → i < d → ∃ stop, r[i]? = some stop ∧ 1 ≤ stop.1 ∧
        stop.1 < (inst.numNodes : Int))
    (j : Nat) (hj : j ≤ inst.numVehicles) (st : Replay) (h : SafeInv inst routes st) :
    SafeRun inst routes ((List.range j).foldlM (replayVehicle inst COEFS routes) st) := by
  induction j with
  | zero => exact Or.inl ⟨st, rfl, h⟩
  | succ j ih =>
    rw [foldlM_range_succ]
    exact safeRun_bind (ih (by omega)) (fun st' hst' => replayVehicle_safe hlen hdep hst' (by omega))

/-- Any number of rounds of the replay. -/
theorem safe_rounds {inst : Instance} {COEFS : Fin 3 → ℚ} {routes : List Route}
    (hlen : routes.length = inst.numVehicles)
    (hdep : ∀ r ∈ routes, ∃ d : Nat, 1 ≤ d ∧ (∃ stop, r[d]? = some stop ∧ stop.1 = 0) ∧
      ∀ i : Nat, 1 ≤ i → i < d → ∃ stop, r[i]? = some stop ∧ 1 ≤ stop.1 ∧
        stop.1 < (inst.numNodes : Int))
    (k : Nat) (st : Replay) (h : SafeInv inst routes st) :
    SafeRun inst routes (replayRounds inst COEFS routes k st) := by
  induction k generalizing st with
  | zero => exact Or.inl ⟨st, rfl, h⟩
  | succ k ih =>
    rw [replayRounds_succ]
    exact safeRun_bind (safe_passes hlen hdep _ (le_refl _) st h) (fun st' hst' => ih st' hst')

/-- The state in which the replay loop is entered has the invariant when every
double-service node is named by at most two stops of the routes. -/
theorem safeInv_start {inst : Instance} {tasks : List Task} {routes : List Route}
    (hT : TaskListOk inst tasks) (hlen : routes.length = inst.numVehicles)
    (htwo : ∀ i : Int, 1 ≤ i → i < (inst.numNodes : Int) →
      inst.nodeSvcType i ≠ SvcType.SINGLE → routes.flatten.countP (fun s => s.1 = i) ≤ 2) :
    SafeInv inst routes (replayStart inst tasks) := by
  refine ⟨by simp [replayStart], by simp [replayStart], hT.1, sized_init inst, ?_,
    fun k e he => (hT.2 k e he).1, ?_, ?_⟩
  · intro v hv
    have hv' : v < routes.length := by omega
    refine ⟨1, routes[v], List.getElem?_eq_getElem hv', ?_, le_refl _, ?_⟩
    · show (List.replicate inst.numVehicles (1 : Int))[v]? = some ((1 : Nat) : Int)
      rw [List.getElem?_replicate, if_pos hv]
      rfl
    · intro i hi1 hi2
      omega
  · intro i hi1 hi2 hty
    exact le_trans (pending_start i routes _) (htwo i hi1 hi2 hty)
  · intro k e he _
    have := (hT.2 k e he).2
    exact Or.inl ⟨Or.inl (by rw [this]), Or.inl (by rw [this]), Or.inl (by rw [this])⟩

/-- What the invariant says about the read-heads and the task looked up next. -/
theorem safe_heads {inst : Instance} {routes : List Route} {st : Replay}
    (hdep : ∀ r ∈ routes, ∃ d : Nat, 1 ≤ d ∧ (∃ stop, r[d]? = some stop ∧ stop.1 = 0) ∧
      ∀ i : Nat, 1 ≤ i → i < d → ∃ stop, r[i]? = some stop ∧ 1 ≤ stop.1 ∧
        stop.1 < (inst.numNodes : Int))
    (h : SafeInv inst routes st) {v : Nat} (hv : v < inst.numVehicles) :
    ∃ (r : Route) (head : Int), routes[v]? = some r ∧ st.vhead[v]? = some head ∧ 1 ≤ head ∧
      head < (r.length : Int) ∧
      (∀ i : Nat, 1 ≤ i → (i : Int) < head → ∃ stop, r[i]? = some stop ∧ stop.1 ≠ 0) ∧
      (∀ stop, r[head.toNat]? = some stop → stop.1 ≠ 0 →
        inBounds st.allTasks (stop.1 - 1)) := by
  obtain ⟨hd, r, stop, hr, hh, h1, hs, hcase⟩ := head_stop h.head hdep hv
  obtain ⟨hd', r', hr', hh', -, hbefore⟩ := h.head v hv
  rw [hr] at hr'
  injection hr' with hr'
  subst hr'
  rw [hh] at hh'
  injection hh' with hh'
  have : hd = hd' := by omega
  subst this
  refine ⟨r, (hd : Int), hr, hh, by omega, ?_, ?_, ?_⟩
  · have := (List.getElem?_eq_some.1 hs).1
    omega
  · intro i hi1 hi2
    exact hbefore i hi1 (by omega)
  · intro stop' hs' hne
    rw [Int.toNat_ofNat, hs] at hs'
    injection hs' with hs'
    subst hs'
    rcases hcase with h0 | ⟨hn1, hn2⟩
    · exact absurd h0 hne
    · have := h.tlen
      exact ⟨by omega, by omega⟩

/-- C19, amended. Let every parsed route have a depot stop (node 0) at some index
`d ≥ 1` with every stop at an index `1, ..., d - 1` naming a node in
`1..numNodes-1`, and let every double-service node be named by at most two stops
of the parsed routes. Then any number `k` of rounds of the replay loop followed
by the passes for the vehicles `0, ..., j - 1` of the next round make no access
out of bounds: either they complete, and then every read-head is an index of its
route that is at least 1, every stop between index 1 and the read-head names a
node other than the depot (the read-head is not past the first depot stop at an
index `≥ 1`), and the task lookup `allTasks[i - 1]` for the stop under the
read-head is within bounds; or the run has stopped with a message other than
that of an access out of bounds, which is at a failed assertion. -/
theorem replay_index_safety (inst : Instance) (COEFS : Fin 3 → ℚ) (tasks : List Task)
    (routes : List Route) (hT : TaskListOk inst tasks)
    (hlen : routes.length = inst.numVehicles)
    (hdep : ∀ r ∈ routes, ∃ d : Nat, 1 ≤ d ∧ (∃ stop, r[d]? = some stop ∧ stop.1 = 0) ∧
      ∀ i : Nat, 1 ≤ i → i < d → ∃ stop, r[i]? = some stop ∧ 1 ≤ stop.1 ∧
        stop.1 < (inst.numNodes : Int))
    (htwo : ∀ i : Int, 1 ≤ i → i < (inst.numNodes : Int) →
      inst.nodeSvcType i ≠ SvcType.SINGLE → routes.flatten.countP (fun s => s.1 = i) ≤ 2)
    (k j : Nat) (hj : j ≤ inst.numVehicles) :
    (∃ b : Replay,
      (replayRounds inst COEFS routes k (replayStart inst tasks) >>= fun a =>
        (List.range j).foldlM (replayVehicle inst COEFS routes) a) = Except.ok b ∧
      ∀ v : Nat, v < inst.numVehicles → ∃ (r : Route) (head : Int),
        routes[v]? = some r ∧ b.vhead[v]? = some head ∧ 1 ≤ head ∧
        head < (r.length : Int) ∧
        (∀ i : Nat, 1 ≤ i → (i : Int) < head → ∃ stop, r[i]? = some stop ∧ stop.1 ≠ 0) ∧
        (∀ stop, r[head.toNat]? = some stop → stop.1 ≠ 0 →
          inBounds b.allTasks (stop.1 - 1))) ∨
    (∃ msg : String,
      (replayRounds inst COEFS routes k (replayStart inst tasks) >>= fun a =>
        (List.range j).foldlM (replayVehicle inst COEFS routes) a) = Except.error msg ∧
      msg ≠ outOfRange) := by
  have hrun : SafeRun inst routes
      (replayRounds inst COEFS routes k (replayStart inst tasks) >>= fun a =>
        (List.range j).foldlM (replayVehicle inst COEFS routes) a) :=
    safeRun_bind (safe_rounds hlen hdep k _ (safeInv_start hT hlen htwo))
      (fun st hst => safe_passes hlen hdep j hj st hst)
  rcases hrun with ⟨b, hb, hinv⟩ | hstop
  · exact Or.inl ⟨b, hb, fun v hv => safe_heads hdep hinv hv⟩
  · exact Or.inr hstop

end Solution

namespace Solution

theorem demo_routes_depot : ∀ r ∈ demoFinal.routes, ∃ d : Nat, 1 ≤ d ∧
    (∃ stop, r[d]? = some stop ∧ stop.1 = 0) ∧
    ∀ i : Nat, 1 ≤ i → i < d → ∃ stop, r[i]? = some stop ∧ 1 ≤ stop.1 ∧
      stop.1 < (demoInst.numNodes : Int) := by
  intro r hr
  simp only [demoFinal, List.mem_cons, List.mem_singleton, List.not_mem_nil, or_false] at hr
  rcases hr with h | h <;> subst h
  · refine ⟨3, by decide, ⟨_, rfl, rfl⟩, ?_⟩
    intro i hi1 hi
    match i with
    | 0 => exact absurd hi1 (by decide)
    | 1 => exact ⟨_, rfl, by decide, by decide⟩
    | 2 => exact ⟨_, rfl, by decide, by decide⟩
    | i + 3 => exact absurd hi (by omega)
  · refine ⟨4, by decide, ⟨_, rfl, rfl⟩, ?_⟩
    intro i hi1 hi
    match i with
    | 0 => exact absurd hi1 (by decide)
    | 1 => exact ⟨_, rfl, by decide, by decide⟩
    | 2 => exact ⟨_, rfl, by decide, by decide⟩
    | 3 => exact ⟨_, rfl, by decide, by decide⟩
    | i + 4 => exact absurd hi (by omega)

theorem demo_routes_two : ∀ i : Int, 1 ≤ i → i < (demoInst.numNodes : Int) →
    demoInst.nodeSvcType i ≠ SvcType.SINGLE →
    demoFinal.routes.flatten.countP (fun s => s.1 = i) ≤ 2 := by
  intro i hi1 hi2 _
  have hi3 : i < 4 := hi2
  interval_cases i <;> decide

theorem replay_index_safety_witness :
    TaskListOk demoInst (demoTaskList demoInst) ∧
    demoFinal.routes.length = demoInst.numVehicles ∧
    (∀ r ∈ demoFinal.routes, ∃ d : Nat, 1 ≤ d ∧ (∃ stop, r[d]? = some stop ∧ stop.1 = 0) ∧
      ∀ i : Nat, 1 ≤ i → i < d → ∃ stop, r[i]? = some stop ∧ 1 ≤ stop.1 ∧
        stop.1 < (demoInst.numNodes : Int)) ∧
    (∀ i : Int, 1 ≤ i → i < (demoInst.numNodes : Int) →
      demoInst.nodeSvcType i ≠ SvcType.SINGLE →
      demoFinal.routes.flatten.countP (fun s => s.1 = i) ≤ 2) ∧
    1 ≤ demoInst.numVehicles ∧
    ((∃ b : Replay,
      (replayRounds demoInst demoCoefs demoFinal.routes 1
          (replayStart demoInst (demoTaskList demoInst)) >>= fun a =>
        (List.range 1).foldlM (replayVehicle demoInst demoCoefs demoFinal.routes) a) =
        Except.ok b ∧
      ∀ v : Nat, v < demoInst.numVehicles → ∃ (r : Route) (head : Int),
        demoFinal.routes[v]? = some r ∧ b.vhead[v]? = some head ∧ 1 ≤ head ∧
        head < (r.length : Int) ∧
        (∀ i : Nat, 1 ≤ i → (i : Int) < head → ∃ stop, r[i]? = some stop ∧ stop.1 ≠ 0) ∧
        (∀ stop, r[head.toNat]? = some stop → stop.1 ≠ 0 →
          inBounds b.allTasks (stop.1 - 1))) ∨
    (∃ msg : String,
      (replayRounds demoInst demoCoefs demoFinal.routes 1
          (replayStart demoInst (demoTaskList demoInst)) >>= fun a =>
        (List.range 1).foldlM (replayVehicle demoInst demoCoefs demoFinal.routes) a) =
        Except.error msg ∧
      msg ≠ outOfRange)) :=
  ⟨demo_taskListOk, rfl, demo_routes_depot, demo_routes_two, by decide,
    replay_index_safety demoInst demoCoefs (demoTaskList demoInst) demoFinal.routes
      demo_taskListOk rfl demo_routes_depot demo_routes_two 1 1 (by decide)⟩

end Solution

end HHCRSP
